import Mathlib

/-!
# A verification development for the segregated-fit allocator `mm.c`

The allocator is embedded shallowly.  The heap is a word-addressed memory
(`Nat → Nat`, keyed by byte address; the allocator only performs word-sized
accesses at word-aligned addresses) together with the break of the backing
store and the two globals `heap_listp` and `seg_lst`.  Machine integers are
natural numbers / integers with explicit wrap-around (`u64`, `sub64`, `toInt`,
`ofInt`).  A function returns `none` when one of the `assert`s of the source
fails (the process aborts) or when a list traversal runs out of fuel.
The platform is LP64: `sizeof(void *) = 8`, `int` has 32 bits.
-/

namespace Mm

set_option linter.unusedVariables false

/-! ## Machine integers -/

/-- Truncation to `size_t` / `uintptr_t` (64 bits). -/
def u64 (x : Nat) : Nat := x % 2 ^ 64

/-- Unsigned 64-bit subtraction `a - b`. -/
def sub64 (a b : Nat) : Nat := (a + (2 ^ 64 - b % 2 ^ 64)) % 2 ^ 64

/-- Conversion of an unsigned value to `int` (32-bit two's complement). -/
def toInt (x : Nat) : Int :=
  if x % 2 ^ 32 < 2 ^ 31 then ((x % 2 ^ 32 : Nat) : Int) else ((x % 2 ^ 32 : Nat) : Int) - 2 ^ 32

/-- Wrap-around of an `int` result computed in unbounded integers. -/
def wrapInt (v : Int) : Int := toInt (v % 2 ^ 32).toNat

/-- Conversion of an `int` to `size_t` / `uintptr_t` (sign extension). -/
def ofInt (v : Int) : Nat := (v % 2 ^ 64).toNat

/-! ## Constants and macros -/

/-- Word and header/footer size (bytes): `sizeof(void *)`. -/
def WSIZE : Nat := 8

/-- Doubleword size (bytes). -/
def DSIZE : Nat := 2 * WSIZE

/-- Extend heap by this amount (bytes). -/
def CHUNKSIZE : Nat := 1 <<< 12

/-- The number of segregated lists. -/
def SEGLST_NUM : Nat := 18

/-- The smallest seglist range. -/
def LOW_BOUND : Nat := 128

/-- The null pointer. -/
def NULL : Nat := 0

/-- Macro `MAX(x, y)`. -/
def MAX (x y : Nat) : Nat := if x > y then x else y

/-- Macro `PACK(size, alloc)`: pack a size and allocated bit into a word. -/
def PACK (size alloc : Nat) : Nat := size ||| alloc

/-- Macro `PACK` applied to `int` operands, widened to a word when stored. -/
def PACKi (size alloc : Int) : Nat := ofInt size ||| ofInt alloc

/-- Macro `GET_SIZE` applied to the word read: `w & ~(WSIZE - 1)`. -/
def GET_SIZE (w : Nat) : Nat := w &&& (2 ^ 64 - 1 - (WSIZE - 1))

/-- Macro `GET_ALLOC` applied to the word read: `w & 0x1`. -/
def GET_ALLOC (w : Nat) : Nat := w &&& 1

/-- Macro `PUT(p, val)` on a memory. -/
def PUT (m : Nat → Nat) (p val : Nat) : Nat → Nat := fun a => if a = p then val else m a

/-- Macro `HDRP(bp)`. The difference is taken in the natural numbers: it is the
C pointer for `bp ≥ WSIZE`, as for every block pointer of a heap; for a smaller
`bp` the C pointer wraps around and a read through it faults, which is not
modelled. -/
def HDRP (bp : Nat) : Nat := bp - WSIZE

/-- Macro `FTRP(bp)`; it reads the header of `bp`. As for `HDRP`, the
difference is the C pointer when it does not wrap around (`WSIZE ≤ bp` and
`DSIZE ≤ bp + size`). -/
def FTRP (m : Nat → Nat) (bp : Nat) : Nat := bp + GET_SIZE (m (HDRP bp)) - DSIZE

/-- Macro `NEXT_BLKP(bp)`; it reads the header of `bp`. -/
def NEXT_BLKP (m : Nat → Nat) (bp : Nat) : Nat := bp + GET_SIZE (m (bp - WSIZE))

/-- Macro `PREV_BLKP(bp)`; it reads the footer of the preceding block. As for
`HDRP`, the differences are the C pointers when they do not wrap around
(`DSIZE ≤ bp` and the size read is at most `bp`). -/
def PREV_BLKP (m : Nat → Nat) (bp : Nat) : Nat := bp - GET_SIZE (m (bp - DSIZE))

/-! ## The heap state -/

/-- The state of the allocator: the memory, the break `brk` and the limit
`max_addr` of the backing store, and the globals `heap_listp`, `seg_lst`. -/
structure Heap where
  mem : Nat → Nat
  brk : Nat
  max_addr : Nat
  heap_listp : Nat
  seg_lst : Nat

/-- Store a word in the heap. -/
def Heap.put (h : Heap) (p val : Nat) : Heap := { h with mem := PUT h.mem p val }

/-- Field `next` of the `struct free_block_body` at `bp` (offset 0). -/
def next_of (m : Nat → Nat) (bp : Nat) : Nat := m bp

/-- Field `prev` of the `struct free_block_body` at `bp` (offset `WSIZE`). -/
def prev_of (m : Nat → Nat) (bp : Nat) : Nat := m (bp + WSIZE)

/-- Address of the list head `seg_lst[i]`. -/
def seg_at (h : Heap) (i : Nat) : Nat := h.seg_lst + i * WSIZE

/-- Modelled from the spec: the backing store `mem_sbrk` (memlib is not part of
the sources).  It supplies `incr` more bytes of contiguous memory and returns
the old break, or fails (`none`) when the limit of the store would be exceeded;
it never shrinks. -/
def mem_sbrk (h : Heap) (incr : Nat) : Option (Heap × Nat) :=
  if h.brk + incr ≤ h.max_addr then some ({ h with brk := h.brk + incr }, h.brk) else none

/-! ## Segregated list index -/

/-- The loop of `get_list_index`; `fuel` bounds the `SEGLST_NUM` iterations. -/
def get_list_index_loop : Nat → Nat → Nat → Nat
  | 0, _, _ => SEGLST_NUM - 1
  | fuel + 1, count, list =>
    if list < SEGLST_NUM then
      if count ≤ LOW_BOUND ∨ list = SEGLST_NUM - 1 then list
      else get_list_index_loop fuel (count >>> 1) (list + 1)
    else SEGLST_NUM - 1

/-- Function `get_list_index`; `none` when `assert(size >= 0)` fails. -/
def get_list_index (size : Int) : Option Nat :=
  if size < 0 then none else some (get_list_index_loop SEGLST_NUM size.toNat 0)

/-- Function `insert_block`. -/
def insert_block (h : Heap) (bp : Nat) (size : Int) : Option Heap :=
  if bp = NULL then none
  else if size < 0 then none
  else if size ≠ toInt (GET_SIZE (h.mem (HDRP bp))) then none
  else
    match get_list_index size with
    | none => none
    | some lst_indx =>
      let start_block := h.mem (seg_at h lst_indx)
      if start_block = NULL then
        let h1 := h.put (bp + WSIZE) NULL
        let h2 := h1.put bp NULL
        some (h2.put (seg_at h lst_indx) bp)
      else
        let h1 := h.put (bp + WSIZE) NULL
        let h2 := h1.put bp start_block
        let h3 := h2.put (start_block + WSIZE) bp
        some (h3.put (seg_at h lst_indx) bp)

/-- Function `delete_block`. -/
def delete_block (h : Heap) (bp : Nat) : Option Heap :=
  if bp = NULL then none
  else
    let block_size := GET_SIZE (h.mem (HDRP bp))
    match get_list_index (toInt block_size) with
    | none => none
    | some lst_indx =>
      let bigger_block := prev_of h.mem bp
      let smaller_block := next_of h.mem bp
      if bigger_block = NULL then
        if smaller_block = NULL then
          some (h.put (seg_at h lst_indx) NULL)
        else
          let h1 := h.put (smaller_block + WSIZE) NULL
          some (h1.put (seg_at h lst_indx) smaller_block)
      else
        if smaller_block = NULL then
          some (h.put bigger_block NULL)
        else
          let h1 := h.put bigger_block smaller_block
          some (h1.put (smaller_block + WSIZE) bigger_block)

/-! ## Placement, coalescing, heap growth, fit search -/

/-- Function `place`; returns the new state and the payload address. -/
def place (h : Heap) (bp asize : Nat) : Option (Heap × Nat) :=
  let csize := GET_SIZE (h.mem (HDRP bp))
  if sub64 csize asize ≥ 2 * WSIZE + DSIZE then
    match delete_block h bp with
    | none => none
    | some h1 =>
      if toInt asize ≠ 128 then
        let h2 := h1.put (HDRP bp) (PACK asize 1)
        let h3 := h2.put (FTRP h2.mem bp) (PACK asize 1)
        let bp1 := NEXT_BLKP h3.mem bp
        let h4 := h3.put (HDRP bp1) (PACK (sub64 csize asize) 0)
        let h5 := h4.put (FTRP h4.mem bp1) (PACK (sub64 csize asize) 0)
        match insert_block h5 bp1 (toInt (sub64 csize asize)) with
        | none => none
        | some h6 => some (h6, PREV_BLKP h6.mem bp1)
      else
        let h2 := h1.put (HDRP bp) (PACK (sub64 csize asize) 0)
        let h3 := h2.put (FTRP h2.mem bp) (PACK (sub64 csize asize) 0)
        match insert_block h3 bp (toInt (sub64 csize asize)) with
        | none => none
        | some h4 =>
          let bp1 := NEXT_BLKP h4.mem bp
          let h5 := h4.put (HDRP bp1) (PACK asize 1)
          let h6 := h5.put (FTRP h5.mem bp1) (PACK asize 1)
          some (h6, bp1)
  else
    match delete_block h bp with
    | none => none
    | some h1 =>
      let h2 := h1.put (HDRP bp) (PACK csize 1)
      let h3 := h2.put (FTRP h2.mem bp) (PACK csize 1)
      some (h3, bp)

/-- Function `coalesce`; returns the new state and the address of the
coalesced block. -/
def coalesce (h : Heap) (bp : Nat) : Option (Heap × Nat) :=
  let size := GET_SIZE (h.mem (HDRP bp))
  let prev_alloc := GET_ALLOC (h.mem (FTRP h.mem (PREV_BLKP h.mem bp))) ≠ 0
  let next_alloc := GET_ALLOC (h.mem (HDRP (NEXT_BLKP h.mem bp))) ≠ 0
  if prev_alloc ∧ next_alloc then
    some (h, bp)
  else if prev_alloc ∧ ¬ next_alloc then
    match delete_block h bp with
    | none => none
    | some h1 =>
      match delete_block h1 (NEXT_BLKP h1.mem bp) with
      | none => none
      | some h2 =>
        let size1 := u64 (size + GET_SIZE (h2.mem (HDRP (NEXT_BLKP h2.mem bp))))
        let h3 := h2.put (HDRP bp) (PACK size1 0)
        let h4 := h3.put (FTRP h3.mem bp) (PACK size1 0)
        match insert_block h4 bp (toInt size1) with
        | none => none
        | some h5 => some (h5, bp)
  else if ¬ prev_alloc ∧ next_alloc then
    match delete_block h bp with
    | none => none
    | some h1 =>
      match delete_block h1 (PREV_BLKP h1.mem bp) with
      | none => none
      | some h2 =>
        let size1 := u64 (size + GET_SIZE (h2.mem (HDRP (PREV_BLKP h2.mem bp))))
        let h3 := h2.put (FTRP h2.mem bp) (PACK size1 0)
        let h4 := h3.put (HDRP (PREV_BLKP h3.mem bp)) (PACK size1 0)
        let bp1 := PREV_BLKP h4.mem bp
        match insert_block h4 bp1 (toInt size1) with
        | none => none
        | some h5 => some (h5, bp1)
  else
    match delete_block h bp with
    | none => none
    | some h1 =>
      match delete_block h1 (NEXT_BLKP h1.mem bp) with
      | none => none
      | some h2 =>
        match delete_block h2 (PREV_BLKP h2.mem bp) with
        | none => none
        | some h3 =>
          let size1 := u64 (size + u64 (GET_SIZE (h3.mem (HDRP (PREV_BLKP h3.mem bp)))
            + GET_SIZE (h3.mem (FTRP h3.mem (NEXT_BLKP h3.mem bp)))))
          let h4 := h3.put (HDRP (PREV_BLKP h3.mem bp)) (PACK size1 0)
          let h5 := h4.put (FTRP h4.mem (NEXT_BLKP h4.mem bp)) (PACK size1 0)
          let bp1 := PREV_BLKP h5.mem bp
          match insert_block h5 bp1 (toInt size1) with
          | none => none
          | some h6 => some (h6, bp1)

/-- Function `extend_heap`; the payload address is `NULL` when the backing
store fails, and then the state is unchanged. -/
def extend_heap (h : Heap) (words : Nat) : Option (Heap × Nat) :=
  let size := u64 (words * WSIZE)
  match mem_sbrk h size with
  | none => some (h, NULL)
  | some (h1, bp) =>
    let h2 := h1.put (HDRP bp) (PACK size 0)
    let h3 := h2.put (FTRP h2.mem bp) (PACK size 0)
    let h4 := h3.put (HDRP (NEXT_BLKP h3.mem bp)) (PACK 0 1)
    match insert_block h4 bp (toInt (GET_SIZE (h4.mem (HDRP bp)))) with
    | none => none
    | some h5 => coalesce h5 bp

/-- The loop of `find_block_from_list`; `none` when the fuel runs out. -/
def find_block_from_list_loop (m : Nat → Nat) (asize : Int) : Nat → Nat → Option Nat
  | 0, _ => none
  | fuel + 1, bp =>
    if bp ≠ NULL then
      let block_size := GET_SIZE (m (HDRP bp))
      if toInt block_size ≥ asize then some bp
      else find_block_from_list_loop m asize fuel (next_of m bp)
    else some NULL

/-- Function `find_block_from_list`; `none` when `assert(asize > 0)` fails or
the traversal does not end within the fuel `h.brk + 1` (every member of a list
is a distinct address below the break). -/
def find_block_from_list (h : Heap) (bp : Nat) (asize : Int) : Option Nat :=
  if ¬ (asize > 0) then none
  else if bp = NULL then some NULL
  else find_block_from_list_loop h.mem asize (h.brk + 1) bp

/-- The loop of `find_fit` over the lists `i, i + 1, ...`; `fuel` bounds the
`SEGLST_NUM` iterations. -/
def find_fit_loop (h : Heap) (asize : Int) : Nat → Nat → Option Nat
  | 0, _ => some NULL
  | fuel + 1, i =>
    if i < SEGLST_NUM then
      match find_block_from_list h (h.mem (seg_at h i)) asize with
      | none => none
      | some bp => if bp ≠ NULL then some bp else find_fit_loop h asize fuel (i + 1)
    else some NULL

/-- Function `find_fit`. -/
def find_fit (h : Heap) (asize : Nat) : Option Nat :=
  match get_list_index (toInt asize) with
  | none => none
  | some lst_idx => find_fit_loop h (toInt asize) SEGLST_NUM lst_idx

/-! ## The public operations -/

/-- Function `mm_init`; returns the new state and the status `0` or `-1`. -/
def mm_init (h : Heap) : Heap × Int :=
  match mem_sbrk h ((4 + SEGLST_NUM) * WSIZE) with
  | none => ({ h with heap_listp := 2 ^ 64 - 1 }, -1)
  | some (h1, p) =>
    let h2 : Heap := { h1 with heap_listp := p, seg_lst := p }
    let h3 : Heap := { h2 with mem :=
      (List.range SEGLST_NUM).foldl (fun m i => PUT m (p + i * WSIZE) NULL) h2.mem }
    let h4 := h3.put (p + SEGLST_NUM * WSIZE) 0
    let h5 := h4.put (p + (SEGLST_NUM + 1) * WSIZE) (PACK DSIZE 1)
    let h6 := h5.put (p + (SEGLST_NUM + 2) * WSIZE) (PACK DSIZE 1)
    let h7 := h6.put (p + (SEGLST_NUM + 3) * WSIZE) (PACK 0 1)
    ({ h7 with heap_listp := p + (SEGLST_NUM + 2) * WSIZE }, 0)

/-- The adjusted block size computed by `mm_malloc` before the fit search. -/
def adjust_size (size : Nat) : Nat :=
  let asize :=
    if size ≤ DSIZE then 2 * DSIZE
    else if size % WSIZE = 0 then u64 (DSIZE + size)
    else u64 (DSIZE + u64 ((size / WSIZE + 1) * WSIZE))
  let asize := if size % 128 = 0 ∧ size ≠ 128 then u64 (u64 (DSIZE + size) + 128) else asize
  if size = 4092 then DSIZE + 4104 else asize

/-- The number of bytes `mm_malloc` asks `extend_heap` for (before the
division by `WSIZE`) when no fit is found. -/
def extend_size (size asize : Nat) : Nat :=
  let extendsize := MAX asize CHUNKSIZE
  let extendsize := if size = 4092 then 4280 else extendsize
  let extendsize := if size = 16 then 128 else extendsize
  if extendsize % WSIZE ≠ 0 then u64 ((extendsize / WSIZE + 1) * WSIZE) else extendsize

/-- Function `mm_malloc`; returns the new state and the pointer (`NULL` on
failure). -/
def mm_malloc (h : Heap) (size : Nat) : Option (Heap × Nat) :=
  if size = 0 then some (h, NULL)
  else
    let asize := adjust_size size
    match find_fit h asize with
    | none => none
    | some bp =>
      if bp ≠ NULL then place h bp asize
      else
        let extendsize := extend_size size asize
        let asize := if size = 512 then 640 + 16 else asize
        match extend_heap h (extendsize / WSIZE) with
        | none => none
        | some (h1, bp1) =>
          if bp1 = NULL then some (h1, NULL)
          else place h1 bp1 asize

/-- Function `mm_free`. -/
def mm_free (h : Heap) (bp : Nat) : Option Heap :=
  if bp = NULL then some h
  else
    let size := GET_SIZE (h.mem (HDRP bp))
    let h1 := h.put (HDRP bp) (PACK size 0)
    let h2 := h1.put (FTRP h1.mem bp) (PACK size 0)
    match insert_block h2 bp (toInt size) with
    | none => none
    | some h3 =>
      match coalesce h3 bp with
      | none => none
      | some (h4, _) => some h4

/-- Library function `memcpy` for `n` bytes between word-aligned regions on a
little-endian machine: whole words are copied, and of a trailing partial word
the low `n % 8` bytes. -/
def memcpy (m : Nat → Nat) (dst src n : Nat) : Nat → Nat := fun a =>
  if dst ≤ a ∧ a < dst + n ∧ (a - dst) % WSIZE = 0 then
    if (a - dst) + WSIZE ≤ n then m (src + (a - dst))
    else m (src + (a - dst)) % 256 ^ (n - (a - dst))
      + m a / 256 ^ (n - (a - dst)) * 256 ^ (n - (a - dst))
  else m a

/-- Library function `abs` on `int`. -/
def abs_int (v : Int) : Int := wrapInt (Int.natAbs v)

/-- Function `mm_realloc`; returns the new state and the pointer. -/
def mm_realloc (h : Heap) (ptr size : Nat) : Option (Heap × Nat) :=
  if size = 0 then
    match mm_free h ptr with
    | none => none
    | some h1 => some (h1, NULL)
  else if ptr = NULL then mm_malloc h size
  else
    let new_size : Int := toInt size
    let new_size : Int :=
      if ofInt new_size % WSIZE ≠ 0 then toInt (u64 ((ofInt new_size / WSIZE + 1) * WSIZE))
      else new_size
    let realloc_asize : Int := wrapInt (new_size + toInt DSIZE)
    let oldsize := GET_SIZE (h.mem (HDRP ptr))
    let size_diff : Int := toInt (sub64 oldsize (ofInt realloc_asize))
    let fallback : Option (Heap × Nat) :=
      match mm_malloc h size with
      | none => none
      | some (h1, newptr) =>
        if newptr = NULL then some (h1, NULL)
        else
          let oldsize1 := if size < oldsize then size else oldsize
          let h2 : Heap := { h1 with mem := memcpy h1.mem newptr ptr oldsize1 }
          match mm_free h2 ptr with
          | none => none
          | some h3 => some (h3, newptr)
    if realloc_asize = toInt oldsize then some (h, ptr)
    else if size_diff > 0 then
      if size_diff ≥ toInt (2 * DSIZE) then
        let h1 := h.put (HDRP ptr) (PACKi realloc_asize 1)
        let h2 := h1.put (FTRP h1.mem ptr) (PACKi realloc_asize 1)
        let ptr1 := NEXT_BLKP h2.mem ptr
        let h3 := h2.put (HDRP ptr1) (PACKi size_diff 0)
        let h4 := h3.put (FTRP h3.mem ptr1) (PACKi size_diff 0)
        match insert_block h4 ptr1 size_diff with
        | none => none
        | some h5 =>
          match coalesce h5 ptr1 with
          | none => none
          | some (h6, _) => some (h6, PREV_BLKP h6.mem ptr1)
      else some (h, ptr)
    else if size_diff < 0 then
      let next_block_size := GET_SIZE (h.mem (HDRP (NEXT_BLKP h.mem ptr)))
      if ¬ (GET_ALLOC (h.mem (HDRP (NEXT_BLKP h.mem ptr))) ≠ 0) then
        if toInt next_block_size ≥ toInt (u64 (ofInt (abs_int size_diff) + 2 * DSIZE)) then
          match delete_block h (NEXT_BLKP h.mem ptr) with
          | none => none
          | some h1 =>
            let h2 := h1.put (HDRP ptr) (PACKi realloc_asize 1)
            let h3 := h2.put (FTRP h2.mem ptr) (PACKi realloc_asize 1)
            let ptr1 := NEXT_BLKP h3.mem ptr
            let new_next_block_size : Int := wrapInt (toInt next_block_size - abs_int size_diff)
            let h4 := h3.put (HDRP ptr1) (PACKi new_next_block_size 0)
            let h5 := h4.put (FTRP h4.mem ptr1) (PACKi new_next_block_size 0)
            match insert_block h5 ptr1 new_next_block_size with
            | none => none
            | some h6 =>
              match coalesce h6 ptr1 with
              | none => none
              | some (h7, _) => some (h7, PREV_BLKP h7.mem ptr1)
        else if toInt next_block_size ≥ abs_int size_diff then
          match delete_block h (NEXT_BLKP h.mem ptr) with
          | none => none
          | some h1 =>
            let h2 := h1.put (HDRP ptr) (PACKi (toInt (u64 (oldsize + next_block_size))) 1)
            let h3 := h2.put (FTRP h2.mem ptr) (PACKi (toInt (u64 (oldsize + next_block_size))) 1)
            some (h3, ptr)
        else fallback
      else fallback
    else fallback

/-! ## Walking the heap and the lists -/

/-- A block as seen by a walk of the heap: payload address, size and
allocated bit read from its header. -/
structure Block where
  bp : Nat
  size : Nat
  alloc : Bool
  deriving DecidableEq

/-- The boundary tag of a block: `PACK(size, alloc)`. -/
def Block.tag (b : Block) : Nat := b.size + (if b.alloc then 1 else 0)

/-- The block walk of `checkheap`: from `bp`, step by the size in the header
until a header of size zero. -/
def walk (m : Nat → Nat) : Nat → Nat → List Block
  | 0, _ => []
  | fuel + 1, bp =>
    if GET_SIZE (m (HDRP bp)) > 0 then
      ⟨bp, GET_SIZE (m (HDRP bp)), decide (GET_ALLOC (m (HDRP bp)) ≠ 0)⟩ :: walk m fuel (NEXT_BLKP m bp)
    else []

/-- The blocks of the heap between the prologue and the epilogue. -/
def blocks (h : Heap) : List Block := walk h.mem h.brk (NEXT_BLKP h.mem h.heap_listp)

/-- The list walk of `printlist` / `checklist`: follow `next` until `NULL`. -/
def list_walk (m : Nat → Nat) : Nat → Nat → List Nat
  | 0, _ => []
  | fuel + 1, bp => if bp ≠ NULL then bp :: list_walk m fuel (next_of m bp) else []

/-- The members of the free list `seg_lst[i]`, front to back. -/
def free_list (h : Heap) (i : Nat) : List Nat := list_walk h.mem h.brk (h.mem (seg_at h i))

/-! ## Ghost description of a heap: block tiling and list chains -/

/-- The class of a block size: `get_list_index` on a size that fits an `int`. -/
def class_of (n : Nat) : Nat := get_list_index_loop SEGLST_NUM n 0

/-- The blocks `bs` tile the memory from payload address `s` to `e`: each
block starts where its predecessor ends, its size is a multiple of the word
size that leaves room for a distinct header and footer, and its header and
footer both hold its tag. -/
def Tiling (m : Nat → Nat) : Nat → List Block → Nat → Prop
  | s, [], e => s = e
  | s, b :: bs, e =>
    b.bp = s ∧ 16 ≤ b.size ∧ b.size % 8 = 0 ∧ m (s - 8) = b.tag ∧
      m (s + b.size - 16) = b.tag ∧ Tiling m (s + b.size) bs e

/-- The doubly linked list starting at `cur`, whose first member has `prev`
link `prev`, has exactly the members `L`, front to back. -/
def Chain (m : Nat → Nat) : Nat → Nat → List Nat → Prop
  | _, cur, [] => cur = 0
  | prev, cur, x :: xs => cur = x ∧ x ≠ 0 ∧ m (x + 8) = prev ∧ Chain m x (m x) xs

/-- Members of a list are pairwise at least two words apart. -/
def Sep (L : List Nat) : Prop := L.Pairwise (fun x y => x + 16 ≤ y ∨ y + 16 ≤ x)

/-- The memory after `delete_block` unlinked a member whose predecessor is
`y` and whose successor is `nx` (`0` when there is none). -/
def unlink_inner (m : Nat → Nat) (y nx : Nat) : Nat → Nat :=
  if nx = 0 then PUT m y 0 else PUT (PUT m y nx) (nx + 8) y

/-- The memory after `delete_block` unlinked the first member of a list, whose
successor is `nx` (`0` when there is none), up to the update of the list head. -/
def unlink_head (m : Nat → Nat) (nx : Nat) : Nat → Nat :=
  if nx = 0 then m else PUT m (nx + 8) 0

/-- The memory after `insert_block` linked `x` in front of the head `c`, up to
the update of the list head. -/
def link_head (m : Nat → Nat) (x c : Nat) : Nat → Nat :=
  if c = 0 then PUT (PUT m (x + 8) 0) x 0 else PUT (PUT (PUT m (x + 8) 0) x c) (c + 8) x

/-- Two states that differ in their memory only. -/
def Same (h h1 : Heap) : Prop :=
  h1.brk = h.brk ∧ h1.max_addr = h.max_addr ∧ h1.heap_listp = h.heap_listp ∧
    h1.seg_lst = h.seg_lst

/-- The layout of the heap: the table of 18 list heads at `seg_lst`, a padding
word, the prologue block, the blocks `bs` tiling the heap up to the break, and
the epilogue header in the last word.  The backing store holds less than
`2 ^ 31` bytes, so that every block size fits an `int`. -/
structure Layout (h : Heap) (bs : List Block) : Prop where
  tbl_pos : 0 < h.seg_lst
  tbl_al : h.seg_lst % 8 = 0
  hl : h.heap_listp = h.seg_lst + 160
  pro_h : h.mem (h.seg_lst + 152) = 17
  pro_f : h.mem (h.seg_lst + 160) = 17
  til : Tiling h.mem (h.seg_lst + 176) bs h.brk
  epi : h.mem (h.brk - 8) = 1
  cap1 : h.brk ≤ h.max_addr
  cap2 : h.max_addr < h.seg_lst + 2 ^ 31

/-- The free lists: list `i` is a chain from `seg_lst[i]` with members `Ls i`,
without repetition, and each member is a free block of the heap, of at least
the minimum block size, whose size is of class `i`. -/
structure Lists (h : Heap) (bs : List Block) (Ls : Nat → List Nat) : Prop where
  chains : ∀ i < 18, Chain h.mem 0 (h.mem (h.seg_lst + i * 8)) (Ls i)
  members : ∀ i < 18, ∀ x ∈ Ls i,
    ∃ b ∈ bs, b.bp = x ∧ b.alloc = false ∧ 32 ≤ b.size ∧ class_of b.size = i
  nodup : ∀ i < 18, (Ls i).Nodup

/-- Spec invariants 2, 3 and 4 on the ghost description: every free block is
in the list of its class, every block has at least the minimum block size, and
no two adjacent blocks are both free. -/
structure Full (bs : List Block) (Ls : Nat → List Nat) : Prop where
  complete : ∀ b ∈ bs, b.alloc = false → b.bp ∈ Ls (class_of b.size)
  minsize : ∀ b ∈ bs, 32 ≤ b.size
  nofree2 : bs.Chain' (fun a b => a.alloc = true ∨ b.alloc = true)

/-- A well-formed heap: the blocks tile the heap between prologue and epilogue
with equal header and footer (invariant 1), the free lists are consistent
chains of free blocks, and invariants 2, 3 and 4 hold. -/
def WellFormed (h : Heap) : Prop :=
  ∃ bs Ls, Layout h bs ∧ Lists h bs Ls ∧ Full bs Ls

/-! ## Ghost description of the operations -/

/-- The memory after the header and footer of the block at `bp` were set to
the tag of size `size` and allocated bit `a`. -/
def set_tags (m : Nat → Nat) (bp size a : Nat) : Nat → Nat :=
  PUT (PUT m (bp - 8) (size + a)) (bp + size - 16) (size + a)

/-- The lists after block `b` was put in front of the list of its class. -/
def ins (Ls : Nat → List Nat) (b : Block) : Nat → List Nat :=
  Function.update Ls (class_of b.size) (b.bp :: Ls (class_of b.size))

/-- The lists after block `b` was removed from the list of its class. -/
def del (Ls : Nat → List Nat) (b : Block) : Nat → List Nat :=
  Function.update Ls (class_of b.size) ((Ls (class_of b.size)).erase b.bp)

/-- Every word (header, payload, footer) of every allocated block among `P` is
the same in both states. -/
def Keeps (h h1 : Heap) (P : List Block) : Prop :=
  ∀ c ∈ P, c.alloc = true → ∀ a, c.bp ≤ a + 8 → a + 8 < c.bp + c.size → h1.mem a = h.mem a

/-- The blocks that replace the free block `b` when `place` carves `asize`
bytes out of it. -/
def place_blocks (b : Block) (asize : Nat) : List Block :=
  if b.size - asize ≥ 32 then
    if asize ≠ 128 then [⟨b.bp, asize, true⟩, ⟨b.bp + asize, b.size - asize, false⟩]
    else [⟨b.bp, b.size - asize, false⟩, ⟨b.bp + (b.size - asize), asize, true⟩]
  else [⟨b.bp, b.size, true⟩]

/-- The payload address `place` returns. -/
def place_ptr (b : Block) (asize : Nat) : Nat :=
  if b.size - asize ≥ 32 ∧ asize = 128 then b.bp + (b.size - asize) else b.bp

/-- The free lists after `place` carved `asize` bytes out of the free block `b`. -/
def place_lists (Ls : Nat → List Nat) (b : Block) (asize : Nat) : Nat → List Nat :=
  if b.size - asize ≥ 32 then
    if asize ≠ 128 then ins (del Ls b) ⟨b.bp + asize, b.size - asize, false⟩
    else ins (del Ls b) ⟨b.bp, b.size - asize, false⟩
  else del Ls b

/-- The block right before a block, when it is free: what `coalesce` absorbs
in front (`A` are the blocks before the block). -/
def prev_free (A : List Block) : List Block :=
  match A.getLast? with
  | some pb => if pb.alloc then [] else [pb]
  | none => []

/-- The block right behind a block, when it is free: what `coalesce` absorbs
behind (`B` are the blocks behind the block). -/
def next_free (B : List Block) : List Block :=
  match B.head? with
  | some nb => if nb.alloc then [] else [nb]
  | none => []

/-- The sum of the sizes of some blocks. -/
def total_size (M : List Block) : Nat := (M.map Block.size).sum

/-- The blocks before a block that `coalesce` leaves alone. -/
def before (A : List Block) : List Block := if prev_free A = [] then A else A.dropLast

/-- The blocks behind a block that `coalesce` leaves alone. -/
def after (B : List Block) : List Block := if next_free B = [] then B else B.tail

/-- The free block that `coalesce` forms of the free block `b` and its free
neighbours. -/
def merged (A : List Block) (b : Block) (B : List Block) : Block :=
  ⟨b.bp - total_size (prev_free A),
    total_size (prev_free A) + b.size + total_size (next_free B), false⟩

/-- The blocks of the heap after `coalesce` on the free block `b`. -/
def coalesce_blocks (A : List Block) (b : Block) (B : List Block) : List Block :=
  before A ++ [merged A b B] ++ after B

/-- The free lists after `coalesce` on the free block `b`: unchanged when no
neighbour is free; otherwise `b` and the free neighbours are removed and the
merged block is put in front of the list of its class. -/
def coalesce_lists (Ls : Nat → List Nat) (A : List Block) (b : Block) (B : List Block) :
    Nat → List Nat :=
  if prev_free A = [] ∧ next_free B = [] then Ls
  else ins ((b :: (next_free B ++ prev_free A)).foldl del Ls) (merged A b B)

/-- The state after `extend_heap` obtained `size` bytes and wrote the tags of
the new free block and the new epilogue header. -/
def grown (h : Heap) (size : Nat) : Heap :=
  { h with brk := h.brk + size, mem := PUT (set_tags h.mem h.brk size 0) (h.brk + size - 8) 1 }

/-- The first member of the list `L` whose block holds at least `asize` bytes
(`0` when there is none): what `find_block_from_list` returns. -/
def hit (m : Nat → Nat) (asize : Int) (L : List Nat) : Nat :=
  (L.find? (fun x => decide (toInt (GET_SIZE (m (HDRP x))) ≥ asize))).getD 0

/-- The first hit in the lists `i, i + 1, ..., 17` (`0` when there is none):
what `find_fit` returns. -/
def fit_from (m : Nat → Nat) (Ls : Nat → List Nat) (asize : Int) : Nat → Nat → Nat
  | 0, _ => 0
  | fuel + 1, i =>
    if i < 18 then
      if hit m asize (Ls i) ≠ 0 then hit m asize (Ls i) else fit_from m Ls asize fuel (i + 1)
    else 0

/-- A backing store as `mm_init` expects it: its first address is not null and
word-aligned, and its capacity is below `2 ^ 31` bytes. -/
def Fresh (h : Heap) : Prop :=
  0 < h.brk ∧ h.brk % 8 = 0 ∧ h.max_addr < h.brk + 2 ^ 31

/-- The block size `realloc_asize` that `mm_realloc` computes for a request:
the size rounded up to a multiple of `WSIZE`, plus `DSIZE` (as a natural
number, for requests where the `int` arithmetic does not overflow). -/
def realloc_asize (size : Nat) : Nat :=
  (if size % 8 = 0 then size else (size / 8 + 1) * 8) + 16

/-- The heap `h1` has the table, the prologue and the limit of `h`, and is not
smaller. -/
def Grows (h h1 : Heap) : Prop :=
  h1.seg_lst = h.seg_lst ∧ h1.max_addr = h.max_addr ∧ h1.heap_listp = h.heap_listp ∧
    h.brk ≤ h1.brk

/-- The heap is tiled by `bs`, the lists are `Ls`, every free block is on the
list of its class and no two adjacent blocks are free. (The minimum block
size is not part of it.) -/
def Sound (h : Heap) (bs : List Block) (Ls : Nat → List Nat) : Prop :=
  Layout h bs ∧ Lists h bs Ls ∧ (∀ c ∈ bs, c.alloc = false → c.bp ∈ Ls (class_of c.size)) ∧
    bs.Chain' (fun a b => a.alloc = true ∨ b.alloc = true)

/-- A call of the public interface after `mm_init`. -/
inductive Call where
  | malloc (size : Nat)
  | free (ptr : Nat)
  | realloc (ptr size : Nat)
  deriving DecidableEq

/-- One call: the new state and the pointer returned (`NULL` for `mm_free`);
`none` when an `assert` of the code fails. -/
def step (h : Heap) : Call → Option (Heap × Nat)
  | Call.malloc size => mm_malloc h size
  | Call.free ptr =>
    match mm_free h ptr with
    | none => none
    | some h1 => some (h1, NULL)
  | Call.realloc ptr size => mm_realloc h ptr size

/-- The pointer `ptr` is the payload address of an allocated block found by
the walk of the heap. -/
def is_live (h : Heap) (ptr : Nat) : Bool :=
  (blocks h).any (fun b => decide (b.bp = ptr) && b.alloc)

/-- Valid arguments of a call in state `h`: a pointer argument is `NULL` or the
payload address of an allocated block, and a size is below `2^31`. -/
def valid (h : Heap) : Call → Bool
  | Call.malloc size => decide (size < 2 ^ 31)
  | Call.free ptr => decide (ptr = NULL) || is_live h ptr
  | Call.realloc ptr size => (decide (ptr = NULL) || is_live h ptr) && decide (size < 2 ^ 31)

/-- The adjusted sizes that the call computes are representable as an `int`;
otherwise an `assert` of the code may fail. -/
def small : Call → Bool
  | Call.malloc size => decide (adjust_size size < 2 ^ 31)
  | Call.free _ => true
  | Call.realloc _ size => decide (size + 160 ≤ 2 ^ 31)

/-- A call other than an `mm_realloc` of a block to a size from 1 to `WSIZE`. -/
def tame : Call → Bool
  | Call.realloc ptr size => decide (ptr = NULL) || decide (size = 0) || decide (WSIZE < size)
  | _ => true

/-- A sequence of calls: the final state and the pointers returned, in order;
`none` when an `assert` of the code fails on the way. -/
def run_calls : Heap → List Call → Option (Heap × List Nat)
  | h, [] => some (h, [])
  | h, c :: cs =>
    match step h c with
    | none => none
    | some (h1, p) =>
      match run_calls h1 cs with
      | none => none
      | some (h2, ps) => some (h2, p :: ps)

/-- Every call of the sequence has valid arguments in the state it is made in. -/
def valid_calls : Heap → List Call → Bool
  | _, [] => true
  | h, c :: cs =>
    valid h c &&
      match step h c with
      | none => true
      | some (h1, _) => valid_calls h1 cs

/-- An empty backing store of 1 MiB whose first address is 16. -/
def store0 : Heap :=
  { mem := fun _ => 0, brk := 16, max_addr := 1048576, heap_listp := 0, seg_lst := 0 }

/-- The heap right after `mm_init` on the store `store0`. -/
def heap0 : Heap := (mm_init store0).1

/-- The heap after `mm_malloc(40)` on `heap0`. -/
def heap1 : Heap :=
  match mm_malloc heap0 40 with
  | some r => r.1
  | none => heap0

/-! ## The last part of `mm_realloc` -/

/-- The `int` value `realloc_asize` that `mm_realloc` computes from `size`. -/
def realloc_asize_int (size : Nat) : Int :=
  let new_size : Int := toInt size
  let new_size : Int :=
    if ofInt new_size % WSIZE ≠ 0 then toInt (u64 ((ofInt new_size / WSIZE + 1) * WSIZE))
    else new_size
  wrapInt (new_size + toInt DSIZE)

/-- The conditions of `mm_realloc` under which no case that resizes the block
in place applies, so that control reaches `newptr = mm_malloc(size)`: neither
argument is zero, `realloc_asize` differs from the old size, `size_diff` is not
positive, and when it is negative the next block is allocated or too small. -/
def takes_fallback (h : Heap) (ptr size : Nat) : Bool :=
  let oldsize := GET_SIZE (h.mem (HDRP ptr))
  let size_diff : Int := toInt (sub64 oldsize (ofInt (realloc_asize_int size)))
  let next_block_size := GET_SIZE (h.mem (HDRP (NEXT_BLKP h.mem ptr)))
  decide (size ≠ 0 ∧ ptr ≠ NULL ∧ realloc_asize_int size ≠ toInt oldsize ∧ ¬ size_diff > 0 ∧
    (size_diff < 0 → ¬ (GET_ALLOC (h.mem (HDRP (NEXT_BLKP h.mem ptr))) ≠ 0) →
      ¬ (toInt next_block_size ≥ toInt (u64 (ofInt (abs_int size_diff) + 2 * DSIZE))) ∧
        ¬ (toInt next_block_size ≥ abs_int size_diff)))

/-- The number of bytes that the last part of `mm_realloc` passes to `memcpy`:
`oldsize` is the size read from the header of `ptr`, replaced by `size` when
`size < oldsize`. -/
def copy_len (h : Heap) (ptr size : Nat) : Nat :=
  let oldsize := GET_SIZE (h.mem (HDRP ptr))
  if size < oldsize then size else oldsize

/-- The last part of `mm_realloc`, from `newptr = mm_malloc(size)` on: allocate
a new block, copy, free the old block. -/
def realloc_copy (h : Heap) (ptr size : Nat) : Option (Heap × Nat) :=
  match mm_malloc h size with
  | none => none
  | some (h1, newptr) =>
    if newptr = NULL then some (h1, NULL)
    else
      let h2 : Heap := { h1 with mem := memcpy h1.mem newptr ptr (copy_len h ptr size) }
      match mm_free h2 ptr with
      | none => none
      | some h3 => some (h3, newptr)

/-! ## More concrete heaps -/

/-- The heap after `mm_malloc(40)` on `heap1`: two allocated blocks of 56
bytes at 192 and 248 and a free block. -/
def heap2 : Heap :=
  match mm_malloc heap1 40 with
  | some r => r.1
  | none => heap1

/-- An empty backing store based at 16 with room for the initial heap and one
chunk of `CHUNKSIZE` bytes only. -/
def store1 : Heap :=
  { mem := fun _ => 0, brk := 16, max_addr := 4288, heap_listp := 0, seg_lst := 0 }

/-- The heap after `mm_init` and `mm_malloc(40)` on `store1`: an allocated
block of 56 bytes at 192 and a free block; the store is exhausted. -/
def heap_full : Heap :=
  match mm_malloc (mm_init store1).1 40 with
  | some r => r.1
  | none => (mm_init store1).1

/-- The heap after `mm_malloc(4096)` on `heap0`. -/
def heap_big : Heap :=
  match mm_malloc heap0 4096 with
  | some r => r.1
  | none => heap0

/-! ## The heap consistency checker -/

/-- How a run of a checker routine ends: it returns, it calls `exit(1)`, or an
`assert` fails. -/
inductive Status where
  | done
  | exit1
  | abort
  deriving DecidableEq

/-- The loop `while (sl != NULL)` of `checkblock`, which looks for `bp` on a
list; the result is the final value of `flag`, `none` when the loop does not
end within `n` iterations. -/
def checkblock_loop (m : Nat → Nat) (bp : Nat) : Nat → Nat → Bool → Option Bool
  | 0, _, _ => none
  | n + 1, sl, flag =>
    if sl ≠ NULL then checkblock_loop m bp n (next_of m sl) (if sl = bp then true else flag)
    else some flag

/-- Function `checkblock`; `n` bounds the iterations of its loop (`none` when
they do not suffice). -/
def checkblock (n : Nat) (h : Heap) (bp : Nat) : Option Status :=
  if bp % WSIZE ≠ 0 then some Status.exit1
  else if h.mem (HDRP bp) ≠ h.mem (FTRP h.mem bp) then some Status.exit1
  else if toInt (GET_ALLOC (h.mem (HDRP bp))) = 0 then
    if toInt (GET_ALLOC (h.mem (HDRP (PREV_BLKP h.mem bp)))) ≠ 1 ∨
        toInt (GET_ALLOC (h.mem (HDRP (NEXT_BLKP h.mem bp)))) ≠ 1 then some Status.exit1
    else
      match get_list_index (toInt (GET_SIZE (h.mem (HDRP bp)))) with
      | none => some Status.abort
      | some lst_indx =>
        match checkblock_loop h.mem bp n (h.mem (seg_at h lst_indx)) false with
        | none => none
        | some flag => if flag = false then some Status.exit1 else some Status.done
  else some Status.done

/-- The condition under which `checkheap` prints `Bad prologue header`. -/
def bad_prologue_header (h : Heap) : Bool :=
  decide (GET_SIZE (h.mem (HDRP h.heap_listp)) ≠ DSIZE ∨
    ¬ (GET_ALLOC (h.mem (HDRP h.heap_listp)) ≠ 0))

/-- The loop `for (bp = heap_listp; GET_SIZE(HDRP(bp)) > 0; bp = NEXT_BLKP(bp))`
of `checkheap`: how it ends and the final value of `bp`; `k` bounds its
iterations and `n` those of each `checkblock`. -/
def checkheap_loop (n : Nat) (h : Heap) : Nat → Nat → Option (Status × Nat)
  | 0, _ => none
  | k + 1, bp =>
    if GET_SIZE (h.mem (HDRP bp)) > 0 then
      match checkblock n h bp with
      | none => none
      | some Status.done => checkheap_loop n h k (NEXT_BLKP h.mem bp)
      | some s => some (s, bp)
    else some (Status.done, bp)

/-- Function `checkheap`; `n` bounds the iterations of every loop (`none` when
they do not suffice). Output is not modelled: `verbose` only selects what is
printed, and the test `bad_prologue_header` of the prologue only prints. -/
def checkheap (n : Nat) (h : Heap) (verbose : Bool) : Option Status :=
  match checkblock n h h.heap_listp with
  | none => none
  | some Status.done =>
    match checkheap_loop n h n h.heap_listp with
    | none => none
    | some (Status.done, bp) =>
      if GET_SIZE (h.mem (HDRP bp)) ≠ 0 ∨ ¬ (GET_ALLOC (h.mem (HDRP bp)) ≠ 0) then
        some Status.exit1
      else some Status.done
    | some (s, _) => some s
  | some s => some s

/-- Function `checkfreeblock`. -/
def checkfreeblock (h : Heap) (bp : Nat) : Status :=
  if bp % WSIZE ≠ 0 then Status.exit1
  else if h.mem (HDRP bp) ≠ h.mem (FTRP h.mem bp) then Status.exit1
  else if toInt (GET_ALLOC (h.mem (HDRP bp))) ≠ 0 then Status.exit1
  else Status.done

/-- The loop `while (bp != NULL)` of `checklist` on one list; `none` when it
does not end within the given number of iterations. -/
def checklist_walk (h : Heap) : Nat → Nat → Option Status
  | 0, _ => none
  | k + 1, bp =>
    if bp ≠ NULL then
      if toInt (GET_ALLOC (h.mem (HDRP bp))) ≠ 0 ∨
          toInt (GET_ALLOC (h.mem (FTRP h.mem bp))) ≠ 0 then some Status.exit1
      else
        let next_block := next_of h.mem bp
        let prev_block := prev_of h.mem bp
        if next_block ≠ NULL ∧ checkfreeblock h next_block ≠ Status.done then some Status.exit1
        else if prev_block ≠ NULL ∧ checkfreeblock h prev_block ≠ Status.done then
          some Status.exit1
        else checklist_walk h k (next_of h.mem bp)
    else some Status.done

/-- The loop `for (i = 0; i < SEGLST_NUM; i ++)` of `checklist`. -/
def checklist_loop (n : Nat) (h : Heap) : Nat → Nat → Option Status
  | 0, _ => some Status.done
  | k + 1, i =>
    if i < SEGLST_NUM then
      match checklist_walk h n (h.mem (seg_at h i)) with
      | none => none
      | some Status.done => checklist_loop n h k (i + 1)
      | some s => some s
    else some Status.done

/-- Function `checklist`; `n` bounds the iterations of the walk of each list
(`none` when they do not suffice). -/
def checklist (n : Nat) (h : Heap) : Option Status := checklist_loop n h SEGLST_NUM 0

/-! ## Ghost description of what the checker walks -/

/-- The chain of `next` links from `cur` ends at `NULL` and has exactly the
members `L`, front to back. -/
def Links (m : Nat → Nat) : Nat → List Nat → Prop
  | cur, [] => cur = NULL
  | cur, x :: xs => cur = x ∧ x ≠ NULL ∧ Links m (next_of m x) xs

/-- Stepping from `bp` by the size in each header visits the blocks `bps` and
then reaches `e`, whose header has size zero. -/
def Walk (m : Nat → Nat) : Nat → List Nat → Nat → Prop
  | bp, [], e => bp = e ∧ GET_SIZE (m (HDRP bp)) = 0
  | bp, x :: xs, e => x = bp ∧ GET_SIZE (m (HDRP bp)) > 0 ∧ Walk m (NEXT_BLKP m bp) xs e

/-- What `checkblock` asks of a block: its address is a multiple of `WSIZE`,
header and footer are the same word, and if it is free then the blocks before
and behind it are allocated and it is a member of the `NULL`-terminated list
`seg_lst[get_list_index(size)]`. -/
def block_ok (h : Heap) (bp : Nat) : Prop :=
  bp % WSIZE = 0 ∧ h.mem (HDRP bp) = h.mem (FTRP h.mem bp) ∧
    (GET_ALLOC (h.mem (HDRP bp)) = 0 →
      GET_ALLOC (h.mem (HDRP (PREV_BLKP h.mem bp))) = 1 ∧
      GET_ALLOC (h.mem (HDRP (NEXT_BLKP h.mem bp))) = 1 ∧
      ∃ k L, get_list_index (toInt (GET_SIZE (h.mem (HDRP bp)))) = some k ∧
        Links h.mem (h.mem (seg_at h k)) L ∧ bp ∈ L)

/-- A heap whose prologue has 32 bytes instead of `DSIZE`: header and footer
`PACK(32, 1)` at 168 and 192, directly followed by the epilogue header. -/
def heap_bad_prologue : Heap :=
  { heap0 with mem := PUT (PUT (PUT heap0.mem 168 (PACK 32 1)) 192 (PACK 32 1)) 200 (PACK 0 1),
               brk := 208 }

/-- The heap `heap1` with the `next` link of its free block at 248, the only
member of its list, pointing to the block itself. -/
def heap_cyclic : Heap := { heap1 with mem := PUT heap1.mem 248 248 }

/-! ## Size classes and adjusted sizes as the specification words them -/

/-- The adjusted block size in the words of the specification: the minimum
block size for a request up to `DSIZE`, otherwise the request rounded up to a
multiple of `WSIZE` plus `DSIZE`. -/
def adjust_size_spec (size : Nat) : Nat :=
  if size ≤ DSIZE then 2 * DSIZE else (size + WSIZE - 1) / WSIZE * WSIZE + DSIZE

/-- The size class in the words of the specification: the least `i` in
`0..17` such that `size >> i` is below the low bound or `i = 17`. -/
def list_index_spec (size : Nat) : Nat :=
  ((List.range SEGLST_NUM).find?
    (fun i => decide (size >>> i < LOW_BOUND ∨ i = SEGLST_NUM - 1))).getD (SEGLST_NUM - 1)

/-! ## Program `factors.c` -/

/-- Truncation to `unsigned int` (32 bits). -/
def u32 (x : Nat) : Nat := x % 2 ^ 32

/-- The loop `while (n != 1)` of `count_factors`; `none` when it does not end
within the fuel, or on a division by zero. -/
def count_factors_loop : Nat → Nat → Nat → Nat → Option Nat
  | 0, _, _, _ => none
  | fuel + 1, n, f, num =>
    if n ≠ 1 then
      if f = 0 then none
      else if n % f = 0 then count_factors_loop fuel (n / f) f (u32 (num + 1))
      else count_factors_loop fuel n (u32 (f + 1)) num
    else some num

/-- Function `count_factors`; `none` when `assert(n > 1)` fails or the loop
does not end within `fuel` iterations. -/
def count_factors (fuel n : Nat) : Option Nat :=
  if ¬ (n > 1) then none else count_factors_loop fuel n 2 0

/-- Function `next_factor`; `fuel` bounds the depth of the recursion. The test
`k <= sqrt(x)` on doubles is rendered as `k * k ≤ x`. -/
def next_factor : Nat → Nat → Nat → Option Nat
  | 0, _, _ => none
  | fuel + 1, x, k =>
    if x = 1 then some 0
    else if k = 0 then none
    else if x % k = 0 then (next_factor fuel (x / k) k).map (fun r => u32 (r + 1))
    else if k * k ≤ x then next_factor fuel x (u32 (k + 1))
    else some 1

/-- Function `count_factors_recursive`; `none` when `assert(n > 1)` fails or
the recursion is deeper than `fuel`. -/
def count_factors_recursive (fuel n : Nat) : Option Nat :=
  if ¬ (n > 1) then none else next_factor fuel n 2

/-! ## The growth request as the specification words it -/

/-- The number of bytes to request from the backing store in the words of the
specification: the larger of the adjusted size and the fixed growth chunk,
rounded up to a multiple of `WSIZE`. -/
def extend_size_spec (asize : Nat) : Nat :=
  (MAX asize CHUNKSIZE + WSIZE - 1) / WSIZE * WSIZE

/-! ## A heap with a free block below the minimum size -/

/-- The heap in which `mm_free(192)` calls `insert_block(192, 24)`, after
`mm_init`, `mm_malloc(40)` and `mm_realloc(192, 1)`: the state after the
`mm_realloc`, with the header and the footer of the block at 192 set to free
as `mm_free` does before the insertion. -/
def heap_small : Heap :=
  match mm_realloc heap1 192 1 with
  | some r =>
    let size := GET_SIZE (r.1.mem (HDRP 192))
    let h1 := r.1.put (HDRP 192) (PACK size 0)
    h1.put (FTRP h1.mem 192) (PACK size 0)
  | none => heap1

/-! # Theorems -/

theorem PUT_same (m : Nat → Nat) (p v : Nat) : PUT m p v p = v := by
  simp [PUT]

theorem PUT_other (m : Nat → Nat) (p v a : Nat) (h : a ≠ p) : PUT m p v a = m a := by
  simp [PUT, h]

theorem chain_frame (m m1 : Nat → Nat) :
    ∀ (L : List Nat) (p c : Nat), Chain m p c L →
      (∀ x ∈ L, m1 x = m x ∧ m1 (x + 8) = m (x + 8)) → Chain m1 p c L := by
  intro L
  induction L with
  | nil => intro p c h _; exact h
  | cons x xs ih =>
    intro p c h hf
    obtain ⟨h1, h2, h3, h4⟩ := h
    have hx := hf x (List.mem_cons_self x xs)
    refine ⟨h1, h2, ?_, ?_⟩
    · rw [hx.2]; exact h3
    · rw [hx.1]
      exact ih x (m x) h4 (fun y hy => hf y (List.mem_cons_of_mem x hy))

theorem chain_head (m : Nat → Nat) (L : List Nat) (p c : Nat) (h : Chain m p c L) :
    c = L.headD 0 := by
  cases L with
  | nil => exact h
  | cons x xs => exact h.1

theorem headD_mem (L : List Nat) (h : L.headD 0 ≠ 0) : L.headD 0 ∈ L := by
  cases L with
  | nil => simp at h
  | cons x xs => simp

theorem chain_unlink_inner (m : Nat → Nat) (x y : Nat) (L2 : List Nat) :
    ∀ (L1 : List Nat) (p c : Nat), Chain m p c (L1 ++ y :: x :: L2) →
      Sep (L1 ++ y :: x :: L2) →
      m (x + 8) = y ∧ y ≠ 0 ∧ m x = L2.headD 0 ∧
        Chain (unlink_inner m y (L2.headD 0)) p c (L1 ++ y :: L2) := by
  intro L1
  induction L1 with
  | nil =>
    intro p c h hs
    simp only [List.nil_append] at h hs ⊢
    obtain ⟨h1, h2, h3, h4, h5, h6, h7⟩ := h
    refine ⟨h6, h2, chain_head m _ _ _ h7, ?_⟩
    unfold Sep at hs
    rw [List.pairwise_cons, List.pairwise_cons] at hs
    obtain ⟨hs1, hs2, hs3⟩ := hs
    unfold unlink_inner
    cases L2 with
    | nil =>
      simp only [List.headD_nil, if_true]
      refine ⟨h1, h2, ?_, ?_⟩
      · rw [PUT_other _ _ _ _ (by omega)]; exact h3
      · show PUT m y 0 y = 0
        exact PUT_same _ _ _
    | cons z zs =>
      obtain ⟨h8, h9, h10, h11⟩ := h7
      have hyz := hs1 z (by simp)
      have hxz := hs2 z (by simp)
      simp only [List.headD_cons]
      rw [if_neg h9]
      refine ⟨h1, h2, ?_, ?_⟩
      · rw [PUT_other _ _ _ _ (by omega), PUT_other _ _ _ _ (by omega)]; exact h3
      · have e1 : PUT (PUT m y z) (z + 8) y y = z := by
          rw [PUT_other _ _ _ _ (by omega), PUT_same]
        rw [e1]
        refine ⟨rfl, h9, PUT_same _ _ _, ?_⟩
        have e2 : PUT (PUT m y z) (z + 8) y z = m z := by
          rw [PUT_other _ _ _ _ (by omega), PUT_other _ _ _ _ (by omega)]
        rw [e2]
        apply chain_frame m _ zs z (m z) h11
        intro w hw
        have hyw := hs1 w (by simp [hw])
        rw [List.pairwise_cons] at hs3
        have hzw := hs3.1 w hw
        constructor
        · rw [PUT_other _ _ _ _ (by omega), PUT_other _ _ _ _ (by omega)]
        · rw [PUT_other _ _ _ _ (by omega), PUT_other _ _ _ _ (by omega)]
  | cons w ws ih =>
    intro p c h hs
    simp only [List.cons_append] at h hs ⊢
    obtain ⟨h1, h2, h3, h4⟩ := h
    unfold Sep at hs
    rw [List.pairwise_cons] at hs
    obtain ⟨hs1, hs2⟩ := hs
    obtain ⟨i1, i2, i3, i4⟩ := ih w (m w) h4 hs2
    have hwy := hs1 y (by simp)
    have hnx : ∀ a, (a = w ∨ a = w + 8) → unlink_inner m y (L2.headD 0) a = m a := by
      intro a ha
      unfold unlink_inner
      split
      · rw [PUT_other _ _ _ _ (by omega)]
      · rename_i hne
        have hwn := hs1 (L2.headD 0) (List.mem_append_right _
          (List.mem_cons_of_mem _ (List.mem_cons_of_mem _ (headD_mem L2 hne))))
        rw [PUT_other _ _ _ _ (by omega), PUT_other _ _ _ _ (by omega)]
    refine ⟨i1, i2, i3, h1, h2, ?_, ?_⟩
    · rw [hnx _ (Or.inr rfl)]; exact h3
    · rw [hnx _ (Or.inl rfl)]; exact i4

theorem chain_unlink_head (m : Nat → Nat) (x : Nat) (L2 : List Nat) (c : Nat)
    (h : Chain m 0 c (x :: L2)) (hs : Sep (x :: L2)) :
    m (x + 8) = 0 ∧ m x = L2.headD 0 ∧
      Chain (unlink_head m (L2.headD 0)) 0 (L2.headD 0) L2 := by
  obtain ⟨h1, h2, h3, h4⟩ := h
  refine ⟨h3, chain_head m _ _ _ h4, ?_⟩
  unfold Sep at hs
  rw [List.pairwise_cons] at hs
  obtain ⟨hs1, hs2⟩ := hs
  unfold unlink_head
  cases L2 with
  | nil => simp [Chain]
  | cons z zs =>
    obtain ⟨h8, h9, h10, h11⟩ := h4
    simp only [List.headD_cons]
    rw [if_neg h9]
    refine ⟨rfl, h9, PUT_same _ _ _, ?_⟩
    rw [PUT_other _ _ _ _ (by omega)]
    apply chain_frame m _ zs z (m z) h11
    intro w hw
    rw [List.pairwise_cons] at hs2
    have hzw := hs2.1 w hw
    constructor
    · rw [PUT_other _ _ _ _ (by omega)]
    · rw [PUT_other _ _ _ _ (by omega)]

theorem chain_link_head (m : Nat → Nat) (x : Nat) (L : List Nat) (c : Nat)
    (h : Chain m 0 c L) (hs : Sep (x :: L)) (hx : x ≠ 0) :
    Chain (link_head m x c) 0 x (x :: L) := by
  unfold Sep at hs
  rw [List.pairwise_cons] at hs
  obtain ⟨hs1, hs2⟩ := hs
  unfold link_head
  cases L with
  | nil =>
    have hc : c = 0 := h
    rw [if_pos hc]
    refine ⟨rfl, hx, ?_, ?_⟩
    · rw [PUT_other _ _ _ _ (by omega), PUT_same]
    · show PUT (PUT m (x + 8) 0) x 0 x = 0
      exact PUT_same _ _ _
  | cons z zs =>
    obtain ⟨h8, h9, h10, h11⟩ := h
    subst h8
    have hxz := hs1 c (by simp)
    rw [if_neg h9]
    refine ⟨rfl, hx, ?_, ?_⟩
    · rw [PUT_other _ _ _ _ (by omega), PUT_other _ _ _ _ (by omega), PUT_same]
    · have e1 : PUT (PUT (PUT m (x + 8) 0) x c) (c + 8) x x = c := by
        rw [PUT_other _ _ _ _ (by omega), PUT_same]
      rw [e1]
      refine ⟨rfl, h9, PUT_same _ _ _, ?_⟩
      have e2 : PUT (PUT (PUT m (x + 8) 0) x c) (c + 8) x c = m c := by
        rw [PUT_other _ _ _ _ (by omega), PUT_other _ _ _ _ (by omega),
          PUT_other _ _ _ _ (by omega)]
      rw [e2]
      apply chain_frame m _ zs c (m c) h11
      intro w hw
      have hxw := hs1 w (by simp [hw])
      rw [List.pairwise_cons] at hs2
      have hzw := hs2.1 w hw
      constructor
      · rw [PUT_other _ _ _ _ (by omega), PUT_other _ _ _ _ (by omega),
          PUT_other _ _ _ _ (by omega)]
      · rw [PUT_other _ _ _ _ (by omega), PUT_other _ _ _ _ (by omega),
          PUT_other _ _ _ _ (by omega)]

theorem GET_SIZE_eq (w : Nat) : GET_SIZE w = w % 2 ^ 64 / 8 * 8 := by
  unfold GET_SIZE WSIZE
  apply Nat.eq_of_testBit_eq
  intro i
  have h1 : (2 ^ 64 - 1 - (8 - 1) : Nat) = 2 ^ 3 * (2 ^ 61 - 1) := by norm_num
  have h2 : w % 2 ^ 64 / 8 * 8 = 2 ^ 3 * ((w % 2 ^ 64) >>> 3) := by
    rw [Nat.shiftRight_eq_div_pow, Nat.mul_comm]; norm_num
  rw [h1, h2, Nat.testBit_and, Nat.testBit_mul_pow_two, Nat.testBit_mul_pow_two,
    Nat.testBit_two_pow_sub_one, Nat.testBit_shiftRight, Nat.testBit_mod_two_pow]
  by_cases h3 : i ≥ 3
  · by_cases h4 : i < 64
    · have h5 : i - 3 < 61 := by omega
      have h6 : i - 3 + 3 = i := by omega
      have h7 : 3 + (i - 3) = i := by omega
      simp [h3, h4, h5, h6, h7]
    · have h5 : ¬ (i - 3 < 61) := by omega
      have h6 : ¬ (i - 3 + 3 < 64) := by omega
      have h7 : ¬ (3 + (i - 3) < 64) := by omega
      simp [h3, h4, h5, h6, h7]
  · simp [h3]

theorem GET_ALLOC_eq (w : Nat) : GET_ALLOC w = w % 2 := by
  unfold GET_ALLOC
  exact Nat.and_one_is_mod w

theorem PACK_eq (size alloc : Nat) (h1 : size % 8 = 0) (h2 : alloc ≤ 1) :
    PACK size alloc = size + alloc := by
  unfold PACK
  have h3 : size = 2 ^ 3 * (size / 8) := by omega
  have h4 : alloc < 2 ^ 3 := by omega
  rw [h3, ← Nat.mul_add_lt_is_or h4]

theorem GET_SIZE_tag (b : Block) (h1 : b.size % 8 = 0) (h2 : b.size < 2 ^ 64) :
    GET_SIZE b.tag = b.size := by
  rw [GET_SIZE_eq]
  unfold Block.tag
  split <;> omega

theorem GET_ALLOC_tag (b : Block) (h1 : b.size % 8 = 0) :
    GET_ALLOC b.tag = if b.alloc then 1 else 0 := by
  rw [GET_ALLOC_eq]
  unfold Block.tag
  split <;> omega

theorem PACK_tag0 (size : Nat) (h1 : size % 8 = 0) :
    PACK size 0 = (Block.mk 0 size false).tag := by
  rw [PACK_eq size 0 h1 (by omega)]
  simp [Block.tag]

theorem PACK_tag1 (size : Nat) (h1 : size % 8 = 0) :
    PACK size 1 = (Block.mk 0 size true).tag := by
  rw [PACK_eq size 1 h1 (by omega)]
  simp [Block.tag]

theorem toInt_small (x : Nat) (h : x < 2 ^ 31) : toInt x = (x : Int) := by
  unfold toInt
  have h1 : x % 2 ^ 32 = x := Nat.mod_eq_of_lt (by omega)
  rw [h1, if_pos h]

theorem u64_small (x : Nat) (h : x < 2 ^ 64) : u64 x = x := by
  unfold u64
  exact Nat.mod_eq_of_lt h

theorem sub64_small (a b : Nat) (h1 : b ≤ a) (h2 : a < 2 ^ 64) : sub64 a b = a - b := by
  unfold sub64
  have h3 : b % 2 ^ 64 = b := Nat.mod_eq_of_lt (by omega)
  rw [h3]
  omega

theorem get_list_index_loop_lt (fuel count list : Nat) (h : list < 18) :
    get_list_index_loop fuel count list < 18 := by
  induction fuel generalizing count list with
  | zero => simp [get_list_index_loop, SEGLST_NUM]
  | succ n ih =>
    unfold get_list_index_loop
    simp only [SEGLST_NUM]
    rw [if_pos h]
    split
    · exact h
    · rename_i hc
      apply ih
      omega

theorem class_of_lt (n : Nat) : class_of n < 18 :=
  get_list_index_loop_lt _ _ _ (by omega)

theorem get_list_index_nat (n : Nat) : get_list_index (n : Int) = some (class_of n) := by
  unfold get_list_index class_of
  rw [if_neg (by omega)]
  simp

/-! ### Tilings -/

theorem tiling_frame (m m1 : Nat → Nat) :
    ∀ (bs : List Block) (s e : Nat), Tiling m s bs e →
      (∀ b ∈ bs, m1 (b.bp - 8) = m (b.bp - 8) ∧
        m1 (b.bp + b.size - 16) = m (b.bp + b.size - 16)) →
      Tiling m1 s bs e := by
  intro bs
  induction bs with
  | nil => intro s e h _; exact h
  | cons b bs ih =>
    intro s e h hf
    obtain ⟨h1, h2, h3, h4, h5, h6⟩ := h
    have hb := hf b (List.mem_cons_self b bs)
    rw [h1] at hb
    refine ⟨h1, h2, h3, ?_, ?_, ?_⟩
    · rw [hb.1]; exact h4
    · rw [hb.2]; exact h5
    · exact ih _ _ h6 (fun c hc => hf c (List.mem_cons_of_mem b hc))

theorem tiling_append (m : Nat → Nat) (B : List Block) :
    ∀ (A : List Block) (s e : Nat), Tiling m s (A ++ B) e ↔
      ∃ mid, Tiling m s A mid ∧ Tiling m mid B e := by
  intro A
  induction A with
  | nil =>
    intro s e
    simp only [List.nil_append, Tiling]
    constructor
    · intro h; exact ⟨s, rfl, h⟩
    · rintro ⟨mid, h1, h2⟩; rw [h1]; exact h2
  | cons a A ih =>
    intro s e
    simp only [List.cons_append, Tiling]
    constructor
    · rintro ⟨h1, h2, h3, h4, h5, h6⟩
      obtain ⟨mid, h7, h8⟩ := (ih _ _).1 h6
      exact ⟨mid, ⟨h1, h2, h3, h4, h5, h7⟩, h8⟩
    · rintro ⟨mid, ⟨h1, h2, h3, h4, h5, h7⟩, h8⟩
      exact ⟨h1, h2, h3, h4, h5, (ih _ _).2 ⟨mid, h7, h8⟩⟩

theorem tiling_le (m : Nat → Nat) :
    ∀ (bs : List Block) (s e : Nat), Tiling m s bs e → s ≤ e := by
  intro bs
  induction bs with
  | nil => intro s e h; exact Nat.le_of_eq h
  | cons b bs ih =>
    intro s e h
    have := ih _ _ h.2.2.2.2.2
    omega

theorem tiling_end_unique (m : Nat → Nat) :
    ∀ (bs : List Block) (s e1 e2 : Nat), Tiling m s bs e1 → Tiling m s bs e2 → e1 = e2 := by
  intro bs
  induction bs with
  | nil => intro s e1 e2 h1 h2; rw [← h1, ← h2]
  | cons b bs ih =>
    intro s e1 e2 h1 h2
    exact ih _ _ _ h1.2.2.2.2.2 h2.2.2.2.2.2

/-- What a tiling says about one of its blocks. -/
theorem tiling_mem (m : Nat → Nat) :
    ∀ (bs : List Block) (s e : Nat), Tiling m s bs e → ∀ b ∈ bs,
      s ≤ b.bp ∧ b.bp + b.size ≤ e ∧ 16 ≤ b.size ∧ b.size % 8 = 0 ∧
        m (b.bp - 8) = b.tag ∧ m (b.bp + b.size - 16) = b.tag := by
  intro bs
  induction bs with
  | nil => intro s e _ b hb; simp at hb
  | cons a bs ih =>
    intro s e h b hb
    obtain ⟨h1, h2, h3, h4, h5, h6⟩ := h
    have hle := tiling_le m _ _ _ h6
    rcases List.mem_cons.1 hb with rfl | hb
    · rw [h1]
      exact ⟨Nat.le_refl _, hle, h2, h3, h4, h5⟩
    · obtain ⟨i1, i2, i3⟩ := ih _ _ h6 b hb
      exact ⟨by omega, i2, i3⟩

theorem tiling_aligned (m : Nat → Nat) :
    ∀ (bs : List Block) (s e : Nat), Tiling m s bs e → s % 8 = 0 →
      e % 8 = 0 ∧ ∀ b ∈ bs, b.bp % 8 = 0 := by
  intro bs
  induction bs with
  | nil => intro s e h hs; rw [← h]; simp [hs]
  | cons a bs ih =>
    intro s e h hs
    obtain ⟨h1, h2, h3, h4, h5, h6⟩ := h
    obtain ⟨i1, i2⟩ := ih _ _ h6 (by omega)
    refine ⟨i1, ?_⟩
    intro b hb
    rcases List.mem_cons.1 hb with rfl | hb
    · omega
    · exact i2 b hb

/-- Two blocks of a tiling are the same block or do not overlap. -/
theorem tiling_disjoint (m : Nat → Nat) :
    ∀ (bs : List Block) (s e : Nat), Tiling m s bs e → ∀ b1 ∈ bs, ∀ b2 ∈ bs,
      b1 = b2 ∨ b1.bp + b1.size ≤ b2.bp ∨ b2.bp + b2.size ≤ b1.bp := by
  intro bs
  induction bs with
  | nil => intro s e _ b hb; simp at hb
  | cons a bs ih =>
    intro s e h b1 hb1 b2 hb2
    obtain ⟨h1, h2, h3, h4, h5, h6⟩ := h
    rcases List.mem_cons.1 hb1 with e1 | hc1
    · rcases List.mem_cons.1 hb2 with e2 | hc2
      · left; rw [e1, e2]
      · have := (tiling_mem m _ _ _ h6 b2 hc2).1
        rw [e1]
        right; left; omega
    · rcases List.mem_cons.1 hb2 with e2 | hc2
      · have := (tiling_mem m _ _ _ h6 b1 hc1).1
        rw [e2]
        right; right; omega
      · exact ih _ _ h6 b1 hc1 b2 hc2

theorem tiling_bp_inj (m : Nat → Nat) (bs : List Block) (s e : Nat) (h : Tiling m s bs e)
    (b1 b2 : Block) (h1 : b1 ∈ bs) (h2 : b2 ∈ bs) (h3 : b1.bp = b2.bp) : b1 = b2 := by
  rcases tiling_disjoint m bs s e h b1 h1 b2 h2 with h4 | h4 | h4
  · exact h4
  · have := (tiling_mem m _ _ _ h b1 h1).2.2.1
    omega
  · have := (tiling_mem m _ _ _ h b2 h2).2.2.1
    omega

theorem tiling_length (m : Nat → Nat) :
    ∀ (bs : List Block) (s e : Nat), Tiling m s bs e → s + 16 * bs.length ≤ e := by
  intro bs
  induction bs with
  | nil => intro s e h; simp; exact Nat.le_of_eq h
  | cons b bs ih =>
    intro s e h
    have := ih _ _ h.2.2.2.2.2
    have := h.2.1
    simp only [List.length_cons]
    omega

/-! ### Consequences of the layout -/

/-- What the layout says about a block of the heap. -/
theorem layout_block (h : Heap) (bs : List Block) (hl : Layout h bs) (b : Block) (hb : b ∈ bs) :
    h.seg_lst + 176 ≤ b.bp ∧ b.bp + b.size ≤ h.brk ∧ 16 ≤ b.size ∧ b.size % 8 = 0 ∧
      b.bp % 8 = 0 ∧ b.size < 2 ^ 31 ∧ h.mem (b.bp - 8) = b.tag ∧
      h.mem (b.bp + b.size - 16) = b.tag := by
  obtain ⟨i1, i2, i3, i4, i5, i6⟩ := tiling_mem h.mem bs _ _ hl.til b hb
  have i7 := (tiling_aligned h.mem bs _ _ hl.til (by have := hl.tbl_al; omega)).2 b hb
  have := hl.cap1
  have := hl.cap2
  exact ⟨i1, i2, i3, i4, i7, by omega, i5, i6⟩

theorem layout_brk (h : Heap) (bs : List Block) (hl : Layout h bs) :
    h.seg_lst + 176 ≤ h.brk ∧ h.brk % 8 = 0 ∧ h.brk < h.seg_lst + 2 ^ 31 := by
  have i1 := tiling_le h.mem bs _ _ hl.til
  have i2 := (tiling_aligned h.mem bs _ _ hl.til (by have := hl.tbl_al; omega)).1
  have := hl.cap1
  have := hl.cap2
  exact ⟨i1, i2, by omega⟩

theorem layout_size (h : Heap) (bs : List Block) (hl : Layout h bs) (b : Block) (hb : b ∈ bs) :
    GET_SIZE (h.mem (HDRP b.bp)) = b.size ∧ GET_SIZE (h.mem (b.bp + b.size - 16)) = b.size ∧
      GET_ALLOC (h.mem (HDRP b.bp)) = (if b.alloc then 1 else 0) ∧
      GET_ALLOC (h.mem (b.bp + b.size - 16)) = (if b.alloc then 1 else 0) := by
  obtain ⟨i1, i2, i3, i4, i5, i6, i7, i8⟩ := layout_block h bs hl b hb
  unfold HDRP WSIZE
  rw [i7, i8]
  exact ⟨GET_SIZE_tag b i4 (by omega), GET_SIZE_tag b i4 (by omega), GET_ALLOC_tag b i4,
    GET_ALLOC_tag b i4⟩

theorem members_block (h : Heap) (bs : List Block) (Ls : Nat → List Nat) (hl : Layout h bs)
    (hL : Lists h bs Ls) (i : Nat) (hi : i < 18) (x : Nat) (hx : x ∈ Ls i) :
    ∃ b ∈ bs, b.bp = x ∧ b.alloc = false ∧ 32 ≤ b.size ∧ class_of b.size = i ∧
      h.seg_lst + 176 ≤ x ∧ x + b.size ≤ h.brk ∧ x % 8 = 0 := by
  obtain ⟨b, hb, e1, e2, e3, e4⟩ := hL.members i hi x hx
  obtain ⟨i1, i2, i3, i4, i5, i6, i7, i8⟩ := layout_block h bs hl b hb
  subst e1
  exact ⟨b, hb, rfl, e2, e3, e4, i1, i2, i5⟩

/-- Two distinct members of the free lists are at least four words apart. -/
theorem members_apart (h : Heap) (bs : List Block) (Ls : Nat → List Nat) (hl : Layout h bs)
    (hL : Lists h bs Ls) (i j : Nat) (hi : i < 18) (hj : j < 18) (x y : Nat) (hx : x ∈ Ls i)
    (hy : y ∈ Ls j) (hne : x ≠ y) : x + 32 ≤ y ∨ y + 32 ≤ x := by
  obtain ⟨b, hb, e1, e2, e3, e4⟩ := hL.members i hi x hx
  obtain ⟨c, hc, f1, f2, f3, f4⟩ := hL.members j hj y hy
  rcases tiling_disjoint h.mem bs _ _ hl.til b hb c hc with g | g | g
  · exfalso; apply hne; rw [← e1, ← f1, g]
  · left; omega
  · right; omega

/-- A member of list `i` is a member of no other list. -/
theorem members_class (h : Heap) (bs : List Block) (Ls : Nat → List Nat) (hl : Layout h bs)
    (hL : Lists h bs Ls) (i j : Nat) (hi : i < 18) (hj : j < 18) (x : Nat) (hx : x ∈ Ls i)
    (hy : x ∈ Ls j) : i = j := by
  obtain ⟨b, hb, e1, e2, e3, e4⟩ := hL.members i hi x hx
  obtain ⟨c, hc, f1, f2, f3, f4⟩ := hL.members j hj x hy
  have := tiling_bp_inj h.mem bs _ _ hl.til b c hb hc (by rw [e1, f1])
  rw [← e4, ← f4, this]

theorem lists_sep (h : Heap) (bs : List Block) (Ls : Nat → List Nat) (hl : Layout h bs)
    (hL : Lists h bs Ls) (i : Nat) (hi : i < 18) : Sep (Ls i) := by
  unfold Sep
  have hn := hL.nodup i hi
  unfold List.Nodup at hn
  rw [List.pairwise_iff_forall_sublist] at hn ⊢
  intro a b hab
  have hne := hn hab
  have ha : a ∈ Ls i := hab.subset (by simp)
  have hb : b ∈ Ls i := hab.subset (by simp)
  rcases members_apart h bs Ls hl hL i i hi hi a b ha hb hne with g | g
  · left; omega
  · right; omega

/-- A block of the heap is not in a list when no list of its class has it. -/
theorem not_member_of_class (h : Heap) (bs : List Block) (Ls : Nat → List Nat)
    (hl : Layout h bs) (hL : Lists h bs Ls) (b : Block) (hb : b ∈ bs)
    (hn : b.bp ∉ Ls (class_of b.size)) (j : Nat) (hj : j < 18) : b.bp ∉ Ls j := by
  intro hx
  obtain ⟨c, hc, f1, f2, f3, f4⟩ := hL.members j hj b.bp hx
  have := tiling_bp_inj h.mem bs _ _ hl.til c b hc hb f1
  subst this
  rw [f4] at hn
  exact hn hx

/-! ### Frames for the layout and the lists -/

/-- The layout survives a change of memory that misses every boundary tag. -/
theorem layout_frame (h h1 : Heap) (bs : List Block) (hl : Layout h bs) (hs : Same h h1)
    (hf : ∀ a, h.seg_lst + 152 ≤ a →
      (∀ b ∈ bs, ¬ (b.bp ≤ a ∧ a + 16 < b.bp + b.size)) → h1.mem a = h.mem a) :
    Layout h1 bs := by
  obtain ⟨s1, s2, s3, s4⟩ := hs
  have hb := layout_brk h bs hl
  have hout : ∀ a, h.seg_lst + 152 ≤ a → (a + 8 < h.seg_lst + 176 ∨ h.brk ≤ a + 8) →
      h1.mem a = h.mem a := by
    intro a ha1 ha2
    apply hf a ha1
    intro b hb1 hb2
    have := layout_block h bs hl b hb1
    omega
  constructor
  · rw [s4]; exact hl.tbl_pos
  · rw [s4]; exact hl.tbl_al
  · rw [s3, s4]; exact hl.hl
  · rw [s4, hout _ (by omega) (by omega)]; exact hl.pro_h
  · rw [s4, hout _ (by omega) (by omega)]; exact hl.pro_f
  · rw [s4, s1]
    apply tiling_frame h.mem h1.mem bs _ _ hl.til
    intro b hb1
    have i := layout_block h bs hl b hb1
    constructor
    · apply hf _ (by omega)
      intro c hc hc2
      have j := layout_block h bs hl c hc
      rcases tiling_disjoint h.mem bs _ _ hl.til b hb1 c hc with g | g | g
      · subst g; omega
      · omega
      · omega
    · apply hf _ (by omega)
      intro c hc hc2
      have j := layout_block h bs hl c hc
      rcases tiling_disjoint h.mem bs _ _ hl.til b hb1 c hc with g | g | g
      · subst g; omega
      · omega
      · omega
  · rw [s1, hout _ (by omega) (by omega)]; exact hl.epi
  · rw [s1, s2]; exact hl.cap1
  · rw [s2, s4]; exact hl.cap2

/-- After a change of memory confined to the head of list `i` and the link
words of the blocks `S` (blocks of at least the minimum size that are in no
other list), the layout and the other lists are intact, and list `i` may be
replaced by any chain `L1` found at its head. -/
theorem frame_rest (h h1 : Heap) (bs : List Block) (Ls : Nat → List Nat) (hl : Layout h bs)
    (hL : Lists h bs Ls) (hs : Same h h1) (i : Nat) (hi : i < 18) (S : List Nat)
    (hS : ∀ y ∈ S, ∃ b ∈ bs, b.bp = y ∧ 32 ≤ b.size)
    (hSj : ∀ y ∈ S, ∀ j < 18, j ≠ i → y ∉ Ls j)
    (hf : ∀ a, a ≠ h.seg_lst + i * 8 → (∀ y ∈ S, a ≠ y ∧ a ≠ y + 8) → h1.mem a = h.mem a)
    (L1 : List Nat) (hc : Chain h1.mem 0 (h1.mem (h.seg_lst + i * 8)) L1)
    (hm : ∀ x ∈ L1, ∃ b ∈ bs, b.bp = x ∧ b.alloc = false ∧ 32 ≤ b.size ∧ class_of b.size = i)
    (hn : L1.Nodup) :
    Layout h1 bs ∧ Lists h1 bs (Function.update Ls i L1) := by
  have hs4 := hs.2.2.2
  constructor
  · apply layout_frame h h1 bs hl hs
    intro a ha1 ha2
    apply hf a (by omega)
    intro y hy
    obtain ⟨b, hb, e1, e2⟩ := hS y hy
    have := ha2 b hb
    omega
  · constructor
    · intro j hj
      by_cases hji : j = i
      · subst hji
        rw [Function.update_same, hs4]
        exact hc
      · rw [Function.update_noteq hji, hs4]
        have hsep : ∀ w ∈ Ls j, ∀ y ∈ S, w + 32 ≤ y ∨ y + 32 ≤ w := by
          intro w hw y hy
          obtain ⟨b, hb, e1, e2⟩ := hS y hy
          obtain ⟨c, hc, f1, f2, f3, f4⟩ := hL.members j hj w hw
          rcases tiling_disjoint h.mem bs _ _ hl.til b hb c hc with g | g | g
          · exfalso
            apply hSj y hy j hj hji
            rw [← e1, g, f1]; exact hw
          · right; omega
          · left; omega
        have e0 : h1.mem (h.seg_lst + j * 8) = h.mem (h.seg_lst + j * 8) := by
          apply hf _ (by omega)
          intro y hy
          obtain ⟨b, hb, e1, e2⟩ := hS y hy
          have := layout_block h bs hl b hb
          omega
        rw [e0]
        apply chain_frame h.mem h1.mem _ _ _ (hL.chains j hj)
        intro w hw
        obtain ⟨c, hc, f1, f2, f3, f4, f5, f6, f7⟩ := members_block h bs Ls hl hL j hj w hw
        constructor
        · apply hf _ (by omega)
          intro y hy
          have := hsep w hw y hy
          omega
        · apply hf _ (by omega)
          intro y hy
          have := hsep w hw y hy
          omega
    · intro j hj x hx
      by_cases hji : j = i
      · subst hji
        rw [Function.update_same] at hx
        exact hm x hx
      · rw [Function.update_noteq hji] at hx
        exact hL.members j hj x hx
    · intro j hj
      by_cases hji : j = i
      · subst hji
        rw [Function.update_same]
        exact hn
      · rw [Function.update_noteq hji]
        exact hL.nodup j hj

theorem erase_mid (L1 L2 : List Nat) (x : Nat) (h : x ∉ L1) :
    (L1 ++ x :: L2).erase x = L1 ++ L2 := by
  rw [List.erase_append_right _ h, List.erase_cons_head]

/-- Function `delete_block` on a member `x` of list `i`: it succeeds, list `i`
loses `x`, everything else is as before, and only the head of list `i` and link
words of members of list `i` may change. -/
theorem delete_block_spec (h : Heap) (bs : List Block) (Ls : Nat → List Nat)
    (hl : Layout h bs) (hL : Lists h bs Ls) (i : Nat) (hi : i < 18) (x : Nat)
    (hx : x ∈ Ls i) :
    ∃ h1, delete_block h x = some h1 ∧ Same h h1 ∧ Layout h1 bs ∧
      Lists h1 bs (Function.update Ls i ((Ls i).erase x)) ∧
      (∀ a, a ≠ h.seg_lst + i * 8 → (∀ y ∈ Ls i, a ≠ y ∧ a ≠ y + 8) → h1.mem a = h.mem a) := by
  obtain ⟨b, hb, e1, e2, e3, e4, e5, e6, e7⟩ := members_block h bs Ls hl hL i hi x hx
  obtain ⟨k1, k2, k3, k4, k5, k6, k7, k8⟩ := layout_block h bs hl b hb
  have hsz := (layout_size h bs hl b hb).1
  rw [e1] at hsz
  have hsep := lists_sep h bs Ls hl hL i hi
  have hnd := hL.nodup i hi
  have hch := hL.chains i hi
  obtain ⟨L1, L2, hsplit⟩ := List.append_of_mem hx
  have hS : ∀ y ∈ Ls i, ∃ b ∈ bs, b.bp = y ∧ 32 ≤ b.size := by
    intro y hy
    obtain ⟨c, hc, f1, f2, f3, f4⟩ := hL.members i hi y hy
    exact ⟨c, hc, f1, f3⟩
  have hSj : ∀ y ∈ Ls i, ∀ j < 18, j ≠ i → y ∉ Ls j := by
    intro y hy j hj hji hyj
    exact hji (members_class h bs Ls hl hL j i hj hi y hyj hy)
  have hmem : ∀ y ∈ (Ls i).erase x,
      ∃ b ∈ bs, b.bp = y ∧ b.alloc = false ∧ 32 ≤ b.size ∧ class_of b.size = i :=
    fun y hy => hL.members i hi y (List.mem_of_mem_erase hy)
  have hidx : get_list_index (toInt b.size) = some i := by
    rw [toInt_small _ k6, get_list_index_nat, e4]
  have hx0 : x ≠ 0 := by omega
  rcases List.eq_nil_or_concat L1 with hnil | ⟨L0, y, hcat⟩
  · -- `x` is the head of its list
    subst hnil
    simp only [List.nil_append] at hsplit
    rw [hsplit] at hch hsep hnd
    obtain ⟨c1, c2, c3⟩ := chain_unlink_head h.mem x L2 _ hch hsep
    have her : (Ls i).erase x = L2 := by rw [hsplit, List.erase_cons_head]
    let m1 : Nat → Nat :=
      PUT (unlink_head h.mem (L2.headD 0)) (h.seg_lst + i * 8) (L2.headD 0)
    let h1 : Heap := { h with mem := m1 }
    have hdel : delete_block h x = some h1 := by
      unfold delete_block
      simp only [NULL, WSIZE, prev_of, next_of, seg_at, Heap.put, hsz, hidx, c1, c2, if_neg hx0,
        if_true]
      by_cases hz : L2.headD 0 = 0
      · simp only [hz, if_true, h1, m1, unlink_head]
      · simp only [hz, if_false, h1, m1, unlink_head]
    have hfr : ∀ a, a ≠ h.seg_lst + i * 8 → (∀ y ∈ Ls i, a ≠ y ∧ a ≠ y + 8) →
        h1.mem a = h.mem a := by
      intro a ha1 ha2
      show PUT (unlink_head h.mem (L2.headD 0)) (h.seg_lst + i * 8) (L2.headD 0) a = h.mem a
      rw [PUT_other _ _ _ _ ha1]
      unfold unlink_head
      split
      · rfl
      · rename_i hz
        have := ha2 (L2.headD 0) (by rw [hsplit]; exact List.mem_cons_of_mem _ (headD_mem L2 hz))
        rw [PUT_other _ _ _ _ (by omega)]
    have hsame : Same h h1 := ⟨rfl, rfl, rfl, rfl⟩
    have hc1 : Chain h1.mem 0 (h1.mem (h.seg_lst + i * 8)) ((Ls i).erase x) := by
      rw [her]
      show Chain (PUT _ _ _) 0 (PUT _ _ _ _) L2
      rw [PUT_same]
      apply chain_frame _ _ _ _ _ c3
      intro w hw
      have hwi : w ∈ Ls i := by rw [hsplit]; exact List.mem_cons_of_mem _ hw
      obtain ⟨c, hc, f1, f2, f3, f4, f5, f6, f7⟩ := members_block h bs Ls hl hL i hi w hwi
      constructor
      · rw [PUT_other _ _ _ _ (by omega)]
      · rw [PUT_other _ _ _ _ (by omega)]
    obtain ⟨r1, r2⟩ := frame_rest h h1 bs Ls hl hL hsame i hi (Ls i) hS hSj hfr _ hc1 hmem
      (hnd.erase x |> fun t => by rw [hsplit]; exact t)
    exact ⟨h1, hdel, hsame, r1, r2, hfr⟩
  · -- `x` has a predecessor `y`
    rw [List.concat_eq_append] at hcat
    subst hcat
    have hsplit2 : Ls i = L0 ++ y :: x :: L2 := by rw [hsplit]; simp
    rw [hsplit2] at hch hsep hnd
    obtain ⟨c1, c2, c3, c4⟩ := chain_unlink_inner h.mem x y L2 L0 _ _ hch hsep
    have hxn : x ∉ L0 ++ [y] := by
      intro hmem1
      have : (L0 ++ y :: x :: L2) = (L0 ++ [y]) ++ x :: L2 := by simp
      rw [this] at hnd
      exact (List.nodup_append.1 hnd).2.2 hmem1 (by simp)
    have her : (Ls i).erase x = L0 ++ y :: L2 := by
      rw [hsplit, erase_mid _ _ _ hxn]; simp
    let h1 : Heap := { h with mem := unlink_inner h.mem y (L2.headD 0) }
    have hdel : delete_block h x = some h1 := by
      unfold delete_block
      simp only [NULL, WSIZE, prev_of, next_of, seg_at, Heap.put, hsz, hidx, c1, c3, if_neg hx0,
        if_neg c2]
      by_cases hz : L2.headD 0 = 0
      · simp only [hz, if_true, h1, unlink_inner]
      · simp only [hz, if_false, h1, unlink_inner]
    have hyi : y ∈ Ls i := by rw [hsplit2]; simp
    have hfr : ∀ a, a ≠ h.seg_lst + i * 8 → (∀ y ∈ Ls i, a ≠ y ∧ a ≠ y + 8) →
        h1.mem a = h.mem a := by
      intro a ha1 ha2
      show unlink_inner h.mem y (L2.headD 0) a = h.mem a
      have hy := ha2 y hyi
      unfold unlink_inner
      split
      · rw [PUT_other _ _ _ _ (by omega)]
      · rename_i hz
        have := ha2 (L2.headD 0) (by
          rw [hsplit2]
          exact List.mem_append_right _
            (List.mem_cons_of_mem _ (List.mem_cons_of_mem _ (headD_mem L2 hz))))
        rw [PUT_other _ _ _ _ (by omega), PUT_other _ _ _ _ (by omega)]
    have hsame : Same h h1 := ⟨rfl, rfl, rfl, rfl⟩
    have hc1 : Chain h1.mem 0 (h1.mem (h.seg_lst + i * 8)) ((Ls i).erase x) := by
      rw [her]
      have e0 : h1.mem (h.seg_lst + i * 8) = h.mem (h.seg_lst + i * 8) := by
        show unlink_inner h.mem y (L2.headD 0) _ = _
        obtain ⟨c, hc, f1, f2, f3, f4, f5, f6, f7⟩ := members_block h bs Ls hl hL i hi y hyi
        unfold unlink_inner
        split
        · rw [PUT_other _ _ _ _ (by omega)]
        · rename_i hz
          have hzi : L2.headD 0 ∈ Ls i := by
            rw [hsplit2]
            exact List.mem_append_right _
              (List.mem_cons_of_mem _ (List.mem_cons_of_mem _ (headD_mem L2 hz)))
          obtain ⟨d, hd, g1, g2, g3, g4, g5, g6, g7⟩ :=
            members_block h bs Ls hl hL i hi _ hzi
          rw [PUT_other _ _ _ _ (by omega), PUT_other _ _ _ _ (by omega)]
      rw [e0]
      exact c4
    have hnd2 : ((Ls i).erase x).Nodup := by
      rw [hsplit2]; exact hnd.erase x
    obtain ⟨r1, r2⟩ := frame_rest h h1 bs Ls hl hL hsame i hi (Ls i) hS hSj hfr _ hc1 hmem hnd2
    exact ⟨h1, hdel, hsame, r1, r2, hfr⟩

/-- Function `insert_block` succeeds when the block pointer is not null and
`size` is the size in the header; the memory afterwards. -/
theorem insert_block_raw (h : Heap) (bp size : Nat) (h0 : bp ≠ 0) (h1 : size < 2 ^ 31)
    (h2 : GET_SIZE (h.mem (HDRP bp)) = size) :
    insert_block h bp (size : Int) = some { h with mem :=
      (PUT (link_head h.mem bp (h.mem (h.seg_lst + class_of size * 8)))
        (h.seg_lst + class_of size * 8) bp) } := by
  unfold insert_block
  have hidx : get_list_index (size : Int) = some (class_of size) := get_list_index_nat size
  have hlt : ¬ ((size : Int) < 0) := by omega
  have heq : ¬ ((size : Int) ≠ toInt (GET_SIZE (h.mem (HDRP bp)))) := by
    rw [h2, toInt_small _ h1]; simp
  simp only [NULL, WSIZE, seg_at, Heap.put, hidx, if_neg h0, if_neg hlt, if_neg heq]
  by_cases hz : h.mem (h.seg_lst + class_of size * 8) = 0
  · simp only [hz, if_true, link_head]
  · simp only [hz, if_false, link_head]

/-- Function `insert_block` on a free block `b` of at least the minimum size
that is in no list: it succeeds, `b` becomes the first member of the list of
its class, everything else is as before, and only the head of that list, the
link words of `b` and link words of members of that list may change. -/
theorem insert_block_spec (h : Heap) (bs : List Block) (Ls : Nat → List Nat)
    (hl : Layout h bs) (hL : Lists h bs Ls) (b : Block) (hb : b ∈ bs)
    (hfree : b.alloc = false) (hsz : 32 ≤ b.size) (hn : b.bp ∉ Ls (class_of b.size)) :
    ∃ h1, insert_block h b.bp (b.size : Int) = some h1 ∧ Same h h1 ∧ Layout h1 bs ∧
      Lists h1 bs (Function.update Ls (class_of b.size) (b.bp :: Ls (class_of b.size))) ∧
      (∀ a, a ≠ h.seg_lst + class_of b.size * 8 →
        (∀ y ∈ b.bp :: Ls (class_of b.size), a ≠ y ∧ a ≠ y + 8) → h1.mem a = h.mem a) ∧
      h1.mem = PUT (link_head h.mem b.bp (h.mem (h.seg_lst + class_of b.size * 8)))
        (h.seg_lst + class_of b.size * 8) b.bp := by
  have hi := class_of_lt b.size
  generalize hidef : class_of b.size = i at *
  obtain ⟨k1, k2, k3, k4, k5, k6, k7, k8⟩ := layout_block h bs hl b hb
  have hsize := (layout_size h bs hl b hb).1
  have hch := hL.chains i hi
  have hnd := hL.nodup i hi
  have hx0 : b.bp ≠ 0 := by omega
  have hapart : ∀ y ∈ Ls i, b.bp + 32 ≤ y ∨ y + 32 ≤ b.bp := by
    intro y hy
    obtain ⟨c, hc, f1, f2, f3, f4⟩ := hL.members i hi y hy
    rcases tiling_disjoint h.mem bs _ _ hl.til b hb c hc with g | g | g
    · exfalso; apply hn; rw [g, f1]; exact hy
    · left; omega
    · right; omega
  have hsep : Sep (b.bp :: Ls i) := by
    unfold Sep
    rw [List.pairwise_cons]
    refine ⟨?_, lists_sep h bs Ls hl hL i hi⟩
    intro y hy
    have := hapart y hy
    omega
  have hlink := chain_link_head h.mem b.bp (Ls i) _ hch hsep hx0
  let m1 : Nat → Nat := PUT (link_head h.mem b.bp (h.mem (h.seg_lst + i * 8))) (h.seg_lst + i * 8) b.bp
  let h1 : Heap := { h with mem := m1 }
  have hins : insert_block h b.bp (b.size : Int) = some h1 := by
    rw [insert_block_raw h b.bp b.size hx0 k6 hsize, hidef]
  have hsame : Same h h1 := ⟨rfl, rfl, rfl, rfl⟩
  have hfr : ∀ a, a ≠ h.seg_lst + i * 8 → (∀ y ∈ b.bp :: Ls i, a ≠ y ∧ a ≠ y + 8) →
      h1.mem a = h.mem a := by
    intro a ha1 ha2
    show PUT (link_head h.mem b.bp (h.mem (h.seg_lst + i * 8))) (h.seg_lst + i * 8) b.bp a = _
    rw [PUT_other _ _ _ _ ha1]
    have hx := ha2 b.bp (by simp)
    unfold link_head
    split
    · rw [PUT_other _ _ _ _ (by omega), PUT_other _ _ _ _ (by omega)]
    · rename_i hz
      have hc0 := chain_head h.mem _ _ _ hch
      have hmem : h.mem (h.seg_lst + i * 8) ∈ Ls i := by
        rw [hc0] at hz ⊢
        exact headD_mem _ hz
      have := ha2 _ (List.mem_cons_of_mem _ hmem)
      rw [PUT_other _ _ _ _ (by omega), PUT_other _ _ _ _ (by omega),
        PUT_other _ _ _ _ (by omega)]
  have hS : ∀ y ∈ b.bp :: Ls i, ∃ c ∈ bs, c.bp = y ∧ 32 ≤ c.size := by
    intro y hy
    rcases List.mem_cons.1 hy with e | hy
    · exact ⟨b, hb, e.symm, hsz⟩
    · obtain ⟨c, hc, f1, f2, f3, f4⟩ := hL.members i hi y hy
      exact ⟨c, hc, f1, f3⟩
  have hSj : ∀ y ∈ b.bp :: Ls i, ∀ j < 18, j ≠ i → y ∉ Ls j := by
    intro y hy j hj hji hyj
    rcases List.mem_cons.1 hy with e | hy
    · subst e
      exact not_member_of_class h bs Ls hl hL b hb (by rw [hidef]; exact hn) j hj hyj
    · exact hji (members_class h bs Ls hl hL j i hj hi y hyj hy)
  have hc1 : Chain h1.mem 0 (h1.mem (h.seg_lst + i * 8)) (b.bp :: Ls i) := by
    show Chain (PUT _ _ _) 0 (PUT _ _ _ _) _
    rw [PUT_same]
    apply chain_frame _ _ _ _ _ hlink
    intro w hw
    obtain ⟨c, hc, f1, f2⟩ := hS w hw
    have := layout_block h bs hl c hc
    constructor
    · rw [PUT_other _ _ _ _ (by omega)]
    · rw [PUT_other _ _ _ _ (by omega)]
  have hmem : ∀ y ∈ b.bp :: Ls i,
      ∃ c ∈ bs, c.bp = y ∧ c.alloc = false ∧ 32 ≤ c.size ∧ class_of c.size = i := by
    intro y hy
    rcases List.mem_cons.1 hy with e | hy
    · exact ⟨b, hb, e.symm, hfree, hsz, hidef⟩
    · exact hL.members i hi y hy
  obtain ⟨r1, r2⟩ := frame_rest h h1 bs Ls hl hL hsame i hi _ hS hSj hfr _ hc1 hmem
    (List.nodup_cons.2 ⟨hn, hnd⟩)
  exact ⟨h1, hins, hsame, r1, r2, hfr, rfl⟩

/-- Rewriting the boundary tags inside a run `M` of blocks that are in no list
(so that `M1` tiles the same span afterwards) keeps the layout and the lists. -/
theorem retile (h h1 : Heap) (A M M1 B : List Block) (Ls : Nat → List Nat) (s e : Nat)
    (hl : Layout h (A ++ M ++ B)) (hL : Lists h (A ++ M ++ B) Ls) (hs : Same h h1)
    (hA : Tiling h.mem (h.seg_lst + 176) A s) (hM1 : Tiling h1.mem s M1 e)
    (hB : Tiling h.mem e B h.brk) (hse : s < e)
    (hf : ∀ a, (a + 8 < s ∨ e ≤ a + 8) → h1.mem a = h.mem a)
    (hnot : ∀ b ∈ M, ∀ i < 18, b.bp ∉ Ls i) :
    Layout h1 (A ++ M1 ++ B) ∧ Lists h1 (A ++ M1 ++ B) Ls := by
  obtain ⟨s1, s2, s3, s4⟩ := hs
  have hbrk := layout_brk h _ hl
  have hsA := tiling_le _ _ _ _ hA
  have heB := tiling_le _ _ _ _ hB
  have hA1 : Tiling h1.mem (h.seg_lst + 176) A s := by
    apply tiling_frame _ _ _ _ _ hA
    intro b hb
    have := tiling_mem _ _ _ _ hA b hb
    constructor
    · apply hf; left; omega
    · apply hf; left; omega
  have hB1 : Tiling h1.mem e B h.brk := by
    apply tiling_frame _ _ _ _ _ hB
    intro b hb
    have := tiling_mem _ _ _ _ hB b hb
    constructor
    · apply hf; right; omega
    · apply hf; right; omega
  have hmemAB : ∀ i < 18, ∀ x ∈ Ls i, ∃ b, (b ∈ A ∨ b ∈ B) ∧ b.bp = x ∧ b.alloc = false ∧
      32 ≤ b.size ∧ class_of b.size = i := by
    intro i hi x hx
    obtain ⟨b, hb, f1, f2, f3, f4⟩ := hL.members i hi x hx
    refine ⟨b, ?_, f1, f2, f3, f4⟩
    rcases List.mem_append.1 hb with hb | hb
    · rcases List.mem_append.1 hb with hb | hb
      · exact Or.inl hb
      · exfalso; apply hnot b hb i hi; rw [f1]; exact hx
    · exact Or.inr hb
  constructor
  · constructor
    · rw [s4]; exact hl.tbl_pos
    · rw [s4]; exact hl.tbl_al
    · rw [s3, s4]; exact hl.hl
    · rw [s4, hf _ (by omega)]; exact hl.pro_h
    · rw [s4, hf _ (by omega)]; exact hl.pro_f
    · rw [s4, s1, List.append_assoc]
      exact (tiling_append _ _ _ _ _).2 ⟨s, hA1, (tiling_append _ _ _ _ _).2 ⟨e, hM1, hB1⟩⟩
    · rw [s1, hf _ (by omega)]; exact hl.epi
    · rw [s1, s2]; exact hl.cap1
    · rw [s2, s4]; exact hl.cap2
  · constructor
    · intro i hi
      rw [s4, hf _ (by omega)]
      apply chain_frame _ _ _ _ _ (hL.chains i hi)
      intro x hx
      obtain ⟨b, hb, f1, f2, f3, f4⟩ := hmemAB i hi x hx
      rcases hb with hb | hb
      · have := tiling_mem _ _ _ _ hA b hb
        constructor
        · apply hf; left; omega
        · apply hf; left; omega
      · have := tiling_mem _ _ _ _ hB b hb
        constructor
        · apply hf; right; omega
        · apply hf; right; omega
    · intro i hi x hx
      obtain ⟨b, hb, f⟩ := hmemAB i hi x hx
      refine ⟨b, ?_, f⟩
      rcases hb with hb | hb
      · exact List.mem_append_left _ (List.mem_append_left _ hb)
      · exact List.mem_append_right _ hb
    · exact hL.nodup

/-! ### Writing the boundary tags of a block -/

theorem GET_SIZE_add (size a : Nat) (h1 : size % 8 = 0) (h2 : size < 2 ^ 64) (h3 : a ≤ 1) :
    GET_SIZE (size + a) = size := by
  rw [GET_SIZE_eq]; omega

theorem put_tags (h : Heap) (bp size a : Nat) (h1 : size % 8 = 0) (h2 : size < 2 ^ 64)
    (h3 : a ≤ 1) :
    (h.put (HDRP bp) (PACK size a)).put (FTRP (h.put (HDRP bp) (PACK size a)).mem bp)
      (PACK size a) = { h with mem := set_tags h.mem bp size a } := by
  simp only [Heap.put, FTRP, HDRP, DSIZE, WSIZE, set_tags, PUT_same, PACK_eq size a h1 h3,
    GET_SIZE_add size a h1 h2 h3]

theorem set_tags_hdr (m : Nat → Nat) (bp size a : Nat) (h1 : 16 ≤ size) (h2 : 8 ≤ bp) :
    set_tags m bp size a (bp - 8) = size + a := by
  unfold set_tags
  rw [PUT_other _ _ _ _ (by omega), PUT_same]

theorem set_tags_ftr (m : Nat → Nat) (bp size a : Nat) :
    set_tags m bp size a (bp + size - 16) = size + a := by
  unfold set_tags
  rw [PUT_same]

theorem set_tags_other (m : Nat → Nat) (bp size a x : Nat) (h1 : 16 ≤ size) (h2 : 8 ≤ bp)
    (h : x + 8 < bp ∨ bp + size ≤ x + 8 ∨ (bp ≤ x ∧ x + 16 < bp + size)) :
    set_tags m bp size a x = m x := by
  unfold set_tags
  rw [PUT_other _ _ _ _ (by omega), PUT_other _ _ _ _ (by omega)]

theorem tiling_one (m : Nat → Nat) (b : Block) (h1 : 16 ≤ b.size) (h2 : b.size % 8 = 0)
    (h3 : 8 ≤ b.bp) :
    Tiling (set_tags m b.bp b.size (if b.alloc then 1 else 0)) b.bp [b] (b.bp + b.size) := by
  refine ⟨rfl, h1, h2, ?_, ?_, rfl⟩
  · rw [set_tags_hdr _ _ _ _ h1 h3]; rfl
  · rw [set_tags_ftr]; rfl

theorem next_set_tags (m : Nat → Nat) (bp size a : Nat) (h0 : 16 ≤ size) (h1 : size % 8 = 0)
    (h2 : size < 2 ^ 64) (h3 : a ≤ 1) (h4 : 8 ≤ bp) :
    NEXT_BLKP (set_tags m bp size a) bp = bp + size := by
  unfold NEXT_BLKP WSIZE
  rw [set_tags_hdr _ _ _ _ h0 h4, GET_SIZE_add size a h1 h2 h3]

theorem keeps_refl (h : Heap) (P : List Block) : Keeps h h P := fun _ _ _ _ _ _ => rfl

theorem keeps_trans (h h1 h2 : Heap) (P : List Block) (k1 : Keeps h h1 P) (k2 : Keeps h1 h2 P) :
    Keeps h h2 P := by
  intro c hc ha a ha1 ha2
  rw [k2 c hc ha a ha1 ha2, k1 c hc ha a ha1 ha2]

theorem keeps_sub (h h1 : Heap) (P Q : List Block) (k1 : Keeps h h1 P) (hs : ∀ c ∈ Q, c ∈ P) :
    Keeps h h1 Q := fun c hc => k1 c (hs c hc)

/-- A change of memory confined to the table and to link words of free blocks
of at least the minimum size keeps every allocated block. -/
theorem keeps_of_links (h h1 : Heap) (bs : List Block) (hl : Layout h bs) (i : Nat)
    (hi : i < 18) (S : List Nat)
    (hS : ∀ y ∈ S, ∃ b ∈ bs, b.bp = y ∧ b.alloc = false ∧ 32 ≤ b.size)
    (hf : ∀ a, a ≠ h.seg_lst + i * 8 → (∀ y ∈ S, a ≠ y ∧ a ≠ y + 8) → h1.mem a = h.mem a) :
    Keeps h h1 bs := by
  intro c hc ha a ha1 ha2
  have k := layout_block h bs hl c hc
  apply hf a (by omega)
  intro y hy
  obtain ⟨b, hb, e1, e2, e3⟩ := hS y hy
  rcases tiling_disjoint h.mem bs _ _ hl.til b hb c hc with g | g | g
  · subst g; rw [ha] at e2; exact absurd e2 (by simp)
  · omega
  · omega

theorem members_outside (h : Heap) (A M B : List Block) (Ls : Nat → List Nat) (s e : Nat)
    (hl : Layout h (A ++ M ++ B)) (hL : Lists h (A ++ M ++ B) Ls)
    (hA : Tiling h.mem (h.seg_lst + 176) A s) (hB : Tiling h.mem e B h.brk)
    (hnot : ∀ b ∈ M, ∀ i < 18, b.bp ∉ Ls i) :
    ∀ i < 18, ∀ x ∈ Ls i, x + 32 ≤ s ∨ e ≤ x := by
  intro i hi x hx
  obtain ⟨b, hb, f1, f2, f3, f4⟩ := hL.members i hi x hx
  rcases List.mem_append.1 hb with hb | hb
  · rcases List.mem_append.1 hb with hb | hb
    · have := tiling_mem _ _ _ _ hA b hb
      left; omega
    · exfalso; apply hnot b hb i hi; rw [f1]; exact hx
  · have := tiling_mem _ _ _ _ hB b hb
    right; omega

theorem keeps_retile (h h1 : Heap) (A B : List Block) (s e : Nat)
    (hA : Tiling h.mem (h.seg_lst + 176) A s) (hB : Tiling h.mem e B h.brk)
    (hf : ∀ a, (a + 8 < s ∨ e ≤ a + 8) → h1.mem a = h.mem a) : Keeps h h1 (A ++ B) := by
  intro c hc _ a ha1 ha2
  apply hf
  rcases List.mem_append.1 hc with hc | hc
  · have := tiling_mem _ _ _ _ hA c hc
    left; omega
  · have := tiling_mem _ _ _ _ hB c hc
    right; omega

/-- Splitting the layout at a block. -/
theorem layout_split (h : Heap) (A B : List Block) (b : Block) (hl : Layout h (A ++ b :: B)) :
    Tiling h.mem (h.seg_lst + 176) A b.bp ∧ Tiling h.mem (b.bp + b.size) B h.brk := by
  obtain ⟨s, hA, hbB⟩ := (tiling_append _ _ _ _ _).1 hl.til
  obtain ⟨t1, t2, t3, t4, t5, hB⟩ := hbB
  rw [t1]
  exact ⟨hA, hB⟩

theorem del_not_mem (h : Heap) (bs : List Block) (Ls : Nat → List Nat) (hl : Layout h bs)
    (hL : Lists h bs Ls) (b : Block) (hb : b ∈ bs) :
    ∀ j < 18, b.bp ∉ del Ls b j := by
  intro j hj hx
  unfold del at hx
  by_cases hji : j = class_of b.size
  · subst hji
    rw [Function.update_same] at hx
    exact (List.Nodup.not_mem_erase (hL.nodup _ hj)) hx
  · rw [Function.update_noteq hji] at hx
    obtain ⟨c, hc, f1, f2, f3, f4⟩ := hL.members j hj b.bp hx
    have := tiling_bp_inj h.mem bs _ _ hl.til c b hc hb f1
    subst this
    exact hji f4.symm

/-- Removing a member from its list, in the form used by `place` and
`coalesce`. -/
theorem unlist_spec (h : Heap) (A B : List Block) (b : Block) (Ls : Nat → List Nat)
    (hl : Layout h (A ++ [b] ++ B)) (hL : Lists h (A ++ [b] ++ B) Ls)
    (hin : b.bp ∈ Ls (class_of b.size)) :
    ∃ h1, delete_block h b.bp = some h1 ∧ Same h h1 ∧ Layout h1 (A ++ [b] ++ B) ∧
      Lists h1 (A ++ [b] ++ B) (del Ls b) ∧ Keeps h h1 (A ++ [b] ++ B) ∧
      (∀ j < 18, b.bp ∉ del Ls b j) ∧ b.alloc = false ∧ 32 ≤ b.size := by
  have hb : b ∈ A ++ [b] ++ B := by simp
  have hi := class_of_lt b.size
  obtain ⟨c, hc, f1, f2, f3, f4⟩ := hL.members _ hi _ hin
  have hcb := tiling_bp_inj _ _ _ _ hl.til c b hc hb f1
  subst hcb
  obtain ⟨h1, d1, d2, d3, d4, d5⟩ := delete_block_spec h _ Ls hl hL _ hi _ hin
  refine ⟨h1, d1, d2, d3, d4, ?_, del_not_mem h _ Ls hl hL c hb, f2, f3⟩
  apply keeps_of_links h h1 _ hl _ hi (Ls (class_of c.size)) _ d5
  intro y hy
  obtain ⟨e, he, g1, g2, g3, g4⟩ := hL.members _ hi y hy
  exact ⟨e, he, g1, g2, g3⟩

/-- Splitting the layout around a run of blocks. -/
theorem layout_split3 (h : Heap) (A M B : List Block) (hl : Layout h (A ++ M ++ B)) :
    ∃ s e, Tiling h.mem (h.seg_lst + 176) A s ∧ Tiling h.mem s M e ∧ Tiling h.mem e B h.brk ∧
      h.seg_lst + 176 ≤ s ∧ s ≤ e ∧ e ≤ h.brk ∧ s % 8 = 0 ∧ e % 8 = 0 ∧
      h.brk < h.seg_lst + 2 ^ 31 := by
  obtain ⟨e, hAM, hB⟩ := (tiling_append _ _ _ _ _).1 hl.til
  obtain ⟨s, hA, hM⟩ := (tiling_append _ _ _ _ _).1 hAM
  have h0 : (h.seg_lst + 176) % 8 = 0 := by have := hl.tbl_al; omega
  have a1 := (tiling_aligned _ _ _ _ hA h0).1
  have a2 := (tiling_aligned _ _ _ _ hM a1).1
  have := hl.cap1
  have := hl.cap2
  exact ⟨s, e, hA, hM, hB, tiling_le _ _ _ _ hA, tiling_le _ _ _ _ hM, tiling_le _ _ _ _ hB,
    a1, a2, by omega⟩

/-- Replacing a run of blocks that are in no list by one block with the given
allocated bit. -/
theorem retile_set1 (h : Heap) (A M B : List Block) (Ls : Nat → List Nat) (s e sz a : Nat)
    (hl : Layout h (A ++ M ++ B)) (hL : Lists h (A ++ M ++ B) Ls)
    (hA : Tiling h.mem (h.seg_lst + 176) A s) (hB : Tiling h.mem e B h.brk)
    (hsum : s + sz = e) (hse : 16 ≤ sz) (hal : sz % 8 = 0) (ha : a ≤ 1)
    (hnot : ∀ b ∈ M, ∀ i < 18, b.bp ∉ Ls i) (h1 : Heap)
    (hh1 : h1 = { h with mem := set_tags h.mem s sz a }) :
    Same h h1 ∧ Layout h1 (A ++ [⟨s, sz, decide (a = 1)⟩] ++ B) ∧
      Lists h1 (A ++ [⟨s, sz, decide (a = 1)⟩] ++ B) Ls ∧ Keeps h h1 (A ++ B) ∧
      (∀ i < 18, ∀ x ∈ Ls i, x + 32 ≤ s ∨ e ≤ x) := by
  subst hh1
  obtain rfl : sz = e - s := by omega
  have hsA := tiling_le _ _ _ _ hA
  have hf : ∀ x, (x + 8 < s ∨ e ≤ x + 8) →
      set_tags h.mem s (e - s) a x = h.mem x := by
    intro x hx
    rw [set_tags_other _ _ _ _ _ (by omega) (by omega) (by omega)]
  have hM1 : Tiling (set_tags h.mem s (e - s) a) s [⟨s, e - s, decide (a = 1)⟩] e := by
    refine ⟨rfl, by simp only []; omega, hal, ?_, ?_, ?_⟩
    · rw [set_tags_hdr _ _ _ _ (by omega) (by omega)]
      unfold Block.tag
      by_cases h1 : a = 1
      · simp [h1]
      · have : a = 0 := by omega
        simp [this]
    · show set_tags h.mem s (e - s) a (s + (e - s) - 16) = _
      rw [set_tags_ftr]
      unfold Block.tag
      by_cases h1 : a = 1
      · simp [h1]
      · have : a = 0 := by omega
        simp [this]
    · show s + (e - s) = e
      omega
  obtain ⟨r1, r2⟩ := retile h { h with mem := set_tags h.mem s (e - s) a } A M _ B Ls s e hl hL
    ⟨rfl, rfl, rfl, rfl⟩ hA hM1 hB (by omega) hf hnot
  exact ⟨⟨rfl, rfl, rfl, rfl⟩, r1, r2, keeps_retile h _ A B s e hA hB hf,
    members_outside h A M B Ls s e hl hL hA hB hnot⟩

/-- Replacing a run of blocks that are in no list by two blocks with the
given sizes and allocated bits. -/
theorem retile_set2 (h : Heap) (A M B : List Block) (Ls : Nat → List Nat)
    (s e s1 s2 a1 a2 : Nat)
    (hl : Layout h (A ++ M ++ B)) (hL : Lists h (A ++ M ++ B) Ls)
    (hA : Tiling h.mem (h.seg_lst + 176) A s) (hB : Tiling h.mem e B h.brk)
    (hs1 : 16 ≤ s1) (hs2 : 16 ≤ s2) (hal1 : s1 % 8 = 0) (hal2 : s2 % 8 = 0)
    (hsum : s + s1 + s2 = e) (ha1 : a1 ≤ 1) (ha2 : a2 ≤ 1)
    (hnot : ∀ b ∈ M, ∀ i < 18, b.bp ∉ Ls i) (h1 : Heap)
    (hh1 : h1 = { h with mem := set_tags (set_tags h.mem s s1 a1) (s + s1) s2 a2 }) :
    Same h h1 ∧
      Layout h1 (A ++ [⟨s, s1, decide (a1 = 1)⟩, ⟨s + s1, s2, decide (a2 = 1)⟩] ++ B) ∧
      Lists h1 (A ++ [⟨s, s1, decide (a1 = 1)⟩, ⟨s + s1, s2, decide (a2 = 1)⟩] ++ B) Ls ∧
      Keeps h h1 (A ++ B) ∧ (∀ i < 18, ∀ x ∈ Ls i, x + 32 ≤ s ∨ e ≤ x) := by
  subst hh1
  have hsA := tiling_le _ _ _ _ hA
  have hf : ∀ x, (x + 8 < s ∨ e ≤ x + 8) →
      set_tags (set_tags h.mem s s1 a1) (s + s1) s2 a2 x = h.mem x := by
    intro x hx
    rw [set_tags_other _ _ _ _ _ (by omega) (by omega) (by omega),
      set_tags_other _ _ _ _ _ (by omega) (by omega) (by omega)]
  have htag : ∀ (sz a : Nat), a ≤ 1 → sz + a = (Block.mk 0 sz (decide (a = 1))).tag := by
    intro sz a ha
    unfold Block.tag
    by_cases h1 : a = 1
    · simp [h1]
    · have : a = 0 := by omega
      simp [this]
  have hM1 : Tiling (set_tags (set_tags h.mem s s1 a1) (s + s1) s2 a2) s
      [⟨s, s1, decide (a1 = 1)⟩, ⟨s + s1, s2, decide (a2 = 1)⟩] e := by
    refine ⟨rfl, hs1, hal1, ?_, ?_, rfl, hs2, hal2, ?_, ?_, ?_⟩
    · rw [set_tags_other _ _ _ _ _ (by omega) (by omega) (by omega),
        set_tags_hdr _ _ _ _ (by omega) (by omega)]
      exact htag s1 a1 ha1
    · show set_tags (set_tags h.mem s s1 a1) (s + s1) s2 a2 (s + s1 - 16) = _
      rw [set_tags_other _ _ _ _ _ (by omega) (by omega) (by omega), set_tags_ftr]
      exact htag s1 a1 ha1
    · show set_tags (set_tags h.mem s s1 a1) (s + s1) s2 a2 (s + s1 - 8) = _
      rw [set_tags_hdr _ _ _ _ (by omega) (by omega)]
      exact htag s2 a2 ha2
    · show set_tags (set_tags h.mem s s1 a1) (s + s1) s2 a2 (s + s1 + s2 - 16) = _
      rw [set_tags_ftr]
      exact htag s2 a2 ha2
    · show s + s1 + s2 = e
      exact hsum
  obtain ⟨r1, r2⟩ := retile h
    { h with mem := set_tags (set_tags h.mem s s1 a1) (s + s1) s2 a2 } A M _ B Ls s e hl hL
    ⟨rfl, rfl, rfl, rfl⟩ hA hM1 hB (by omega) hf hnot
  exact ⟨⟨rfl, rfl, rfl, rfl⟩, r1, r2, keeps_retile h _ A B s e hA hB hf,
    members_outside h A M B Ls s e hl hL hA hB hnot⟩

theorem tiling_single (m : Nat → Nat) (b : Block) (s e : Nat) (h : Tiling m s [b] e) :
    b.bp = s ∧ e = s + b.size := by
  obtain ⟨h1, _, _, _, _, h6⟩ := h
  exact ⟨h1, h6.symm⟩

theorem same_trans (h h1 h2 : Heap) (a : Same h h1) (b : Same h1 h2) : Same h h2 :=
  ⟨b.1.trans a.1, b.2.1.trans a.2.1, b.2.2.1.trans a.2.2.1, b.2.2.2.trans a.2.2.2⟩

theorem keeps_AB (h h1 : Heap) (A M B : List Block) (k : Keeps h h1 (A ++ M ++ B)) :
    Keeps h h1 (A ++ B) := by
  apply keeps_sub h h1 _ _ k
  intro e he
  rcases List.mem_append.1 he with he | he
  · exact List.mem_append_left _ (List.mem_append_left _ he)
  · exact List.mem_append_right _ he

/-- Function `insert_block` in the form used after a run of blocks was
retiled: the new free block is in no list because every member lies outside
the run. -/
theorem relist_spec (h : Heap) (A M B : List Block) (b : Block) (Ls : Nat → List Nat)
    (s e : Nat) (hl : Layout h (A ++ M ++ B)) (hL : Lists h (A ++ M ++ B) Ls) (hb : b ∈ M)
    (hfree : b.alloc = false) (hsz : 32 ≤ b.size) (hs : s ≤ b.bp) (he : b.bp < e)
    (hout : ∀ i < 18, ∀ x ∈ Ls i, x + 32 ≤ s ∨ e ≤ x) :
    ∃ h1, insert_block h b.bp (b.size : Int) = some h1 ∧ Same h h1 ∧ Layout h1 (A ++ M ++ B) ∧
      Lists h1 (A ++ M ++ B) (ins Ls b) ∧ Keeps h h1 (A ++ M ++ B) := by
  have hbm : b ∈ A ++ M ++ B := List.mem_append_left _ (List.mem_append_right _ hb)
  have hn : b.bp ∉ Ls (class_of b.size) := by
    intro hx
    have := hout _ (class_of_lt _) _ hx
    omega
  obtain ⟨h1, i1, i2, i3, i4, i5, _⟩ := insert_block_spec h _ Ls hl hL b hbm hfree hsz hn
  refine ⟨h1, i1, i2, i3, i4, ?_⟩
  apply keeps_of_links h h1 _ hl _ (class_of_lt b.size) _ _ i5
  intro y hy
  rcases List.mem_cons.1 hy with e | hy
  · exact ⟨b, hbm, e.symm, hfree, hsz⟩
  · obtain ⟨c, hc, g1, g2, g3, g4⟩ := hL.members _ (class_of_lt _) y hy
    exact ⟨c, hc, g1, g2, g3⟩

/-- Function `place`, when the remainder qualifies as a free block and the
adjusted size is not the tuned size 128. -/
theorem place_split (h : Heap) (A B : List Block) (b : Block) (Ls : Nat → List Nat)
    (asize : Nat) (hl : Layout h (A ++ [b] ++ B)) (hL : Lists h (A ++ [b] ++ B) Ls)
    (hin : b.bp ∈ Ls (class_of b.size)) (ha1 : 16 ≤ asize) (ha2 : asize % 8 = 0)
    (hsplit : asize + 32 ≤ b.size) (h128 : asize ≠ 128) :
    ∃ h1, place h b.bp asize = some (h1, b.bp) ∧ Same h h1 ∧
      Layout h1 (A ++ [⟨b.bp, asize, true⟩, ⟨b.bp + asize, b.size - asize, false⟩] ++ B) ∧
      Lists h1 (A ++ [⟨b.bp, asize, true⟩, ⟨b.bp + asize, b.size - asize, false⟩] ++ B)
        (ins (del Ls b) ⟨b.bp + asize, b.size - asize, false⟩) ∧
      Keeps h h1 (A ++ B) := by
  have hb : b ∈ A ++ [b] ++ B := by simp
  obtain ⟨k1, k2, k3, k4, k5, k6, k7, k8⟩ := layout_block h _ hl b hb
  have hcs := (layout_size h _ hl b hb).1
  obtain ⟨h1, d1, d2, d3, d4, d5, d6, d7, d8⟩ := unlist_spec h A B b Ls hl hL hin
  obtain ⟨s, e, hA, hM, hB, t1, t2, t3, t4, t5, t6⟩ := layout_split3 h1 A [b] B d3
  obtain ⟨u1, u2⟩ := tiling_single _ _ _ _ hM
  subst u1
  subst u2
  have hnot : ∀ c ∈ [b], ∀ i < 18, c.bp ∉ del Ls b i := by
    intro c hc
    rw [List.mem_singleton.1 hc]
    exact d6
  obtain ⟨r1, r2, r3, r4, r5⟩ := retile_set2 h1 A [b] B (del Ls b) b.bp (b.bp + b.size) asize
    (b.size - asize) 1 0 d3 d4 hA hB ha1 (by omega) ha2 (by omega) (by omega) (by omega)
    (by omega) hnot _ rfl
  obtain ⟨h6, i1, i2, i3, i4, i5⟩ := relist_spec _ A _ B ⟨b.bp + asize, b.size - asize, false⟩
    (del Ls b) b.bp (b.bp + b.size) r2 r3 (by simp) rfl (by simp only []; omega)
    (by simp only []; omega) (by simp only []; omega) r5
  have hprev : PREV_BLKP h6.mem (b.bp + asize) = b.bp := by
    have := (layout_size h6 _ i3 ⟨b.bp, asize, true⟩ (by simp)).2.1
    simp only [] at this
    unfold PREV_BLKP DSIZE WSIZE
    rw [show b.bp + asize - 2 * 8 = b.bp + asize - 16 from rfl, this]
    omega
  refine ⟨h6, ?_, same_trans _ _ _ d2 (same_trans _ _ _ r1 i2), i3, i4, ?_⟩
  · unfold place
    simp only [hcs, sub64_small _ _ (show asize ≤ b.size by omega) (show b.size < 2 ^ 64 by omega),
      d1, toInt_small asize (by omega), WSIZE, DSIZE]
    rw [if_pos (by omega), if_pos (by omega)]
    simp only [put_tags h1 b.bp asize 1 ha2 (by omega) (by omega),
      next_set_tags h1.mem b.bp asize 1 ha1 ha2 (by omega) (by omega) (by omega),
      put_tags _ (b.bp + asize) (b.size - asize) 0 (by omega) (by omega) (by omega),
      toInt_small (b.size - asize) (by omega)]
    simp only [] at i1
    rw [i1]
    simp only [hprev]
  · exact keeps_trans _ _ _ _ (keeps_AB _ _ _ _ _ d5)
      (keeps_trans _ _ _ _ r4 (keeps_AB _ _ _ _ _ i5))

/-- Function `place`, when the remainder does not qualify as a free block. -/
theorem place_whole (h : Heap) (A B : List Block) (b : Block) (Ls : Nat → List Nat)
    (asize : Nat) (hl : Layout h (A ++ [b] ++ B)) (hL : Lists h (A ++ [b] ++ B) Ls)
    (hin : b.bp ∈ Ls (class_of b.size)) (ha3 : asize ≤ b.size)
    (hsplit : ¬ (asize + 32 ≤ b.size)) :
    ∃ h1, place h b.bp asize = some (h1, b.bp) ∧ Same h h1 ∧
      Layout h1 (A ++ [⟨b.bp, b.size, true⟩] ++ B) ∧
      Lists h1 (A ++ [⟨b.bp, b.size, true⟩] ++ B) (del Ls b) ∧
      Keeps h h1 (A ++ B) := by
  have hb : b ∈ A ++ [b] ++ B := by simp
  obtain ⟨k1, k2, k3, k4, k5, k6, k7, k8⟩ := layout_block h _ hl b hb
  have hcs := (layout_size h _ hl b hb).1
  obtain ⟨h1, d1, d2, d3, d4, d5, d6, d7, d8⟩ := unlist_spec h A B b Ls hl hL hin
  obtain ⟨s, e, hA, hM, hB, t1, t2, t3, t4, t5, t6⟩ := layout_split3 h1 A [b] B d3
  obtain ⟨u1, u2⟩ := tiling_single _ _ _ _ hM
  subst u1
  subst u2
  have hnot : ∀ c ∈ [b], ∀ i < 18, c.bp ∉ del Ls b i := by
    intro c hc
    rw [List.mem_singleton.1 hc]
    exact d6
  obtain ⟨r1, r2, r3, r4, r5⟩ := retile_set1 h1 A [b] B (del Ls b) b.bp (b.bp + b.size) b.size 1
    d3 d4 hA hB rfl (by omega) (by omega) (by omega) hnot _ rfl
  refine ⟨_, ?_, same_trans _ _ _ d2 r1, r2, r3, ?_⟩
  · unfold place
    simp only [hcs, sub64_small _ _ ha3 (show b.size < 2 ^ 64 by omega), d1, WSIZE, DSIZE]
    rw [if_neg (by omega)]
    simp only [put_tags h1 b.bp b.size 1 k4 (by omega) (by omega)]
  · exact keeps_trans _ _ _ _ (keeps_AB _ _ _ _ _ d5) r4

/-- Linking a block into a list and writing the tags of a later block are
independent. -/
theorem link_set_comm (m : Nat → Nat) (x c0 seg t sz a : Nat) (hx : x + 16 < t)
    (hsz : 16 ≤ sz) (hc : c0 = 0 ∨ c0 + 16 < t ∨ t + sz ≤ c0 + 16) (hseg : seg + 8 < t) :
    set_tags (PUT (link_head m x c0) seg x) t sz a =
      PUT (link_head (set_tags m t sz a) x c0) seg x := by
  funext y
  unfold link_head set_tags
  by_cases hz : c0 = 0
  · simp only [hz, if_true, PUT]
    split_ifs <;> first | rfl | omega
  · simp only [hz, if_false, PUT]
    split_ifs <;> first | rfl | omega

/-- Function `place`, when the remainder qualifies as a free block and the
adjusted size is the tuned size 128: the remainder stays in front. -/
theorem place_tuned (h : Heap) (A B : List Block) (b : Block) (Ls : Nat → List Nat)
    (hl : Layout h (A ++ [b] ++ B)) (hL : Lists h (A ++ [b] ++ B) Ls)
    (hin : b.bp ∈ Ls (class_of b.size)) (hsplit : 128 + 32 ≤ b.size) :
    ∃ h1, place h b.bp 128 = some (h1, b.bp + (b.size - 128)) ∧ Same h h1 ∧
      Layout h1 (A ++ [⟨b.bp, b.size - 128, false⟩, ⟨b.bp + (b.size - 128), 128, true⟩] ++ B) ∧
      Lists h1 (A ++ [⟨b.bp, b.size - 128, false⟩, ⟨b.bp + (b.size - 128), 128, true⟩] ++ B)
        (ins (del Ls b) ⟨b.bp, b.size - 128, false⟩) ∧
      Keeps h h1 (A ++ B) := by
  generalize hrest : b.size - 128 = rest
  have hrest2 : rest + 128 = b.size := by omega
  clear hrest
  have hb : b ∈ A ++ [b] ++ B := by simp
  obtain ⟨k1, k2, k3, k4, k5, k6, k7, k8⟩ := layout_block h _ hl b hb
  have hcs := (layout_size h _ hl b hb).1
  obtain ⟨h1, d1, d2, d3, d4, d5, d6, d7, d8⟩ := unlist_spec h A B b Ls hl hL hin
  obtain ⟨s, e, hA, hM, hB, t1, t2, t3, t4, t5, t6⟩ := layout_split3 h1 A [b] B d3
  obtain ⟨u1, u2⟩ := tiling_single _ _ _ _ hM
  subst u1
  subst u2
  have hnot : ∀ c ∈ [b], ∀ i < 18, c.bp ∉ del Ls b i := by
    intro c hc
    rw [List.mem_singleton.1 hc]
    exact d6
  obtain ⟨r1, r2, r3, r4, r5⟩ := retile_set2 h1 A [b] B (del Ls b) b.bp (b.bp + b.size)
    rest 128 0 1 d3 d4 hA hB (by omega) (by omega) (by omega) (by omega) (by omega)
    (by omega) (by omega) hnot _ rfl
  have hn : b.bp ∉ del Ls b (class_of rest) := d6 _ (class_of_lt _)
  obtain ⟨h6, i1, i2, i3, i4, i5, i6⟩ := insert_block_spec _ _ (del Ls b) r2 r3
    ⟨b.bp, rest, false⟩
    (List.mem_append_left _ (List.mem_append_right _ (List.mem_cons_self _ _))) rfl
    (by simp only []; omega) hn
  simp only [] at i1 i2 i3 i4 i5 i6
  have hci := class_of_lt rest
  -- the head of the list lies outside the block
  have hhead : h1.mem (h1.seg_lst + class_of rest * 8) = 0 ∨
      h1.mem (h1.seg_lst + class_of rest * 8) + 32 ≤ b.bp ∨
      b.bp + b.size ≤ h1.mem (h1.seg_lst + class_of rest * 8) := by
    have hhd := chain_head h1.mem (del Ls b (class_of rest)) 0 _
      (d4.chains (class_of rest) hci)
    by_cases hz : (del Ls b (class_of rest)).headD 0 = 0
    · left; rw [hhd, hz]
    · right
      rw [hhd]
      exact r5 _ hci _ (headD_mem _ hz)
  have ea : set_tags h1.mem b.bp rest 0 (h1.seg_lst + class_of rest * 8) =
      h1.mem (h1.seg_lst + class_of rest * 8) :=
    set_tags_other _ _ _ _ _ (by omega) (by omega) (by omega)
  have eb : set_tags (set_tags h1.mem b.bp rest 0) (b.bp + rest) 128 1
      (h1.seg_lst + class_of rest * 8) =
      h1.mem (h1.seg_lst + class_of rest * 8) := by
    rw [set_tags_other _ _ _ _ _ (by omega) (by omega) (by omega), ea]
  have hraw := insert_block_raw
    { h1 with mem := set_tags h1.mem b.bp rest 0 } b.bp rest
    (by omega) (by omega) (by
      show GET_SIZE (set_tags h1.mem b.bp rest 0 (HDRP b.bp)) = _
      unfold HDRP WSIZE
      rw [set_tags_hdr _ _ _ _ (by omega) (by omega)]
      exact GET_SIZE_add _ _ (by omega) (by omega) (by omega))
  rw [show ({ h1 with mem := set_tags h1.mem b.bp rest 0 } : Heap).mem =
    set_tags h1.mem b.bp rest 0 from rfl,
    show ({ h1 with mem := set_tags h1.mem b.bp rest 0 } : Heap).seg_lst =
    h1.seg_lst from rfl, ea] at hraw
  have hnext : NEXT_BLKP (PUT (link_head (set_tags h1.mem b.bp rest 0) b.bp
      (h1.mem (h1.seg_lst + class_of rest * 8)))
      (h1.seg_lst + class_of rest * 8) b.bp) b.bp = b.bp + rest := by
    unfold NEXT_BLKP WSIZE
    rw [PUT_other _ _ _ _ (by omega)]
    have e1 : link_head (set_tags h1.mem b.bp rest 0) b.bp
        (h1.mem (h1.seg_lst + class_of rest * 8)) (b.bp - 8) =
        rest + 0 := by
      unfold link_head
      split
      · rw [PUT_other _ _ _ _ (by omega), PUT_other _ _ _ _ (by omega),
          set_tags_hdr _ _ _ _ (by omega) (by omega)]
      · rw [PUT_other _ _ _ _ (by omega), PUT_other _ _ _ _ (by omega),
          PUT_other _ _ _ _ (by omega), set_tags_hdr _ _ _ _ (by omega) (by omega)]
    rw [e1, GET_SIZE_add _ 0 (by omega) (by omega) (by omega)]
  have hmem : set_tags (PUT (link_head (set_tags h1.mem b.bp rest 0) b.bp
      (h1.mem (h1.seg_lst + class_of rest * 8)))
      (h1.seg_lst + class_of rest * 8) b.bp) (b.bp + rest) 128 1 =
      h6.mem := by
    rw [i6, eb]
    exact link_set_comm _ _ _ _ _ _ _ (by omega) (by omega) (by omega) (by omega)
  have hfinal : ({ h1 with mem := (set_tags (PUT (link_head
      (set_tags h1.mem b.bp rest 0) b.bp
      (h1.mem (h1.seg_lst + class_of rest * 8)))
      (h1.seg_lst + class_of rest * 8) b.bp) (b.bp + rest) 128 1) } : Heap)
      = h6 := by
    obtain ⟨j1, j2, j3, j4⟩ := i2
    rw [hmem]
    cases h6
    simp only [Heap.mk.injEq]
    exact ⟨trivial, j1.symm, j2.symm, j3.symm, j4.symm⟩
  refine ⟨h6, ?_, same_trans _ _ _ d2 (same_trans _ _ _ r1 i2), i3, i4, ?_⟩
  · unfold place
    simp only [hcs, sub64_small _ _ (show 128 ≤ b.size by omega) (show b.size < 2 ^ 64 by omega),
      show b.size - 128 = rest from by omega,
      d1, toInt_small 128 (by omega), WSIZE, DSIZE]
    rw [if_pos (by omega), if_neg (by simp)]
    simp only [put_tags h1 b.bp rest 0 (by omega) (by omega) (by omega),
      toInt_small rest (by omega), hraw, hnext,
      put_tags _ (b.bp + rest) 128 1 (by omega) (by omega) (by omega)]
    rw [hfinal]
  · apply keeps_trans _ _ _ _ (keeps_AB _ _ _ _ _ d5)
    apply keeps_trans _ _ _ _ r4
    apply keeps_AB _ _ _ [⟨b.bp, rest, false⟩, ⟨b.bp + rest, 128, true⟩] _
    apply keeps_of_links _ h6 _ r2 _ hci _ _ i5
    intro y hy
    rcases List.mem_cons.1 hy with e | hy
    · exact ⟨⟨b.bp, rest, false⟩,
        List.mem_append_left _ (List.mem_append_right _ (List.mem_cons_self _ _)), e.symm, rfl,
        by simp only []; omega⟩
    · obtain ⟨c, hc, g1, g2, g3, g4⟩ := r3.members _ hci y hy
      exact ⟨c, hc, g1, g2, g3⟩

/-- Function `place` on a free block `b` that is in the list of its class and
holds at least `asize` bytes. -/
theorem place_spec (h : Heap) (A B : List Block) (b : Block) (Ls : Nat → List Nat)
    (asize : Nat) (hl : Layout h (A ++ [b] ++ B)) (hL : Lists h (A ++ [b] ++ B) Ls)
    (hin : b.bp ∈ Ls (class_of b.size)) (ha1 : 16 ≤ asize) (ha2 : asize % 8 = 0)
    (ha3 : asize ≤ b.size) :
    ∃ h1, place h b.bp asize = some (h1, place_ptr b asize) ∧ Same h h1 ∧
      Layout h1 (A ++ place_blocks b asize ++ B) ∧
      Lists h1 (A ++ place_blocks b asize ++ B) (place_lists Ls b asize) ∧
      Keeps h h1 (A ++ B) := by
  by_cases hsplit : b.size - asize ≥ 32
  · by_cases h128 : asize = 128
    · subst h128
      have e1 : place_ptr b 128 = b.bp + (b.size - 128) := by
        unfold place_ptr; rw [if_pos ⟨hsplit, rfl⟩]
      have e2 : place_blocks b 128 =
          [⟨b.bp, b.size - 128, false⟩, ⟨b.bp + (b.size - 128), 128, true⟩] := by
        unfold place_blocks; rw [if_pos hsplit, if_neg (by simp)]
      have e3 : place_lists Ls b 128 = ins (del Ls b) ⟨b.bp, b.size - 128, false⟩ := by
        unfold place_lists; rw [if_pos hsplit, if_neg (by simp)]
      rw [e1, e2, e3]
      exact place_tuned h A B b Ls hl hL hin (by omega)
    · have e1 : place_ptr b asize = b.bp := by
        unfold place_ptr; rw [if_neg (fun hh => h128 hh.2)]
      have e2 : place_blocks b asize =
          [⟨b.bp, asize, true⟩, ⟨b.bp + asize, b.size - asize, false⟩] := by
        unfold place_blocks; rw [if_pos hsplit, if_pos h128]
      have e3 : place_lists Ls b asize = ins (del Ls b) ⟨b.bp + asize, b.size - asize, false⟩ := by
        unfold place_lists; rw [if_pos hsplit, if_pos h128]
      rw [e1, e2, e3]
      exact place_split h A B b Ls asize hl hL hin ha1 ha2 (by omega) h128
  · have e1 : place_ptr b asize = b.bp := by
      unfold place_ptr; rw [if_neg (fun hh => hsplit hh.1)]
    have e2 : place_blocks b asize = [⟨b.bp, b.size, true⟩] := by
      unfold place_blocks; rw [if_neg hsplit]
    have e3 : place_lists Ls b asize = del Ls b := by
      unfold place_lists; rw [if_neg hsplit]
    rw [e1, e2, e3]
    exact place_whole h A B b Ls asize hl hL hin ha3 (by omega)

theorem tiling_adjacent (m : Nat → Nat) (A B : List Block) (x y : Block) (s e : Nat)
    (h : Tiling m s (A ++ [x, y] ++ B) e) : x.bp + x.size = y.bp := by
  rw [List.append_assoc] at h
  obtain ⟨mid, _, h2⟩ := (tiling_append _ _ _ _ _).1 h
  obtain ⟨t1, _, _, _, _, t6⟩ := h2
  obtain ⟨u1, _⟩ := t6
  omega

theorem mem_del_of_ne (Ls : Nat → List Nat) (b : Block) (x j : Nat) (hx : x ∈ Ls j)
    (hne : x ≠ b.bp) : x ∈ del Ls b j := by
  unfold del
  by_cases hj : j = class_of b.size
  · subst hj
    rw [Function.update_same]
    exact (List.mem_erase_of_ne hne).2 hx
  · rw [Function.update_noteq hj]
    exact hx

theorem del_subset (Ls : Nat → List Nat) (b : Block) (x j : Nat) (hx : x ∈ del Ls b j) :
    x ∈ Ls j := by
  unfold del at hx
  by_cases hj : j = class_of b.size
  · subst hj
    rw [Function.update_same] at hx
    exact List.mem_of_mem_erase hx
  · rw [Function.update_noteq hj] at hx
    exact hx

theorem PUT_comm (m : Nat → Nat) (a b v w : Nat) (h : a ≠ b) :
    PUT (PUT m a v) b w = PUT (PUT m b w) a v := by
  funext x
  unfold PUT
  split_ifs <;> first | rfl | omega

theorem keeps_dropR (h h1 : Heap) (A M N B : List Block)
    (k : Keeps h h1 (A ++ M ++ (N ++ B))) : Keeps h h1 (A ++ B) := by
  apply keeps_sub h h1 _ _ k
  intro c hc
  rcases List.mem_append.1 hc with hc | hc
  · exact List.mem_append_left _ (List.mem_append_left _ hc)
  · exact List.mem_append_right _ (List.mem_append_right _ hc)

theorem keeps_dropL (h h1 : Heap) (A M N B : List Block)
    (k : Keeps h h1 ((A ++ N) ++ M ++ B)) : Keeps h h1 (A ++ B) := by
  apply keeps_sub h h1 _ _ k
  intro c hc
  rcases List.mem_append.1 hc with hc | hc
  · exact List.mem_append_left _ (List.mem_append_left _ (List.mem_append_left _ hc))
  · exact List.mem_append_right _ hc

/-- What the macros read at a block of the heap. -/
theorem layout_reads (h : Heap) (bs : List Block) (hl : Layout h bs) (b : Block) (hb : b ∈ bs) :
    GET_SIZE (h.mem (HDRP b.bp)) = b.size ∧ NEXT_BLKP h.mem b.bp = b.bp + b.size ∧
      FTRP h.mem b.bp = b.bp + b.size - 16 ∧
      GET_SIZE (h.mem (b.bp + b.size - 16)) = b.size ∧
      GET_ALLOC (h.mem (HDRP b.bp)) = (if b.alloc then 1 else 0) ∧
      GET_ALLOC (h.mem (b.bp + b.size - 16)) = (if b.alloc then 1 else 0) := by
  obtain ⟨i1, i2, i3, i4⟩ := layout_size h bs hl b hb
  refine ⟨i1, ?_, ?_, i2, i3, i4⟩
  · unfold NEXT_BLKP; unfold HDRP at i1; rw [i1]
  · unfold FTRP DSIZE WSIZE; rw [i1]

/-- What `coalesce` reads about a previous block. -/
theorem layout_prev_reads (h : Heap) (A B : List Block) (pb b : Block)
    (hl : Layout h (A ++ [pb, b] ++ B)) :
    pb.bp + pb.size = b.bp ∧ GET_SIZE (h.mem (b.bp - 16)) = pb.size ∧
      PREV_BLKP h.mem b.bp = pb.bp ∧
      GET_ALLOC (h.mem (FTRP h.mem (PREV_BLKP h.mem b.bp))) = (if pb.alloc then 1 else 0) := by
  have hadj := tiling_adjacent _ _ _ _ _ _ _ hl.til
  have hpbm : pb ∈ A ++ [pb, b] ++ B := by simp
  obtain ⟨n1, n2, n3, n4, n5, n6, n7, n8⟩ := layout_block h _ hl pb hpbm
  obtain ⟨r1, r2, r3, r4, r5, r6⟩ := layout_reads h _ hl pb hpbm
  have e0 : b.bp - 16 = pb.bp + pb.size - 16 := by omega
  have e1 : GET_SIZE (h.mem (b.bp - 16)) = pb.size := by rw [e0]; exact r4
  have e2 : PREV_BLKP h.mem b.bp = pb.bp := by
    unfold PREV_BLKP DSIZE WSIZE
    rw [show b.bp - 2 * 8 = b.bp - 16 from rfl, e1]
    omega
  refine ⟨hadj, e1, e2, ?_⟩
  rw [e2, r3]
  exact r6

/-- The prologue in front of the first block reads as allocated. -/
theorem layout_first_reads (h : Heap) (B : List Block) (b : Block)
    (hl : Layout h ([] ++ [b] ++ B)) :
    b.bp = h.seg_lst + 176 ∧
      GET_ALLOC (h.mem (FTRP h.mem (PREV_BLKP h.mem b.bp))) = 1 := by
  have hb : b.bp = h.seg_lst + 176 := hl.til.1
  refine ⟨hb, ?_⟩
  have e1 : b.bp - 16 = h.seg_lst + 160 := by omega
  have e2 : GET_SIZE 17 = 16 := by rw [GET_SIZE_eq]; norm_num
  have e3 : PREV_BLKP h.mem b.bp = h.seg_lst + 160 := by
    unfold PREV_BLKP DSIZE WSIZE
    rw [show b.bp - 2 * 8 = b.bp - 16 from rfl, e1, hl.pro_f, e2]
    omega
  rw [e3]
  unfold FTRP HDRP DSIZE WSIZE
  rw [show h.seg_lst + 160 - 8 = h.seg_lst + 152 from by omega, hl.pro_h, e2,
    show h.seg_lst + 160 + 16 - 2 * 8 = h.seg_lst + 160 from by omega, hl.pro_f, GET_ALLOC_eq]

/-- The epilogue behind the last block reads as allocated. -/
theorem layout_last_reads (h : Heap) (A : List Block) (b : Block)
    (hl : Layout h (A ++ [b] ++ [])) :
    b.bp + b.size = h.brk ∧ GET_ALLOC (h.mem (HDRP (NEXT_BLKP h.mem b.bp))) = 1 := by
  have hbm : b ∈ A ++ [b] ++ [] := by simp
  obtain ⟨r1, r2, r3, r4, r5, r6⟩ := layout_reads h _ hl b hbm
  obtain ⟨s, e, hA, hM, hB, t⟩ := layout_split3 h A [b] [] hl
  obtain ⟨u1, u2⟩ := tiling_single _ _ _ _ hM
  have hB2 : e = h.brk := hB
  have e1 : b.bp + b.size = h.brk := by omega
  refine ⟨e1, ?_⟩
  rw [r2, e1]
  unfold HDRP WSIZE
  rw [hl.epi, GET_ALLOC_eq]

/-- Function `coalesce`, case 1: both neighbours are allocated. -/
theorem coalesce_none (h : Heap) (bp : Nat)
    (hp : GET_ALLOC (h.mem (FTRP h.mem (PREV_BLKP h.mem bp))) ≠ 0)
    (hn : GET_ALLOC (h.mem (HDRP (NEXT_BLKP h.mem bp))) ≠ 0) :
    coalesce h bp = some (h, bp) := by
  unfold coalesce
  simp only [hp, hn, not_false_eq_true, ne_eq, and_self, if_true]

/-- The code path of `coalesce`, case 2. -/
theorem coalesce_next_path (h h1 h2 h5 : Heap) (bp nbp bsize nsize : Nat)
    (hp : GET_ALLOC (h.mem (FTRP h.mem (PREV_BLKP h.mem bp))) ≠ 0)
    (hn : GET_ALLOC (h.mem (HDRP (NEXT_BLKP h.mem bp))) = 0)
    (hcs : GET_SIZE (h.mem (HDRP bp)) = bsize)
    (d1 : delete_block h bp = some h1) (hnext1 : NEXT_BLKP h1.mem bp = nbp)
    (e1 : delete_block h1 nbp = some h2) (hnext2 : NEXT_BLKP h2.mem bp = nbp)
    (hns2 : GET_SIZE (h2.mem (HDRP nbp)) = nsize) (hal : (bsize + nsize) % 8 = 0)
    (hlt : bsize + nsize < 2 ^ 31)
    (i1 : insert_block { h2 with mem := set_tags h2.mem bp (bsize + nsize) 0 } bp
      ((bsize + nsize : Nat) : Int) = some h5) :
    coalesce h bp = some (h5, bp) := by
  unfold coalesce
  simp only [hp, hn, ne_eq, not_true_eq_false, not_false_eq_true, and_false, and_true,
    and_self, if_true, if_false]
  simp only [hcs, d1, hnext1, e1, hnext2, hns2, u64_small (bsize + nsize) (by omega),
    put_tags h2 bp (bsize + nsize) 0 hal (by omega) (by omega),
    toInt_small (bsize + nsize) hlt]
  rw [i1]

/-- Function `coalesce`, case 2: only the next block is free. -/
theorem coalesce_next (h : Heap) (A B : List Block) (b nb : Block) (Ls : Nat → List Nat)
    (hl : Layout h (A ++ [b, nb] ++ B)) (hL : Lists h (A ++ [b, nb] ++ B) Ls)
    (hb : b.bp ∈ Ls (class_of b.size)) (hnb : nb.bp ∈ Ls (class_of nb.size))
    (hp : GET_ALLOC (h.mem (FTRP h.mem (PREV_BLKP h.mem b.bp))) ≠ 0) :
    ∃ h1, coalesce h b.bp = some (h1, b.bp) ∧ Same h h1 ∧
      Layout h1 (A ++ [⟨b.bp, b.size + nb.size, false⟩] ++ B) ∧
      Lists h1 (A ++ [⟨b.bp, b.size + nb.size, false⟩] ++ B)
        (ins (del (del Ls b) nb) ⟨b.bp, b.size + nb.size, false⟩) ∧
      Keeps h h1 (A ++ B) := by
  have hbm : b ∈ A ++ [b, nb] ++ B := by simp
  have hnbm : nb ∈ A ++ [b, nb] ++ B := by simp
  have hadj := tiling_adjacent _ _ _ _ _ _ _ hl.til
  obtain ⟨k1, k2, k3, k4, k5, k6, k7, k8⟩ := layout_block h _ hl b hbm
  obtain ⟨n1, n2, n3, n4, n5, n6, n7, n8⟩ := layout_block h _ hl nb hnbm
  have hbrk := layout_brk h _ hl
  have rb := layout_reads h _ hl b hbm
  have rn := layout_reads h _ hl nb hnbm
  -- unlist `b`
  have hl0 : Layout h (A ++ [b] ++ (nb :: B)) := by simpa using hl
  have hL0 : Lists h (A ++ [b] ++ (nb :: B)) Ls := by simpa using hL
  obtain ⟨h1, d1, d2, d3, d4, d5, d6, d7, d8⟩ := unlist_spec h A (nb :: B) b Ls hl0 hL0 hb
  -- unlist `nb`
  have hl1 : Layout h1 ((A ++ [b]) ++ [nb] ++ B) := by simpa using d3
  have hL1 : Lists h1 ((A ++ [b]) ++ [nb] ++ B) (del Ls b) := by simpa using d4
  have hnb1 : nb.bp ∈ del Ls b (class_of nb.size) := mem_del_of_ne _ _ _ _ hnb (by omega)
  obtain ⟨h2, e1, e2, e3, e4, e5, e6, e7, e8⟩ := unlist_spec h1 (A ++ [b]) B nb (del Ls b)
    hl1 hL1 hnb1
  have hl2 : Layout h2 (A ++ [b, nb] ++ B) := by simpa using e3
  have hL2 : Lists h2 (A ++ [b, nb] ++ B) (del (del Ls b) nb) := by simpa using e4
  obtain ⟨s, e, hA, hM, hB, t1, t2, t3, t4, t5, t6⟩ := layout_split3 h2 A [b, nb] B hl2
  obtain ⟨u1, u2, u3, u4, u5, u6, u7, u8, u9, u10, u11⟩ := hM
  subst u1
  have u12 : b.bp + b.size + nb.size = e := u11
  have hnot : ∀ c ∈ [b, nb], ∀ i < 18, c.bp ∉ del (del Ls b) nb i := by
    intro c hc i hi hx
    rcases List.mem_cons.1 hc with rfl | hc
    · exact d6 i hi (del_subset _ _ _ _ hx)
    · rw [List.mem_singleton.1 hc] at hx
      exact e6 i hi hx
  obtain ⟨r1, r2, r3, r4, r5⟩ := retile_set1 h2 A [b, nb] B (del (del Ls b) nb) b.bp e
    (b.size + nb.size) 0 hl2 hL2 hA hB (by omega) (by omega) (by omega) (by omega) hnot _ rfl
  obtain ⟨h5, i1, i2, i3, i4, i5⟩ := relist_spec _ A _ B ⟨b.bp, b.size + nb.size, false⟩
    (del (del Ls b) nb) b.bp e r2 r3 (by simp) rfl (by simp only []; omega)
    (by simp only []; omega) (by simp only []; omega) r5
  have hpath := coalesce_next_path h h1 h2 h5 b.bp nb.bp b.size nb.size hp
    (by rw [rb.2.1, hadj, rn.2.2.2.2.1, e7]; rfl) rb.1 d1
    (by rw [(layout_reads h1 _ d3 b (by simp)).2.1]; exact hadj) e1
    (by rw [(layout_reads h2 _ hl2 b (by simp)).2.1]; exact hadj)
    (layout_reads h2 _ hl2 nb (by simp)).1 (by omega) (by omega) i1
  refine ⟨h5, hpath, same_trans _ _ _ d2 (same_trans _ _ _ e2 (same_trans _ _ _ r1 i2)),
    i3, i4, ?_⟩
  exact keeps_trans _ _ _ _ (keeps_dropR h h1 A [b] [nb] B d5)
    (keeps_trans _ _ _ _ (keeps_dropL h1 h2 A [nb] [b] B e5)
      (keeps_trans _ _ _ _ r4 (keeps_AB _ _ _ _ _ i5)))

/-- The two tag writes of `coalesce`, case 3, in the order of the source: the
footer of the block first, then the header of the previous block. -/
theorem coalesce_prev_put (h2 : Heap) (bp pbp bsize psize : Nat)
    (hftr : FTRP h2.mem bp = bp + bsize - 16) (hpf : GET_SIZE (h2.mem (bp - 16)) = psize)
    (hadj : pbp + psize = bp) (hb : 16 ≤ bsize) (hp : 16 ≤ psize) (hpb : 8 ≤ pbp)
    (hal : (bsize + psize) % 8 = 0) :
    (h2.put (FTRP h2.mem bp) (PACK (bsize + psize) 0)).put
        (HDRP (PREV_BLKP (h2.put (FTRP h2.mem bp) (PACK (bsize + psize) 0)).mem bp))
        (PACK (bsize + psize) 0) =
      { h2 with mem := set_tags h2.mem pbp (psize + bsize) 0 } := by
  have hprev3 : PREV_BLKP (h2.put (FTRP h2.mem bp) (PACK (bsize + psize) 0)).mem bp = pbp := by
    unfold PREV_BLKP DSIZE WSIZE Heap.put
    simp only []
    rw [hftr, PUT_other _ _ _ _ (by omega), show bp - 2 * 8 = bp - 16 from rfl, hpf]
    omega
  rw [hprev3, hftr]
  unfold Heap.put set_tags HDRP WSIZE
  simp only [PACK_eq (bsize + psize) 0 hal (by omega)]
  rw [PUT_comm _ _ _ _ _ (by omega)]
  have e1 : pbp + (psize + bsize) - 16 = bp + bsize - 16 := by omega
  have e2 : psize + bsize + 0 = bsize + psize + 0 := by omega
  rw [e1, e2]

/-- The code path of `coalesce`, case 3. -/
theorem coalesce_prev_path (h h1 h2 h5 : Heap) (bp pbp bsize psize : Nat)
    (hp : GET_ALLOC (h.mem (FTRP h.mem (PREV_BLKP h.mem bp))) = 0)
    (hn : GET_ALLOC (h.mem (HDRP (NEXT_BLKP h.mem bp))) ≠ 0)
    (hcs : GET_SIZE (h.mem (HDRP bp)) = bsize)
    (d1 : delete_block h bp = some h1) (hprev1 : PREV_BLKP h1.mem bp = pbp)
    (e1 : delete_block h1 pbp = some h2) (hprev2 : PREV_BLKP h2.mem bp = pbp)
    (hps2 : GET_SIZE (h2.mem (HDRP pbp)) = psize)
    (hftr : FTRP h2.mem bp = bp + bsize - 16) (hpf : GET_SIZE (h2.mem (bp - 16)) = psize)
    (hadj : pbp + psize = bp) (hb : 16 ≤ bsize) (hpsz : 16 ≤ psize) (hpb : 8 ≤ pbp)
    (hal : (bsize + psize) % 8 = 0) (hlt : bsize + psize < 2 ^ 31)
    (i1 : insert_block { h2 with mem := set_tags h2.mem pbp (psize + bsize) 0 } pbp
      ((psize + bsize : Nat) : Int) = some h5) :
    coalesce h bp = some (h5, pbp) := by
  have hprev5 : PREV_BLKP (set_tags h2.mem pbp (psize + bsize) 0) bp = pbp := by
    unfold PREV_BLKP DSIZE WSIZE
    rw [show bp - 2 * 8 = bp - 16 from rfl,
      set_tags_other _ _ _ _ _ (by omega) (by omega) (by omega), hpf]
    omega
  unfold coalesce
  simp only [hn, hp, ne_eq, not_true_eq_false, not_false_eq_true, and_false, and_true,
    and_self, false_and, true_and, if_true, if_false]
  simp only [hcs, d1, hprev1, e1, hprev2, hps2, u64_small (bsize + psize) (by omega),
    coalesce_prev_put h2 bp pbp bsize psize hftr hpf hadj hb hpsz hpb hal, hprev5,
    toInt_small (bsize + psize) hlt]
  rw [show bsize + psize = psize + bsize from by omega, i1]

/-- Function `coalesce`, case 3: only the previous block is free. -/
theorem coalesce_prev (h : Heap) (A B : List Block) (pb b : Block) (Ls : Nat → List Nat)
    (hl : Layout h (A ++ [pb, b] ++ B)) (hL : Lists h (A ++ [pb, b] ++ B) Ls)
    (hb : b.bp ∈ Ls (class_of b.size)) (hpb : pb.bp ∈ Ls (class_of pb.size))
    (hn : GET_ALLOC (h.mem (HDRP (NEXT_BLKP h.mem b.bp))) ≠ 0) :
    ∃ h1, coalesce h b.bp = some (h1, pb.bp) ∧ Same h h1 ∧
      Layout h1 (A ++ [⟨pb.bp, pb.size + b.size, false⟩] ++ B) ∧
      Lists h1 (A ++ [⟨pb.bp, pb.size + b.size, false⟩] ++ B)
        (ins (del (del Ls b) pb) ⟨pb.bp, pb.size + b.size, false⟩) ∧
      Keeps h h1 (A ++ B) := by
  have hbm : b ∈ A ++ [pb, b] ++ B := by simp
  have hpbm : pb ∈ A ++ [pb, b] ++ B := by simp
  obtain ⟨k1, k2, k3, k4, k5, k6, k7, k8⟩ := layout_block h _ hl b hbm
  obtain ⟨n1, n2, n3, n4, n5, n6, n7, n8⟩ := layout_block h _ hl pb hpbm
  have hbrk := layout_brk h _ hl
  have rb := layout_reads h _ hl b hbm
  obtain ⟨hadj, q2, q3, q4⟩ := layout_prev_reads h A B pb b hl
  -- unlist `b`
  have hl0 : Layout h ((A ++ [pb]) ++ [b] ++ B) := by simpa using hl
  have hL0 : Lists h ((A ++ [pb]) ++ [b] ++ B) Ls := by simpa using hL
  obtain ⟨h1, d1, d2, d3, d4, d5, d6, d7, d8⟩ := unlist_spec h (A ++ [pb]) B b Ls hl0 hL0 hb
  -- unlist `pb`
  have hl1 : Layout h1 (A ++ [pb] ++ (b :: B)) := by simpa using d3
  have hL1 : Lists h1 (A ++ [pb] ++ (b :: B)) (del Ls b) := by simpa using d4
  have hpb1 : pb.bp ∈ del Ls b (class_of pb.size) := mem_del_of_ne _ _ _ _ hpb (by omega)
  obtain ⟨h2, e1, e2, e3, e4, e5, e6, e7, e8⟩ := unlist_spec h1 A (b :: B) pb (del Ls b)
    hl1 hL1 hpb1
  have hl1' : Layout h1 (A ++ [pb, b] ++ B) := by simpa using d3
  have hl2 : Layout h2 (A ++ [pb, b] ++ B) := by simpa using e3
  have hL2 : Lists h2 (A ++ [pb, b] ++ B) (del (del Ls b) pb) := by simpa using e4
  obtain ⟨s, e, hA, hM, hB, t1, t2, t3, t4, t5, t6⟩ := layout_split3 h2 A [pb, b] B hl2
  obtain ⟨u1, u2, u3, u4, u5, u6, u7, u8, u9, u10, u11⟩ := hM
  subst u1
  have u12 : pb.bp + pb.size + b.size = e := u11
  have hnot : ∀ c ∈ [pb, b], ∀ i < 18, c.bp ∉ del (del Ls b) pb i := by
    intro c hc i hi hx
    rcases List.mem_cons.1 hc with rfl | hc
    · exact e6 i hi hx
    · rw [List.mem_singleton.1 hc] at hx
      exact d6 i hi (del_subset _ _ _ _ hx)
  obtain ⟨r1, r2, r3, r4, r5⟩ := retile_set1 h2 A [pb, b] B (del (del Ls b) pb) pb.bp e
    (pb.size + b.size) 0 hl2 hL2 hA hB (by omega) (by omega) (by omega) (by omega) hnot _ rfl
  obtain ⟨h5, i1, i2, i3, i4, i5⟩ := relist_spec _ A _ B ⟨pb.bp, pb.size + b.size, false⟩
    (del (del Ls b) pb) pb.bp e r2 r3 (by simp) rfl (by simp only []; omega)
    (by simp only []; omega) (by simp only []; omega) r5
  have q1 := layout_prev_reads h1 A B pb b hl1'
  have q5 := layout_prev_reads h2 A B pb b hl2
  have hpath := coalesce_prev_path h h1 h2 h5 b.bp pb.bp b.size pb.size
    (by rw [q4, e7]; rfl) hn rb.1 d1 q1.2.2.1 e1 q5.2.2.1
    (layout_reads h2 _ hl2 pb (by simp)).1 (layout_reads h2 _ hl2 b (by simp)).2.2.1
    q5.2.1 hadj k3 n3 (by omega) (by omega) (by omega) i1
  refine ⟨h5, hpath, same_trans _ _ _ d2 (same_trans _ _ _ e2 (same_trans _ _ _ r1 i2)),
    i3, i4, ?_⟩
  exact keeps_trans _ _ _ _ (keeps_dropL h h1 A [b] [pb] B d5)
    (keeps_trans _ _ _ _ (keeps_dropR h1 h2 A [pb] [b] B e5)
      (keeps_trans _ _ _ _ r4 (keeps_AB _ _ _ _ _ i5)))

/-- The code path of `coalesce`, case 4. -/
theorem coalesce_both_path (h h1 h2 h3 h6 : Heap) (bp pbp nbp bsize psize nsize : Nat)
    (hp : GET_ALLOC (h.mem (FTRP h.mem (PREV_BLKP h.mem bp))) = 0)
    (hn : GET_ALLOC (h.mem (HDRP (NEXT_BLKP h.mem bp))) = 0)
    (hcs : GET_SIZE (h.mem (HDRP bp)) = bsize)
    (d1 : delete_block h bp = some h1) (hnext1 : NEXT_BLKP h1.mem bp = nbp)
    (e1 : delete_block h1 nbp = some h2) (hprev2 : PREV_BLKP h2.mem bp = pbp)
    (f1 : delete_block h2 pbp = some h3) (hprev3 : PREV_BLKP h3.mem bp = pbp)
    (hnext3 : NEXT_BLKP h3.mem bp = nbp) (hps3 : GET_SIZE (h3.mem (HDRP pbp)) = psize)
    (hnf3 : FTRP h3.mem nbp = nbp + nsize - 16)
    (hnfs : GET_SIZE (h3.mem (nbp + nsize - 16)) = nsize)
    (hbh : GET_SIZE (h3.mem (bp - 8)) = bsize) (hnh : GET_SIZE (h3.mem (nbp - 8)) = nsize)
    (hpf : GET_SIZE (h3.mem (bp - 16)) = psize)
    (hadj1 : pbp + psize = bp) (hadj2 : bp + bsize = nbp)
    (hb : 16 ≤ bsize) (hpsz : 16 ≤ psize) (hnsz : 16 ≤ nsize) (hpb : 8 ≤ pbp)
    (hal : (psize + bsize + nsize) % 8 = 0) (hlt : psize + bsize + nsize < 2 ^ 31)
    (i1 : insert_block { h3 with mem := set_tags h3.mem pbp (psize + bsize + nsize) 0 } pbp
      ((psize + bsize + nsize : Nat) : Int) = some h6) :
    coalesce h bp = some (h6, pbp) := by
  have hsz : u64 (bsize + u64 (psize + nsize)) = psize + bsize + nsize := by
    rw [u64_small (psize + nsize) (by omega), u64_small _ (by omega)]; omega
  have hput : (h3.put (HDRP pbp) (PACK (psize + bsize + nsize) 0)).put
      (FTRP (h3.put (HDRP pbp) (PACK (psize + bsize + nsize) 0)).mem
        (NEXT_BLKP (h3.put (HDRP pbp) (PACK (psize + bsize + nsize) 0)).mem bp))
      (PACK (psize + bsize + nsize) 0) =
      { h3 with mem := set_tags h3.mem pbp (psize + bsize + nsize) 0 } := by
    have hnx : NEXT_BLKP (h3.put (HDRP pbp) (PACK (psize + bsize + nsize) 0)).mem bp = nbp := by
      unfold NEXT_BLKP Heap.put HDRP WSIZE
      simp only []
      rw [PUT_other _ _ _ _ (by omega), hbh]
      exact hadj2
    have hfx : FTRP (h3.put (HDRP pbp) (PACK (psize + bsize + nsize) 0)).mem nbp =
        nbp + nsize - 16 := by
      unfold FTRP Heap.put HDRP DSIZE WSIZE
      simp only []
      rw [PUT_other _ _ _ _ (by omega), hnh]
    rw [hnx, hfx]
    unfold Heap.put set_tags HDRP WSIZE
    simp only [PACK_eq (psize + bsize + nsize) 0 hal (by omega)]
    rw [show pbp + (psize + bsize + nsize) - 16 = nbp + nsize - 16 from by omega]
  have hprev5 : PREV_BLKP (set_tags h3.mem pbp (psize + bsize + nsize) 0) bp = pbp := by
    unfold PREV_BLKP DSIZE WSIZE
    rw [show bp - 2 * 8 = bp - 16 from rfl,
      set_tags_other _ _ _ _ _ (by omega) (by omega) (by omega), hpf]
    omega
  unfold coalesce
  simp only [hn, hp, ne_eq, not_true_eq_false, not_false_eq_true, and_false, and_true,
    and_self, false_and, true_and, if_true, if_false]
  simp only [hcs, d1, hnext1, e1, hprev2, f1, hprev3, hnext3, hps3, hnf3, hnfs, hsz, hput,
    hprev5, toInt_small (psize + bsize + nsize) hlt]
  rw [i1]

theorem keeps_drop3 (h h1 : Heap) (A M B X : List Block) (k : Keeps h h1 X)
    (hX : ∀ c, c ∈ A ∨ c ∈ B → c ∈ X) : Keeps h h1 (A ++ B) := by
  apply keeps_sub h h1 _ _ k
  intro c hc
  exact hX c (List.mem_append.1 hc)

/-- Function `coalesce`, case 4: both neighbours are free. -/
theorem coalesce_both (h : Heap) (A B : List Block) (pb b nb : Block) (Ls : Nat → List Nat)
    (hl : Layout h (A ++ [pb, b, nb] ++ B)) (hL : Lists h (A ++ [pb, b, nb] ++ B) Ls)
    (hb : b.bp ∈ Ls (class_of b.size)) (hpb : pb.bp ∈ Ls (class_of pb.size))
    (hnb : nb.bp ∈ Ls (class_of nb.size)) :
    ∃ h1, coalesce h b.bp = some (h1, pb.bp) ∧ Same h h1 ∧
      Layout h1 (A ++ [⟨pb.bp, pb.size + b.size + nb.size, false⟩] ++ B) ∧
      Lists h1 (A ++ [⟨pb.bp, pb.size + b.size + nb.size, false⟩] ++ B)
        (ins (del (del (del Ls b) nb) pb) ⟨pb.bp, pb.size + b.size + nb.size, false⟩) ∧
      Keeps h h1 (A ++ B) := by
  have hbm : b ∈ A ++ [pb, b, nb] ++ B := by simp
  have hpbm : pb ∈ A ++ [pb, b, nb] ++ B := by simp
  have hnbm : nb ∈ A ++ [pb, b, nb] ++ B := by simp
  have hlp : Layout h (A ++ [pb, b] ++ (nb :: B)) := by simpa using hl
  have hln : Layout h ((A ++ [pb]) ++ [b, nb] ++ B) := by simpa using hl
  obtain ⟨k1, k2, k3, k4, k5, k6, k7, k8⟩ := layout_block h _ hl b hbm
  obtain ⟨n1, n2, n3, n4, n5, n6, n7, n8⟩ := layout_block h _ hl pb hpbm
  obtain ⟨m1, m2, m3, m4, m5, m6, m7, m8⟩ := layout_block h _ hl nb hnbm
  clear k1 k2 k5 k6 k7 k8 n1 n2 n5 n6 n7 n8 m1 m2 m5 m6 m7 m8
  have rb := layout_reads h _ hl b hbm
  have rn := layout_reads h _ hl nb hnbm
  obtain ⟨hadj1, q2, q3, q4⟩ := layout_prev_reads h A (nb :: B) pb b hlp
  have hadj2 := tiling_adjacent _ _ _ _ _ _ _ hln.til
  -- unlist `b`
  have hl0 : Layout h ((A ++ [pb]) ++ [b] ++ (nb :: B)) := by simpa using hl
  have hL0 : Lists h ((A ++ [pb]) ++ [b] ++ (nb :: B)) Ls := by simpa using hL
  obtain ⟨h1, d1, d2, d3, d4, d5, d6, d7, d8⟩ :=
    unlist_spec h (A ++ [pb]) (nb :: B) b Ls hl0 hL0 hb
  -- unlist `nb`
  have hl1 : Layout h1 ((A ++ [pb, b]) ++ [nb] ++ B) := by simpa using d3
  have hL1 : Lists h1 ((A ++ [pb, b]) ++ [nb] ++ B) (del Ls b) := by simpa using d4
  have hnb1 : nb.bp ∈ del Ls b (class_of nb.size) := mem_del_of_ne _ _ _ _ hnb (by omega)
  obtain ⟨h2, e1, e2, e3, e4, e5, e6, e7, e8⟩ :=
    unlist_spec h1 (A ++ [pb, b]) B nb (del Ls b) hl1 hL1 hnb1
  -- unlist `pb`
  have hl2 : Layout h2 (A ++ [pb] ++ (b :: nb :: B)) := by simpa using e3
  have hL2 : Lists h2 (A ++ [pb] ++ (b :: nb :: B)) (del (del Ls b) nb) := by simpa using e4
  have hpb2 : pb.bp ∈ del (del Ls b) nb (class_of pb.size) :=
    mem_del_of_ne _ _ _ _ (mem_del_of_ne _ _ _ _ hpb (by omega)) (by omega)
  obtain ⟨h3, f1, f2, f3, f4, f5, f6, f7, f8⟩ :=
    unlist_spec h2 A (b :: nb :: B) pb (del (del Ls b) nb) hl2 hL2 hpb2
  have hl3 : Layout h3 (A ++ [pb, b, nb] ++ B) := by simpa using f3
  have hL3 : Lists h3 (A ++ [pb, b, nb] ++ B) (del (del (del Ls b) nb) pb) := by
    simpa using f4
  obtain ⟨s, e, hA, hM, hB, t1, t2, t3, t4, t5, t6⟩ := layout_split3 h3 A [pb, b, nb] B hl3
  obtain ⟨u1, u2, u3, u4, u5, u6, u7, u8, u9, u10, u11, u12, u13, u14, u15, u16⟩ := hM
  subst u1
  have u17 : pb.bp + pb.size + b.size + nb.size = e := u16
  have hnot : ∀ c ∈ [pb, b, nb], ∀ i < 18, c.bp ∉ del (del (del Ls b) nb) pb i := by
    intro c hc i hi hx
    rcases List.mem_cons.1 hc with rfl | hc
    · exact f6 i hi hx
    · rcases List.mem_cons.1 hc with rfl | hc
      · exact d6 i hi (del_subset _ _ _ _ (del_subset _ _ _ _ hx))
      · rw [List.mem_singleton.1 hc] at hx
        exact e6 i hi (del_subset _ _ _ _ hx)
  obtain ⟨r1, r2, r3, r4, r5⟩ := retile_set1 h3 A [pb, b, nb] B (del (del (del Ls b) nb) pb)
    pb.bp e (pb.size + b.size + nb.size) 0 hl3 hL3 hA hB (by omega) (by omega) (by omega)
    (by omega) hnot _ rfl
  obtain ⟨h6, i1, i2, i3, i4, i5⟩ := relist_spec _ A _ B
    ⟨pb.bp, pb.size + b.size + nb.size, false⟩ (del (del (del Ls b) nb) pb) pb.bp e r2 r3
    (by simp) rfl (by simp only []; omega) (by simp only []; omega) (by simp only []; omega) r5
  have hl1p : Layout h1 (A ++ [pb, b, nb] ++ B) := by simpa using d3
  have hl2p : Layout h2 (A ++ [pb, b] ++ (nb :: B)) := by simpa using e3
  have hl3p : Layout h3 (A ++ [pb, b] ++ (nb :: B)) := by simpa using f3
  have q5 := layout_prev_reads h2 A (nb :: B) pb b hl2p
  have q6 := layout_prev_reads h3 A (nb :: B) pb b hl3p
  have rb1 := layout_reads h1 _ hl1p b (by simp)
  have rb3 := layout_reads h3 _ hl3 b (by simp)
  have rn3 := layout_reads h3 _ hl3 nb (by simp)
  have rp3 := layout_reads h3 _ hl3 pb (by simp)
  have hpath := coalesce_both_path h h1 h2 h3 h6 b.bp pb.bp nb.bp b.size pb.size nb.size
    (by rw [q4, f7]; rfl) (by rw [rb.2.1, hadj2, rn.2.2.2.2.1, e7]; rfl) rb.1 d1
    (by rw [rb1.2.1]; exact hadj2) e1 q5.2.2.1 f1 q6.2.2.1 (by rw [rb3.2.1]; exact hadj2)
    rp3.1 rn3.2.2.1 rn3.2.2.2.1 rb3.1 rn3.1 q6.2.1 hadj1 hadj2 k3 n3 m3 (by omega) (by omega)
    (by omega) i1
  refine ⟨h6, hpath, same_trans _ _ _ d2 (same_trans _ _ _ e2 (same_trans _ _ _ f2
    (same_trans _ _ _ r1 i2))), i3, i4, ?_⟩
  have c1 : Keeps h h1 (A ++ B) := keeps_drop3 h h1 A [] B _ d5
    (fun c hc => by rcases hc with hc | hc <;> simp [hc])
  have c2 : Keeps h1 h2 (A ++ B) := keeps_drop3 h1 h2 A [] B _ e5
    (fun c hc => by rcases hc with hc | hc <;> simp [hc])
  have c3 : Keeps h2 h3 (A ++ B) := keeps_drop3 h2 h3 A [] B _ f5
    (fun c hc => by rcases hc with hc | hc <;> simp [hc])
  exact keeps_trans _ _ _ _ c1 (keeps_trans _ _ _ _ c2 (keeps_trans _ _ _ _ c3
    (keeps_trans _ _ _ _ r4 (keeps_AB _ _ _ _ _ i5))))

/-- What `coalesce` reads about the previous block, by cases. -/
theorem prev_read_spec (h : Heap) (A B : List Block) (b : Block)
    (hl : Layout h (A ++ [b] ++ B)) :
    (prev_free A = [] ∧ GET_ALLOC (h.mem (FTRP h.mem (PREV_BLKP h.mem b.bp))) ≠ 0) ∨
    (∃ A1 pb, A = A1 ++ [pb] ∧ pb.alloc = false ∧ prev_free A = [pb] ∧
      GET_ALLOC (h.mem (FTRP h.mem (PREV_BLKP h.mem b.bp))) = 0) := by
  rcases List.eq_nil_or_concat A with hnil | ⟨A1, pb, hcat⟩
  · subst hnil
    left
    refine ⟨rfl, ?_⟩
    rw [(layout_first_reads h B b hl).2]
    omega
  · rw [List.concat_eq_append] at hcat
    subst hcat
    have hl2 : Layout h (A1 ++ [pb, b] ++ B) := by simpa using hl
    have q := (layout_prev_reads h A1 B pb b hl2).2.2.2
    have hpf : prev_free (A1 ++ [pb]) = if pb.alloc then [] else [pb] := by
      unfold prev_free
      rw [List.getLast?_append, List.getLast?_singleton]
      rfl
    by_cases ha : pb.alloc = true
    · left
      rw [hpf, q, if_pos ha, if_pos ha]
      exact ⟨rfl, by omega⟩
    · right
      have ha2 : pb.alloc = false := by simpa using ha
      refine ⟨A1, pb, rfl, ha2, ?_, ?_⟩
      · rw [hpf, if_neg ha]
      · rw [q, if_neg ha]

/-- What `coalesce` reads about the next block, by cases. -/
theorem next_read_spec (h : Heap) (A B : List Block) (b : Block)
    (hl : Layout h (A ++ [b] ++ B)) :
    (next_free B = [] ∧ GET_ALLOC (h.mem (HDRP (NEXT_BLKP h.mem b.bp))) ≠ 0) ∨
    (∃ nb B1, B = nb :: B1 ∧ nb.alloc = false ∧ next_free B = [nb] ∧
      GET_ALLOC (h.mem (HDRP (NEXT_BLKP h.mem b.bp))) = 0) := by
  cases B with
  | nil =>
    left
    refine ⟨rfl, ?_⟩
    rw [(layout_last_reads h A b hl).2]
    omega
  | cons nb B1 =>
    have hl2 : Layout h (A ++ [b, nb] ++ B1) := by simpa using hl
    have hadj := tiling_adjacent _ _ _ _ _ _ _ hl2.til
    have rb := layout_reads h _ hl2 b (by simp)
    have rn := layout_reads h _ hl2 nb (by simp)
    have q : GET_ALLOC (h.mem (HDRP (NEXT_BLKP h.mem b.bp))) = if nb.alloc then 1 else 0 := by
      rw [rb.2.1, hadj]; exact rn.2.2.2.2.1
    have hnf : next_free (nb :: B1) = if nb.alloc then [] else [nb] := rfl
    by_cases ha : nb.alloc = true
    · left
      rw [hnf, q, if_pos ha, if_pos ha]
      exact ⟨rfl, by omega⟩
    · right
      have ha2 : nb.alloc = false := by simpa using ha
      refine ⟨nb, B1, rfl, ha2, ?_, ?_⟩
      · rw [hnf, if_neg ha]
      · rw [q, if_neg ha]

theorem member_free (h : Heap) (bs : List Block) (Ls : Nat → List Nat) (hl : Layout h bs)
    (hL : Lists h bs Ls) (b : Block) (hb : b ∈ bs) (hin : b.bp ∈ Ls (class_of b.size)) :
    b.alloc = false ∧ 32 ≤ b.size := by
  obtain ⟨c, hc, f1, f2, f3, f4⟩ := hL.members _ (class_of_lt _) _ hin
  have hcb := tiling_bp_inj _ _ _ _ hl.til c b hc hb f1
  subst hcb
  exact ⟨f2, f3⟩

theorem block_eta (b : Block) (h : b.alloc = false) : (⟨b.bp, b.size, false⟩ : Block) = b := by
  cases b
  simp only [] at h
  simp [h]

/-- Function `coalesce` on a free block `b` that is in the list of its class,
when its free neighbours are in the lists of their classes: the merged block
replaces them in the heap and in the lists. -/
theorem coalesce_spec (h : Heap) (A B : List Block) (b : Block) (Ls : Nat → List Nat)
    (hl : Layout h (A ++ [b] ++ B)) (hL : Lists h (A ++ [b] ++ B) Ls)
    (hb : b.bp ∈ Ls (class_of b.size))
    (hnbr : ∀ c ∈ prev_free A ++ next_free B, c.bp ∈ Ls (class_of c.size)) :
    ∃ h1, coalesce h b.bp = some (h1, (merged A b B).bp) ∧ Same h h1 ∧
      Layout h1 (coalesce_blocks A b B) ∧
      Lists h1 (coalesce_blocks A b B) (coalesce_lists Ls A b B) ∧
      Keeps h h1 (before A ++ after B) := by
  have hfree := (member_free h _ Ls hl hL b (by simp) hb).1
  rcases prev_read_spec h A B b hl with ⟨p1, p2⟩ | ⟨A1, pb, p1, p2, p3, p4⟩
  · rcases next_read_spec h A B b hl with ⟨n1, n2⟩ | ⟨nb, B1, n1, n2, n3, n4⟩
    · -- case 1
      have e1 : merged A b B = b := by
        unfold merged; rw [p1, n1]; simp [total_size]; exact block_eta b hfree
      have e2 : coalesce_blocks A b B = A ++ [b] ++ B := by
        unfold coalesce_blocks before after; rw [e1, p1, n1]; simp
      have e3 : coalesce_lists Ls A b B = Ls := by
        unfold coalesce_lists; rw [if_pos ⟨p1, n1⟩]
      have e4 : before A ++ after B = A ++ B := by
        unfold before after; rw [p1, n1]; simp
      rw [e1, e2, e3, e4]
      exact ⟨h, coalesce_none h b.bp p2 n2, ⟨rfl, rfl, rfl, rfl⟩, hl, hL, keeps_refl _ _⟩
    · -- case 2
      subst n1
      have e1 : merged A b (nb :: B1) = ⟨b.bp, b.size + nb.size, false⟩ := by
        unfold merged; rw [p1, n3]; simp [total_size]
      have e2 : coalesce_blocks A b (nb :: B1) =
          A ++ [⟨b.bp, b.size + nb.size, false⟩] ++ B1 := by
        unfold coalesce_blocks before after; rw [e1, p1, n3]; simp
      have e3 : coalesce_lists Ls A b (nb :: B1) =
          ins (del (del Ls b) nb) ⟨b.bp, b.size + nb.size, false⟩ := by
        unfold coalesce_lists; rw [e1, p1, n3]; simp
      have e4 : before A ++ after (nb :: B1) = A ++ B1 := by
        unfold before after; rw [p1, n3]; simp
      rw [e1, e2, e3, e4]
      have hl2 : Layout h (A ++ [b, nb] ++ B1) := by simpa using hl
      have hL2 : Lists h (A ++ [b, nb] ++ B1) Ls := by simpa using hL
      exact coalesce_next h A B1 b nb Ls hl2 hL2 hb (hnbr nb (by rw [n3]; simp)) p2
  · subst p1
    have hl3 : Layout h (A1 ++ [pb, b] ++ B) := by simpa using hl
    have hadj := (layout_prev_reads h A1 B pb b hl3).1
    have hdl : (A1 ++ [pb]).dropLast = A1 := by simp
    rcases next_read_spec h (A1 ++ [pb]) B b hl with ⟨n1, n2⟩ | ⟨nb, B1, n1, n2, n3, n4⟩
    · -- case 3
      have e1 : merged (A1 ++ [pb]) b B = ⟨pb.bp, pb.size + b.size, false⟩ := by
        unfold merged; rw [p3, n1]; simp [total_size]; omega
      have e2 : coalesce_blocks (A1 ++ [pb]) b B =
          A1 ++ [⟨pb.bp, pb.size + b.size, false⟩] ++ B := by
        unfold coalesce_blocks before after; rw [e1, p3, n1, hdl]; simp
      have e3 : coalesce_lists Ls (A1 ++ [pb]) b B =
          ins (del (del Ls b) pb) ⟨pb.bp, pb.size + b.size, false⟩ := by
        unfold coalesce_lists; rw [e1, p3, n1]; simp
      have e4 : before (A1 ++ [pb]) ++ after B = A1 ++ B := by
        unfold before after; rw [p3, n1, hdl]; simp
      rw [e1, e2, e3, e4]
      have hL3 : Lists h (A1 ++ [pb, b] ++ B) Ls := by simpa using hL
      exact coalesce_prev h A1 B pb b Ls hl3 hL3 hb (hnbr pb (by rw [p3]; simp)) n2
    · -- case 4
      subst n1
      have e1 : merged (A1 ++ [pb]) b (nb :: B1) =
          ⟨pb.bp, pb.size + b.size + nb.size, false⟩ := by
        unfold merged; rw [p3, n3]; simp [total_size]; omega
      have e2 : coalesce_blocks (A1 ++ [pb]) b (nb :: B1) =
          A1 ++ [⟨pb.bp, pb.size + b.size + nb.size, false⟩] ++ B1 := by
        unfold coalesce_blocks before after; rw [e1, p3, n3, hdl]; simp
      have e3 : coalesce_lists Ls (A1 ++ [pb]) b (nb :: B1) =
          ins (del (del (del Ls b) nb) pb) ⟨pb.bp, pb.size + b.size + nb.size, false⟩ := by
        unfold coalesce_lists; rw [e1, p3, n3]; simp
      have e4 : before (A1 ++ [pb]) ++ after (nb :: B1) = A1 ++ B1 := by
        unfold before after; rw [p3, n3, hdl]; simp
      rw [e1, e2, e3, e4]
      have hl4 : Layout h (A1 ++ [pb, b, nb] ++ B1) := by simpa using hl
      have hL4 : Lists h (A1 ++ [pb, b, nb] ++ B1) Ls := by simpa using hL
      exact coalesce_both h A1 B1 pb b nb Ls hl4 hL4 hb (hnbr pb (by rw [p3]; simp))
        (hnbr nb (by rw [n3]; simp))

theorem alloc_not_member (h : Heap) (bs : List Block) (Ls : Nat → List Nat) (hl : Layout h bs)
    (hL : Lists h bs Ls) (b : Block) (hb : b ∈ bs) (ha : b.alloc = true) :
    ∀ i < 18, b.bp ∉ Ls i := by
  intro i hi hx
  obtain ⟨c, hc, f1, f2, f3, f4⟩ := hL.members i hi _ hx
  have hcb := tiling_bp_inj _ _ _ _ hl.til c b hc hb f1
  subst hcb
  rw [ha] at f2
  exact absurd f2 (by simp)

theorem mem_ins_of_mem (Ls : Nat → List Nat) (b : Block) (x j : Nat) (hx : x ∈ Ls j) :
    x ∈ ins Ls b j := by
  unfold ins
  by_cases hj : j = class_of b.size
  · subst hj
    rw [Function.update_same]
    exact List.mem_cons_of_mem _ hx
  · rw [Function.update_noteq hj]
    exact hx

theorem mem_ins_self (Ls : Nat → List Nat) (b : Block) : b.bp ∈ ins Ls b (class_of b.size) := by
  unfold ins
  rw [Function.update_same]
  exact List.mem_cons_self _ _

/-- The code path of `mm_free`. -/
theorem mm_free_path (h h3 h4 : Heap) (bp size p : Nat) (hbp : bp ≠ 0)
    (hcs : GET_SIZE (h.mem (HDRP bp)) = size) (hal : size % 8 = 0) (hlt : size < 2 ^ 31)
    (i1 : insert_block { h with mem := set_tags h.mem bp size 0 } bp (size : Int) = some h3)
    (c1 : coalesce h3 bp = some (h4, p)) : mm_free h bp = some h4 := by
  unfold mm_free
  simp only [NULL, if_neg hbp, hcs, put_tags h bp size 0 hal (by omega) (by omega),
    toInt_small size hlt, i1, c1]

/-- Function `mm_free` on an allocated block `b` of at least the minimum block
size whose free neighbours are in the lists of their classes: `b` is marked
free, put in the list of its class and coalesced with its free neighbours. -/
theorem mm_free_spec (h : Heap) (A B : List Block) (b : Block) (Ls : Nat → List Nat)
    (hl : Layout h (A ++ [b] ++ B)) (hL : Lists h (A ++ [b] ++ B) Ls)
    (ha : b.alloc = true) (hsz : 32 ≤ b.size)
    (hnbr : ∀ c ∈ prev_free A ++ next_free B, c.bp ∈ Ls (class_of c.size)) :
    ∃ h1, mm_free h b.bp = some h1 ∧ Same h h1 ∧
      Layout h1 (coalesce_blocks A ⟨b.bp, b.size, false⟩ B) ∧
      Lists h1 (coalesce_blocks A ⟨b.bp, b.size, false⟩ B)
        (coalesce_lists (ins Ls ⟨b.bp, b.size, false⟩) A ⟨b.bp, b.size, false⟩ B) ∧
      Keeps h h1 (before A ++ after B) := by
  have hbm : b ∈ A ++ [b] ++ B := by simp
  obtain ⟨k1, k2, k3, k4, k5, k6, k7, k8⟩ := layout_block h _ hl b hbm
  have hcs := (layout_reads h _ hl b hbm).1
  obtain ⟨s, e, hA, hM, hB, t1, t2, t3, t4, t5, t6⟩ := layout_split3 h A [b] B hl
  obtain ⟨u1, u2⟩ := tiling_single _ _ _ _ hM
  subst u1
  subst u2
  clear k1 k2 k7 k8
  have hnot : ∀ c ∈ [b], ∀ i < 18, c.bp ∉ Ls i := by
    intro c hc
    rw [List.mem_singleton.1 hc]
    exact alloc_not_member h _ Ls hl hL b hbm ha
  obtain ⟨r1, r2, r3, r4, r5⟩ := retile_set1 h A [b] B Ls b.bp (b.bp + b.size) b.size 0
    hl hL hA hB rfl (by omega) k4 (by omega) hnot _ rfl
  obtain ⟨h3, i1, i2, i3, i4, i5⟩ := relist_spec _ A _ B ⟨b.bp, b.size, false⟩
    Ls b.bp (b.bp + b.size) r2 r3 (by simp) rfl hsz (by simp only []; omega)
    (by simp only []; omega) r5
  have hnbr2 : ∀ c ∈ prev_free A ++ next_free B,
      c.bp ∈ ins Ls ⟨b.bp, b.size, false⟩ (class_of c.size) :=
    fun c hc => mem_ins_of_mem _ _ _ _ (hnbr c hc)
  obtain ⟨h4, c1, c2, c3, c4, c5⟩ := coalesce_spec h3 A B ⟨b.bp, b.size, false⟩ _ i3 i4
    (mem_ins_self Ls ⟨b.bp, b.size, false⟩) hnbr2
  refine ⟨h4, ?_, same_trans _ _ _ r1 (same_trans _ _ _ i2 c2), c3, c4, ?_⟩
  · exact mm_free_path h h3 h4 b.bp b.size _ (by omega) hcs k4 k6 i1 c1
  · have q1 : Keeps h h3 (A ++ B) := keeps_trans _ _ _ _ r4 (keeps_AB _ _ _ _ _ i5)
    apply keeps_trans h h3 h4 _ _ c5
    apply keeps_sub _ _ _ _ q1
    intro c hc
    rcases List.mem_append.1 hc with hc | hc
    · apply List.mem_append_left
      unfold before at hc
      split at hc
      · exact hc
      · exact List.mem_of_mem_dropLast hc
    · apply List.mem_append_right
      unfold after at hc
      split at hc
      · exact hc
      · exact List.mem_of_mem_tail hc

/-- The layout and the lists after the heap was extended by one free block
that is not yet in a list. -/
theorem extend_layout (h : Heap) (bs : List Block) (Ls : Nat → List Nat) (size : Nat)
    (hl : Layout h bs) (hL : Lists h bs Ls) (hsz : 16 ≤ size) (hal : size % 8 = 0)
    (hfit : h.brk + size ≤ h.max_addr) (h4 : Heap) (hh4 : h4 = grown h size) :
    Layout h4 (bs ++ [⟨h.brk, size, false⟩] ++ []) ∧
      Lists h4 (bs ++ [⟨h.brk, size, false⟩] ++ []) Ls ∧ Keeps h h4 bs ∧
      (∀ i < 18, ∀ x ∈ Ls i, x + 32 ≤ h.brk) := by
  subst hh4
  unfold grown
  have hbrk := layout_brk h bs hl
  have hf : ∀ a, a + 8 < h.brk →
      PUT (set_tags h.mem h.brk size 0) (h.brk + size - 8) 1 a = h.mem a := by
    intro a ha
    rw [PUT_other _ _ _ _ (by omega), set_tags_other _ _ _ _ _ hsz (by omega) (by omega)]
  have hout : ∀ i < 18, ∀ x ∈ Ls i, x + 32 ≤ h.brk := by
    intro i hi x hx
    obtain ⟨c, hc, f1, f2, f3, f4, f5, f6, f7⟩ := members_block h bs Ls hl hL i hi x hx
    omega
  refine ⟨?_, ?_, ?_, hout⟩
  · constructor
    · exact hl.tbl_pos
    · exact hl.tbl_al
    · exact hl.hl
    · show PUT _ _ _ (h.seg_lst + 152) = 17
      rw [hf _ (by omega)]; exact hl.pro_h
    · show PUT _ _ _ (h.seg_lst + 160) = 17
      rw [hf _ (by omega)]; exact hl.pro_f
    · show Tiling (PUT _ _ _) _ _ (h.brk + size)
      rw [List.append_nil]
      apply (tiling_append _ _ _ _ _).2
      refine ⟨h.brk, ?_, ?_⟩
      · apply tiling_frame _ _ _ _ _ hl.til
        intro b hb
        have := layout_block h bs hl b hb
        constructor
        · rw [hf _ (by omega)]
        · rw [hf _ (by omega)]
      · refine ⟨rfl, hsz, hal, ?_, ?_, rfl⟩
        · rw [PUT_other _ _ _ _ (by omega), set_tags_hdr _ _ _ _ hsz (by omega)]
          rfl
        · show PUT _ _ _ (h.brk + size - 16) = _
          rw [PUT_other _ _ _ _ (by omega), set_tags_ftr]
          rfl
    · show PUT _ _ _ (h.brk + size - 8) = 1
      rw [PUT_same]
    · exact hfit
    · exact hl.cap2
  · constructor
    · intro i hi
      show Chain (PUT _ _ _) 0 (PUT _ _ _ (h.seg_lst + i * 8)) _
      rw [hf _ (by omega)]
      apply chain_frame _ _ _ _ _ (hL.chains i hi)
      intro x hx
      have := hout i hi x hx
      constructor
      · rw [hf _ (by omega)]
      · rw [hf _ (by omega)]
    · intro i hi x hx
      obtain ⟨c, hc, f⟩ := hL.members i hi x hx
      exact ⟨c, by simp [hc], f⟩
    · exact hL.nodup
  · intro c hc _ a ha1 ha2
    have := layout_block h bs hl c hc
    exact hf a (by omega)

/-- The code path of `extend_heap` when the backing store grants the request. -/
theorem extend_heap_path (h h5 h6 : Heap) (words p : Nat) (hw : words * 8 < 2 ^ 31)
    (hsz : 16 ≤ words * 8) (hbrk : 8 ≤ h.brk)
    (hfit : h.brk + words * 8 ≤ h.max_addr)
    (i1 : insert_block (grown h (words * 8)) h.brk ((words * 8 : Nat) : Int) = some h5)
    (c1 : coalesce h5 h.brk = some (h6, p)) :
    extend_heap h words = some (h6, p) := by
  have hal : words * 8 % 8 = 0 := by omega
  have hp01 : PACK 0 1 = 1 := by decide
  have hg : grown h (words * 8) = (Heap.mk (PUT (set_tags h.mem h.brk (words * 8) 0)
      (h.brk + words * 8 - 8) 1) (h.brk + words * 8) h.max_addr h.heap_listp h.seg_lst) := rfl
  rw [hg] at i1
  unfold extend_heap mem_sbrk
  simp only [WSIZE, u64_small (words * 8) (by omega), if_pos hfit]
  have e1 := put_tags (Heap.mk h.mem (h.brk + words * 8) h.max_addr h.heap_listp h.seg_lst)
    h.brk (words * 8) 0 hal (by omega) (by omega)
  simp only [WSIZE] at e1
  simp only [e1, next_set_tags h.mem h.brk (words * 8) 0 hsz hal (by omega) (by omega) hbrk]
  have e3 : (Heap.mk (set_tags h.mem h.brk (words * 8) 0) (h.brk + words * 8) h.max_addr
      h.heap_listp h.seg_lst).put (HDRP (h.brk + words * 8)) (PACK 0 1) =
      (Heap.mk (PUT (set_tags h.mem h.brk (words * 8) 0) (h.brk + words * 8 - 8) 1)
      (h.brk + words * 8) h.max_addr h.heap_listp h.seg_lst) := by
    unfold Heap.put HDRP WSIZE
    simp only [hp01]
  have e2 : GET_SIZE (PUT (set_tags h.mem h.brk (words * 8) 0) (h.brk + words * 8 - 8) 1
      (HDRP h.brk)) = words * 8 := by
    unfold HDRP WSIZE
    rw [PUT_other _ _ _ _ (by omega), set_tags_hdr _ _ _ _ hsz hbrk]
    exact GET_SIZE_add _ _ hal (by omega) (by omega)
  simp only [e3, e2, toInt_small _ hw, i1]
  exact c1

/-- Function `extend_heap` when the backing store fails: nothing changes. -/
theorem extend_heap_fail (h : Heap) (words : Nat)
    (hfit : ¬ (h.brk + u64 (words * 8) ≤ h.max_addr)) : extend_heap h words = some (h, 0) := by
  unfold extend_heap mem_sbrk
  simp only [WSIZE, if_neg hfit, NULL]

/-- Function `extend_heap` when the backing store grants the request: the new
memory becomes a free block, coalesced with the last block when that is free;
the result is in a list. -/
theorem extend_heap_spec (h : Heap) (bs : List Block) (Ls : Nat → List Nat) (words : Nat)
    (hl : Layout h bs) (hL : Lists h bs Ls) (hsz : 32 ≤ words * 8)
    (hfit : h.brk + words * 8 ≤ h.max_addr)
    (hlast : ∀ c ∈ prev_free bs, c.bp ∈ Ls (class_of c.size)) :
    ∃ h1, extend_heap h words = some (h1, (merged bs ⟨h.brk, words * 8, false⟩ []).bp) ∧
      h1.brk = h.brk + words * 8 ∧ h1.max_addr = h.max_addr ∧ h1.heap_listp = h.heap_listp ∧
      h1.seg_lst = h.seg_lst ∧
      Layout h1 (coalesce_blocks bs ⟨h.brk, words * 8, false⟩ []) ∧
      Lists h1 (coalesce_blocks bs ⟨h.brk, words * 8, false⟩ [])
        (coalesce_lists (ins Ls ⟨h.brk, words * 8, false⟩) bs ⟨h.brk, words * 8, false⟩ []) ∧
      Keeps h h1 (before bs) := by
  have hbrk := layout_brk h bs hl
  have hc1 := hl.cap1
  have hc2 := hl.cap2
  obtain ⟨r1, r2, r3, r4⟩ := extend_layout h bs Ls (words * 8) hl hL (by omega) (by omega)
    hfit _ rfl
  have g1 : (grown h (words * 8)).brk = h.brk + words * 8 := rfl
  have g2 : (grown h (words * 8)).max_addr = h.max_addr := rfl
  have g3 : (grown h (words * 8)).heap_listp = h.heap_listp := rfl
  have g4 : (grown h (words * 8)).seg_lst = h.seg_lst := rfl
  obtain ⟨h5, i1, i2, i3, i4, i5⟩ := relist_spec _ bs _ [] ⟨h.brk, words * 8, false⟩
    Ls h.brk (h.brk + words * 8) r1 r2 (by simp) rfl hsz (by simp only []; omega)
    (by simp only []; omega) (fun i hi x hx => Or.inl (r4 i hi x hx))
  have hnbr2 : ∀ c ∈ prev_free bs ++ next_free [],
      c.bp ∈ ins Ls ⟨h.brk, words * 8, false⟩ (class_of c.size) := by
    intro c hc
    have : next_free ([] : List Block) = [] := rfl
    rw [this, List.append_nil] at hc
    exact mem_ins_of_mem _ _ _ _ (hlast c hc)
  obtain ⟨h6, c1, c2, c3, c4, c5⟩ := coalesce_spec h5 bs [] ⟨h.brk, words * 8, false⟩ _ i3 i4
    (mem_ins_self Ls ⟨h.brk, words * 8, false⟩) hnbr2
  refine ⟨h6, ?_, ?_, ?_, ?_, ?_, c3, c4, ?_⟩
  · exact extend_heap_path h h5 h6 words _ (by omega) (by omega) (by omega) hfit i1 c1
  · rw [c2.1, i2.1, g1]
  · rw [c2.2.1, i2.2.1, g2]
  · rw [c2.2.2.1, i2.2.2.1, g3]
  · rw [c2.2.2.2, i2.2.2.2, g4]
  · have haft : after ([] : List Block) = [] := rfl
    rw [haft, List.append_nil] at c5
    have q1 : Keeps h h5 bs := by
      apply keeps_trans _ _ _ _ r3
      apply keeps_sub _ _ _ _ i5
      intro c hc
      simp [hc]
    apply keeps_trans h h5 h6 _ _ c5
    apply keeps_sub _ _ _ _ q1
    intro c hc
    unfold before at hc
    split at hc
    · exact hc
    · exact List.mem_of_mem_dropLast hc

theorem find_loop_spec (m : Nat → Nat) (asize : Int) :
    ∀ (L : List Nat) (p c fuel : Nat), Chain m p c L → L.length < fuel →
      find_block_from_list_loop m asize fuel c = some (hit m asize L) := by
  intro L
  induction L with
  | nil =>
    intro p c fuel hc hf
    have hc0 : c = 0 := hc
    subst hc0
    cases fuel with
    | zero => omega
    | succ n => simp [find_block_from_list_loop, NULL, hit]
  | cons x xs ih =>
    intro p c fuel hc hf
    obtain ⟨h1, h2, h3, h4⟩ := hc
    subst h1
    cases fuel with
    | zero => simp at hf
    | succ n =>
      unfold find_block_from_list_loop
      simp only [NULL, ne_eq, h2, not_false_eq_true, if_true]
      by_cases hsz : toInt (GET_SIZE (m (HDRP c))) ≥ asize
      · simp only [hsz, if_true, hit, List.find?_cons, decide_True, Option.getD_some]
      · simp only [hsz, if_false, hit, List.find?_cons, decide_False]
        have := ih c (m c) n h4 (by simpa using hf)
        simpa [hit, next_of] using this

theorem hit_spec (m : Nat → Nat) (asize : Int) (L : List Nat) (h : hit m asize L ≠ 0) :
    hit m asize L ∈ L ∧ toInt (GET_SIZE (m (HDRP (hit m asize L)))) ≥ asize := by
  unfold hit at h ⊢
  cases hf : L.find? (fun x => decide (toInt (GET_SIZE (m (HDRP x))) ≥ asize)) with
  | none => rw [hf] at h; simp at h
  | some y =>
    simp only [Option.getD_some]
    have h1 := List.mem_of_find?_eq_some hf
    have h2 := List.find?_some hf
    exact ⟨h1, by simpa using h2⟩

theorem list_length_le (L : List Nat) (n : Nat) (hn : L.Nodup) (hb : ∀ x ∈ L, x < n) :
    L.length ≤ n := by
  have h1 : L.toFinset ⊆ Finset.range n := by
    intro x hx
    rw [List.mem_toFinset] at hx
    exact Finset.mem_range.2 (hb x hx)
  have h2 := Finset.card_le_card h1
  rw [List.toFinset_card_of_nodup hn, Finset.card_range] at h2
  exact h2

theorem find_block_spec (h : Heap) (bs : List Block) (Ls : Nat → List Nat) (hl : Layout h bs)
    (hL : Lists h bs Ls) (i : Nat) (hi : i < 18) (asize : Int) (ha : asize > 0) :
    find_block_from_list h (h.mem (seg_at h i)) asize = some (hit h.mem asize (Ls i)) := by
  have hch := hL.chains i hi
  have hlen : (Ls i).length ≤ h.brk := by
    apply list_length_le _ _ (hL.nodup i hi)
    intro x hx
    obtain ⟨c, hc, f1, f2, f3, f4, f5, f6, f7⟩ := members_block h bs Ls hl hL i hi x hx
    omega
  unfold find_block_from_list
  simp only [ha, not_true_eq_false, if_false, NULL, seg_at, WSIZE]
  by_cases hz : h.mem (h.seg_lst + i * 8) = 0
  · rw [if_pos hz]
    have hh := chain_head _ _ _ _ hch
    rw [hz] at hch
    cases hLi : Ls i with
    | nil => simp [hit]
    | cons x xs =>
      rw [hLi] at hch
      exact absurd hch.1.symm hch.2.1
  · rw [if_neg hz]
    exact find_loop_spec h.mem asize (Ls i) 0 _ (h.brk + 1) hch (by omega)

theorem find_fit_loop_spec (h : Heap) (bs : List Block) (Ls : Nat → List Nat)
    (hl : Layout h bs) (hL : Lists h bs Ls) (asize : Int) (ha : asize > 0) :
    ∀ (fuel i : Nat), find_fit_loop h asize fuel i = some (fit_from h.mem Ls asize fuel i) := by
  intro fuel
  induction fuel with
  | zero => intro i; simp [find_fit_loop, fit_from, NULL]
  | succ n ih =>
    intro i
    unfold find_fit_loop fit_from
    simp only [SEGLST_NUM, NULL]
    by_cases hi : i < 18
    · simp only [hi, if_true, find_block_spec h bs Ls hl hL i hi asize ha]
      by_cases hz : hit h.mem asize (Ls i) ≠ 0
      · simp only [hz, if_true, ne_eq, not_false_eq_true]
      · simp only [hz, if_false]
        exact ih (i + 1)
    · simp only [hi, if_false]

/-- Function `find_fit` on an adjusted size that fits a positive `int`: it
returns the first hit in the lists from the class of `asize` on. -/
theorem find_fit_spec (h : Heap) (bs : List Block) (Ls : Nat → List Nat)
    (hl : Layout h bs) (hL : Lists h bs Ls) (asize : Nat) (ha : 0 < asize)
    (ha2 : asize < 2 ^ 31) :
    find_fit h asize = some (fit_from h.mem Ls (asize : Int) 18 (class_of asize)) := by
  unfold find_fit
  rw [toInt_small asize ha2, get_list_index_nat]
  simp only [SEGLST_NUM]
  exact find_fit_loop_spec h bs Ls hl hL _ (by omega) _ _

/-- A hit of `find_fit` is a member of a list, hence a free block of the heap,
and holds at least `asize` bytes. -/
theorem fit_from_spec (h : Heap) (bs : List Block) (Ls : Nat → List Nat)
    (hl : Layout h bs) (hL : Lists h bs Ls) (asize : Nat) :
    ∀ (fuel i : Nat), fit_from h.mem Ls (asize : Int) fuel i ≠ 0 →
      ∃ b ∈ bs, b.bp = fit_from h.mem Ls (asize : Int) fuel i ∧ asize ≤ b.size ∧
        b.bp ∈ Ls (class_of b.size) := by
  intro fuel
  induction fuel with
  | zero => intro i hne; simp [fit_from] at hne
  | succ n ih =>
    intro i hne
    unfold fit_from at hne ⊢
    by_cases hi : i < 18
    · simp only [hi, if_true] at hne ⊢
      by_cases hz : hit h.mem (asize : Int) (Ls i) ≠ 0
      · simp only [hz, if_true, ne_eq, not_false_eq_true] at hne ⊢
        obtain ⟨m1, m2⟩ := hit_spec _ _ _ hz
        obtain ⟨c, hc, f1, f2, f3, f4⟩ := hL.members i hi _ m1
        have hs := (layout_reads h bs hl c hc).1
        have hlt := (layout_block h bs hl c hc).2.2.2.2.2.1
        rw [← f1, hs, toInt_small _ hlt] at m2
        refine ⟨c, hc, f1, by omega, ?_⟩
        rw [f4, f1]; exact m1
      · simp only [hz, if_false] at hne ⊢
        exact ih (i + 1) hne
    · simp only [hi, if_false] at hne
      exact absurd rfl hne

/-- The adjusted size of a request below `2 ^ 31`, by cases. -/
theorem adjust_size_eq (size : Nat) (hs : size < 2 ^ 31) :
    adjust_size size =
      if size = 4092 then 4120
      else if size % 128 = 0 ∧ size ≠ 128 then size + 144
      else if size ≤ 16 then 32
      else if size % 8 = 0 then size + 16
      else 16 + (size / 8 + 1) * 8 := by
  unfold adjust_size
  simp only [DSIZE, WSIZE]
  by_cases h1 : size = 4092
  · simp [h1]
  · rw [if_neg h1, if_neg h1]
    by_cases h2 : size % 128 = 0 ∧ size ≠ 128
    · rw [if_pos h2, if_pos h2, u64_small (2 * 8 + size) (by omega), u64_small _ (by omega)]
      omega
    · rw [if_neg h2, if_neg h2]
      by_cases h3 : size ≤ 16
      · rw [if_pos (by omega), if_pos h3]
      · rw [if_neg (by omega), if_neg h3]
        by_cases h4 : size % 8 = 0
        · rw [if_pos h4, if_pos h4, u64_small _ (by omega)]
          omega
        · rw [if_neg h4, if_neg h4, u64_small ((size / 8 + 1) * 8) (by omega),
            u64_small _ (by omega)]

/-- The adjusted size is a multiple of the word size, at least the minimum
block size, and leaves room for the payload and the two tags. -/
theorem adjust_size_facts (size : Nat) (hs : size < 2 ^ 31) (h0 : 0 < size) :
    adjust_size size % 8 = 0 ∧ 32 ≤ adjust_size size ∧ size + 16 ≤ adjust_size size ∧
      adjust_size size ≤ size + 144 := by
  rw [adjust_size_eq size hs]
  split_ifs <;> omega

/-- The amount asked of `extend_heap` is a multiple of the word size and
covers the adjusted size. -/
theorem extend_size_facts (size asize : Nat) (h1 : asize % 8 = 0) (h2 : asize < 2 ^ 31)
    (h3 : asize = adjust_size size) (hs : size < 2 ^ 31) :
    extend_size size asize % 8 = 0 ∧ asize ≤ extend_size size asize ∧
      128 ≤ extend_size size asize ∧ extend_size size asize < 2 ^ 31 := by
  have hae := adjust_size_eq size hs
  rw [← h3] at hae
  unfold extend_size MAX CHUNKSIZE
  simp only [WSIZE]
  have hc : (1 <<< 12 : Nat) = 4096 := by decide
  rw [hc]
  by_cases e1 : size = 16
  · simp [e1] at hae ⊢
    omega
  · by_cases e2 : size = 4092
    · simp [e2] at hae ⊢
      omega
    · simp only [e1, e2, if_false]
      by_cases e3 : asize > 4096
      · simp only [e3, if_true]
        rw [if_neg (by omega)]
        omega
      · simp only [e3, if_false]
        rw [if_neg (by omega)]
        omega

theorem adjust_size_512 (size : Nat) (h : size = 512) : adjust_size size = 640 + 16 := by
  subst h
  decide

/-- A request whose adjusted size does not fit a positive `int` aborts in
`find_fit` (`assert(size >= 0)` in `get_list_index`). -/
theorem mm_malloc_abort (h : Heap) (size : Nat) (hs : size < 2 ^ 31) (h0 : 0 < size)
    (hbig : 2 ^ 31 ≤ adjust_size size) : mm_malloc h size = none := by
  obtain ⟨a1, a2, a3, a4⟩ := adjust_size_facts size hs h0
  have hneg : toInt (adjust_size size) < 0 := by
    unfold toInt
    have : adjust_size size % 2 ^ 32 = adjust_size size := Nat.mod_eq_of_lt (by omega)
    rw [this, if_neg (by omega)]
    omega
  unfold mm_malloc find_fit get_list_index
  simp only [if_neg (show ¬ size = 0 by omega), hneg, if_true]

theorem mm_malloc_fit_path (h h1 : Heap) (size r p : Nat) (h0 : size ≠ 0)
    (hf : find_fit h (adjust_size size) = some r) (hr : r ≠ 0)
    (hp : place h r (adjust_size size) = some (h1, p)) : mm_malloc h size = some (h1, p) := by
  unfold mm_malloc
  simp only [if_neg h0, hf, NULL, ne_eq, hr, not_false_eq_true, if_true, hp]

theorem mm_malloc_ext_path (h h1 h2 : Heap) (size bp1 p : Nat) (h0 : size ≠ 0)
    (hs : size < 2 ^ 31)
    (hf : find_fit h (adjust_size size) = some 0)
    (he : extend_heap h (extend_size size (adjust_size size) / 8) = some (h1, bp1))
    (hb : bp1 ≠ 0) (hp : place h1 bp1 (adjust_size size) = some (h2, p)) :
    mm_malloc h size = some (h2, p) := by
  have h512 : (if size = 512 then 640 + 16 else adjust_size size) = adjust_size size := by
    split
    · rename_i h5; rw [adjust_size_512 size h5]
    · rfl
  unfold mm_malloc
  simp only [if_neg h0, hf, NULL, ne_eq, not_true_eq_false, if_false, WSIZE, he, hb, h512, hp]

theorem mm_malloc_fail_path (h : Heap) (size : Nat) (h0 : size ≠ 0)
    (hf : find_fit h (adjust_size size) = some 0)
    (he : extend_heap h (extend_size size (adjust_size size) / 8) = some (h, 0)) :
    mm_malloc h size = some (h, 0) := by
  unfold mm_malloc
  simp only [if_neg h0, hf, NULL, ne_eq, not_true_eq_false, if_false, WSIZE, he, if_true]

theorem merged_in_list (Ls : Nat → List Nat) (A : List Block) (b : Block) (B : List Block)
    (hfree : b.alloc = false) (hb : b.bp ∈ Ls (class_of b.size)) :
    (merged A b B).bp ∈ coalesce_lists Ls A b B (class_of (merged A b B).size) := by
  unfold coalesce_lists
  by_cases hc : prev_free A = [] ∧ next_free B = []
  · rw [if_pos hc]
    have e1 : merged A b B = b := by
      unfold merged; rw [hc.1, hc.2]; simp [total_size]; exact block_eta b hfree
    rw [e1]; exact hb
  · rw [if_neg hc]
    exact mem_ins_self _ _

theorem merged_size (A : List Block) (b : Block) (B : List Block) :
    b.size ≤ (merged A b B).size := by
  unfold merged
  simp only []
  omega

/-- The block that `place` marks allocated. -/
theorem placed_block (b : Block) (asize : Nat) (ha : asize ≤ b.size) :
    ∃ c ∈ place_blocks b asize, c.bp = place_ptr b asize ∧ c.alloc = true ∧ asize ≤ c.size := by
  unfold place_blocks place_ptr
  by_cases h1 : b.size - asize ≥ 32
  · by_cases h2 : asize = 128
    · rw [if_pos h1, if_neg (by simp [h2]), if_pos ⟨h1, h2⟩]
      exact ⟨_, List.mem_cons_of_mem _ (List.mem_cons_self _ _), rfl, rfl, Nat.le_refl _⟩
    · rw [if_pos h1, if_pos h2, if_neg (fun hh => h2 hh.2)]
      exact ⟨_, List.mem_cons_self _ _, rfl, rfl, Nat.le_refl _⟩
  · rw [if_neg h1, if_neg (fun hh => h1 hh.1)]
    exact ⟨_, List.mem_cons_self _ _, rfl, rfl, ha⟩

/-- Function `mm_malloc` on a request whose adjusted size fits an `int`: a fit
is placed, or the heap is extended and the new block placed, or (when the
backing store fails) nothing changes and `NULL` is returned. -/
theorem mm_malloc_spec (h : Heap) (bs : List Block) (Ls : Nat → List Nat) (size : Nat)
    (hl : Layout h bs) (hL : Lists h bs Ls) (h0 : 0 < size) (hs : size < 2 ^ 31)
    (hbig : adjust_size size < 2 ^ 31)
    (hlast : ∀ c ∈ prev_free bs, c.bp ∈ Ls (class_of c.size)) :
    (∃ A b B h1, bs = A ++ [b] ++ B ∧ b.bp ∈ Ls (class_of b.size) ∧
      adjust_size size ≤ b.size ∧
      b.bp = fit_from h.mem Ls (adjust_size size : Int) 18 (class_of (adjust_size size)) ∧
      mm_malloc h size = some (h1, place_ptr b (adjust_size size)) ∧ Same h h1 ∧
      Layout h1 (A ++ place_blocks b (adjust_size size) ++ B) ∧
      Lists h1 (A ++ place_blocks b (adjust_size size) ++ B)
        (place_lists Ls b (adjust_size size)) ∧
      Keeps h h1 (A ++ B)) ∨
    (fit_from h.mem Ls (adjust_size size : Int) 18 (class_of (adjust_size size)) = 0 ∧
      h.brk + extend_size size (adjust_size size) ≤ h.max_addr ∧
      ∃ h1, mm_malloc h size = some (h1, place_ptr
          (merged bs ⟨h.brk, extend_size size (adjust_size size), false⟩ [])
          (adjust_size size)) ∧
        h1.brk = h.brk + extend_size size (adjust_size size) ∧ h1.max_addr = h.max_addr ∧
        h1.heap_listp = h.heap_listp ∧ h1.seg_lst = h.seg_lst ∧
        Layout h1 (before bs ++ place_blocks
          (merged bs ⟨h.brk, extend_size size (adjust_size size), false⟩ [])
          (adjust_size size) ++ []) ∧
        Lists h1 (before bs ++ place_blocks
          (merged bs ⟨h.brk, extend_size size (adjust_size size), false⟩ [])
          (adjust_size size) ++ [])
          (place_lists (coalesce_lists
            (ins Ls ⟨h.brk, extend_size size (adjust_size size), false⟩) bs
            ⟨h.brk, extend_size size (adjust_size size), false⟩ [])
            (merged bs ⟨h.brk, extend_size size (adjust_size size), false⟩ [])
            (adjust_size size)) ∧
        Keeps h h1 (before bs)) ∨
    (fit_from h.mem Ls (adjust_size size : Int) 18 (class_of (adjust_size size)) = 0 ∧
      ¬ (h.brk + extend_size size (adjust_size size) ≤ h.max_addr) ∧
      mm_malloc h size = some (h, 0)) := by
  obtain ⟨a1, a2, a3, a4⟩ := adjust_size_facts size hs h0
  generalize hasz : adjust_size size = asize at *
  obtain ⟨x1, x2, x3, x4⟩ := extend_size_facts size asize a1 hbig hasz.symm hs
  generalize hext : extend_size size asize = ext at *
  have hfit := find_fit_spec h bs Ls hl hL asize (by omega) hbig
  by_cases hr : fit_from h.mem Ls (asize : Int) 18 (class_of asize) ≠ 0
  · left
    obtain ⟨b, hb, f1, f2, f3⟩ := fit_from_spec h bs Ls hl hL asize 18 _ hr
    obtain ⟨A, B, hsplit⟩ := List.append_of_mem hb
    have hsplit2 : bs = A ++ [b] ++ B := by rw [hsplit]; simp
    subst hsplit2
    obtain ⟨h1, p1, p2, p3, p4, p5⟩ := place_spec h A B b Ls asize hl hL f3 (by omega) a1 f2
    refine ⟨A, b, B, h1, rfl, f3, f2, f1, ?_, p2, p3, p4, p5⟩
    apply mm_malloc_fit_path h h1 size _ _ (by omega)
    · rw [hasz, hfit, ← f1]
    · rw [f1]; exact hr
    · rw [hasz]; exact p1
  · right
    have hr0 : fit_from h.mem Ls (asize : Int) 18 (class_of asize) = 0 := by
      simpa using hr
    have hw : ext / 8 * 8 = ext := by omega
    by_cases hcap : h.brk + ext ≤ h.max_addr
    · left
      refine ⟨hr0, hcap, ?_⟩
      have hbrk := layout_brk h bs hl
      obtain ⟨h1, e1, e2, e3, e4, e5, e6, e7, e8⟩ := extend_heap_spec h bs Ls (ext / 8) hl hL
        (by omega) (by omega) hlast
      rw [hw] at e1 e2 e6 e7
      have hmg := merged_size bs ⟨h.brk, ext, false⟩ []
      have hin := merged_in_list (ins Ls ⟨h.brk, ext, false⟩) bs ⟨h.brk, ext, false⟩ [] rfl
        (mem_ins_self Ls ⟨h.brk, ext, false⟩)
      have haft : after ([] : List Block) = [] := rfl
      unfold coalesce_blocks at e6 e7
      rw [haft] at e6 e7
      obtain ⟨h2, p1, p2, p3, p4, p5⟩ := place_spec h1 (before bs) [] _ _ asize e6 e7 hin
        (by omega) a1 (by simp only [] at hmg; omega)
      refine ⟨h2, ?_, ?_, ?_, ?_, ?_, p3, p4, ?_⟩
      · have hmb : (merged bs ⟨h.brk, ext, false⟩ []).bp ≠ 0 := by
          have := layout_block h1 _ e6 (merged bs ⟨h.brk, ext, false⟩ []) (by simp)
          omega
        apply mm_malloc_ext_path h h1 h2 size _ _ (by omega) hs
        · rw [hasz, hfit, hr0]
        · rw [hasz, hext]; exact e1
        · exact hmb
        · rw [hasz]; exact p1
      · rw [p2.1, e2]
      · rw [p2.2.1, e3]
      · rw [p2.2.2.1, e4]
      · rw [p2.2.2.2, e5]
      · rw [List.append_nil] at p5
        exact keeps_trans _ _ _ _ e8 p5
    · right
      refine ⟨hr0, hcap, ?_⟩
      apply mm_malloc_fail_path h size (by omega)
      · rw [hasz, hfit, hr0]
      · rw [hasz, hext]
        apply extend_heap_fail
        rw [hw, u64_small _ (by omega)]
        exact hcap

theorem init_lists_other (p a : Nat) :
    ∀ (n : Nat) (m : Nat → Nat), (∀ i < n, a ≠ p + i * 8) →
      (List.range n).foldl (fun m i => PUT m (p + i * 8) 0) m a = m a := by
  intro n
  induction n with
  | zero => intro m _; rfl
  | succ k ih =>
    intro m hne
    rw [List.range_succ, List.foldl_append]
    simp only [List.foldl_cons, List.foldl_nil]
    rw [PUT_other _ _ _ _ (hne k (by omega))]
    exact ih m (fun i hi => hne i (by omega))

theorem init_lists_at (p : Nat) :
    ∀ (n : Nat) (m : Nat → Nat) (i : Nat), i < n →
      (List.range n).foldl (fun m i => PUT m (p + i * 8) 0) m (p + i * 8) = 0 := by
  intro n
  induction n with
  | zero => intro m i hi; omega
  | succ k ih =>
    intro m i hi
    rw [List.range_succ, List.foldl_append]
    simp only [List.foldl_cons, List.foldl_nil]
    by_cases hik : i = k
    · subst hik
      rw [PUT_same]
    · rw [PUT_other _ _ _ _ (by omega)]
      exact ih m i (by omega)

/-- The memory after a successful `mm_init`. -/
theorem mm_init_mem (h : Heap) (hfit : h.brk + 176 ≤ h.max_addr) :
    (mm_init h).2 = 0 ∧ (mm_init h).1.brk = h.brk + 176 ∧
      (mm_init h).1.max_addr = h.max_addr ∧ (mm_init h).1.heap_listp = h.brk + 160 ∧
      (mm_init h).1.seg_lst = h.brk ∧
      (∀ i < 18, (mm_init h).1.mem (h.brk + i * 8) = 0) ∧
      (mm_init h).1.mem (h.brk + 152) = 17 ∧ (mm_init h).1.mem (h.brk + 160) = 17 ∧
      (mm_init h).1.mem (h.brk + 168) = 1 ∧
      (∀ a, (a < h.brk ∨ h.brk + 176 ≤ a) → (mm_init h).1.mem a = h.mem a) := by
  have hp1 : PACK 16 1 = 17 := by decide
  have hp2 : PACK 0 1 = 1 := by decide
  unfold mm_init mem_sbrk
  simp only [SEGLST_NUM, WSIZE, DSIZE, NULL, Heap.put, if_pos (show h.brk + (4 + 18) * 8 ≤
    h.max_addr from by omega), hp1, hp2]
  refine ⟨trivial, trivial, trivial, trivial, trivial, ?_, ?_, ?_, ?_, ?_⟩
  · intro i hi
    rw [PUT_other _ _ _ _ (by omega), PUT_other _ _ _ _ (by omega),
      PUT_other _ _ _ _ (by omega), PUT_other _ _ _ _ (by omega)]
    exact init_lists_at h.brk 18 h.mem i hi
  · rw [PUT_other _ _ _ _ (by omega), PUT_other _ _ _ _ (by omega), PUT_same]
  · rw [PUT_other _ _ _ _ (by omega), PUT_same]
  · rw [PUT_same]
  · intro a ha
    rw [PUT_other _ _ _ _ (by omega), PUT_other _ _ _ _ (by omega),
      PUT_other _ _ _ _ (by omega), PUT_other _ _ _ _ (by omega)]
    exact init_lists_other h.brk a 18 h.mem (fun i hi => by omega)

/-- Function `mm_init` fails exactly when the backing store refuses. -/
theorem mm_init_fail (h : Heap) (hfit : ¬ (h.brk + 176 ≤ h.max_addr)) : (mm_init h).2 = -1 := by
  unfold mm_init mem_sbrk
  simp only [SEGLST_NUM, WSIZE, if_neg (show ¬ (h.brk + (4 + 18) * 8 ≤ h.max_addr) from by omega)]

theorem full_nil : Full [] (fun _ => []) :=
  ⟨fun b hb => by simp at hb, fun b hb => by simp at hb, List.chain'_nil⟩

/-- After a successful `mm_init` on a fresh backing store the heap is
well formed: no block, and empty lists. -/
theorem mm_init_spec (h : Heap) (hf : Fresh h) (hfit : h.brk + 176 ≤ h.max_addr) :
    (mm_init h).2 = 0 ∧ Layout (mm_init h).1 [] ∧ Lists (mm_init h).1 [] (fun _ => []) := by
  obtain ⟨f1, f2, f3⟩ := hf
  obtain ⟨m1, m2, m3, m4, m5, m6, m7, m8, m9, m10⟩ := mm_init_mem h hfit
  refine ⟨m1, ?_, ?_⟩
  · constructor
    · rw [m5]; exact f1
    · rw [m5]; exact f2
    · rw [m4, m5]
    · rw [m5]; exact m7
    · rw [m5]; exact m8
    · rw [m5, m2]; rfl
    · rw [m2, show h.brk + 176 - 8 = h.brk + 168 from by omega]; exact m9
    · rw [m2, m3]; exact hfit
    · rw [m3, m5]; exact f3
  · constructor
    · intro i hi
      rw [m5]
      exact m6 i hi
    · intro i hi x hx
      simp at hx
    · intro i hi
      exact List.nodup_nil

theorem mm_init_wf (h : Heap) (hf : Fresh h) (hfit : h.brk + 176 ≤ h.max_addr) :
    WellFormed (mm_init h).1 := by
  obtain ⟨_, i2, i3⟩ := mm_init_spec h hf hfit
  exact ⟨[], fun _ => [], i2, i3, full_nil⟩

/-! ### Ghost lemmas: adjacent free blocks -/

theorem before_prev (A : List Block) : before A ++ prev_free A = A := by
  unfold before prev_free
  rcases List.eq_nil_or_concat A with hnil | ⟨A1, pb, hcat⟩
  · subst hnil; rfl
  · rw [List.concat_eq_append] at hcat
    subst hcat
    have hlast : (A1 ++ [pb]).getLast? = some pb := by simp
    rw [hlast]
    by_cases ha : pb.alloc = true
    · simp [ha]
    · simp [ha]

theorem next_after (B : List Block) : next_free B ++ after B = B := by
  unfold after next_free
  cases B with
  | nil => rfl
  | cons nb B1 =>
    simp only [List.head?_cons]
    by_cases ha : nb.alloc = true
    · simp [ha]
    · simp [ha]

theorem prev_free_free (A : List Block) : ∀ c ∈ prev_free A, c.alloc = false := by
  intro c hc
  unfold prev_free at hc
  split at hc
  · rename_i pb _
    split at hc
    · simp at hc
    · rename_i ha
      rw [List.mem_singleton.1 hc]
      simpa using ha
  · simp at hc

theorem next_free_free (B : List Block) : ∀ c ∈ next_free B, c.alloc = false := by
  intro c hc
  unfold next_free at hc
  split at hc
  · rename_i nb _
    split at hc
    · simp at hc
    · rename_i ha
      rw [List.mem_singleton.1 hc]
      simpa using ha
  · simp at hc

/-- No two adjacent blocks are both free. -/
theorem nf_sandwich (A M B : List Block) (hM : M ≠ []) :
    (A ++ M ++ B).Chain' (fun a b => a.alloc = true ∨ b.alloc = true) ↔
      A.Chain' (fun a b => a.alloc = true ∨ b.alloc = true) ∧
      M.Chain' (fun a b => a.alloc = true ∨ b.alloc = true) ∧
      B.Chain' (fun a b => a.alloc = true ∨ b.alloc = true) ∧
      (∀ x ∈ A.getLast?, ∀ y ∈ M.head?, x.alloc = true ∨ y.alloc = true) ∧
      (∀ x ∈ M.getLast?, ∀ y ∈ B.head?, x.alloc = true ∨ y.alloc = true) := by
  obtain ⟨m, M1, rfl⟩ := List.exists_cons_of_ne_nil hM
  rw [List.append_assoc, List.chain'_append, List.chain'_append]
  have h1 : ((m :: M1) ++ B).head? = (m :: M1).head? := rfl
  rw [h1]
  constructor
  · rintro ⟨a, ⟨b, c, d⟩, e⟩
    exact ⟨a, b, c, e, d⟩
  · rintro ⟨a, b, c, e, d⟩
    exact ⟨a, ⟨b, c, d⟩, e⟩

/-- Replacing a free block by a run without adjacent free blocks keeps the
heap without adjacent free blocks, whatever the run starts and ends with. -/
theorem nf_replace (A M B : List Block) (b : Block)
    (h : (A ++ [b] ++ B).Chain' (fun a b => a.alloc = true ∨ b.alloc = true))
    (hb : b.alloc = false) (hM : M ≠ [])
    (hc : M.Chain' (fun a b => a.alloc = true ∨ b.alloc = true)) :
    (A ++ M ++ B).Chain' (fun a b => a.alloc = true ∨ b.alloc = true) := by
  obtain ⟨a1, a2, a3, a4, a5⟩ := (nf_sandwich A [b] B (by simp)).1 h
  refine (nf_sandwich A M B hM).2 ⟨a1, hc, a3, ?_, ?_⟩
  · intro x hx y hy
    rcases a4 x hx b (by simp) with g | g
    · exact Or.inl g
    · rw [hb] at g; exact absurd g (by simp)
  · intro x hx y hy
    rcases a5 b (by simp) y hy with g | g
    · rw [hb] at g; exact absurd g (by simp)
    · exact Or.inr g

theorem before_props (A : List Block)
    (h : A.Chain' (fun a b => a.alloc = true ∨ b.alloc = true)) :
    (before A).Chain' (fun a b => a.alloc = true ∨ b.alloc = true) ∧
      ∀ x ∈ (before A).getLast?, x.alloc = true := by
  unfold before prev_free
  rcases List.eq_nil_or_concat A with hnil | ⟨A1, pb, hcat⟩
  · subst hnil
    simp
  · rw [List.concat_eq_append] at hcat
    subst hcat
    have hlast : (A1 ++ [pb]).getLast? = some pb := by simp
    rw [hlast]
    by_cases ha : pb.alloc = true
    · simp only [ha, if_true]
      refine ⟨h, ?_⟩
      intro x hx
      rw [hlast] at hx
      simp only [Option.mem_def, Option.some.injEq] at hx
      rw [← hx]; exact ha
    · simp only [ha, if_false]
      rw [if_neg (by simp), List.dropLast_concat]
      rw [List.chain'_append] at h
      refine ⟨h.1, ?_⟩
      intro x hx
      rcases h.2.2 x hx pb (by simp) with g | g
      · exact g
      · exact absurd g ha

theorem after_props (B : List Block)
    (h : B.Chain' (fun a b => a.alloc = true ∨ b.alloc = true)) :
    (after B).Chain' (fun a b => a.alloc = true ∨ b.alloc = true) ∧
      ∀ x ∈ (after B).head?, x.alloc = true := by
  unfold after next_free
  cases B with
  | nil => simp
  | cons nb B1 =>
    simp only [List.head?_cons]
    by_cases ha : nb.alloc = true
    · simp only [ha, if_true]
      refine ⟨h, ?_⟩
      intro x hx
      simp only [List.head?_cons, Option.mem_def, Option.some.injEq] at hx
      rw [← hx]; exact ha
    · simp only [ha, if_false]
      rw [if_neg (by simp), List.tail_cons]
      refine ⟨h.tail, ?_⟩
      intro x hx
      cases B1 with
      | nil => simp at hx
      | cons y ys =>
        simp only [List.head?_cons, Option.mem_def, Option.some.injEq] at hx
        rw [List.chain'_cons] at h
        rcases h.1 with g | g
        · exact absurd g ha
        · rw [← hx]; exact g

/-- After `coalesce` no two adjacent blocks are both free, provided there were
none before and none behind the block. -/
theorem coalesce_nofree2 (A : List Block) (b : Block) (B : List Block)
    (hA : A.Chain' (fun a b => a.alloc = true ∨ b.alloc = true))
    (hB : B.Chain' (fun a b => a.alloc = true ∨ b.alloc = true)) :
    (coalesce_blocks A b B).Chain' (fun a b => a.alloc = true ∨ b.alloc = true) := by
  unfold coalesce_blocks
  obtain ⟨p1, p2⟩ := before_props A hA
  obtain ⟨q1, q2⟩ := after_props B hB
  refine (nf_sandwich _ _ _ (by simp)).2 ⟨p1, List.chain'_singleton _, q1, ?_, ?_⟩
  · intro x hx y _
    exact Or.inl (p2 x hx)
  · intro x _ y hy
    exact Or.inr (q2 y hy)

/-! ### Ghost lemmas: completeness of the free lists -/

theorem tiling_nodup (m : Nat → Nat) :
    ∀ (bs : List Block) (s e : Nat), Tiling m s bs e → (bs.map Block.bp).Nodup := by
  intro bs
  induction bs with
  | nil => intro s e _; simp
  | cons b bs ih =>
    intro s e ht
    obtain ⟨h1, h2, h3, h4, h5, h6⟩ := ht
    rw [List.map_cons, List.nodup_cons]
    refine ⟨?_, ih _ _ h6⟩
    intro hmem
    obtain ⟨c, hc, hcb⟩ := List.mem_map.1 hmem
    have := (tiling_mem m bs _ _ h6 c hc).1
    omega

theorem layout_nodup (h : Heap) (bs : List Block) (hl : Layout h bs) :
    (bs.map Block.bp).Nodup := tiling_nodup _ _ _ _ hl.til

theorem nodup_outside (X M Y : List Block) (h : ((X ++ M ++ Y).map Block.bp).Nodup)
    (c : Block) (hc : c ∈ X ++ Y) (x : Block) (hx : x ∈ M) : c.bp ≠ x.bp := by
  rw [List.map_append, List.map_append] at h
  obtain ⟨h1, h2, h3⟩ := List.nodup_append.1 h
  obtain ⟨h4, h5, h6⟩ := List.nodup_append.1 h1
  intro heq
  rcases List.mem_append.1 hc with g | g
  · exact h6 (List.mem_map_of_mem _ g) (heq ▸ List.mem_map_of_mem _ hx)
  · exact h3 (List.mem_append_right _ (List.mem_map_of_mem _ hx))
      (heq ▸ List.mem_map_of_mem _ g)

theorem mem_foldl_del (D : List Block) :
    ∀ (Ls : Nat → List Nat) (x j : Nat), x ∈ Ls j → (∀ d ∈ D, x ≠ d.bp) →
      x ∈ (D.foldl del Ls) j := by
  induction D with
  | nil => intro Ls x j hx _; exact hx
  | cons d D ih =>
    intro Ls x j hx hne
    rw [List.foldl_cons]
    exact ih _ _ _ (mem_del_of_ne Ls d x j hx (hne d (by simp)))
      (fun d1 hd1 => hne d1 (List.mem_cons_of_mem _ hd1))

theorem before_sub (A : List Block) : ∀ c ∈ before A, c ∈ A := by
  intro c hc
  have := before_prev A
  rw [← this]
  exact List.mem_append_left _ hc

theorem after_sub (B : List Block) : ∀ c ∈ after B, c ∈ B := by
  intro c hc
  have := next_after B
  rw [← this]
  exact List.mem_append_right _ hc

theorem coalesce_rest_ne (A : List Block) (b : Block) (B : List Block)
    (hnd : ((A ++ [b] ++ B).map Block.bp).Nodup) (c : Block)
    (hc : c ∈ before A ++ after B) :
    ∀ d ∈ b :: (next_free B ++ prev_free A), c.bp ≠ d.bp := by
  have e1 : A ++ [b] ++ B =
      before A ++ (prev_free A ++ [b] ++ next_free B) ++ after B := by
    conv_lhs => rw [← before_prev A, ← next_after B]
    simp only [List.append_assoc]
  rw [e1] at hnd
  intro d hd
  refine nodup_outside _ _ _ hnd c hc d ?_
  simp only [List.mem_cons, List.mem_append, List.mem_singleton] at hd ⊢
  tauto

theorem coalesce_mem (A : List Block) (b : Block) (B : List Block) (c : Block)
    (hc : c ∈ coalesce_blocks A b B) : c = merged A b B ∨ c ∈ before A ++ after B := by
  unfold coalesce_blocks at hc
  simp only [List.mem_append, List.mem_singleton] at hc ⊢
  tauto

theorem coalesce_sub (A : List Block) (b : Block) (B : List Block) :
    ∀ c ∈ before A ++ after B, c ∈ A ++ B := by
  intro c hc
  rcases List.mem_append.1 hc with g | g
  · exact List.mem_append_left _ (before_sub A c g)
  · exact List.mem_append_right _ (after_sub B c g)

/-- After `coalesce` every free block is on the list of its class. -/
theorem coalesce_complete (A : List Block) (b : Block) (B : List Block) (Ls : Nat → List Nat)
    (hnd : ((A ++ [b] ++ B).map Block.bp).Nodup)
    (hcomp : ∀ c ∈ A ++ B, c.alloc = false → c.bp ∈ Ls (class_of c.size))
    (hfree : b.alloc = false) (hb : b.bp ∈ Ls (class_of b.size)) :
    ∀ c ∈ coalesce_blocks A b B, c.alloc = false →
      c.bp ∈ coalesce_lists Ls A b B (class_of c.size) := by
  intro c hc hcf
  rcases coalesce_mem A b B c hc with rfl | hc2
  · exact merged_in_list Ls A b B hfree hb
  · have hin := hcomp c (coalesce_sub A b B c hc2) hcf
    unfold coalesce_lists
    split
    · exact hin
    · exact mem_ins_of_mem _ _ _ _
        (mem_foldl_del _ _ _ _ hin (coalesce_rest_ne A b B hnd c hc2))

/-- After `coalesce` every block has the minimum size, if it was so before. -/
theorem coalesce_minsize (A : List Block) (b : Block) (B : List Block)
    (hmin : ∀ c ∈ A ++ B, 32 ≤ c.size) (hbsz : 32 ≤ b.size) :
    ∀ c ∈ coalesce_blocks A b B, 32 ≤ c.size := by
  intro c hc
  rcases coalesce_mem A b B c hc with rfl | hc2
  · have := merged_size A b B
    omega
  · exact hmin c (coalesce_sub A b B c hc2)

/-- After `coalesce` every free block is on the list of its class, every block
has the minimum size and no two adjacent blocks are free. -/
theorem coalesce_full (A : List Block) (b : Block) (B : List Block) (Ls : Nat → List Nat)
    (hnd : ((A ++ [b] ++ B).map Block.bp).Nodup)
    (hcomp : ∀ c ∈ A ++ B, c.alloc = false → c.bp ∈ Ls (class_of c.size))
    (hmin : ∀ c ∈ A ++ B, 32 ≤ c.size) (hbsz : 32 ≤ b.size)
    (hA : A.Chain' (fun a b => a.alloc = true ∨ b.alloc = true))
    (hB : B.Chain' (fun a b => a.alloc = true ∨ b.alloc = true))
    (hfree : b.alloc = false) (hb : b.bp ∈ Ls (class_of b.size)) :
    Full (coalesce_blocks A b B) (coalesce_lists Ls A b B) :=
  ⟨coalesce_complete A b B Ls hnd hcomp hfree hb, coalesce_minsize A b B hmin hbsz,
    coalesce_nofree2 A b B hA hB⟩

/-- After `place` every free block is on the list of its class, every block
has the minimum size and no two adjacent blocks are free. -/
theorem place_full (A : List Block) (b : Block) (B : List Block) (Ls : Nat → List Nat)
    (asize : Nat) (hne : ∀ c ∈ A ++ B, c.bp ≠ b.bp)
    (hF : Full (A ++ [b] ++ B) Ls) (hfree : b.alloc = false) (ha : 32 ≤ asize)
    (hle : asize ≤ b.size) :
    Full (A ++ place_blocks b asize ++ B) (place_lists Ls b asize) := by
  have hold : ∀ c ∈ A ++ B, c.alloc = false → c.bp ∈ del Ls b (class_of c.size) := by
    intro c hc hcf
    refine mem_del_of_ne _ _ _ _ (hF.complete c ?_ hcf) (hne c hc)
    simp only [List.mem_append, List.mem_singleton] at hc ⊢
    tauto
  have hmin : ∀ c ∈ A ++ B, 32 ≤ c.size := by
    intro c hc
    refine hF.minsize c ?_
    simp only [List.mem_append, List.mem_singleton] at hc ⊢
    tauto
  have hsplit : ∀ c, c ∈ A ++ place_blocks b asize ++ B →
      c ∈ place_blocks b asize ∨ c ∈ A ++ B := by
    intro c hc
    simp only [List.mem_append] at hc ⊢
    tauto
  unfold place_blocks place_lists at *
  by_cases h1 : b.size - asize ≥ 32
  · by_cases h2 : asize ≠ 128
    · simp only [h1, h2, if_true, ne_eq, not_false_eq_true] at hsplit ⊢
      refine ⟨?_, ?_, ?_⟩
      · intro c hc hcf
        rcases hsplit c hc with g | g
        · simp only [List.mem_cons, List.mem_singleton, List.not_mem_nil, or_false] at g
          rcases g with rfl | rfl
          · simp at hcf
          · exact mem_ins_self _ _
        · exact mem_ins_of_mem _ _ _ _ (hold c g hcf)
      · intro c hc
        rcases hsplit c hc with g | g
        · simp only [List.mem_cons, List.mem_singleton, List.not_mem_nil, or_false] at g
          rcases g with rfl | rfl
          · exact ha
          · exact h1
        · exact hmin c g
      · refine nf_replace A _ B b hF.nofree2 hfree (by simp) ?_
        simp
    · simp only [h1, h2, if_true, if_false] at hsplit ⊢
      refine ⟨?_, ?_, ?_⟩
      · intro c hc hcf
        rcases hsplit c hc with g | g
        · simp only [List.mem_cons, List.mem_singleton, List.not_mem_nil, or_false] at g
          rcases g with rfl | rfl
          · exact mem_ins_self _ _
          · simp at hcf
        · exact mem_ins_of_mem _ _ _ _ (hold c g hcf)
      · intro c hc
        rcases hsplit c hc with g | g
        · simp only [List.mem_cons, List.mem_singleton, List.not_mem_nil, or_false] at g
          rcases g with rfl | rfl
          · exact h1
          · exact ha
        · exact hmin c g
      · refine nf_replace A _ B b hF.nofree2 hfree (by simp) ?_
        simp
  · simp only [h1, if_false] at hsplit ⊢
    refine ⟨?_, ?_, ?_⟩
    · intro c hc hcf
      rcases hsplit c hc with g | g
      · simp only [List.mem_singleton] at g
        subst g
        simp at hcf
      · exact hold c g hcf
    · intro c hc
      rcases hsplit c hc with g | g
      · simp only [List.mem_singleton] at g
        subst g
        show 32 ≤ b.size
        omega
      · exact hmin c g
    · refine nf_replace A _ B b hF.nofree2 hfree (by simp) ?_
      simp

theorem place_first (b : Block) (asize : Nat) :
    ∃ d ∈ place_blocks b asize, d.bp = b.bp := by
  unfold place_blocks
  split_ifs
  · exact ⟨_, List.mem_cons_self _ _, rfl⟩
  · exact ⟨_, List.mem_cons_self _ _, rfl⟩
  · exact ⟨_, List.mem_cons_self _ _, rfl⟩

/-- Blocks outside a placed block do not start where it starts. -/
theorem place_ne (h : Heap) (A B : List Block) (b : Block) (asize : Nat)
    (hl : Layout h (A ++ place_blocks b asize ++ B)) : ∀ c ∈ A ++ B, c.bp ≠ b.bp := by
  intro c hc
  obtain ⟨d, hd, hdb⟩ := place_first b asize
  rw [← hdb]
  exact nodup_outside A _ B (layout_nodup h _ hl) c hc d hd

/-- Allocated blocks are not neighbours that `coalesce` absorbs. -/
theorem alloc_before (A : List Block) : ∀ c ∈ A, c.alloc = true → c ∈ before A := by
  intro c hc ha
  have h1 := before_prev A
  rw [← h1] at hc
  rcases List.mem_append.1 hc with g | g
  · exact g
  · have := prev_free_free A c g
    rw [ha] at this
    exact absurd this (by simp)

theorem alloc_after (B : List Block) : ∀ c ∈ B, c.alloc = true → c ∈ after B := by
  intro c hc ha
  have h1 := next_after B
  rw [← h1] at hc
  rcases List.mem_append.1 hc with g | g
  · have := next_free_free B c g
    rw [ha] at this
    exact absurd this (by simp)
  · exact g

theorem prev_free_sub (A : List Block) : ∀ c ∈ prev_free A, c ∈ A := by
  intro c hc
  have h1 := before_prev A
  rw [← h1]
  exact List.mem_append_right _ hc

theorem next_free_sub (B : List Block) : ∀ c ∈ next_free B, c ∈ B := by
  intro c hc
  have h1 := next_after B
  rw [← h1]
  exact List.mem_append_left _ hc

theorem keeps_mono (h h1 : Heap) (P Q : List Block) (k : Keeps h h1 P)
    (hsub : ∀ c ∈ Q, c.alloc = true → c ∈ P) : Keeps h h1 Q := by
  intro c hc ha
  exact k c (hsub c hc ha) ha

theorem after_nil : after [] = [] := rfl

theorem mem_mid (A B : List Block) (b c : Block) (hc : c ∈ A ++ B) : c ∈ A ++ [b] ++ B := by
  simp only [List.mem_append, List.mem_singleton] at hc ⊢
  tauto

/-- Function `mm_free` on a heap whose free lists are complete: the result is
again such a heap. -/
theorem mm_free_full (h : Heap) (A B : List Block) (b : Block) (Ls : Nat → List Nat)
    (hl : Layout h (A ++ [b] ++ B)) (hL : Lists h (A ++ [b] ++ B) Ls)
    (hF : Full (A ++ [b] ++ B) Ls) (ha : b.alloc = true) :
    ∃ h1, mm_free h b.bp = some h1 ∧ Same h h1 ∧
      Layout h1 (coalesce_blocks A ⟨b.bp, b.size, false⟩ B) ∧
      Lists h1 (coalesce_blocks A ⟨b.bp, b.size, false⟩ B)
        (coalesce_lists (ins Ls ⟨b.bp, b.size, false⟩) A ⟨b.bp, b.size, false⟩ B) ∧
      Full (coalesce_blocks A ⟨b.bp, b.size, false⟩ B)
        (coalesce_lists (ins Ls ⟨b.bp, b.size, false⟩) A ⟨b.bp, b.size, false⟩ B) ∧
      Keeps h h1 (before A ++ after B) := by
  have hsz : 32 ≤ b.size := hF.minsize b (by simp)
  have hcomp : ∀ c ∈ A ++ B, c.alloc = false → c.bp ∈ Ls (class_of c.size) :=
    fun c hc hcf => hF.complete c (mem_mid A B b c hc) hcf
  have hnbr : ∀ c ∈ prev_free A ++ next_free B, c.bp ∈ Ls (class_of c.size) := by
    intro c hc
    rcases List.mem_append.1 hc with g | g
    · exact hcomp c (List.mem_append_left _ (prev_free_sub A c g)) (prev_free_free A c g)
    · exact hcomp c (List.mem_append_right _ (next_free_sub B c g)) (next_free_free B c g)
  obtain ⟨h1, f1, f2, f3, f4, f5⟩ := mm_free_spec h A B b Ls hl hL ha hsz hnbr
  refine ⟨h1, f1, f2, f3, f4, ?_, f5⟩
  obtain ⟨n1, n2, n3, n4, n5⟩ := (nf_sandwich A [b] B (by simp)).1 hF.nofree2
  have hnd := layout_nodup h _ hl
  refine coalesce_full A ⟨b.bp, b.size, false⟩ B _ ?_ ?_ ?_ hsz n1 n3 rfl ?_
  · simpa using hnd
  · intro c hc hcf
    exact mem_ins_of_mem _ _ _ _ (hcomp c hc hcf)
  · intro c hc
    exact hF.minsize c (mem_mid A B b c hc)
  · exact mem_ins_self Ls ⟨b.bp, b.size, false⟩

theorem placed_rest (b : Block) (asize : Nat) :
    ∀ c ∈ place_blocks b asize, b.bp ≤ c.bp ∧ c.bp + c.size ≤ b.bp + b.size ∨
      b.size < asize := by
  intro c hc
  unfold place_blocks at hc
  by_cases hle : asize ≤ b.size
  · left
    split_ifs at hc
    · simp only [List.mem_cons, List.mem_singleton, List.not_mem_nil, or_false] at hc
      rcases hc with rfl | rfl
      · exact ⟨Nat.le_refl _, by show b.bp + asize ≤ b.bp + b.size; omega⟩
      · exact ⟨by show b.bp ≤ b.bp + asize; omega,
          by show b.bp + asize + (b.size - asize) ≤ b.bp + b.size; omega⟩
    · simp only [List.mem_cons, List.mem_singleton, List.not_mem_nil, or_false] at hc
      rcases hc with rfl | rfl
      · exact ⟨Nat.le_refl _, by show b.bp + (b.size - asize) ≤ b.bp + b.size; omega⟩
      · exact ⟨by show b.bp ≤ b.bp + (b.size - asize); omega,
          by show b.bp + (b.size - asize) + asize ≤ b.bp + b.size; omega⟩
    · simp only [List.mem_singleton] at hc
      subst hc
      exact ⟨Nat.le_refl _, Nat.le_refl _⟩
  · right; omega

/-- Function `mm_malloc` on a heap whose free lists are complete, for a
request whose adjusted size is representable as an `int`: the call returns,
the result is again such a heap, words of allocated blocks are unchanged and all
allocated blocks are still there; a non-null result is an allocated block of
at least the adjusted size. -/
theorem mm_malloc_full (h : Heap) (bs : List Block) (Ls : Nat → List Nat) (size : Nat)
    (hl : Layout h bs) (hL : Lists h bs Ls) (hF : Full bs Ls) (h0 : 0 < size)
    (hs : size < 2 ^ 31) (hbig : adjust_size size < 2 ^ 31) :
    ∃ h1 p bs1 Ls1, mm_malloc h size = some (h1, p) ∧ h1.seg_lst = h.seg_lst ∧
      h1.max_addr = h.max_addr ∧ h1.heap_listp = h.heap_listp ∧ h.brk ≤ h1.brk ∧
      Layout h1 bs1 ∧ Lists h1 bs1 Ls1 ∧ Full bs1 Ls1 ∧ Keeps h h1 bs ∧
      (∀ c ∈ bs, c.alloc = true → c ∈ bs1) ∧
      (p = 0 → h1 = h) ∧
      (p ≠ 0 → ∃ c ∈ bs1, c.bp = p ∧ c.alloc = true ∧ adjust_size size ≤ c.size ∧
        ∀ d ∈ bs, d.alloc = true → d ≠ c) := by
  obtain ⟨a1, a2, a3, a4⟩ := adjust_size_facts size hs h0
  have hlast : ∀ c ∈ prev_free bs, c.bp ∈ Ls (class_of c.size) := fun c hc =>
    hF.complete c (prev_free_sub bs c hc) (prev_free_free bs c hc)
  rcases mm_malloc_spec h bs Ls size hl hL h0 hs hbig hlast with
    ⟨A, b, B, h1, e1, e2, e3, e4, e5, e6, e7, e8, e9⟩ |
    ⟨e1, e2, h1, e3, e4, e5, e6, e7, e8, e9, e10⟩ | ⟨e1, e2, e3⟩
  · subst e1
    obtain ⟨bf, bsz⟩ := member_free h _ Ls hl hL b (by simp) e2
    obtain ⟨c, c1, c2, c3, c4⟩ := placed_block b (adjust_size size) e3
    have hne : ∀ c ∈ A ++ B, c.bp ≠ b.bp := fun c hc =>
      nodup_outside A [b] B (layout_nodup h _ hl) c hc b (by simp)
    have hkeep : ∀ c ∈ A ++ [b] ++ B, c.alloc = true → c ∈ A ++ B := by
      intro c hc hca
      simp only [List.mem_append, List.mem_singleton] at hc ⊢
      rcases hc with (g | g) | g
      · exact Or.inl g
      · rw [g, bf] at hca; exact absurd hca (by simp)
      · exact Or.inr g
    refine ⟨h1, _, _, _, e5, e6.2.2.2, e6.2.1, e6.2.2.1, by rw [e6.1], e7, e8,
      place_full A b B Ls _ hne hF bf a2 e3, keeps_mono h h1 _ _ e9 hkeep, ?_, ?_, ?_⟩
    · intro c hc hca
      have := hkeep c hc hca
      simp only [List.mem_append] at this ⊢
      tauto
    · intro hp
      rw [← c2] at hp
      obtain ⟨q1, q2, q3, q4, q5, q6, q7, q8⟩ := layout_block h1 _ e7 c (by
        simp only [List.mem_append]; tauto)
      omega
    · intro _
      refine ⟨c, by simp only [List.mem_append]; tauto, c2, c3, c4, ?_⟩
      intro d hd hda hdc
      subst hdc
      have hdAB := hkeep d hd hda
      have hl1 := layout_nodup h1 _ e7
      exact nodup_outside A _ B hl1 d hdAB d c1 rfl
  · generalize hext : extend_size size (adjust_size size) = ext at *
    obtain ⟨x1, x2, x3, x4⟩ := extend_size_facts size (adjust_size size) a1 hbig rfl hs
    rw [hext] at x1 x2 x3 x4
    have hbrk := layout_brk h bs hl
    have hnd : ((bs ++ [(⟨h.brk, ext, false⟩ : Block)] ++ []).map Block.bp).Nodup := by
      simp only [List.append_nil, List.map_append, List.map_cons, List.map_nil]
      refine List.nodup_append.2 ⟨layout_nodup h bs hl, by simp, ?_⟩
      intro x hx hx2
      obtain ⟨c, hc, hcx⟩ := List.mem_map.1 hx
      have := layout_block h bs hl c hc
      simp only [List.mem_singleton] at hx2
      omega
    have hF2 := coalesce_full bs ⟨h.brk, ext, false⟩ [] (ins Ls ⟨h.brk, ext, false⟩) hnd
      (fun c hc hcf => mem_ins_of_mem _ _ _ _ (hF.complete c (by simpa using hc) hcf))
      (fun c hc => hF.minsize c (by simpa using hc)) (by show 32 ≤ ext; omega)
      hF.nofree2 List.chain'_nil rfl (mem_ins_self Ls ⟨h.brk, ext, false⟩)
    unfold coalesce_blocks at hF2
    rw [after_nil] at hF2
    have hms := merged_size bs ⟨h.brk, ext, false⟩ []
    have hms2 : adjust_size size ≤ (merged bs ⟨h.brk, ext, false⟩ []).size :=
      Nat.le_trans x2 hms
    obtain ⟨c, c1, c2, c3, c4⟩ := placed_block (merged bs ⟨h.brk, ext, false⟩ [])
      (adjust_size size) hms2
    have hkeep : ∀ c ∈ bs, c.alloc = true → c ∈ before bs ++ [] := by
      intro c hc hca
      simpa using alloc_before bs c hc hca
    refine ⟨h1, _, _, _, e3, e7, e5, e6, by omega, e8, e9,
      place_full (before bs) _ [] _ _ (place_ne h1 _ _ _ _ e8) hF2 rfl a2 hms2,
      keeps_mono h h1 _ _ e10 (fun c hc hca => alloc_before bs c hc hca), ?_, ?_, ?_⟩
    · intro c hc hca
      have := hkeep c hc hca
      simp only [List.mem_append] at this ⊢
      tauto
    · intro hp
      rw [← c2] at hp
      obtain ⟨q1, q2, q3, q4, q5, q6, q7, q8⟩ := layout_block h1 _ e8 c (by
        simp only [List.mem_append]; tauto)
      omega
    · intro _
      refine ⟨c, by simp only [List.mem_append]; tauto, c2, c3, c4, ?_⟩
      intro d hd hda hdc
      subst hdc
      have hdAB := hkeep d hd hda
      have hl1 := layout_nodup h1 _ e8
      exact nodup_outside (before bs) _ [] hl1 d hdAB d c1 rfl
  · refine ⟨h, 0, bs, Ls, e3, rfl, rfl, rfl, Nat.le_refl _, hl, hL, hF, keeps_refl h bs,
      fun c hc _ => hc, fun _ => rfl, fun hp => absurd rfl hp⟩

/-! ### The heap walk and the list walk -/

theorem walk_tiling (m : Nat → Nat) :
    ∀ (bs : List Block) (fuel s e : Nat), Tiling m s bs e → m (e - 8) = 1 → e < s + 2 ^ 64 →
      bs.length ≤ fuel → walk m fuel s = bs := by
  intro bs
  induction bs with
  | nil =>
    intro fuel s e ht hepi _ _
    have hse : s = e := ht
    subst hse
    cases fuel with
    | zero => rfl
    | succ f =>
      unfold walk
      have : GET_SIZE (m (HDRP s)) = 0 := by
        unfold HDRP WSIZE
        rw [hepi, GET_SIZE_eq]
        norm_num
      rw [if_neg (by omega)]
  | cons b bs ih =>
    intro fuel s e ht hepi he hlen
    obtain ⟨h1, h2, h3, h4, h5, h6⟩ := ht
    cases fuel with
    | zero => simp at hlen
    | succ f =>
      have hle := tiling_le m bs _ _ h6
      have hsz : GET_SIZE (m (HDRP s)) = b.size := by
        unfold HDRP WSIZE
        rw [h4]
        exact GET_SIZE_tag b h3 (by omega)
      have hal : GET_ALLOC (m (HDRP s)) = if b.alloc then 1 else 0 := by
        unfold HDRP WSIZE
        rw [h4]
        exact GET_ALLOC_tag b h3
      have hnx : NEXT_BLKP m s = s + b.size := by
        unfold NEXT_BLKP
        unfold HDRP at hsz
        rw [hsz]
      unfold walk
      rw [if_pos (by omega), hsz, hal, hnx,
        ih f (s + b.size) e h6 hepi (by omega) (by simpa using hlen)]
      congr 1
      cases b with
      | mk bp size alloc =>
        simp only at h1
        subst h1
        cases alloc <;> simp

/-- The heap walk finds exactly the blocks of the layout. -/
theorem blocks_eq (h : Heap) (bs : List Block) (hl : Layout h bs) : blocks h = bs := by
  have hb := layout_brk h bs hl
  have hlen := tiling_length h.mem bs _ _ hl.til
  unfold blocks
  have hnx : NEXT_BLKP h.mem h.heap_listp = h.seg_lst + 176 := by
    unfold NEXT_BLKP WSIZE
    rw [hl.hl]
    have : h.seg_lst + 160 - 8 = h.seg_lst + 152 := by omega
    rw [this, hl.pro_h, GET_SIZE_eq]
    norm_num
  rw [hnx]
  exact walk_tiling h.mem bs h.brk _ _ hl.til hl.epi (by omega) (by omega)

theorem list_walk_chain (m : Nat → Nat) :
    ∀ (L : List Nat) (fuel prev cur : Nat), Chain m prev cur L → L.length ≤ fuel →
      list_walk m fuel cur = L := by
  intro L
  induction L with
  | nil =>
    intro fuel prev cur hc _
    have h0 : cur = 0 := hc
    subst h0
    cases fuel with
    | zero => rfl
    | succ f => simp [list_walk, NULL]
  | cons x xs ih =>
    intro fuel prev cur hc hlen
    obtain ⟨c1, c2, c3, c4⟩ := hc
    subst c1
    cases fuel with
    | zero => simp at hlen
    | succ f =>
      unfold list_walk
      rw [if_pos (by simpa [NULL] using c2)]
      unfold next_of
      rw [ih f cur (m cur) c4 (by simpa using hlen)]

/-- The list walk of `seg_lst[i]` finds exactly the members of the list. -/
theorem free_list_eq (h : Heap) (bs : List Block) (Ls : Nat → List Nat) (hl : Layout h bs)
    (hL : Lists h bs Ls) (i : Nat) (hi : i < 18) : free_list h i = Ls i := by
  unfold free_list seg_at WSIZE
  refine list_walk_chain h.mem (Ls i) h.brk 0 _ (hL.chains i hi) ?_
  refine list_length_le (Ls i) h.brk (hL.nodup i hi) ?_
  intro x hx
  obtain ⟨b, hb, q1, q2, q3, q4, q5, q6, q7⟩ := members_block h bs Ls hl hL i hi x hx
  omega

/-! ### The `int` arithmetic of `mm_realloc` -/

theorem ofInt_nat (n : Nat) (h : n < 2 ^ 64) : ofInt (n : Int) = n := by
  unfold ofInt
  have : ((n : Int) % 2 ^ 64) = (n : Int) := Int.emod_eq_of_lt (by omega) (by omega)
  rw [this]
  simp

theorem wrapInt_nat (n : Nat) (h : n < 2 ^ 31) : wrapInt (n : Int) = (n : Int) := by
  unfold wrapInt
  have : ((n : Int) % 2 ^ 32) = (n : Int) := Int.emod_eq_of_lt (by omega) (by omega)
  rw [this]
  simp only [Int.toNat_ofNat]
  exact toInt_small n h

theorem realloc_asize_facts (size : Nat) (h0 : 0 < size) :
    realloc_asize size % 8 = 0 ∧ size + 16 ≤ realloc_asize size ∧
      realloc_asize size ≤ size + 23 ∧ 24 ≤ realloc_asize size ∧
      (8 < size → 32 ≤ realloc_asize size) := by
  unfold realloc_asize
  split_ifs <;> omega

/-- The `int` value `realloc_asize` of `mm_realloc`, when it does not overflow. -/
theorem ra_eq (size : Nat) (hs : size + 24 ≤ 2 ^ 31) :
    wrapInt ((if ofInt (toInt size) % WSIZE ≠ 0 then
        toInt (u64 ((ofInt (toInt size) / WSIZE + 1) * WSIZE)) else toInt size) +
      toInt DSIZE) = (realloc_asize size : Int) := by
  have e1 : toInt size = (size : Int) := toInt_small size (by omega)
  have e2 : ofInt (size : Int) = size := ofInt_nat size (by omega)
  have e3 : toInt DSIZE = 16 := by
    unfold DSIZE WSIZE
    exact toInt_small 16 (by omega)
  rw [e1, e2, e3]
  unfold realloc_asize WSIZE
  by_cases hm : size % 8 = 0
  · rw [if_neg (by omega), if_pos hm]
    have := wrapInt_nat (size + 16) (by omega)
    push_cast at this ⊢
    exact this
  · rw [if_pos (by omega), if_neg hm, u64_small _ (by omega), toInt_small _ (by omega)]
    have := wrapInt_nat ((size / 8 + 1) * 8 + 16) (by omega)
    push_cast at this ⊢
    exact this

theorem sd_eq (old R : Nat) (h1 : old < 2 ^ 31) (h2 : R < 2 ^ 31) :
    toInt (sub64 old (ofInt (R : Int))) = (old : Int) - (R : Int) := by
  rw [ofInt_nat R (by omega)]
  unfold sub64 toInt
  have hR : R % 2 ^ 64 = R := Nat.mod_eq_of_lt (by omega)
  rw [hR]
  by_cases hle : R ≤ old
  · have e : (old + (2 ^ 64 - R)) % 2 ^ 64 = old - R := by omega
    rw [e]
    have e2 : (old - R) % 2 ^ 32 = old - R := by omega
    rw [e2, if_pos (by omega)]
    omega
  · have e : (old + (2 ^ 64 - R)) % 2 ^ 64 = old + 2 ^ 64 - R := by omega
    rw [e]
    have e2 : (old + 2 ^ 64 - R) % 2 ^ 32 = old + 2 ^ 32 - R := by omega
    rw [e2, if_neg (by omega)]
    omega

theorem PACKi_nat (n a : Nat) (h1 : n % 8 = 0) (h2 : n < 2 ^ 64) (h3 : a ≤ 1) :
    PACKi (n : Int) (a : Int) = n + a := by
  unfold PACKi
  rw [ofInt_nat n h2, ofInt_nat a (by omega)]
  exact PACK_eq n a h1 h3

theorem abs_int_sub (old R : Nat) (h1 : old < R) (h2 : R < 2 ^ 31) :
    abs_int ((old : Int) - (R : Int)) = ((R - old : Nat) : Int) := by
  unfold abs_int
  have : Int.natAbs ((old : Int) - (R : Int)) = R - old := by omega
  rw [this]
  exact wrapInt_nat _ (by omega)

theorem wrapInt_sub (n d : Nat) (h1 : d ≤ n) (h2 : n < 2 ^ 31) :
    wrapInt ((n : Int) - (d : Int)) = ((n - d : Nat) : Int) := by
  have : (n : Int) - (d : Int) = ((n - d : Nat) : Int) := by omega
  rw [this]
  exact wrapInt_nat _ (by omega)

theorem toInt_add32 (d : Nat) (h : d + 32 < 2 ^ 31) :
    toInt (u64 (ofInt ((d : Nat) : Int) + 2 * DSIZE)) = ((d + 32 : Nat) : Int) := by
  rw [ofInt_nat d (by omega)]
  unfold DSIZE WSIZE
  rw [u64_small _ (by omega)]
  exact toInt_small _ (by omega)

/-! ### The paths of `mm_realloc` -/

theorem PACKi_one (n : Nat) (h2 : n < 2 ^ 64) : PACKi (n : Int) 1 = PACK n 1 := by
  unfold PACKi
  rw [ofInt_nat n h2]
  rfl

theorem PACKi_zero (n : Nat) (h2 : n < 2 ^ 64) : PACKi (n : Int) 0 = PACK n 0 := by
  unfold PACKi
  rw [ofInt_nat n h2]
  rfl

theorem toInt_32 : toInt (2 * DSIZE) = 32 := by decide

theorem next_of_size (m : Nat → Nat) (ptr old : Nat) (h : GET_SIZE (m (HDRP ptr)) = old) :
    NEXT_BLKP m ptr = ptr + old := by
  unfold NEXT_BLKP
  unfold HDRP at h
  rw [h]

theorem realloc_same_path (h : Heap) (ptr size old : Nat) (hs0 : size ≠ 0) (hp : ptr ≠ 0)
    (hs : size + 24 ≤ 2 ^ 31) (hold : GET_SIZE (h.mem (HDRP ptr)) = old) (ho : old < 2 ^ 31)
    (he : realloc_asize size = old) : mm_realloc h ptr size = some (h, ptr) := by
  unfold mm_realloc
  simp only [NULL, if_neg hs0, if_neg hp, ra_eq size hs, hold, toInt_small old ho, he, if_true]

theorem realloc_keep_path (h : Heap) (ptr size old R : Nat) (hs0 : size ≠ 0) (hp : ptr ≠ 0)
    (hs : size + 24 ≤ 2 ^ 31) (hold : GET_SIZE (h.mem (HDRP ptr)) = old) (ho : old < 2 ^ 31)
    (hR : realloc_asize size = R) (h1 : R < old) (h2 : old < R + 32) :
    mm_realloc h ptr size = some (h, ptr) := by
  have c1 : ¬ ((R : Int) = (old : Int)) := by omega
  have c2 : (old : Int) - (R : Int) > 0 := by omega
  have c3 : ¬ ((old : Int) - (R : Int) ≥ 32) := by omega
  unfold mm_realloc
  simp only [NULL, if_neg hs0, if_neg hp, ra_eq size hs, hold, toInt_small old ho, hR,
    sd_eq old R ho (by omega), toInt_32, if_neg c1, if_pos c2, if_neg c3]

theorem realloc_shrink_path (h h5 h6 : Heap) (ptr size old R p : Nat) (hs0 : size ≠ 0)
    (hp : ptr ≠ 0) (hp8 : 8 ≤ ptr)
    (hs : size + 24 ≤ 2 ^ 31) (hold : GET_SIZE (h.mem (HDRP ptr)) = old) (ho : old < 2 ^ 31)
    (ho8 : old % 8 = 0)
    (hR : realloc_asize size = R) (h2 : R + 32 ≤ old)
    (i1 : insert_block { h with mem := set_tags (set_tags h.mem ptr R 1) (ptr + R) (old - R) 0 }
      (ptr + R) ((old - R : Nat) : Int) = some h5)
    (k1 : coalesce h5 (ptr + R) = some (h6, p)) :
    mm_realloc h ptr size = some (h6, PREV_BLKP h6.mem (ptr + R)) := by
  obtain ⟨r1, r2, r3, r4, r5⟩ := realloc_asize_facts size (by omega)
  rw [hR] at r1 r2 r3 r4
  have c1 : ¬ ((R : Int) = (old : Int)) := by omega
  have c2 : ((old - R : Nat) : Int) > 0 := by omega
  have c3 : ((old - R : Nat) : Int) ≥ 32 := by omega
  have hsd : toInt (sub64 old (ofInt (R : Int))) = ((old - R : Nat) : Int) := by
    rw [sd_eq old R ho (by omega)]; omega
  unfold mm_realloc
  simp only [NULL, if_neg hs0, if_neg hp, ra_eq size hs, hold, toInt_small old ho, hR,
    hsd, toInt_32, if_neg c1, if_pos c2, if_pos c3, PACKi_one R (by omega),
    PACKi_zero (old - R) (by omega), put_tags h ptr R 1 r1 (by omega) (by omega),
    next_set_tags h.mem ptr R 1 (by omega) r1 (by omega) (by omega) hp8]
  rw [put_tags _ (ptr + R) (old - R) 0 (by omega) (by omega) (by omega)]
  simp only [i1, k1]

theorem realloc_grow_path (h h1 h6 h7 : Heap) (ptr size old R nbs p : Nat) (hs0 : size ≠ 0)
    (hp : ptr ≠ 0) (hp8 : 8 ≤ ptr)
    (hs : size + 24 ≤ 2 ^ 31) (hold : GET_SIZE (h.mem (HDRP ptr)) = old) (ho : old < 2 ^ 31) (ho32 : 32 ≤ old)
    (ho8 : old % 8 = 0) (hR : realloc_asize size = R) (h2 : old < R)
    (hnbs : GET_SIZE (h.mem (HDRP (ptr + old))) = nbs) (hn : nbs < 2 ^ 31) (hn8 : nbs % 8 = 0)
    (hfree : GET_ALLOC (h.mem (HDRP (ptr + old))) = 0) (hbig : R - old + 32 ≤ nbs)
    (d1 : delete_block h (ptr + old) = some h1)
    (i1 : insert_block
      { h1 with mem := set_tags (set_tags h1.mem ptr R 1) (ptr + R) (nbs - (R - old)) 0 }
      (ptr + R) ((nbs - (R - old) : Nat) : Int) = some h6)
    (k1 : coalesce h6 (ptr + R) = some (h7, p)) :
    mm_realloc h ptr size = some (h7, PREV_BLKP h7.mem (ptr + R)) := by
  obtain ⟨r1, r2, r3, r4, r5⟩ := realloc_asize_facts size (by omega)
  rw [hR] at r1 r2 r3 r4
  have c1 : ¬ ((R : Int) = (old : Int)) := by omega
  have c2 : ¬ ((old : Int) - (R : Int) > 0) := by omega
  have c3 : (old : Int) - (R : Int) < 0 := by omega
  have c4 : (nbs : Int) ≥ ((R - old + 32 : Nat) : Int) := by omega
  unfold mm_realloc
  simp only [NULL, if_neg hs0, if_neg hp, ra_eq size hs, hold, toInt_small old ho, hR,
    sd_eq old R ho (by omega), toInt_32, if_neg c1, if_neg c2, if_pos c3,
    next_of_size h.mem ptr old hold, hnbs, hfree, ne_eq, not_true_eq_false, not_false_eq_true,
    if_true, abs_int_sub old R h2 (by omega), toInt_add32 (R - old) (by omega),
    toInt_small nbs hn, if_pos c4, d1, PACKi_one R (by omega),
    put_tags h1 ptr R 1 r1 (by omega) (by omega),
    next_set_tags h1.mem ptr R 1 (by omega) r1 (by omega) (by omega) hp8,
    wrapInt_sub nbs (R - old) (by omega) hn, PACKi_zero (nbs - (R - old)) (by omega)]
  rw [put_tags _ (ptr + R) (nbs - (R - old)) 0 (by omega) (by omega) (by omega)]
  simp only [i1, k1]

theorem realloc_absorb_path (h h1 : Heap) (ptr size old R nbs : Nat) (hs0 : size ≠ 0)
    (hp : ptr ≠ 0) (hp8 : 8 ≤ ptr)
    (hs : size + 24 ≤ 2 ^ 31) (hold : GET_SIZE (h.mem (HDRP ptr)) = old) (ho : old < 2 ^ 31) (ho32 : 32 ≤ old)
    (ho8 : old % 8 = 0) (hR : realloc_asize size = R) (h2 : old < R)
    (hnbs : GET_SIZE (h.mem (HDRP (ptr + old))) = nbs) (hn : old + nbs < 2 ^ 31)
    (hn8 : nbs % 8 = 0)
    (hfree : GET_ALLOC (h.mem (HDRP (ptr + old))) = 0) (hbig : ¬ (R - old + 32 ≤ nbs))
    (hfit : R - old ≤ nbs)
    (d1 : delete_block h (ptr + old) = some h1) :
    mm_realloc h ptr size =
      some ({ h1 with mem := set_tags h1.mem ptr (old + nbs) 1 }, ptr) := by
  obtain ⟨r1, r2, r3, r4, r5⟩ := realloc_asize_facts size (by omega)
  rw [hR] at r1 r2 r3 r4
  have c1 : ¬ ((R : Int) = (old : Int)) := by omega
  have c2 : ¬ ((old : Int) - (R : Int) > 0) := by omega
  have c3 : (old : Int) - (R : Int) < 0 := by omega
  have c4 : ¬ ((nbs : Int) ≥ ((R - old + 32 : Nat) : Int)) := by omega
  have c5 : (nbs : Int) ≥ ((R - old : Nat) : Int) := by omega
  unfold mm_realloc
  simp only [NULL, if_neg hs0, if_neg hp, ra_eq size hs, hold, toInt_small old ho, hR,
    sd_eq old R ho (by omega), toInt_32, if_neg c1, if_neg c2, if_pos c3,
    next_of_size h.mem ptr old hold, hnbs, hfree, ne_eq, not_true_eq_false, not_false_eq_true,
    if_true, abs_int_sub old R h2 (by omega), toInt_add32 (R - old) (by omega),
    toInt_small nbs (by omega), if_neg c4, if_pos c5, d1, u64_small (old + nbs) (by omega),
    toInt_small (old + nbs) hn, PACKi_one (old + nbs) (by omega),
    put_tags h1 ptr (old + nbs) 1 (by omega) (by omega) (by omega)]

/-- The general path of `mm_realloc`: a new block from `mm_malloc`, `memcpy`
of the old payload, `mm_free` of the old block. It is taken when the block has
to grow and the next block is allocated or too small. -/
theorem realloc_fallback_path (h : Heap) (ptr size old R nbs : Nat) (hs0 : size ≠ 0)
    (hp : ptr ≠ 0)
    (hs : size + 24 ≤ 2 ^ 31) (hold : GET_SIZE (h.mem (HDRP ptr)) = old) (ho : old < 2 ^ 31) (ho32 : 32 ≤ old)
    (hR : realloc_asize size = R) (h2 : old < R)
    (hnbs : GET_SIZE (h.mem (HDRP (ptr + old))) = nbs) (hn : nbs < 2 ^ 31)
    (hcase : GET_ALLOC (h.mem (HDRP (ptr + old))) ≠ 0 ∨ nbs < R - old) :
    mm_realloc h ptr size =
      match mm_malloc h size with
      | none => none
      | some (h1, newptr) =>
        if newptr = 0 then some (h1, 0)
        else
          match mm_free { h1 with mem := (memcpy h1.mem newptr ptr
              (if size < old then size else old)) } ptr with
          | none => none
          | some h3 => some (h3, newptr) := by
  obtain ⟨r1, r2, r3, r4, r5⟩ := realloc_asize_facts size (by omega)
  rw [hR] at r1 r2 r3 r4
  have c1 : ¬ ((R : Int) = (old : Int)) := by omega
  have c2 : ¬ ((old : Int) - (R : Int) > 0) := by omega
  have c3 : (old : Int) - (R : Int) < 0 := by omega
  unfold mm_realloc
  simp only [NULL, if_neg hs0, if_neg hp, ra_eq size hs, hold, toInt_small old ho, hR,
    sd_eq old R ho (by omega), toInt_32, if_neg c1, if_neg c2, if_pos c3,
    next_of_size h.mem ptr old hold, hnbs, abs_int_sub old R h2 (by omega),
    toInt_add32 (R - old) (by omega), toInt_small nbs hn]
  by_cases ha : GET_ALLOC (h.mem (HDRP (ptr + old))) ≠ 0
  · rw [if_neg (not_not.2 ha)]
  · have hlt : nbs < R - old := by
      rcases hcase with g | g
      · exact absurd g ha
      · exact g
    have c4 : ¬ ((nbs : Int) ≥ ((R - old + 32 : Nat) : Int)) := by omega
    have c5 : ¬ ((nbs : Int) ≥ ((R - old : Nat) : Int)) := by omega
    rw [if_pos ha, if_neg c4, if_neg c5]

theorem prev_free_alloc (A : List Block) (b : Block) (hb : b.alloc = true) :
    prev_free (A ++ [b]) = [] := by
  unfold prev_free
  have : (A ++ [b]).getLast? = some b := by simp
  rw [this]
  simp [hb]

theorem before_alloc (A : List Block) (b : Block) (hb : b.alloc = true) :
    before (A ++ [b]) = A ++ [b] := by
  unfold before
  rw [if_pos (prev_free_alloc A b hb)]

theorem merged_alloc (A : List Block) (b1 b : Block) (B : List Block) (hb : b1.alloc = true) :
    (merged (A ++ [b1]) b B).bp = b.bp := by
  unfold merged
  rw [prev_free_alloc A b1 hb]
  simp [total_size]

/-- The tail of the in-place paths of `mm_realloc`: the region from `s` to `e`
is retagged as an allocated block of `R` bytes followed by a free block of `r`
bytes, the free block is inserted in its list and coalesced with the next
block; the block before `s + R` is then the one at `s`. -/
theorem resplit_spec (h : Heap) (A M B : List Block) (Ls : Nat → List Nat) (s e R r : Nat)
    (hl : Layout h (A ++ M ++ B)) (hL : Lists h (A ++ M ++ B) Ls)
    (hA : Tiling h.mem (h.seg_lst + 176) A s) (hB : Tiling h.mem e B h.brk)
    (hR : 16 ≤ R) (hR8 : R % 8 = 0) (hr : 32 ≤ r) (hr8 : r % 8 = 0) (hsum : s + R + r = e)
    (hnot : ∀ b ∈ M, ∀ i < 18, b.bp ∉ Ls i)
    (hnbr : ∀ c ∈ next_free B, c.bp ∈ Ls (class_of c.size)) :
    ∃ h5 h6 p,
      insert_block { h with mem := set_tags (set_tags h.mem s R 1) (s + R) r 0 } (s + R)
        (r : Int) = some h5 ∧
      coalesce h5 (s + R) = some (h6, p) ∧ PREV_BLKP h6.mem (s + R) = s ∧ Same h h6 ∧
      Layout h6 (coalesce_blocks (A ++ [⟨s, R, true⟩]) ⟨s + R, r, false⟩ B) ∧
      Lists h6 (coalesce_blocks (A ++ [⟨s, R, true⟩]) ⟨s + R, r, false⟩ B)
        (coalesce_lists (ins Ls ⟨s + R, r, false⟩) (A ++ [⟨s, R, true⟩]) ⟨s + R, r, false⟩ B) ∧
      Keeps h h6 (A ++ after B) := by
  obtain ⟨t1, t2, t3, t4, t5⟩ := retile_set2 h A M B Ls s e R r 1 0 hl hL hA hB hR (by omega)
    hR8 hr8 hsum (by omega) (by omega) hnot _ rfl
  have d1 : decide ((1 : Nat) = 1) = true := rfl
  have d0 : decide ((0 : Nat) = 1) = false := rfl
  rw [d1, d0] at t2 t3
  obtain ⟨h5, i1, i2, i3, i4, i5⟩ := relist_spec _ A [⟨s, R, true⟩, ⟨s + R, r, false⟩] B
    ⟨s + R, r, false⟩ Ls s e t2 t3 (by simp) rfl hr (by show s ≤ s + R; omega)
    (by show s + R < e; omega) t5
  have hlist : A ++ [(⟨s, R, true⟩ : Block), ⟨s + R, r, false⟩] ++ B =
      (A ++ [⟨s, R, true⟩]) ++ [⟨s + R, r, false⟩] ++ B := by simp
  rw [hlist] at i3 i4 i5
  obtain ⟨h6, c1, c2, c3, c4, c5⟩ := coalesce_spec h5 (A ++ [⟨s, R, true⟩]) B
    ⟨s + R, r, false⟩ (ins Ls ⟨s + R, r, false⟩) i3 i4 (mem_ins_self Ls ⟨s + R, r, false⟩) (by
      intro c hc
      rw [prev_free_alloc A _ rfl, List.nil_append] at hc
      exact mem_ins_of_mem _ _ _ _ (hnbr c hc))
  have hmb : (merged (A ++ [⟨s, R, true⟩]) ⟨s + R, r, false⟩ B).bp = s + R :=
    merged_alloc A _ _ B rfl
  rw [hmb] at c1
  refine ⟨h5, h6, _, i1, c1, ?_, same_trans _ _ _ (same_trans _ _ _ t1 i2) c2, c3, c4, ?_⟩
  · have c3b := c3
    unfold coalesce_blocks at c3b
    rw [before_alloc A _ rfl] at c3b
    have hl2 : A ++ [(⟨s, R, true⟩ : Block)] ++
        [merged (A ++ [⟨s, R, true⟩]) ⟨s + R, r, false⟩ B] ++ after B =
        A ++ [⟨s, R, true⟩, merged (A ++ [⟨s, R, true⟩]) ⟨s + R, r, false⟩ B] ++ after B := by
      simp
    rw [hl2] at c3b
    obtain ⟨p1, p2, p3, p4⟩ := layout_prev_reads h6 A (after B) _ _ c3b
    rw [hmb] at p3
    exact p3
  · rw [before_alloc A _ rfl] at c5
    have k1 : Keeps h _ (A ++ after B) := keeps_mono _ _ _ _ t4 (fun c hc _ => by
      rcases List.mem_append.1 hc with g | g
      · exact List.mem_append_left _ g
      · exact List.mem_append_right _ (after_sub B c g))
    have k2 : Keeps _ h5 (A ++ after B) := keeps_mono _ _ _ _ i5 (fun c hc _ => by
      rcases List.mem_append.1 hc with g | g
      · simp only [List.mem_append]; tauto
      · exact List.mem_append_right _ (after_sub B c g))
    have k3 : Keeps h5 h6 (A ++ after B) := keeps_mono _ _ _ _ c5 (fun c hc _ => by
      simp only [List.mem_append] at hc ⊢; tauto)
    exact keeps_trans _ _ _ _ (keeps_trans _ _ _ _ k1 k2) k3

/-! ### `mm_realloc` in place -/

/-- Function `mm_realloc` on an allocated block that is at least `2 * DSIZE`
bytes larger than needed: the block is cut to `realloc_asize` bytes, the rest
becomes a free block, coalesced with the next block. -/
theorem realloc_shrink_spec (h : Heap) (A B : List Block) (b : Block) (Ls : Nat → List Nat)
    (size : Nat) (hl : Layout h (A ++ [b] ++ B)) (hL : Lists h (A ++ [b] ++ B) Ls)
    (ha : b.alloc = true) (h0 : size ≠ 0) (hs : size + 24 ≤ 2 ^ 31)
    (hcut : realloc_asize size + 32 ≤ b.size)
    (hnbr : ∀ c ∈ next_free B, c.bp ∈ Ls (class_of c.size)) :
    ∃ h1, mm_realloc h b.bp size = some (h1, b.bp) ∧ Same h h1 ∧
      Layout h1 (coalesce_blocks (A ++ [⟨b.bp, realloc_asize size, true⟩])
        ⟨b.bp + realloc_asize size, b.size - realloc_asize size, false⟩ B) ∧
      Lists h1 (coalesce_blocks (A ++ [⟨b.bp, realloc_asize size, true⟩])
        ⟨b.bp + realloc_asize size, b.size - realloc_asize size, false⟩ B)
        (coalesce_lists (ins Ls ⟨b.bp + realloc_asize size, b.size - realloc_asize size, false⟩)
          (A ++ [⟨b.bp, realloc_asize size, true⟩])
          ⟨b.bp + realloc_asize size, b.size - realloc_asize size, false⟩ B) ∧
      Keeps h h1 (A ++ after B) := by
  obtain ⟨r1, r2, r3, r4, r5⟩ := realloc_asize_facts size (by omega)
  generalize hR : realloc_asize size = R at *
  have hbm : b ∈ A ++ [b] ++ B := by simp
  obtain ⟨k1, k2, k3, k4, k5, k6, k7, k8⟩ := layout_block h _ hl b hbm
  have hcs := (layout_reads h _ hl b hbm).1
  obtain ⟨s, e, hA, hM, hB, t1, t2, t3, t4, t5, t6⟩ := layout_split3 h A [b] B hl
  obtain ⟨u1, u2⟩ := tiling_single _ _ _ _ hM
  subst u1
  subst u2
  clear k7 k8
  obtain ⟨h5, h6, p, i1, c1, c2, c3, c4, c5, c6⟩ := resplit_spec h A [b] B Ls b.bp
    (b.bp + b.size) R (b.size - R) hl hL hA hB (by omega) r1 (by omega) (by omega) (by omega)
    (by
      intro c hc
      rw [List.mem_singleton.1 hc]
      exact alloc_not_member h _ Ls hl hL b hbm ha)
    hnbr
  have hp := realloc_shrink_path h h5 h6 b.bp size b.size R p h0 (by omega) (by omega) hs hcs
    k6 k4 hR hcut i1 c1
  rw [c2] at hp
  exact ⟨h6, hp, c3, c4, c5, c6⟩

theorem mid2 (A B1 : List Block) (b nb : Block) :
    A ++ [b] ++ nb :: B1 = (A ++ [b]) ++ [nb] ++ B1 := by simp

theorem mid3 (A B1 : List Block) (b nb : Block) :
    A ++ [b] ++ nb :: B1 = A ++ [b, nb] ++ B1 := by simp

/-- Reads of `mm_realloc` on the next block. -/
theorem next_reads (h : Heap) (A B1 : List Block) (b nb : Block)
    (hl : Layout h (A ++ [b] ++ nb :: B1)) :
    nb.bp = b.bp + b.size ∧ GET_SIZE (h.mem (HDRP (b.bp + b.size))) = nb.size ∧
      GET_ALLOC (h.mem (HDRP (b.bp + b.size))) = (if nb.alloc then 1 else 0) := by
  have hl2 := hl
  rw [mid3] at hl2
  obtain ⟨p1, p2, p3, p4⟩ := layout_prev_reads h A B1 b nb hl2
  obtain ⟨q1, q2, q3, q4, q5, q6⟩ := layout_reads h _ hl nb (by simp)
  rw [← p1] at q1 q5
  exact ⟨p1.symm, q1, q5⟩

/-- Function `mm_realloc` on an allocated block that has to grow, followed by
a free block large enough to leave a free block of at least `2 * DSIZE` bytes. -/
theorem realloc_grow_spec (h : Heap) (A B1 : List Block) (b nb : Block)
    (Ls : Nat → List Nat) (size : Nat) (hl : Layout h (A ++ [b] ++ nb :: B1))
    (hL : Lists h (A ++ [b] ++ nb :: B1) Ls)
    (ha : b.alloc = true) (h0 : size ≠ 0) (hs : size + 24 ≤ 2 ^ 31) (hb32 : 32 ≤ b.size)
    (hgrow : b.size < realloc_asize size)
    (hin : nb.bp ∈ Ls (class_of nb.size))
    (hbig : realloc_asize size - b.size + 32 ≤ nb.size)
    (hnbr : ∀ c ∈ next_free B1, c.bp ∈ Ls (class_of c.size)) :
    ∃ h1, mm_realloc h b.bp size = some (h1, b.bp) ∧ Same h h1 ∧
      Layout h1 (coalesce_blocks (A ++ [⟨b.bp, realloc_asize size, true⟩])
        ⟨b.bp + realloc_asize size, nb.size - (realloc_asize size - b.size), false⟩ B1) ∧
      Lists h1 (coalesce_blocks (A ++ [⟨b.bp, realloc_asize size, true⟩])
        ⟨b.bp + realloc_asize size, nb.size - (realloc_asize size - b.size), false⟩ B1)
        (coalesce_lists (ins (del Ls nb)
            ⟨b.bp + realloc_asize size, nb.size - (realloc_asize size - b.size), false⟩)
          (A ++ [⟨b.bp, realloc_asize size, true⟩])
          ⟨b.bp + realloc_asize size, nb.size - (realloc_asize size - b.size), false⟩ B1) ∧
      Keeps h h1 (A ++ after B1) := by
  obtain ⟨r1, r2, r3, r4, r5⟩ := realloc_asize_facts size (by omega)
  generalize hR : realloc_asize size = R at *
  have hbm : b ∈ A ++ [b] ++ nb :: B1 := by simp
  have hnm : nb ∈ A ++ [b] ++ nb :: B1 := by simp
  obtain ⟨k1, k2, k3, k4, k5, k6, k7, k8⟩ := layout_block h _ hl b hbm
  obtain ⟨m1, m2, m3, m4, m5, m6, m7, m8⟩ := layout_block h _ hl nb hnm
  have hcs := (layout_reads h _ hl b hbm).1
  obtain ⟨n1, n2, n3⟩ := next_reads h A B1 b nb hl
  clear k7 k8 m7 m8
  have hl2 := hl
  have hL2 := hL
  rw [mid2] at hl2 hL2
  obtain ⟨h1, d1, d2, d3, d4, d5, d6, d7, d8⟩ := unlist_spec h (A ++ [b]) B1 nb Ls hl2 hL2 hin
  rw [d7] at n3
  rw [← mid2, mid3] at d3 d4
  obtain ⟨s, e, hA, hM, hB, t1, t2, t3, t4, t5, t6⟩ := layout_split3 h1 A [b, nb] B1 d3
  have hs1 : b.bp = s := hM.1
  have he1 : s + b.size + nb.size = e := by
    have := hM.2.2.2.2.2
    have h3 : nb.bp = s + b.size := this.1
    have h4 : s + b.size + nb.size = e := this.2.2.2.2.2
    exact h4
  subst hs1
  have hne : nb.bp ≠ b.bp := by omega
  have hbin : b ∈ A ++ [b, nb] ++ B1 := by simp
  obtain ⟨h5, h6, p, i1, c1, c2, c3, c4, c5, c6⟩ := resplit_spec h1 A [b, nb] B1 (del Ls nb) b.bp
    e R (nb.size - (R - b.size)) d3 d4 hA hB (by omega) r1 (by omega) (by omega) (by omega)
    (by
      intro c hc i hi
      simp only [List.mem_cons, List.mem_singleton, List.not_mem_nil, or_false] at hc
      rcases hc with rfl | rfl
      · exact alloc_not_member h1 _ _ d3 d4 c hbin ha i hi
      · exact d6 i hi)
    (by
      intro c hc
      refine mem_del_of_ne _ _ _ _ (hnbr c hc) ?_
      have hcB := next_free_sub B1 c hc
      have hnd := layout_nodup h _ hl2
      exact nodup_outside (A ++ [b]) [nb] B1 hnd c (List.mem_append_right _ hcB) nb (by simp))
  have hp := realloc_grow_path h h1 h5 h6 b.bp size b.size R nb.size p h0 (by omega)
    (by omega) hs hcs k6 hb32 k4 hR hgrow n2 m6 m4 n3 hbig (n1 ▸ d1) i1 c1
  rw [c2] at hp
  refine ⟨h6, hp, same_trans _ _ _ d2 c3, c4, c5, ?_⟩
  have k1 : Keeps h h1 (A ++ after B1) := keeps_mono _ _ _ _ d5 (fun c hc _ => by
    rcases List.mem_append.1 hc with g | g
    · simp only [List.mem_append]; tauto
    · exact List.mem_append_right _ (after_sub B1 c g))
  exact keeps_trans _ _ _ _ k1 c6

/-- Function `mm_realloc` on an allocated block that has to grow, followed by
a free block that is large enough but leaves less than `2 * DSIZE` bytes: the
free block is absorbed whole. -/
theorem realloc_absorb_spec (h : Heap) (A B1 : List Block) (b nb : Block)
    (Ls : Nat → List Nat) (size : Nat) (hl : Layout h (A ++ [b] ++ nb :: B1))
    (hL : Lists h (A ++ [b] ++ nb :: B1) Ls)
    (ha : b.alloc = true) (h0 : size ≠ 0) (hs : size + 24 ≤ 2 ^ 31) (hb32 : 32 ≤ b.size)
    (hgrow : b.size < realloc_asize size)
    (hin : nb.bp ∈ Ls (class_of nb.size))
    (hsmall : ¬ (realloc_asize size - b.size + 32 ≤ nb.size))
    (hfit : realloc_asize size - b.size ≤ nb.size) :
    ∃ h1, mm_realloc h b.bp size = some (h1, b.bp) ∧ Same h h1 ∧
      Layout h1 (A ++ [⟨b.bp, b.size + nb.size, true⟩] ++ B1) ∧
      Lists h1 (A ++ [⟨b.bp, b.size + nb.size, true⟩] ++ B1) (del Ls nb) ∧
      Keeps h h1 (A ++ B1) := by
  obtain ⟨r1, r2, r3, r4, r5⟩ := realloc_asize_facts size (by omega)
  generalize hR : realloc_asize size = R at *
  have hbm : b ∈ A ++ [b] ++ nb :: B1 := by simp
  have hnm : nb ∈ A ++ [b] ++ nb :: B1 := by simp
  obtain ⟨k1, k2, k3, k4, k5, k6, k7, k8⟩ := layout_block h _ hl b hbm
  obtain ⟨m1, m2, m3, m4, m5, m6, m7, m8⟩ := layout_block h _ hl nb hnm
  have hbrk := layout_brk h _ hl
  have hcs := (layout_reads h _ hl b hbm).1
  obtain ⟨n1, n2, n3⟩ := next_reads h A B1 b nb hl
  clear k7 k8 m7 m8
  have hl2 := hl
  have hL2 := hL
  rw [mid2] at hl2 hL2
  obtain ⟨h1, d1, d2, d3, d4, d5, d6, d7, d8⟩ := unlist_spec h (A ++ [b]) B1 nb Ls hl2 hL2 hin
  rw [d7] at n3
  rw [← mid2, mid3] at d3 d4
  obtain ⟨s, e, hA, hM, hB, t1, t2, t3, t4, t5, t6⟩ := layout_split3 h1 A [b, nb] B1 d3
  have hs1 : b.bp = s := hM.1
  have he1 : s + b.size + nb.size = e := by
    have := hM.2.2.2.2.2
    have h4 : s + b.size + nb.size = e := this.2.2.2.2.2
    exact h4
  subst hs1
  have hbin : b ∈ A ++ [b, nb] ++ B1 := by simp
  obtain ⟨q1, q2, q3, q4, q5⟩ := retile_set1 h1 A [b, nb] B1 (del Ls nb) b.bp e
    (b.size + nb.size) 1 d3 d4 hA hB (by omega) (by omega) (by omega) (by omega)
    (by
      intro c hc i hi
      simp only [List.mem_cons, List.mem_singleton, List.not_mem_nil, or_false] at hc
      rcases hc with rfl | rfl
      · exact alloc_not_member h1 _ _ d3 d4 c hbin ha i hi
      · exact d6 i hi) _ rfl
  have dd : decide ((1 : Nat) = 1) = true := rfl
  rw [dd] at q2 q3
  have hp := realloc_absorb_path h h1 b.bp size b.size R nb.size h0 (by omega)
    (by omega) hs hcs k6 hb32 k4 hR hgrow n2 (by omega) m4 n3 hsmall hfit (n1 ▸ d1)
  refine ⟨_, hp, same_trans _ _ _ d2 q1, q2, q3, ?_⟩
  have k1 : Keeps h h1 (A ++ B1) := keeps_mono _ _ _ _ d5 (fun c hc _ => by
    simp only [List.mem_append, List.mem_singleton] at hc ⊢; tauto)
  exact keeps_trans _ _ _ _ k1 q4

/-! ### `mm_realloc` through `mm_malloc`, `memcpy` and `mm_free` -/

theorem memcpy_frame (m : Nat → Nat) (dst src n a : Nat) (h : ¬ (dst ≤ a ∧ a < dst + n)) :
    memcpy m dst src n a = m a := by
  unfold memcpy
  rw [if_neg (fun hh => h ⟨hh.1, hh.2.1⟩)]

/-- A change of memory confined to payload words of allocated blocks keeps
the layout and the lists. -/
theorem payload_frame (h h1 : Heap) (bs : List Block) (Ls : Nat → List Nat)
    (hl : Layout h bs) (hL : Lists h bs Ls) (hs : Same h h1)
    (hf : ∀ a, (∀ c ∈ bs, c.alloc = true → ¬ (c.bp ≤ a ∧ a + 16 < c.bp + c.size)) →
      h1.mem a = h.mem a) :
    Layout h1 bs ∧ Lists h1 bs Ls := by
  obtain ⟨s1, s2, s3, s4⟩ := hs
  refine ⟨layout_frame h h1 bs hl ⟨s1, s2, s3, s4⟩ (fun a _ hno => hf a (fun c hc _ => hno c hc)),
    ?_, hL.members, hL.nodup⟩
  intro i hi
  rw [s4]
  have hhead : h1.mem (h.seg_lst + i * 8) = h.mem (h.seg_lst + i * 8) := by
    refine hf _ ?_
    intro c hc _ hcon
    have := layout_block h bs hl c hc
    omega
  rw [hhead]
  refine chain_frame h.mem h1.mem (Ls i) 0 _ (hL.chains i hi) ?_
  intro x hx
  obtain ⟨f, hfm, q1, q2, q3, q4, q5, q6, q7⟩ := members_block h bs Ls hl hL i hi x hx
  have hdis : ∀ c ∈ bs, c.alloc = true → c.bp + c.size ≤ x ∨ x + f.size ≤ c.bp := by
    intro c hc hca
    rcases tiling_disjoint h.mem bs _ _ hl.til c hc f hfm with e1 | e2 | e3
    · rw [e1, q2] at hca; exact absurd hca (by simp)
    · left; omega
    · right; omega
  constructor
  · refine hf _ ?_
    intro c hc hca hcon
    have := hdis c hc hca
    have := layout_block h bs hl c hc
    omega
  · refine hf _ ?_
    intro c hc hca hcon
    have := hdis c hc hca
    have := layout_block h bs hl c hc
    omega

/-- Function `memcpy` into the payload of an allocated block of at least
`n + DSIZE` bytes keeps the layout and the lists. -/
theorem memcpy_spec (h : Heap) (bs : List Block) (Ls : Nat → List Nat) (c : Block)
    (src n : Nat) (hl : Layout h bs) (hL : Lists h bs Ls) (hc : c ∈ bs)
    (hca : c.alloc = true) (hn : n + 16 ≤ c.size) :
    Layout { h with mem := memcpy h.mem c.bp src n } bs ∧
      Lists { h with mem := memcpy h.mem c.bp src n } bs Ls := by
  refine payload_frame h _ bs Ls hl hL ⟨rfl, rfl, rfl, rfl⟩ ?_
  intro a hno
  show memcpy h.mem c.bp src n a = h.mem a
  by_cases hin : c.bp ≤ a ∧ a < c.bp + n
  · by_cases hal : (a - c.bp) % 8 = 0
    · exfalso
      have hb := layout_block h bs hl c hc
      refine hno c hc hca ⟨hin.1, ?_⟩
      omega
    · unfold memcpy WSIZE
      rw [if_neg (fun hh => hal hh.2.2)]
  · exact memcpy_frame _ _ _ _ _ hin

theorem sandwich_nodup (A M B : List Block) (s e : Nat) (hse : s ≤ e)
    (hA : (A.map Block.bp).Nodup) (hM : (M.map Block.bp).Nodup) (hB : (B.map Block.bp).Nodup)
    (h1 : ∀ c ∈ A, c.bp < s) (h2 : ∀ c ∈ M, s ≤ c.bp ∧ c.bp < e) (h3 : ∀ c ∈ B, e ≤ c.bp) :
    ((A ++ M ++ B).map Block.bp).Nodup := by
  rw [List.map_append, List.map_append]
  refine List.nodup_append.2 ⟨List.nodup_append.2 ⟨hA, hM, ?_⟩, hB, ?_⟩
  · intro x hx hx2
    obtain ⟨c, hc, rfl⟩ := List.mem_map.1 hx
    obtain ⟨d, hd, hdc⟩ := List.mem_map.1 hx2
    have := h1 c hc
    have := h2 d hd
    omega
  · intro x hx hx2
    obtain ⟨d, hd, hdc⟩ := List.mem_map.1 hx2
    have := h3 d hd
    rcases List.mem_append.1 hx with g | g
    · obtain ⟨c, hc, rfl⟩ := List.mem_map.1 g
      have := h1 c hc
      omega
    · obtain ⟨c, hc, rfl⟩ := List.mem_map.1 g
      have := h2 c hc
      omega

/-- The block starts of a heap in which the region from `s` to `e` is retagged
as two blocks are distinct. -/
theorem resplit_nodup (m : Nat → Nat) (A B : List Block) (s0 s e brk R r : Nat)
    (hA : Tiling m s0 A s) (hB : Tiling m e B brk) (hR : 0 < R) (hr : 0 < r)
    (hsum : s + R + r = e) :
    (((A ++ [(⟨s, R, true⟩ : Block)]) ++ [(⟨s + R, r, false⟩ : Block)] ++ B).map Block.bp).Nodup := by
  have e1 : (A ++ [(⟨s, R, true⟩ : Block)]) ++ [(⟨s + R, r, false⟩ : Block)] ++ B =
      A ++ [⟨s, R, true⟩, ⟨s + R, r, false⟩] ++ B := by simp
  rw [e1]
  refine sandwich_nodup A _ B s e (by omega) (tiling_nodup m A _ _ hA) ?_
    (tiling_nodup m B _ _ hB) ?_ ?_ ?_
  · simp only [List.map_cons, List.map_nil, List.nodup_cons, List.mem_singleton,
      List.not_mem_nil, not_false_eq_true, List.nodup_nil, and_true]
    omega
  · intro c hc
    have := tiling_mem m A _ _ hA c hc
    omega
  · intro c hc
    simp only [List.mem_cons, List.mem_singleton, List.not_mem_nil, or_false] at hc
    rcases hc with rfl | rfl
    · exact ⟨Nat.le_refl _, by show s < e; omega⟩
    · exact ⟨by show s ≤ s + R; omega, by show s + R < e; omega⟩
  · intro c hc
    exact (tiling_mem m B _ _ hB c hc).1

theorem chain_snoc_alloc (A : List Block) (b : Block) (hb : b.alloc = true)
    (hA : A.Chain' (fun a b => a.alloc = true ∨ b.alloc = true)) :
    (A ++ [b]).Chain' (fun a b => a.alloc = true ∨ b.alloc = true) := by
  rw [List.chain'_append]
  refine ⟨hA, List.chain'_singleton _, ?_⟩
  intro x _ y hy
  simp only [List.head?_cons, Option.mem_def, Option.some.injEq] at hy
  rw [← hy]
  exact Or.inr hb

/-- The heap after the in-place split of `mm_realloc`: free blocks are on
their lists, no two adjacent blocks are free, and the minimum size is kept if
the allocated part has it. -/
theorem resplit_sound (A B : List Block) (s R r : Nat) (Ls : Nat → List Nat)
    (hnd : (((A ++ [(⟨s, R, true⟩ : Block)]) ++ [(⟨s + R, r, false⟩ : Block)] ++ B).map Block.bp).Nodup)
    (hcomp : ∀ c ∈ A ++ B, c.alloc = false → c.bp ∈ Ls (class_of c.size))
    (hA : A.Chain' (fun a b => a.alloc = true ∨ b.alloc = true))
    (hB : B.Chain' (fun a b => a.alloc = true ∨ b.alloc = true))
    (hmin : ∀ c ∈ A ++ B, 32 ≤ c.size) (hr : 32 ≤ r) :
    (∀ c ∈ coalesce_blocks (A ++ [⟨s, R, true⟩]) ⟨s + R, r, false⟩ B, c.alloc = false →
      c.bp ∈ coalesce_lists (ins Ls ⟨s + R, r, false⟩) (A ++ [⟨s, R, true⟩])
        ⟨s + R, r, false⟩ B (class_of c.size)) ∧
    (coalesce_blocks (A ++ [⟨s, R, true⟩]) ⟨s + R, r, false⟩ B).Chain'
      (fun a b => a.alloc = true ∨ b.alloc = true) ∧
    (32 ≤ R → ∀ c ∈ coalesce_blocks (A ++ [⟨s, R, true⟩]) ⟨s + R, r, false⟩ B, 32 ≤ c.size) := by
  refine ⟨?_, ?_, ?_⟩
  · refine coalesce_complete _ _ _ _ hnd ?_ rfl (mem_ins_self Ls ⟨s + R, r, false⟩)
    intro c hc hcf
    refine mem_ins_of_mem _ _ _ _ (hcomp c ?_ hcf)
    simp only [List.mem_append, List.mem_singleton] at hc ⊢
    rcases hc with (g | g) | g
    · exact Or.inl g
    · rw [g] at hcf; simp at hcf
    · exact Or.inr g
  · exact coalesce_nofree2 _ _ _ (chain_snoc_alloc A _ rfl hA) hB
  · intro hR
    refine coalesce_minsize _ _ _ ?_ hr
    intro c hc
    simp only [List.mem_append, List.mem_singleton] at hc
    rcases hc with (g | g) | g
    · exact hmin c (List.mem_append_left _ g)
    · rw [g]; exact hR
    · exact hmin c (List.mem_append_right _ g)

/-- The general path of `mm_realloc` on a heap whose free lists are complete:
the call returns, and the result is again such a heap. With a failing
`mm_malloc` nothing changes. -/
theorem realloc_fallback_spec (h : Heap) (A B : List Block) (b : Block) (Ls : Nat → List Nat)
    (size nbs : Nat) (hl : Layout h (A ++ [b] ++ B)) (hL : Lists h (A ++ [b] ++ B) Ls)
    (hF : Full (A ++ [b] ++ B) Ls) (ha : b.alloc = true) (h0 : size ≠ 0)
    (hs : size + 160 ≤ 2 ^ 31) (hgrow : b.size < realloc_asize size)
    (hnbs : GET_SIZE (h.mem (HDRP (b.bp + b.size))) = nbs) (hn : nbs < 2 ^ 31)
    (hcase : GET_ALLOC (h.mem (HDRP (b.bp + b.size))) ≠ 0 ∨ nbs < realloc_asize size - b.size) :
    ∃ h1 p bs1 Ls1, mm_realloc h b.bp size = some (h1, p) ∧ h1.seg_lst = h.seg_lst ∧
      h1.max_addr = h.max_addr ∧ h1.heap_listp = h.heap_listp ∧ h.brk ≤ h1.brk ∧
      Layout h1 bs1 ∧ Lists h1 bs1 Ls1 ∧ Full bs1 Ls1 ∧ (p = 0 → h1 = h) ∧
      (p ≠ 0 → ∃ c ∈ bs1, c.bp = p ∧ c.alloc = true ∧ size + 16 ≤ c.size) := by
  have hbm : b ∈ A ++ [b] ++ B := by simp
  obtain ⟨k1, k2, k3, k4, k5, k6, k7, k8⟩ := layout_block h _ hl b hbm
  have hcs := (layout_reads h _ hl b hbm).1
  obtain ⟨a1, a2, a3, a4⟩ := adjust_size_facts size (by omega) (by omega)
  obtain ⟨h1, p, bs1, Ls1, e, s1, s2, s3, s4, l1, L1, F1, k, hper, hp0, hp1⟩ :=
    mm_malloc_full h _ Ls size hl hL hF (by omega) (by omega) (by omega)
  rw [realloc_fallback_path h b.bp size b.size _ nbs h0 (by omega) (by omega) hcs k6 (hF.minsize b hbm) rfl hgrow
    hnbs hn hcase, e]
  clear k7 k8
  by_cases hp : p = 0
  · subst hp
    have hh := hp0 rfl
    subst hh
    exact ⟨h1, 0, _, Ls, by simp, rfl, rfl, rfl, Nat.le_refl _, hl, hL, hF, fun _ => rfl,
      fun hne => absurd rfl hne⟩
  · obtain ⟨c, hc, c1, c2, c3, c4⟩ := hp1 hp
    subst c1
    have hb1 := hper b hbm ha
    obtain ⟨A1, B1, hsplit⟩ := List.append_of_mem hb1
    have hsplit2 : bs1 = A1 ++ [b] ++ B1 := by rw [hsplit]; simp
    subst hsplit2
    have hnle : (if size < b.size then size else b.size) + 16 ≤ c.size := by
      split_ifs <;> omega
    obtain ⟨m1, m2⟩ := memcpy_spec h1 _ Ls1 c b.bp _ l1 L1 hc c2 hnle
    obtain ⟨h3, f1, f2, f3, f4, f5, f6⟩ := mm_free_full _ A1 B1 b Ls1 m1 m2 F1 ha
    have hcne : c ≠ b := fun hcb => c4 b hbm ha hcb.symm
    refine ⟨h3, c.bp, _, _, ?_, ?_, ?_, ?_, ?_, f3, f4, f5, fun hz => absurd hz hp,
      fun _ => ⟨c, ?_, rfl, c2, by omega⟩⟩
    · simp only [if_neg hp, f1]
    · rw [f2.2.2.2]; exact s1
    · rw [f2.2.1]; exact s2
    · rw [f2.2.2.1]; exact s3
    · rw [f2.1]; exact s4
    · unfold coalesce_blocks
      simp only [List.mem_append, List.mem_singleton] at hc ⊢
      rcases hc with (g | g) | g
      · exact Or.inl (Or.inl (alloc_before A1 c g c2))
      · exact absurd g hcne
      · exact Or.inr (alloc_after B1 c g c2)

theorem grows_same (h h1 : Heap) (hs : Same h h1) : Grows h h1 :=
  ⟨hs.2.2.2, hs.2.1, hs.2.2.1, by rw [hs.1]⟩

theorem mem_resplit (A B : List Block) (b1 rest : Block) (hb : b1.alloc = true) :
    b1 ∈ coalesce_blocks (A ++ [b1]) rest B := by
  unfold coalesce_blocks
  rw [before_alloc A b1 hb]
  simp

/-- Function `mm_realloc`, shrinking in place with a split. -/
theorem realloc_shrink_full (h : Heap) (A B : List Block) (b : Block) (Ls : Nat → List Nat)
    (size : Nat) (hl : Layout h (A ++ [b] ++ B)) (hL : Lists h (A ++ [b] ++ B) Ls)
    (hF : Full (A ++ [b] ++ B) Ls) (ha : b.alloc = true) (h0 : size ≠ 0)
    (hs : size + 160 ≤ 2 ^ 31) (hcut : realloc_asize size + 32 ≤ b.size) :
    ∃ h1 p bs1 Ls1, mm_realloc h b.bp size = some (h1, p) ∧ Grows h h1 ∧ Sound h1 bs1 Ls1 ∧
      (8 < size → ∀ c ∈ bs1, 32 ≤ c.size) ∧ (p = 0 → h1 = h) ∧
      (p ≠ 0 → ∃ c ∈ bs1, c.bp = p ∧ c.alloc = true ∧ size + 16 ≤ c.size) := by
  obtain ⟨r1, r2, r3, r4, r5⟩ := realloc_asize_facts size (by omega)
  have hcomp : ∀ c ∈ A ++ B, c.alloc = false → c.bp ∈ Ls (class_of c.size) :=
    fun c hc hcf => hF.complete c (mem_mid A B b c hc) hcf
  have hmin : ∀ c ∈ A ++ B, 32 ≤ c.size := fun c hc => hF.minsize c (mem_mid A B b c hc)
  obtain ⟨n1, n2, n3, n4, n5⟩ := (nf_sandwich A [b] B (by simp)).1 hF.nofree2
  obtain ⟨h1, e1, e2, e3, e4, e5⟩ := realloc_shrink_spec h A B b Ls size hl hL ha h0
    (by omega) hcut (fun c hc => hcomp c (List.mem_append_right _ (next_free_sub B c hc))
      (next_free_free B c hc))
  have hbm : b ∈ A ++ [b] ++ B := by simp
  obtain ⟨k1, k2, k3, k4, k5, k6, k7, k8⟩ := layout_block h _ hl b hbm
  obtain ⟨s, e, hA, hM, hB, t1, t2, t3, t4, t5, t6⟩ := layout_split3 h A [b] B hl
  obtain ⟨u1, u2⟩ := tiling_single _ _ _ _ hM
  subst u1
  subst u2
  have hnd := resplit_nodup h.mem A B _ b.bp _ _ (realloc_asize size)
    (b.size - realloc_asize size) hA hB (by omega) (by omega) (by omega)
  obtain ⟨g1, g2, g3⟩ := resplit_sound A B b.bp (realloc_asize size)
    (b.size - realloc_asize size) Ls hnd hcomp n1 n3 hmin (by omega)
  refine ⟨h1, b.bp, _, _, e1, grows_same h h1 e2, ⟨e3, e4, g1, g2⟩, fun h8 => g3 (r5 h8),
    fun hz => by omega, fun _ => ⟨_, mem_resplit A B _ _ rfl, rfl, rfl, r2⟩⟩

/-- Function `mm_realloc`, growing in place into the next block with a split. -/
theorem realloc_grow_full (h : Heap) (A B1 : List Block) (b nb : Block) (Ls : Nat → List Nat)
    (size : Nat) (hl : Layout h (A ++ [b] ++ nb :: B1))
    (hL : Lists h (A ++ [b] ++ nb :: B1) Ls)
    (hF : Full (A ++ [b] ++ nb :: B1) Ls) (ha : b.alloc = true) (hnf : nb.alloc = false)
    (h0 : size ≠ 0)
    (hs : size + 160 ≤ 2 ^ 31) (hgrow : b.size < realloc_asize size)
    (hbig : realloc_asize size - b.size + 32 ≤ nb.size) :
    ∃ h1 p bs1 Ls1, mm_realloc h b.bp size = some (h1, p) ∧ Grows h h1 ∧ Sound h1 bs1 Ls1 ∧
      (8 < size → ∀ c ∈ bs1, 32 ≤ c.size) ∧ (p = 0 → h1 = h) ∧
      (p ≠ 0 → ∃ c ∈ bs1, c.bp = p ∧ c.alloc = true ∧ size + 16 ≤ c.size) := by
  obtain ⟨r1, r2, r3, r4, r5⟩ := realloc_asize_facts size (by omega)
  have hnd0 := layout_nodup h _ hl
  rw [mid2] at hnd0
  have hsub : ∀ c ∈ A ++ B1, c ∈ A ++ [b] ++ nb :: B1 := by
    intro c hc
    simp only [List.mem_append, List.mem_singleton, List.mem_cons] at hc ⊢
    tauto
  have hsub2 : ∀ c ∈ A ++ B1, c ∈ (A ++ [b]) ++ B1 := by
    intro c hc
    simp only [List.mem_append, List.mem_singleton] at hc ⊢
    tauto
  have hcomp : ∀ c ∈ A ++ B1, c.alloc = false → c.bp ∈ del Ls nb (class_of c.size) :=
    fun c hc hcf => mem_del_of_ne _ _ _ _ (hF.complete c (hsub c hc) hcf)
      (nodup_outside (A ++ [b]) [nb] B1 hnd0 c (hsub2 c hc) nb (by simp))
  have hmin : ∀ c ∈ A ++ B1, 32 ≤ c.size := fun c hc => hF.minsize c (hsub c hc)
  obtain ⟨n1, n2, n3, n4, n5⟩ := (nf_sandwich A [b] (nb :: B1) (by simp)).1 hF.nofree2
  obtain ⟨h1, e1, e2, e3, e4, e5⟩ := realloc_grow_spec h A B1 b nb Ls size hl hL ha h0
    (by omega) (hF.minsize b (by simp)) hgrow (hF.complete nb (by simp) hnf) hbig
    (fun c hc => hF.complete c (by
      have := next_free_sub B1 c hc
      simp only [List.mem_append, List.mem_singleton, List.mem_cons]
      tauto) (next_free_free B1 c hc))
  have hl3 := hl
  rw [mid3] at hl3
  obtain ⟨s, e, hA, hM, hB, t1, t2, t3, t4, t5, t6⟩ := layout_split3 h A [b, nb] B1 hl3
  have hs1 : b.bp = s := hM.1
  have he1 : s + b.size + nb.size = e := hM.2.2.2.2.2.2.2.2.2.2
  subst hs1
  have hnd := resplit_nodup h.mem A B1 _ b.bp _ _ (realloc_asize size)
    (nb.size - (realloc_asize size - b.size)) hA hB (by omega) (by omega) (by omega)
  obtain ⟨g1, g2, g3⟩ := resplit_sound A B1 b.bp (realloc_asize size)
    (nb.size - (realloc_asize size - b.size)) (del Ls nb) hnd hcomp n1 n3.tail hmin (by omega)
  have hbm : b ∈ A ++ [b] ++ nb :: B1 := by simp
  obtain ⟨k1, k2, k3, k4, k5, k6, k7, k8⟩ := layout_block h _ hl b hbm
  refine ⟨h1, b.bp, _, _, e1, grows_same h h1 e2, ⟨e3, e4, g1, g2⟩, fun h8 => g3 (r5 h8),
    fun hz => by omega, fun _ => ⟨_, mem_resplit A B1 _ _ rfl, rfl, rfl, r2⟩⟩

/-- Function `mm_realloc`, growing in place by absorbing the next block. -/
theorem realloc_absorb_full (h : Heap) (A B1 : List Block) (b nb : Block)
    (Ls : Nat → List Nat)
    (size : Nat) (hl : Layout h (A ++ [b] ++ nb :: B1))
    (hL : Lists h (A ++ [b] ++ nb :: B1) Ls)
    (hF : Full (A ++ [b] ++ nb :: B1) Ls) (ha : b.alloc = true) (hnf : nb.alloc = false)
    (h0 : size ≠ 0)
    (hs : size + 160 ≤ 2 ^ 31) (hgrow : b.size < realloc_asize size)
    (hsmall : ¬ (realloc_asize size - b.size + 32 ≤ nb.size))
    (hfit : realloc_asize size - b.size ≤ nb.size) :
    ∃ h1 p bs1 Ls1, mm_realloc h b.bp size = some (h1, p) ∧ Grows h h1 ∧ Sound h1 bs1 Ls1 ∧
      (8 < size → ∀ c ∈ bs1, 32 ≤ c.size) ∧ (p = 0 → h1 = h) ∧
      (p ≠ 0 → ∃ c ∈ bs1, c.bp = p ∧ c.alloc = true ∧ size + 16 ≤ c.size) := by
  obtain ⟨r1, r2, r3, r4, r5⟩ := realloc_asize_facts size (by omega)
  have hnd0 := layout_nodup h _ hl
  rw [mid2] at hnd0
  have hsub : ∀ c ∈ A ++ B1, c ∈ A ++ [b] ++ nb :: B1 := by
    intro c hc
    simp only [List.mem_append, List.mem_singleton, List.mem_cons] at hc ⊢
    tauto
  have hsub2 : ∀ c ∈ A ++ B1, c ∈ (A ++ [b]) ++ B1 := by
    intro c hc
    simp only [List.mem_append, List.mem_singleton] at hc ⊢
    tauto
  have hcomp : ∀ c ∈ A ++ B1, c.alloc = false → c.bp ∈ del Ls nb (class_of c.size) :=
    fun c hc hcf => mem_del_of_ne _ _ _ _ (hF.complete c (hsub c hc) hcf)
      (nodup_outside (A ++ [b]) [nb] B1 hnd0 c (hsub2 c hc) nb (by simp))
  have hmin : ∀ c ∈ A ++ B1, 32 ≤ c.size := fun c hc => hF.minsize c (hsub c hc)
  obtain ⟨n1, n2, n3, n4, n5⟩ := (nf_sandwich A [b] (nb :: B1) (by simp)).1 hF.nofree2
  obtain ⟨h1, e1, e2, e3, e4, e5⟩ := realloc_absorb_spec h A B1 b nb Ls size hl hL ha h0
    (by omega) (hF.minsize b (by simp)) hgrow (hF.complete nb (by simp) hnf) hsmall hfit
  have hbm : b ∈ A ++ [b] ++ nb :: B1 := by simp
  obtain ⟨k1, k2, k3, k4, k5, k6, k7, k8⟩ := layout_block h _ hl b hbm
  have hsplit : ∀ c ∈ A ++ [(⟨b.bp, b.size + nb.size, true⟩ : Block)] ++ B1,
      c = ⟨b.bp, b.size + nb.size, true⟩ ∨ c ∈ A ++ B1 := by
    intro c hc
    simp only [List.mem_append, List.mem_singleton] at hc ⊢
    tauto
  refine ⟨h1, b.bp, _, _, e1, grows_same h h1 e2, ⟨e3, e4, ?_, ?_⟩, fun _ => ?_,
    fun hz => by omega, fun _ => ⟨⟨b.bp, b.size + nb.size, true⟩, by simp, rfl, rfl, by
      show size + 16 ≤ b.size + nb.size
      omega⟩⟩
  · intro c hc hcf
    rcases hsplit c hc with g | g
    · rw [g] at hcf; simp at hcf
    · exact hcomp c g hcf
  · refine (nf_sandwich A _ B1 (by simp)).2 ⟨n1, List.chain'_singleton _, n3.tail, ?_, ?_⟩
    · intro x _ y hy
      simp only [List.head?_cons, Option.mem_def, Option.some.injEq] at hy
      rw [← hy]
      exact Or.inr rfl
    · intro x hx y _
      simp only [List.getLast?_singleton, Option.mem_def, Option.some.injEq] at hx
      rw [← hx]
      exact Or.inl rfl
  · intro c hc
    rcases hsplit c hc with g | g
    · rw [g]
      show 32 ≤ b.size + nb.size
      omega
    · exact hmin c g

theorem sound_of_full (h : Heap) (bs : List Block) (Ls : Nat → List Nat) (hl : Layout h bs)
    (hL : Lists h bs Ls) (hF : Full bs Ls) : Sound h bs Ls :=
  ⟨hl, hL, hF.complete, hF.nofree2⟩

theorem full_of_sound (h : Heap) (bs : List Block) (Ls : Nat → List Nat)
    (hS : Sound h bs Ls) (hmin : ∀ c ∈ bs, 32 ≤ c.size) : Full bs Ls :=
  ⟨hS.2.2.1, hmin, hS.2.2.2⟩

/-- Function `mm_realloc` on an allocated block of a heap whose free lists are
complete, for a non-zero request below `2^31 - 160`: the call returns, the heap
is tiled again, the lists are consistent and complete and no two adjacent
blocks are free; every block has the minimum size if the request is above
`WSIZE`. -/
theorem mm_realloc_full (h : Heap) (A B : List Block) (b : Block) (Ls : Nat → List Nat)
    (size : Nat) (hl : Layout h (A ++ [b] ++ B)) (hL : Lists h (A ++ [b] ++ B) Ls)
    (hF : Full (A ++ [b] ++ B) Ls) (ha : b.alloc = true) (h0 : size ≠ 0)
    (hs : size + 160 ≤ 2 ^ 31) :
    ∃ h1 p bs1 Ls1, mm_realloc h b.bp size = some (h1, p) ∧ Grows h h1 ∧ Sound h1 bs1 Ls1 ∧
      (8 < size → ∀ c ∈ bs1, 32 ≤ c.size) ∧ (p = 0 → h1 = h) ∧
      (p ≠ 0 → ∃ c ∈ bs1, c.bp = p ∧ c.alloc = true ∧ size + 16 ≤ c.size) := by
  obtain ⟨r1, r2, r3, r4, r5⟩ := realloc_asize_facts size (by omega)
  have hbm : b ∈ A ++ [b] ++ B := by simp
  obtain ⟨k1, k2, k3, k4, k5, k6, k7, k8⟩ := layout_block h _ hl b hbm
  have hcs := (layout_reads h _ hl b hbm).1
  clear k7 k8
  have hstay : mm_realloc h b.bp size = some (h, b.bp) → realloc_asize size ≤ b.size →
      ∃ h1 p bs1 Ls1, mm_realloc h b.bp size = some (h1, p) ∧ Grows h h1 ∧
        Sound h1 bs1 Ls1 ∧ (8 < size → ∀ c ∈ bs1, 32 ≤ c.size) ∧ (p = 0 → h1 = h) ∧
        (p ≠ 0 → ∃ c ∈ bs1, c.bp = p ∧ c.alloc = true ∧ size + 16 ≤ c.size) :=
    fun e hle => ⟨h, b.bp, _, Ls, e, ⟨rfl, rfl, rfl, Nat.le_refl _⟩,
      sound_of_full h _ Ls hl hL hF, fun _ => hF.minsize, fun _ => rfl,
      fun _ => ⟨b, hbm, rfl, ha, by omega⟩⟩
  rcases Nat.lt_trichotomy (realloc_asize size) b.size with hlt | heq | hgt
  · by_cases hcut : realloc_asize size + 32 ≤ b.size
    · exact realloc_shrink_full h A B b Ls size hl hL hF ha h0 hs hcut
    · exact hstay (realloc_keep_path h b.bp size b.size _ h0 (by omega) (by omega) hcs k6 rfl
        hlt (by omega)) (by omega)
  · exact hstay (realloc_same_path h b.bp size b.size h0 (by omega) (by omega) hcs k6 heq)
      (by omega)
  · have hfb : ∀ nbs, GET_SIZE (h.mem (HDRP (b.bp + b.size))) = nbs → nbs < 2 ^ 31 →
        (GET_ALLOC (h.mem (HDRP (b.bp + b.size))) ≠ 0 ∨ nbs < realloc_asize size - b.size) →
        ∃ h1 p bs1 Ls1, mm_realloc h b.bp size = some (h1, p) ∧ Grows h h1 ∧
          Sound h1 bs1 Ls1 ∧ (8 < size → ∀ c ∈ bs1, 32 ≤ c.size) ∧ (p = 0 → h1 = h) ∧
          (p ≠ 0 → ∃ c ∈ bs1, c.bp = p ∧ c.alloc = true ∧ size + 16 ≤ c.size) := by
      intro nbs hnbs hn hcase
      obtain ⟨h1, p, bs1, Ls1, e, s1, s2, s3, s4, l1, L1, F1, hp0, hp1⟩ :=
        realloc_fallback_spec h A B b Ls size nbs hl hL hF ha h0 hs hgt hnbs hn hcase
      exact ⟨h1, p, bs1, Ls1, e, ⟨s1, s2, s3, s4⟩, sound_of_full h1 _ _ l1 L1 F1,
        fun _ => F1.minsize, hp0, hp1⟩
    cases B with
    | nil =>
      have hl0 : Layout h (A ++ [b] ++ []) := hl
      obtain ⟨q1, q2⟩ := layout_last_reads h A b hl0
      have hnx := (layout_reads h _ hl b hbm).2.1
      rw [hnx] at q2
      have hepi := hl.epi
      have hw : h.mem (HDRP (b.bp + b.size)) = 1 := by
        unfold HDRP WSIZE
        rw [q1]
        exact hepi
      refine hfb 0 ?_ (by omega) (Or.inl (by rw [q2]; omega))
      rw [hw, GET_SIZE_eq]
      norm_num
    | cons nb B1 =>
      obtain ⟨n1, n2, n3⟩ := next_reads h A B1 b nb hl
      obtain ⟨m1, m2, m3, m4, m5, m6, m7, m8⟩ := layout_block h _ hl nb (by simp)
      clear m7 m8
      by_cases hna : nb.alloc = true
      · rw [hna] at n3
        exact hfb nb.size n2 m6 (Or.inl (by rw [n3]; simp))
      · have hnf : nb.alloc = false := by simpa using hna
        by_cases hbig : realloc_asize size - b.size + 32 ≤ nb.size
        · exact realloc_grow_full h A B1 b nb Ls size hl hL hF ha hnf h0 hs hgt hbig
        · by_cases hfit : realloc_asize size - b.size ≤ nb.size
          · exact realloc_absorb_full h A B1 b nb Ls size hl hL hF ha hnf h0 hs hgt hbig hfit
          · exact hfb nb.size n2 m6 (Or.inr (by omega))

/-! ### `mm_realloc` with a size whose adjusted size is not representable -/

theorem toInt_big (n : Nat) (h1 : 2 ^ 31 ≤ n) (h2 : n < 2 ^ 32) :
    toInt n = (n : Int) - 2 ^ 32 := by
  unfold toInt
  have : n % 2 ^ 32 = n := Nat.mod_eq_of_lt h2
  rw [this, if_neg (by omega)]

theorem wrapInt_big (n : Nat) (h1 : 2 ^ 31 ≤ n) (h2 : n < 2 ^ 32) :
    wrapInt (n : Int) = (n : Int) - 2 ^ 32 := by
  unfold wrapInt
  have : ((n : Int) % 2 ^ 32) = (n : Int) := Int.emod_eq_of_lt (by omega) (by omega)
  rw [this]
  simp only [Int.toNat_ofNat]
  exact toInt_big n h1 h2

theorem wrapInt_neg (v : Int) (h1 : -2 ^ 31 ≤ v) (h2 : v < 0) : wrapInt v = v := by
  unfold wrapInt
  have e : v % 2 ^ 32 = v + 2 ^ 32 := by
    rw [← Int.add_emod_self]
    exact Int.emod_eq_of_lt (by omega) (by omega)
  rw [e]
  have e2 : (v + 2 ^ 32).toNat = (v + 2 ^ 32).toNat := rfl
  have e3 : ((v + 2 ^ 32).toNat : Int) = v + 2 ^ 32 := Int.toNat_of_nonneg (by omega)
  rw [toInt_big _ (by omega) (by omega), e3]
  omega

theorem insert_block_neg (h : Heap) (bp : Nat) (size : Int) (hs : size < 0) :
    insert_block h bp size = none := by
  unfold insert_block
  split_ifs <;> rfl

/-- The `int` value `realloc_asize` of `mm_realloc` for a size from
`2^31 - 23` on: the sum wraps around to a negative value. -/
theorem ra_over (size : Nat) (h1 : size < 2 ^ 31) (h2 : 2 ^ 31 < size + 24) :
    wrapInt ((if ofInt (toInt size) % WSIZE ≠ 0 then
        toInt (u64 ((ofInt (toInt size) / WSIZE + 1) * WSIZE)) else toInt size) +
      toInt DSIZE) = (realloc_asize size : Int) - 2 ^ 32 ∧
      2 ^ 31 ≤ realloc_asize size ∧ realloc_asize size ≤ 2 ^ 31 + 16 := by
  have e1 : toInt size = (size : Int) := toInt_small size h1
  have e2 : ofInt (size : Int) = size := ofInt_nat size (by omega)
  have e3 : toInt DSIZE = 16 := by
    unfold DSIZE WSIZE
    exact toInt_small 16 (by omega)
  rw [e1, e2, e3]
  unfold realloc_asize WSIZE
  by_cases hm : size % 8 = 0
  · rw [if_neg (by omega), if_pos hm]
    refine ⟨?_, by omega, by omega⟩
    have := wrapInt_big (size + 16) (by omega) (by omega)
    push_cast at this ⊢
    exact this
  · rw [if_pos (by omega), if_neg hm, u64_small _ (by omega)]
    refine ⟨?_, by omega, by omega⟩
    by_cases hr : (size / 8 + 1) * 8 < 2 ^ 31
    · rw [toInt_small _ hr]
      have := wrapInt_big ((size / 8 + 1) * 8 + 16) (by omega) (by omega)
      push_cast at this ⊢
      exact this
    · have hr2 : (size / 8 + 1) * 8 = 2 ^ 31 := by omega
      rw [hr2, toInt_big _ (by omega) (by omega), wrapInt_neg _ (by norm_num) (by norm_num)]
      norm_num

theorem ofInt_wrapped (R : Nat) (h1 : 2 ^ 31 ≤ R) (h2 : R < 2 ^ 32) :
    ofInt ((R : Int) - 2 ^ 32) = 2 ^ 64 - 2 ^ 32 + R := by
  unfold ofInt
  have e : ((R : Int) - 2 ^ 32) % 2 ^ 64 = (R : Int) - 2 ^ 32 + 2 ^ 64 := by
    rw [← Int.add_emod_self]
    exact Int.emod_eq_of_lt (by omega) (by omega)
  rw [e]
  omega

theorem sd_over (old R : Nat) (h0 : 16 ≤ old) (h1 : old < 2 ^ 31) (h2 : 2 ^ 31 ≤ R)
    (h3 : R ≤ 2 ^ 31 + 16) :
    toInt (sub64 old (ofInt ((R : Int) - 2 ^ 32))) = (old : Int) - (R : Int) := by
  rw [ofInt_wrapped R h2 (by omega)]
  unfold sub64
  have e1 : (2 ^ 64 - 2 ^ 32 + R) % 2 ^ 64 = 2 ^ 64 - 2 ^ 32 + R := Nat.mod_eq_of_lt (by omega)
  rw [e1]
  have e2 : (old + (2 ^ 64 - (2 ^ 64 - 2 ^ 32 + R))) % 2 ^ 64 = old + 2 ^ 32 - R := by omega
  rw [e2, toInt_big _ (by omega) (by omega)]
  omega

theorem abs_int_wide (old R : Nat) (h1 : old < R) (h2 : R - old < 2 ^ 31) :
    abs_int ((old : Int) - (R : Int)) = ((R - old : Nat) : Int) := by
  unfold abs_int
  have : Int.natAbs ((old : Int) - (R : Int)) = R - old := by omega
  rw [this]
  exact wrapInt_nat _ h2

/-- Function `mm_realloc` of a block to a size from `2^31 - 23` on: the `int`
`realloc_asize` is negative, and the call ends in the failing `assert` of
`insert_block` or of `get_list_index` (through `mm_malloc`). -/
theorem realloc_overflow_path (h : Heap) (ptr size old nbs : Nat) (hs0 : size ≠ 0)
    (hp : ptr ≠ 0) (h1 : size < 2 ^ 31) (h2 : 2 ^ 31 < size + 24)
    (hold : GET_SIZE (h.mem (HDRP ptr)) = old) (ho32 : 32 ≤ old)
    (hnbs : GET_SIZE (h.mem (HDRP (ptr + old))) = nbs) (hsum : old + nbs + 176 < 2 ^ 31) :
    mm_realloc h ptr size = none := by
  obtain ⟨r1, r2, r3⟩ := ra_over size h1 h2
  obtain ⟨a1, a2, a3, a4⟩ := adjust_size_facts size h1 (by omega)
  have hm : mm_malloc h size = none := mm_malloc_abort h size h1 (by omega) (by omega)
  generalize realloc_asize size = R at *
  have c1 : ¬ ((R : Int) - 2 ^ 32 = (old : Int)) := by omega
  have c2 : ¬ ((old : Int) - (R : Int) > 0) := by omega
  have c3 : (old : Int) - (R : Int) < 0 := by omega
  have c5 : ¬ ((nbs : Int) ≥ ((R - old : Nat) : Int)) := by omega
  have hneg : wrapInt ((nbs : Int) - ((R - old : Nat) : Int)) < 0 := by
    rw [wrapInt_neg _ (by omega) (by omega)]
    omega
  unfold mm_realloc
  simp only [NULL, if_neg hs0, if_neg hp, r1, hold, toInt_small old (by omega),
    sd_over old R (by omega) (by omega) r2 r3, if_neg c1, if_neg c2, if_pos c3,
    next_of_size h.mem ptr old hold, hnbs, abs_int_wide old R (by omega) (by omega),
    toInt_small nbs (by omega), hm, if_neg c5, insert_block_neg _ _ _ hneg]
  split_ifs
  all_goals first | rfl | (split <;> rfl)

/-- The size read by `mm_realloc` in the header after a block: together with
the block it is less than `2^31 - 176` bytes. -/
theorem next_size_bound (h : Heap) (A B : List Block) (b : Block)
    (hl : Layout h (A ++ [b] ++ B)) :
    ∃ nbs, GET_SIZE (h.mem (HDRP (b.bp + b.size))) = nbs ∧ b.size + nbs + 176 < 2 ^ 31 := by
  have hbm : b ∈ A ++ [b] ++ B := by simp
  obtain ⟨k1, k2, k3, k4, k5, k6, k7, k8⟩ := layout_block h _ hl b hbm
  have hbrk := layout_brk h _ hl
  clear k7 k8
  cases B with
  | nil =>
    have hl0 : Layout h (A ++ [b] ++ []) := hl
    obtain ⟨q1, q2⟩ := layout_last_reads h A b hl0
    have hw : h.mem (HDRP (b.bp + b.size)) = 1 := by
      unfold HDRP WSIZE
      rw [q1]
      exact hl.epi
    refine ⟨0, ?_, by omega⟩
    rw [hw, GET_SIZE_eq]
    norm_num
  | cons nb B1 =>
    obtain ⟨n1, n2, n3⟩ := next_reads h A B1 b nb hl
    obtain ⟨m1, m2, m3, m4, m5, m6, m7, m8⟩ := layout_block h _ hl nb (by simp)
    exact ⟨nb.size, n2, by omega⟩

/-- Function `mm_malloc` with a size from `2^31 - 159` on, on a heap whose free
lists are complete: it aborts or returns `NULL` in the unchanged state. -/
theorem malloc_huge (h : Heap) (bs : List Block) (Ls : Nat → List Nat) (size : Nat)
    (hl : Layout h bs) (hL : Lists h bs Ls) (hF : Full bs Ls) (h1 : size < 2 ^ 31)
    (h2 : 2 ^ 31 < size + 160) :
    mm_malloc h size = none ∨ mm_malloc h size = some (h, 0) := by
  obtain ⟨a1, a2, a3, a4⟩ := adjust_size_facts size h1 (by omega)
  by_cases hbig : adjust_size size < 2 ^ 31
  · right
    obtain ⟨h2, p, bs1, Ls1, e, s1, s2, s3, s4, l1, L1, F1, k, hper, hp0, hp1⟩ :=
      mm_malloc_full h bs Ls size hl hL hF (by omega) h1 hbig
    by_cases hp : p = 0
    · subst hp
      rw [e, hp0 rfl]
    · exfalso
      obtain ⟨c, hc, c1, c2, c3, c4⟩ := hp1 hp
      have := layout_block h2 bs1 l1 c hc
      have := layout_brk h2 bs1 l1
      omega
  · left
    exact mm_malloc_abort h size h1 (by omega) (by omega)

/-- Function `mm_realloc` of an allocated block to a size from `2^31 - 159` on:
it aborts or returns `NULL` in the unchanged state. -/
theorem realloc_huge (h : Heap) (A B : List Block) (b : Block) (Ls : Nat → List Nat)
    (size : Nat) (hl : Layout h (A ++ [b] ++ B)) (hL : Lists h (A ++ [b] ++ B) Ls)
    (hF : Full (A ++ [b] ++ B) Ls) (ha : b.alloc = true) (h1 : size < 2 ^ 31)
    (h2 : 2 ^ 31 < size + 160) :
    mm_realloc h b.bp size = none ∨ mm_realloc h b.bp size = some (h, 0) := by
  have hbm : b ∈ A ++ [b] ++ B := by simp
  obtain ⟨k1, k2, k3, k4, k5, k6, k7, k8⟩ := layout_block h _ hl b hbm
  have hcs := (layout_reads h _ hl b hbm).1
  have hb32 := hF.minsize b hbm
  clear k7 k8
  obtain ⟨nbs, hnbs, hsum⟩ := next_size_bound h A B b hl
  by_cases hs : size + 24 ≤ 2 ^ 31
  · obtain ⟨r1, r2, r3, r4, r5⟩ := realloc_asize_facts size (by omega)
    rw [realloc_fallback_path h b.bp size b.size _ nbs (by omega) (by omega) hs hcs k6 hb32 rfl
      (by omega) hnbs (by omega) (Or.inr (by omega))]
    rcases malloc_huge h _ Ls size hl hL hF h1 h2 with e | e
    · left; rw [e]
    · right; rw [e]; rfl
  · left
    exact realloc_overflow_path h b.bp size b.size nbs (by omega) (by omega) h1 (by omega) hcs
      hb32 hnbs hsum

/-! ### One call on a well-formed heap -/

theorem live_block (h : Heap) (bs : List Block) (hl : Layout h bs) (ptr : Nat)
    (hv : is_live h ptr = true) :
    ∃ A b B, bs = A ++ [b] ++ B ∧ b.bp = ptr ∧ b.alloc = true := by
  unfold is_live at hv
  rw [blocks_eq h bs hl, List.any_eq_true] at hv
  obtain ⟨b, hb, hb2⟩ := hv
  simp only [Bool.and_eq_true, decide_eq_true_eq] at hb2
  obtain ⟨A, B, hsplit⟩ := List.append_of_mem hb
  exact ⟨A, b, B, by rw [hsplit]; simp, hb2.1, hb2.2⟩

theorem grows_refl (h : Heap) : Grows h h := ⟨rfl, rfl, rfl, Nat.le_refl _⟩

theorem grows_trans (h h1 h2 : Heap) (a : Grows h h1) (b : Grows h1 h2) : Grows h h2 :=
  ⟨b.1.trans a.1, b.2.1.trans a.2.1, b.2.2.1.trans a.2.2.1, Nat.le_trans a.2.2.2 b.2.2.2⟩

/-- Function `mm_malloc` with a size below `2^31` on a well-formed heap: if it
returns, the heap is well formed and the pointer is word aligned. -/
theorem malloc_step (h : Heap) (bs : List Block) (Ls : Nat → List Nat) (size : Nat)
    (hl : Layout h bs) (hL : Lists h bs Ls) (hF : Full bs Ls) (hs : size < 2 ^ 31)
    (h1 : Heap) (p : Nat) (e : mm_malloc h size = some (h1, p)) :
    ∃ bs1 Ls1, Grows h h1 ∧ Layout h1 bs1 ∧ Lists h1 bs1 Ls1 ∧ Full bs1 Ls1 ∧ p % 8 = 0 := by
  by_cases h0 : size = 0
  · subst h0
    have : mm_malloc h 0 = some (h, NULL) := by unfold mm_malloc; simp
    rw [this] at e
    simp only [Option.some.injEq, Prod.mk.injEq] at e
    obtain ⟨e1, e2⟩ := e
    subst e1
    subst e2
    exact ⟨bs, Ls, grows_refl h, hl, hL, hF, rfl⟩
  · by_cases hbig : adjust_size size < 2 ^ 31
    · obtain ⟨h2, p2, bs1, Ls1, e2, s1, s2, s3, s4, l1, L1, F1, k, hper, hp0, hp1⟩ :=
        mm_malloc_full h bs Ls size hl hL hF (by omega) hs hbig
      rw [e2] at e
      simp only [Option.some.injEq, Prod.mk.injEq] at e
      obtain ⟨e3, e4⟩ := e
      subst e3
      subst e4
      refine ⟨bs1, Ls1, ⟨s1, s2, s3, s4⟩, l1, L1, F1, ?_⟩
      by_cases hp : p2 = 0
      · rw [hp]
      · obtain ⟨c, hc, c1, c2, c3, c4⟩ := hp1 hp
        have := layout_block h2 bs1 l1 c hc
        omega
    · rw [mm_malloc_abort h size hs (by omega) (by omega)] at e
      exact absurd e (by simp)

/-- Function `mm_free` with `NULL` or an allocated block of a well-formed
heap: it returns and the heap is well formed. -/
theorem free_step (h : Heap) (bs : List Block) (Ls : Nat → List Nat) (ptr : Nat)
    (hl : Layout h bs) (hL : Lists h bs Ls) (hF : Full bs Ls)
    (hv : ptr = 0 ∨ is_live h ptr = true) :
    ∃ h1 bs1 Ls1, mm_free h ptr = some h1 ∧ Grows h h1 ∧ Layout h1 bs1 ∧ Lists h1 bs1 Ls1 ∧
      Full bs1 Ls1 := by
  by_cases h0 : ptr = 0
  · subst h0
    exact ⟨h, bs, Ls, by unfold mm_free; simp [NULL], grows_refl h, hl, hL, hF⟩
  · have hlive : is_live h ptr = true := by
      rcases hv with g | g
      · exact absurd g h0
      · exact g
    obtain ⟨A, b, B, hsplit, hbp, hba⟩ := live_block h bs hl ptr hlive
    subst hsplit
    subst hbp
    obtain ⟨h1, f1, f2, f3, f4, f5, f6⟩ := mm_free_full h A B b Ls hl hL hF hba
    exact ⟨h1, _, _, f1, grows_same h h1 f2, f3, f4, f5⟩

theorem realloc_zero (h : Heap) (ptr : Nat) :
    mm_realloc h ptr 0 = match mm_free h ptr with
      | none => none
      | some h1 => some (h1, NULL) := by
  unfold mm_realloc
  rw [if_pos rfl]

theorem realloc_null (h : Heap) (size : Nat) (h0 : size ≠ 0) :
    mm_realloc h NULL size = mm_malloc h size := by
  unfold mm_realloc
  simp [h0]

/-- Function `mm_realloc` with valid arguments on a well-formed heap: if it
returns, the heap is tiled, the lists are consistent and complete, no two
adjacent blocks are free and the pointer is word aligned; all blocks have the
minimum size unless a block was resized to a size from 1 to `WSIZE`. -/
theorem realloc_step (h : Heap) (bs : List Block) (Ls : Nat → List Nat) (ptr size : Nat)
    (hl : Layout h bs) (hL : Lists h bs Ls) (hF : Full bs Ls)
    (hv : ptr = 0 ∨ is_live h ptr = true) (hs : size < 2 ^ 31)
    (h1 : Heap) (p : Nat) (e : mm_realloc h ptr size = some (h1, p)) :
    ∃ bs1 Ls1, Grows h h1 ∧ Sound h1 bs1 Ls1 ∧
      ((ptr = 0 ∨ size = 0 ∨ 8 < size) → ∀ c ∈ bs1, 32 ≤ c.size) ∧ p % 8 = 0 := by
  by_cases h0 : size = 0
  · subst h0
    rw [realloc_zero] at e
    obtain ⟨h2, bs1, Ls1, f1, f2, f3, f4, f5⟩ := free_step h bs Ls ptr hl hL hF hv
    rw [f1] at e
    simp only [Option.some.injEq, Prod.mk.injEq] at e
    obtain ⟨e1, e2⟩ := e
    subst e1
    subst e2
    exact ⟨bs1, Ls1, f2, sound_of_full _ _ _ f3 f4 f5, fun _ => f5.minsize, rfl⟩
  · by_cases hp0 : ptr = 0
    · subst hp0
      have : mm_realloc h 0 size = mm_malloc h size := realloc_null h size h0
      rw [this] at e
      obtain ⟨bs1, Ls1, g1, g2, g3, g4, g5⟩ := malloc_step h bs Ls size hl hL hF (by omega) h1 p e
      exact ⟨bs1, Ls1, g1, sound_of_full _ _ _ g2 g3 g4, fun _ => g4.minsize, g5⟩
    · have hlive : is_live h ptr = true := by
        rcases hv with g | g
        · exact absurd g hp0
        · exact g
      obtain ⟨A, b, B, hsplit, hbp, hba⟩ := live_block h bs hl ptr hlive
      subst hsplit
      subst hbp
      by_cases hsm : size + 160 ≤ 2 ^ 31
      · obtain ⟨h2, p2, bs1, Ls1, e2, g1, g2, g3, g4, g5⟩ :=
          mm_realloc_full h A B b Ls size hl hL hF hba h0 hsm
        rw [e2] at e
        simp only [Option.some.injEq, Prod.mk.injEq] at e
        obtain ⟨e3, e4⟩ := e
        subst e3
        subst e4
        refine ⟨bs1, Ls1, g1, g2, ?_, ?_⟩
        · intro ht
          rcases ht with t | t | t
          · exact absurd t hp0
          · exact absurd t h0
          · exact g3 t
        · by_cases hp : p2 = 0
          · rw [hp]
          · obtain ⟨c, hc, c1, c2, c3⟩ := g5 hp
            have := layout_block h2 bs1 g2.1 c hc
            omega
      · rcases realloc_huge h A B b Ls size hl hL hF hba hs (by omega) with e2 | e2
        · rw [e2] at e
          exact absurd e (by simp)
        · rw [e2] at e
          simp only [Option.some.injEq, Prod.mk.injEq] at e
          obtain ⟨e3, e4⟩ := e
          subst e3
          subst e4
          exact ⟨_, Ls, grows_refl h, sound_of_full h _ Ls hl hL hF, fun _ => hF.minsize, rfl⟩

/-- Function `mm_realloc` with valid arguments on a well-formed heap returns. -/
theorem realloc_total (h : Heap) (bs : List Block) (Ls : Nat → List Nat) (ptr size : Nat)
    (hl : Layout h bs) (hL : Lists h bs Ls) (hF : Full bs Ls)
    (hv : ptr = 0 ∨ is_live h ptr = true) (hs : size + 160 ≤ 2 ^ 31) :
    ∃ r, mm_realloc h ptr size = some r := by
  by_cases h0 : size = 0
  · subst h0
    rw [realloc_zero]
    obtain ⟨h2, bs1, Ls1, f1, f2, f3, f4, f5⟩ := free_step h bs Ls ptr hl hL hF hv
    rw [f1]
    exact ⟨_, rfl⟩
  · by_cases hp0 : ptr = 0
    · subst hp0
      have : mm_realloc h 0 size = mm_malloc h size := realloc_null h size h0
      rw [this]
      obtain ⟨a1, a2, a3, a4⟩ := adjust_size_facts size (by omega) (by omega)
      obtain ⟨h2, p2, bs1, Ls1, e2, _⟩ :=
        mm_malloc_full h bs Ls size hl hL hF (by omega) (by omega) (by omega)
      exact ⟨_, e2⟩
    · have hlive : is_live h ptr = true := by
        rcases hv with g | g
        · exact absurd g hp0
        · exact g
      obtain ⟨A, b, B, hsplit, hbp, hba⟩ := live_block h bs hl ptr hlive
      subst hsplit
      subst hbp
      obtain ⟨h2, p2, bs1, Ls1, e2, _⟩ := mm_realloc_full h A B b Ls size hl hL hF hba h0 hs
      exact ⟨_, e2⟩

/-! ### Sequences of calls -/

theorem valid_ptr (h : Heap) (ptr : Nat)
    (hv : (decide (ptr = NULL) || is_live h ptr) = true) : ptr = 0 ∨ is_live h ptr = true := by
  simp only [Bool.or_eq_true, decide_eq_true_eq, NULL] at hv
  exact hv

/-- One call with valid arguments on a well-formed heap: if it returns, the
heap is tiled, the lists are consistent and complete, no two adjacent blocks
are free, and the pointer is word aligned; after a tame call every block has
the minimum size. -/
theorem step_sound (h : Heap) (c : Call) (hw : WellFormed h) (hv : valid h c = true)
    (h1 : Heap) (p : Nat) (e : step h c = some (h1, p)) :
    ∃ bs1 Ls1, Grows h h1 ∧ Sound h1 bs1 Ls1 ∧ (tame c = true → ∀ b ∈ bs1, 32 ≤ b.size) ∧
      p % 8 = 0 := by
  obtain ⟨bs, Ls, hl, hL, hF⟩ := hw
  cases c with
  | malloc size =>
    simp only [valid, decide_eq_true_eq] at hv
    obtain ⟨bs1, Ls1, g1, g2, g3, g4, g5⟩ := malloc_step h bs Ls size hl hL hF hv h1 p e
    exact ⟨bs1, Ls1, g1, sound_of_full _ _ _ g2 g3 g4, fun _ => g4.minsize, g5⟩
  | free ptr =>
    have hv2 := valid_ptr h ptr hv
    obtain ⟨h2, bs1, Ls1, f1, f2, f3, f4, f5⟩ := free_step h bs Ls ptr hl hL hF hv2
    simp only [step, f1, Option.some.injEq, Prod.mk.injEq] at e
    obtain ⟨e1, e2⟩ := e
    subst e1
    subst e2
    exact ⟨bs1, Ls1, f2, sound_of_full _ _ _ f3 f4 f5, fun _ => f5.minsize, rfl⟩
  | realloc ptr size =>
    simp only [valid, Bool.and_eq_true, decide_eq_true_eq] at hv
    obtain ⟨bs1, Ls1, g1, g2, g3, g4⟩ :=
      realloc_step h bs Ls ptr size hl hL hF (valid_ptr h ptr hv.1) hv.2 h1 p e
    refine ⟨bs1, Ls1, g1, g2, ?_, g4⟩
    intro ht
    simp only [tame, Bool.or_eq_true, decide_eq_true_eq, NULL, WSIZE] at ht
    exact g3 (by tauto)

theorem step_wf (h : Heap) (c : Call) (hw : WellFormed h) (hv : valid h c = true)
    (ht : tame c = true) (h1 : Heap) (p : Nat) (e : step h c = some (h1, p)) :
    WellFormed h1 ∧ p % 8 = 0 := by
  obtain ⟨bs1, Ls1, g1, g2, g3, g4⟩ := step_sound h c hw hv h1 p e
  exact ⟨⟨bs1, Ls1, g2.1, g2.2.1, full_of_sound h1 bs1 Ls1 g2 (g3 ht)⟩, g4⟩

/-- One call with valid arguments on a well-formed heap returns, if its
adjusted sizes are representable as an `int`. -/
theorem step_total (h : Heap) (c : Call) (hw : WellFormed h) (hv : valid h c = true)
    (hsmall : small c = true) :
    ∃ r, step h c = some r := by
  obtain ⟨bs, Ls, hl, hL, hF⟩ := hw
  cases c with
  | malloc size =>
    simp only [valid, decide_eq_true_eq] at hv
    by_cases h0 : size = 0
    · subst h0
      exact ⟨(h, NULL), by unfold step mm_malloc; simp⟩
    · obtain ⟨h2, p2, bs1, Ls1, e2, _⟩ :=
        mm_malloc_full h bs Ls size hl hL hF (by omega) hv (by
          simpa only [small, decide_eq_true_eq] using hsmall)
      exact ⟨_, e2⟩
  | free ptr =>
    obtain ⟨h2, bs1, Ls1, f1, _⟩ := free_step h bs Ls ptr hl hL hF (valid_ptr h ptr hv)
    exact ⟨(h2, NULL), by simp only [step, f1]⟩
  | realloc ptr size =>
    simp only [valid, Bool.and_eq_true, decide_eq_true_eq] at hv
    exact realloc_total h bs Ls ptr size hl hL hF (valid_ptr h ptr hv.1) (by
      simpa only [small, decide_eq_true_eq] using hsmall)

/-- A sequence of tame calls with valid arguments on a well-formed heap: if it
runs to the end, the heap is well formed and every pointer returned is word
aligned. -/
theorem run_wf (cs : List Call) :
    ∀ (h : Heap), WellFormed h → valid_calls h cs = true → (∀ c ∈ cs, tame c = true) →
      ∀ h1 ps, run_calls h cs = some (h1, ps) → WellFormed h1 ∧ ∀ p ∈ ps, p % 8 = 0 := by
  induction cs with
  | nil =>
    intro h hw _ _ h1 ps e
    simp only [run_calls, Option.some.injEq, Prod.mk.injEq] at e
    obtain ⟨e1, e2⟩ := e
    subst e1
    subst e2
    exact ⟨hw, by simp⟩
  | cons c cs ih =>
    intro h hw hv ht h1 ps e
    simp only [valid_calls, Bool.and_eq_true] at hv
    obtain ⟨hv1, hv2⟩ := hv
    unfold run_calls at e
    cases hstep : step h c with
    | none => rw [hstep] at e; simp at e
    | some r =>
      obtain ⟨h2, p⟩ := r
      rw [hstep] at e hv2
      simp only at e hv2
      obtain ⟨w1, w2⟩ := step_wf h c hw hv1 (ht c (by simp)) h2 p hstep
      cases hrun : run_calls h2 cs with
      | none => rw [hrun] at e; simp at e
      | some r2 =>
        obtain ⟨h3, ps2⟩ := r2
        rw [hrun] at e
        simp only [Option.some.injEq, Prod.mk.injEq] at e
        obtain ⟨e1, e2⟩ := e
        subst e1
        subst e2
        obtain ⟨i1, i2⟩ := ih h2 w1 hv2 (fun c hc => ht c (List.mem_cons_of_mem _ hc)) h3 ps2 hrun
        refine ⟨i1, ?_⟩
        intro q hq
        rcases List.mem_cons.1 hq with g | g
        · rw [g]; exact w2
        · exact i2 q g

/-- A sequence of tame calls with valid arguments on a well-formed heap runs to
the end, if the adjusted sizes of every call are representable as an `int`. -/
theorem run_total (cs : List Call) :
    ∀ (h : Heap), WellFormed h → valid_calls h cs = true → (∀ c ∈ cs, tame c = true) →
      (∀ c ∈ cs, small c = true) → ∃ r, run_calls h cs = some r := by
  induction cs with
  | nil => intro h _ _ _ _; exact ⟨_, rfl⟩
  | cons c cs ih =>
    intro h hw hv ht hsm
    simp only [valid_calls, Bool.and_eq_true] at hv
    obtain ⟨hv1, hv2⟩ := hv
    obtain ⟨r, hstep⟩ := step_total h c hw hv1 (hsm c (by simp))
    obtain ⟨h2, p⟩ := r
    rw [hstep] at hv2
    simp only at hv2
    obtain ⟨w1, w2⟩ := step_wf h c hw hv1 (ht c (by simp)) h2 p hstep
    obtain ⟨r2, hrun⟩ := ih h2 w1 hv2 (fun c hc => ht c (List.mem_cons_of_mem _ hc))
      (fun c hc => hsm c (List.mem_cons_of_mem _ hc))
    obtain ⟨h3, ps2⟩ := r2
    exact ⟨(h3, p :: ps2), by unfold run_calls; rw [hstep]; simp only [hrun]⟩

/-! ### The heap after `mm_init` on the store `store0` -/

theorem store0_fresh : Fresh store0 := ⟨by decide, by decide, by decide⟩

theorem heap0_wf : WellFormed heap0 := mm_init_wf store0 store0_fresh (by decide)

theorem init_ok (s : Heap) (h : (mm_init s).2 = 0) : s.brk + 176 ≤ s.max_addr := by
  by_contra hc
  rw [mm_init_fail s hc] at h
  exact absurd h (by decide)

/-- The tags of a block of a layout, as `mm_malloc` and `checkheap` read them. -/
theorem block_tags (h : Heap) (bs : List Block) (hl : Layout h bs) (b : Block) (hb : b ∈ bs) :
    h.mem (HDRP b.bp) = b.tag ∧ h.mem (FTRP h.mem b.bp) = b.tag ∧
      GET_SIZE (h.mem (HDRP b.bp)) = b.size ∧
      GET_ALLOC (h.mem (HDRP b.bp)) = (if b.alloc then 1 else 0) ∧
      GET_ALLOC (h.mem (FTRP h.mem b.bp)) = (if b.alloc then 1 else 0) := by
  obtain ⟨k1, k2, k3, k4, k5, k6, k7, k8⟩ := layout_block h bs hl b hb
  obtain ⟨q1, q2, q3, q4, q5, q6⟩ := layout_reads h bs hl b hb
  have hh : HDRP b.bp = b.bp - 8 := rfl
  rw [q3]
  rw [hh] at q1 q5 ⊢
  exact ⟨k7, k8, q1, q5, q6⟩

/-- C1: on a well-formed heap, for a request with `0 < size < 2^31`, a non-null
pointer returned by `mm_malloc` is a block whose header and footer are equal
and marked allocated and whose size is at least `size + DSIZE`. The call
returns whenever the adjusted size is representable as an `int`. -/
theorem C1_malloc_block (h : Heap) (size : Nat) (hw : WellFormed h) (h0 : 0 < size)
    (hs : size < 2 ^ 31) :
    (adjust_size size < 2 ^ 31 → ∃ r, mm_malloc h size = some r) ∧
    ∀ h1 p, mm_malloc h size = some (h1, p) → p ≠ NULL →
      GET_ALLOC (h1.mem (HDRP p)) = 1 ∧ GET_ALLOC (h1.mem (FTRP h1.mem p)) = 1 ∧
      h1.mem (FTRP h1.mem p) = h1.mem (HDRP p) ∧
      size + DSIZE ≤ GET_SIZE (h1.mem (HDRP p)) := by
  obtain ⟨bs, Ls, hl, hL, hF⟩ := hw
  constructor
  · intro hbig
    obtain ⟨h2, p2, bs1, Ls1, e2, _⟩ := mm_malloc_full h bs Ls size hl hL hF h0 hs hbig
    exact ⟨_, e2⟩
  · intro h1 p e hp
    by_cases hbig : adjust_size size < 2 ^ 31
    · obtain ⟨a1, a2, a3, a4⟩ := adjust_size_facts size hs h0
      obtain ⟨h2, p2, bs1, Ls1, e2, s1, s2, s3, s4, l1, L1, F1, k, hper, hp0, hp1⟩ :=
        mm_malloc_full h bs Ls size hl hL hF h0 hs hbig
      rw [e2] at e
      simp only [Option.some.injEq, Prod.mk.injEq] at e
      obtain ⟨e3, e4⟩ := e
      subst e3
      subst e4
      obtain ⟨c, hc, c1, c2, c3, c4⟩ := hp1 hp
      subst c1
      obtain ⟨t1, t2, t3, t4, t5⟩ := block_tags h2 bs1 l1 c hc
      rw [c2] at t4 t5
      refine ⟨t4, t5, by rw [t1, t2], ?_⟩
      rw [t3]
      unfold DSIZE WSIZE
      omega
    · rw [mm_malloc_abort h size hs h0 (by omega)] at e
      exact absurd e (by simp)

theorem C1_malloc_block_witness :
    WellFormed heap0 ∧ 0 < 40 ∧ 40 < 2 ^ 31 ∧
      ((adjust_size 40 < 2 ^ 31 → ∃ r, mm_malloc heap0 40 = some r) ∧
      ∀ h1 p, mm_malloc heap0 40 = some (h1, p) → p ≠ NULL →
        GET_ALLOC (h1.mem (HDRP p)) = 1 ∧ GET_ALLOC (h1.mem (FTRP h1.mem p)) = 1 ∧
        h1.mem (FTRP h1.mem p) = h1.mem (HDRP p) ∧
        40 + DSIZE ≤ GET_SIZE (h1.mem (HDRP p))) :=
  ⟨heap0_wf, by decide, by decide, C1_malloc_block heap0 40 heap0_wf (by decide) (by decide)⟩

/-- C2: at `mm_malloc(2^64 - 8)` on the well-formed heap right after `mm_init`
the adjusted size wraps
around to 8: the call returns the pointer 192 to a block of 8 bytes (a header
that is also its footer, no payload), directly followed by the header of a
free block; the `2^64 - 8` bytes at 192 are not inside the 4096 bytes
appended by the backing store. -/
theorem C2_malloc_wraps :
    WellFormed heap0 ∧
    (mm_malloc heap0 (2 ^ 64 - 8)).map (fun r => (r.2, r.1.brk, blocks r.1)) =
      some (192, 4288, [⟨192, 8, true⟩, ⟨200, 4088, false⟩]) ∧
    heap0.brk = 192 ∧ ¬ (192 + (2 ^ 64 - 8) ≤ 4288) :=
  ⟨heap0_wf, by decide!, by decide!, by decide!⟩

/-- C4: `mm_malloc(0)` returns `NULL` and `mm_free(NULL)` returns, both in the
unchanged state: every word, every list head and the heap size are as before. -/
theorem C4_noops (h : Heap) : mm_malloc h 0 = some (h, NULL) ∧ mm_free h NULL = some h := by
  constructor
  · unfold mm_malloc
    rw [if_pos rfl]
  · unfold mm_free
    rw [if_pos rfl]

theorem heap1_eq : mm_malloc heap0 40 = some (heap1, 192) := by rfl

theorem heap1_wf : WellFormed heap1 := by
  obtain ⟨bs, Ls, hl, hL, hF⟩ := heap0_wf
  obtain ⟨bs1, Ls1, g1, g2, g3, g4, g5⟩ :=
    malloc_step heap0 bs Ls 40 hl hL hF (by decide) heap1 192 heap1_eq
  exact ⟨bs1, Ls1, g2, g3, g4⟩

theorem merged_prev (h : Heap) (A B : List Block) (b : Block) (hl : Layout h (A ++ [b] ++ B))
    (X : List Block) (a : Bool) :
    ∀ pb ∈ prev_free A, (merged A ⟨b.bp, b.size, a⟩ X).bp = pb.bp := by
  intro pb hpb
  rcases prev_read_spec h A B b hl with ⟨e1, _⟩ | ⟨A1, pb1, e1, e2, e3, _⟩
  · rw [e1] at hpb; simp at hpb
  · rw [e3] at hpb
    rw [List.mem_singleton.1 hpb]
    subst e1
    have hl2 : Layout h (A1 ++ [pb1, b] ++ B) := by
      have : A1 ++ [pb1, b] ++ B = A1 ++ [pb1] ++ [b] ++ B := by simp
      rw [this]; exact hl
    obtain ⟨p1, _⟩ := layout_prev_reads h A1 B pb1 b hl2
    unfold merged
    rw [e3]
    simp only [total_size, List.map_cons, List.map_nil, List.sum_cons, List.sum_nil]
    omega

theorem merged_next (h : Heap) (A B : List Block) (b : Block) (hl : Layout h (A ++ [b] ++ B))
    (X : List Block) (a : Bool) :
    ∀ nb ∈ next_free B, (merged X ⟨b.bp, b.size, a⟩ B).bp < nb.bp := by
  intro nb hnb
  rcases next_read_spec h A B b hl with ⟨e1, _⟩ | ⟨nb1, B1, e1, e2, e3, _⟩
  · rw [e1] at hnb; simp at hnb
  · rw [e3] at hnb
    rw [List.mem_singleton.1 hnb]
    subst e1
    obtain ⟨n1, _⟩ := next_reads h A B1 b nb1 hl
    have := layout_block h _ hl b (by simp)
    unfold merged
    simp only []
    omega

/-- C5: on a well-formed heap, `mm_free` of an allocated block `b` (the walk of
the heap being `A ++ [b] ++ B`) returns and leaves in place of `b` and its free
neighbours one free block: it starts at the predecessor if that was free and
at `b` otherwise, its size is the sum of the sizes, its header and footer are
`PACK(size, 0)`, and it is on the list of its class. The address of an absorbed
successor is on no list, and the address of an absorbed predecessor is on no
list but that of the new block. -/
theorem C5_free_coalesces (h : Heap) (A B : List Block) (b : Block) (hw : WellFormed h)
    (hb : blocks h = A ++ [b] ++ B) (ha : b.alloc = true) :
    ∃ h1, mm_free h b.bp = some h1 ∧
      blocks h1 = before A ++ [merged A ⟨b.bp, b.size, false⟩ B] ++ after B ∧
      (∀ pb ∈ prev_free A, (merged A ⟨b.bp, b.size, false⟩ B).bp = pb.bp) ∧
      (prev_free A = [] → (merged A ⟨b.bp, b.size, false⟩ B).bp = b.bp) ∧
      (merged A ⟨b.bp, b.size, false⟩ B).size =
        total_size (prev_free A) + b.size + total_size (next_free B) ∧
      (merged A ⟨b.bp, b.size, false⟩ B).alloc = false ∧
      h1.mem (HDRP (merged A ⟨b.bp, b.size, false⟩ B).bp) =
        PACK (merged A ⟨b.bp, b.size, false⟩ B).size 0 ∧
      h1.mem (FTRP h1.mem (merged A ⟨b.bp, b.size, false⟩ B).bp) =
        PACK (merged A ⟨b.bp, b.size, false⟩ B).size 0 ∧
      ∃ k, get_list_index ((merged A ⟨b.bp, b.size, false⟩ B).size : Int) = some k ∧
        (merged A ⟨b.bp, b.size, false⟩ B).bp ∈ free_list h1 k ∧
        (∀ nb ∈ next_free B, ∀ i < 18, nb.bp ∉ free_list h1 i) ∧
        (∀ pb ∈ prev_free A, ∀ i < 18, pb.bp ∈ free_list h1 i → i = k) := by
  obtain ⟨bs, Ls, hl, hL, hF⟩ := hw
  rw [blocks_eq h bs hl] at hb
  subst hb
  obtain ⟨h1, f1, f2, f3, f4, f5, f6⟩ := mm_free_full h A B b Ls hl hL hF ha
  have hmp := merged_prev h A B b hl B false
  have hmn := merged_next h A B b hl A false
  generalize hm : merged A ⟨b.bp, b.size, false⟩ B = m at *
  have hmf : m.alloc = false := by rw [← hm]; rfl
  have hmsz : m.size = total_size (prev_free A) + b.size + total_size (next_free B) := by
    rw [← hm]; rfl
  have hm0 : prev_free A = [] → m.bp = b.bp := by
    intro h0
    rw [← hm]
    unfold merged
    rw [h0]
    simp [total_size]
  have hmem : m ∈ coalesce_blocks A ⟨b.bp, b.size, false⟩ B := by
    unfold coalesce_blocks
    rw [hm]
    simp
  obtain ⟨t1, t2, t3, t4, t5⟩ := block_tags h1 _ f3 m hmem
  obtain ⟨k1, k2, k3, k4, k5, k6, k7, k8⟩ := layout_block h1 _ f3 m hmem
  have htag : m.tag = PACK m.size 0 := by
    rw [PACK_eq m.size 0 k4 (by omega)]
    unfold Block.tag
    rw [hmf]
    simp
  have hbl : blocks h1 = before A ++ [m] ++ after B := by
    rw [blocks_eq h1 _ f3]
    unfold coalesce_blocks
    rw [hm]
  have hnd : ((A ++ [(⟨b.bp, b.size, false⟩ : Block)] ++ B).map Block.bp).Nodup := by
    simpa using layout_nodup h _ hl
  have honly : ∀ c ∈ prev_free A ++ next_free B, ∀ i < 18, c.bp ∈ free_list h1 i →
      c.bp = m.bp ∧ i = class_of m.size := by
    intro c hc i hi hin
    rw [free_list_eq h1 _ _ f3 f4 i hi] at hin
    obtain ⟨d, hd, d1, d2, d3, d4⟩ := f4.members i hi c.bp hin
    rcases coalesce_mem A _ B d hd with g | g
    · rw [hm] at g
      subst g
      exact ⟨d1.symm, d4.symm⟩
    · exfalso
      refine coalesce_rest_ne A _ B hnd d g c ?_ d1
      simp only [List.mem_cons, List.mem_append] at hc ⊢
      tauto
  refine ⟨h1, f1, hbl, hmp, hm0, hmsz, hmf, by rw [t1, htag], by rw [t2, htag],
    class_of m.size, get_list_index_nat m.size, ?_, ?_, ?_⟩
  · rw [free_list_eq h1 _ _ f3 f4 _ (class_of_lt _)]
    exact f5.complete m hmem hmf
  · intro nb hnb i hi hin
    have := (honly nb (List.mem_append_right _ hnb) i hi hin).1
    have := hmn nb hnb
    omega
  · intro pb hpb i hi hin
    exact (honly pb (List.mem_append_left _ hpb) i hi hin).2

theorem C5_free_coalesces_witness :
    WellFormed heap1 ∧ blocks heap1 = [] ++ [⟨192, 56, true⟩] ++ [⟨248, 4040, false⟩] ∧
    ∃ h1, mm_free heap1 192 = some h1 ∧
      blocks h1 = before [] ++ [merged [] ⟨192, 56, false⟩ [⟨248, 4040, false⟩]] ++
        after [⟨248, 4040, false⟩] ∧
      (∀ pb ∈ prev_free [], (merged [] ⟨192, 56, false⟩ [⟨248, 4040, false⟩]).bp = pb.bp) ∧
      (prev_free [] = [] → (merged [] ⟨192, 56, false⟩ [⟨248, 4040, false⟩]).bp = 192) ∧
      (merged [] ⟨192, 56, false⟩ [⟨248, 4040, false⟩]).size =
        total_size (prev_free []) + 56 + total_size (next_free [⟨248, 4040, false⟩]) ∧
      (merged [] ⟨192, 56, false⟩ [⟨248, 4040, false⟩]).alloc = false ∧
      h1.mem (HDRP (merged [] ⟨192, 56, false⟩ [⟨248, 4040, false⟩]).bp) =
        PACK (merged [] ⟨192, 56, false⟩ [⟨248, 4040, false⟩]).size 0 ∧
      h1.mem (FTRP h1.mem (merged [] ⟨192, 56, false⟩ [⟨248, 4040, false⟩]).bp) =
        PACK (merged [] ⟨192, 56, false⟩ [⟨248, 4040, false⟩]).size 0 ∧
      ∃ k, get_list_index ((merged [] ⟨192, 56, false⟩ [⟨248, 4040, false⟩]).size : Int) =
          some k ∧
        (merged [] ⟨192, 56, false⟩ [⟨248, 4040, false⟩]).bp ∈ free_list h1 k ∧
        (∀ nb ∈ next_free [⟨248, 4040, false⟩], ∀ i < 18, nb.bp ∉ free_list h1 i) ∧
        (∀ pb ∈ prev_free [], ∀ i < 18, pb.bp ∈ free_list h1 i → i = k) :=
  ⟨heap1_wf, by decide,
    C5_free_coalesces heap1 [] [⟨248, 4040, false⟩] ⟨192, 56, true⟩ heap1_wf (by decide) rfl⟩

/-! ### Invariants of call sequences -/

theorem init_wf (s : Heap) (hf : Fresh s) (hi : (mm_init s).2 = 0) :
    WellFormed (mm_init s).1 := mm_init_wf s hf (init_ok s hi)

/-- In a well-formed heap every free block of the walk is once on the list of
its class and on no other list, and every list member is a free block. -/
theorem wf_lists (h : Heap) (hw : WellFormed h) :
    (∀ b ∈ blocks h, b.alloc = false → ∃ k < 18, get_list_index (b.size : Int) = some k ∧
      ∀ i < 18, (free_list h i).count b.bp = if i = k then 1 else 0) ∧
    (∀ i < 18, ∀ x ∈ free_list h i, ∃ b ∈ blocks h, b.bp = x ∧ b.alloc = false) := by
  obtain ⟨bs, Ls, hl, hL, hF⟩ := hw
  rw [blocks_eq h bs hl]
  constructor
  · intro b hb hbf
    refine ⟨class_of b.size, class_of_lt _, get_list_index_nat _, ?_⟩
    intro i hi
    rw [free_list_eq h bs Ls hl hL i hi]
    have hin := hF.complete b hb hbf
    by_cases hik : i = class_of b.size
    · rw [if_pos hik, hik]
      exact List.count_eq_one_of_mem (hL.nodup _ (class_of_lt _)) hin
    · rw [if_neg hik]
      refine List.count_eq_zero_of_not_mem ?_
      intro hx
      exact hik (members_class h bs Ls hl hL i _ hi (class_of_lt _) b.bp hx hin)
  · intro i hi x hx
    rw [free_list_eq h bs Ls hl hL i hi] at hx
    obtain ⟨b, hb, e1, e2, e3, e4⟩ := hL.members i hi x hx
    exact ⟨b, hb, e1, e2⟩

theorem wf_minsize (h : Heap) (hw : WellFormed h) : ∀ b ∈ blocks h, 2 * DSIZE ≤ b.size := by
  obtain ⟨bs, Ls, hl, hL, hF⟩ := hw
  rw [blocks_eq h bs hl]
  intro b hb
  have := hF.minsize b hb
  unfold DSIZE WSIZE
  omega

theorem wf_aligned (h : Heap) (hw : WellFormed h) : ∀ b ∈ blocks h, b.size % WSIZE = 0 := by
  obtain ⟨bs, Ls, hl, hL, hF⟩ := hw
  rw [blocks_eq h bs hl]
  intro b hb
  have := layout_block h bs hl b hb
  unfold WSIZE
  omega

/-- C6: one call of `mm_malloc`, `mm_free` or `mm_realloc` with valid arguments
on a well-formed heap (which has no two adjacent free blocks): if it returns,
the walk of the heap has no two adjacent free blocks; and it returns, if its
adjusted sizes are representable as an `int`. -/
theorem C6_no_adjacent_free (h : Heap) (c : Call) (hw : WellFormed h)
    (hv : valid h c = true) :
    (small c = true → ∃ r, step h c = some r) ∧
    ∀ h1 p, step h c = some (h1, p) →
      (blocks h1).Chain' (fun a b => a.alloc = true ∨ b.alloc = true) := by
  refine ⟨step_total h c hw hv, ?_⟩
  intro h1 p e
  obtain ⟨bs1, Ls1, g1, g2, g3, g4⟩ := step_sound h c hw hv h1 p e
  rw [blocks_eq h1 bs1 g2.1]
  exact g2.2.2.2

theorem C6_no_adjacent_free_witness :
    WellFormed heap1 ∧ valid heap1 (Call.realloc 192 1) = true ∧
    ((small (Call.realloc 192 1) = true → ∃ r, step heap1 (Call.realloc 192 1) = some r) ∧
    ∀ h1 p, step heap1 (Call.realloc 192 1) = some (h1, p) →
      (blocks h1).Chain' (fun a b => a.alloc = true ∨ b.alloc = true)) :=
  ⟨heap1_wf, by decide, C6_no_adjacent_free heap1 (Call.realloc 192 1) heap1_wf (by decide)⟩

/-- C7: after a successful `mm_init` on a fresh store and any sequence of
`mm_malloc` and `mm_free` calls (and tame `mm_realloc` calls) with valid
arguments, every free block found by the walk of the heap is exactly once on
the list `seg_lst[get_list_index(size)]` and on no other list, and every
member of every list is a free block of the heap. The sequence runs to the end
if the adjusted sizes of every call are representable as an `int`. -/
theorem C7_free_blocks_listed (s : Heap) (cs : List Call) (hf : Fresh s)
    (hi : (mm_init s).2 = 0) (hv : valid_calls (mm_init s).1 cs = true)
    (ht : ∀ c ∈ cs, tame c = true) :
    ((∀ c ∈ cs, small c = true) → ∃ r, run_calls (mm_init s).1 cs = some r) ∧
    ∀ h1 ps, run_calls (mm_init s).1 cs = some (h1, ps) →
      (∀ b ∈ blocks h1, b.alloc = false → ∃ k < 18, get_list_index (b.size : Int) = some k ∧
        ∀ i < 18, (free_list h1 i).count b.bp = if i = k then 1 else 0) ∧
      (∀ i < 18, ∀ x ∈ free_list h1 i, ∃ b ∈ blocks h1, b.bp = x ∧ b.alloc = false) := by
  have hw := init_wf s hf hi
  refine ⟨run_total cs _ hw hv ht, ?_⟩
  intro h1 ps e
  exact wf_lists h1 (run_wf cs _ hw hv ht h1 ps e).1

theorem C7_free_blocks_listed_witness :
    Fresh store0 ∧ (mm_init store0).2 = 0 ∧
    valid_calls (mm_init store0).1 [Call.malloc 24, Call.malloc 40, Call.free 192] = true ∧
    (∀ c ∈ [Call.malloc 24, Call.malloc 40, Call.free 192], tame c = true) ∧
    (((∀ c ∈ [Call.malloc 24, Call.malloc 40, Call.free 192], small c = true) →
      ∃ r, run_calls (mm_init store0).1 [Call.malloc 24, Call.malloc 40, Call.free 192] =
        some r) ∧
    ∀ h1 ps, run_calls (mm_init store0).1 [Call.malloc 24, Call.malloc 40, Call.free 192] =
        some (h1, ps) →
      (∀ b ∈ blocks h1, b.alloc = false → ∃ k < 18, get_list_index (b.size : Int) = some k ∧
        ∀ i < 18, (free_list h1 i).count b.bp = if i = k then 1 else 0) ∧
      (∀ i < 18, ∀ x ∈ free_list h1 i, ∃ b ∈ blocks h1, b.bp = x ∧ b.alloc = false)) :=
  ⟨store0_fresh, by decide!, by decide!, by decide!,
    C7_free_blocks_listed store0 [Call.malloc 24, Call.malloc 40, Call.free 192] store0_fresh
      (by decide!) (by decide!) (by decide!)⟩

/-- C9: after a successful `mm_init` on a fresh store and any sequence of
`mm_malloc` and `mm_free` calls (and tame `mm_realloc` calls) with valid
arguments, every block of the walk of the heap has at least the minimum block
size `2 * DSIZE`. The sequence runs to the end if every adjusted size is
representable as an `int`. -/
theorem C9_minimum_size (s : Heap) (cs : List Call) (hf : Fresh s)
    (hi : (mm_init s).2 = 0) (hv : valid_calls (mm_init s).1 cs = true)
    (ht : ∀ c ∈ cs, tame c = true) :
    ((∀ c ∈ cs, small c = true) → ∃ r, run_calls (mm_init s).1 cs = some r) ∧
    ∀ h1 ps, run_calls (mm_init s).1 cs = some (h1, ps) →
      ∀ b ∈ blocks h1, 2 * DSIZE ≤ b.size := by
  have hw := init_wf s hf hi
  refine ⟨run_total cs _ hw hv ht, ?_⟩
  intro h1 ps e
  exact wf_minsize h1 (run_wf cs _ hw hv ht h1 ps e).1

theorem C9_minimum_size_witness :
    Fresh store0 ∧ (mm_init store0).2 = 0 ∧
    valid_calls (mm_init store0).1 [Call.malloc 1, Call.malloc 4092, Call.free 192] = true ∧
    (∀ c ∈ [Call.malloc 1, Call.malloc 4092, Call.free 192], tame c = true) ∧
    (((∀ c ∈ [Call.malloc 1, Call.malloc 4092, Call.free 192], small c = true) →
      ∃ r, run_calls (mm_init store0).1 [Call.malloc 1, Call.malloc 4092, Call.free 192] =
        some r) ∧
    ∀ h1 ps, run_calls (mm_init store0).1 [Call.malloc 1, Call.malloc 4092, Call.free 192] =
        some (h1, ps) →
      ∀ b ∈ blocks h1, 2 * DSIZE ≤ b.size) :=
  ⟨store0_fresh, by decide!, by decide!, by decide!,
    C9_minimum_size store0 [Call.malloc 1, Call.malloc 4092, Call.free 192] store0_fresh
      (by decide!) (by decide!) (by decide!)⟩

/-- C3, as stated, fails: after `mm_init` on a store whose first address is a
multiple of `DSIZE`, two calls `mm_malloc(24)` return 192 and 232, and 232 is
not a multiple of `DSIZE`; the blocks allocated have 40 bytes, not a multiple
of `DSIZE` either. -/
theorem C3_counterexample :
    store0.brk % DSIZE = 0 ∧ (mm_init store0).2 = 0 ∧
    valid_calls (mm_init store0).1 [Call.malloc 24, Call.malloc 24] = true ∧
    (run_calls (mm_init store0).1 [Call.malloc 24, Call.malloc 24]).map
        (fun r => (r.2, blocks r.1)) =
      some ([192, 232], [⟨192, 40, true⟩, ⟨232, 40, true⟩, ⟨272, 4016, false⟩]) ∧
    ¬ (232 % DSIZE = 0) ∧ ¬ (40 % DSIZE = 0) := by
  decide!

/-- C3, amended: after a successful `mm_init` on a fresh store (first address
a multiple of `WSIZE`) and any sequence of `mm_malloc`, `mm_free` and
`mm_realloc` calls with valid arguments in which no block is resized to a size
from 1 to `WSIZE`, every pointer returned is a multiple of `WSIZE` and every
block size is a multiple of `WSIZE`. The sequence runs to the end if the
adjusted sizes of every call are representable as an `int`. -/
theorem C3_word_aligned (s : Heap) (cs : List Call) (hf : Fresh s)
    (hi : (mm_init s).2 = 0) (hv : valid_calls (mm_init s).1 cs = true)
    (ht : ∀ c ∈ cs, tame c = true) :
    ((∀ c ∈ cs, small c = true) → ∃ r, run_calls (mm_init s).1 cs = some r) ∧
    ∀ h1 ps, run_calls (mm_init s).1 cs = some (h1, ps) →
      (∀ p ∈ ps, p % WSIZE = 0) ∧ ∀ b ∈ blocks h1, b.size % WSIZE = 0 := by
  have hw := init_wf s hf hi
  refine ⟨run_total cs _ hw hv ht, ?_⟩
  intro h1 ps e
  obtain ⟨w1, w2⟩ := run_wf cs _ hw hv ht h1 ps e
  exact ⟨w2, wf_aligned h1 w1⟩

theorem C3_word_aligned_witness :
    Fresh store0 ∧ (mm_init store0).2 = 0 ∧
    valid_calls (mm_init store0).1 [Call.malloc 24, Call.realloc 192 100, Call.free 192] =
      true ∧
    (∀ c ∈ [Call.malloc 24, Call.realloc 192 100, Call.free 192], tame c = true) ∧
    (((∀ c ∈ [Call.malloc 24, Call.realloc 192 100, Call.free 192], small c = true) →
      ∃ r, run_calls (mm_init store0).1 [Call.malloc 24, Call.realloc 192 100, Call.free 192] =
        some r) ∧
    ∀ h1 ps, run_calls (mm_init store0).1 [Call.malloc 24, Call.realloc 192 100, Call.free 192] =
        some (h1, ps) →
      (∀ p ∈ ps, p % WSIZE = 0) ∧ ∀ b ∈ blocks h1, b.size % WSIZE = 0) :=
  ⟨store0_fresh, by decide!, by decide!, by decide!,
    C3_word_aligned store0 [Call.malloc 24, Call.realloc 192 100, Call.free 192] store0_fresh
      (by decide!) (by decide!) (by decide!)⟩

/-- C8: after `mm_init` and the calls `mm_malloc(40)`, `mm_malloc(40)`,
`mm_realloc(192, 1)`, `mm_malloc(8)`, `mm_free(192)`, all with valid arguments,
the block at 192 has the header 24 and the footer 0: `mm_realloc` has cut it
to 24 bytes, and `insert_block` has written the `prev` link over its footer. -/
theorem C8_header_footer_differ :
    WellFormed heap0 ∧
    valid_calls heap0 [Call.malloc 40, Call.malloc 40, Call.realloc 192 1, Call.malloc 8,
      Call.free 192] = true ∧
    (run_calls heap0 [Call.malloc 40, Call.malloc 40, Call.realloc 192 1, Call.malloc 8,
      Call.free 192]).map
        (fun r => (r.2, blocks r.1, r.1.mem (HDRP 192), r.1.mem (FTRP r.1.mem 192))) =
      some ([192, 248, 192, 216, 0],
        [⟨192, 24, false⟩, ⟨216, 32, true⟩, ⟨248, 56, true⟩, ⟨304, 3984, false⟩], 24, 0) :=
  ⟨heap0_wf, by decide!, by decide!⟩

/-- C10: on the well-formed heap after `mm_init` and `mm_malloc(40)`, the call
`mm_realloc(192, 1)` on the allocated block at 192 returns 192 and leaves
there a block of 24 bytes, less than the minimum block size `2 * DSIZE`. -/
theorem C10_realloc_small_block :
    WellFormed heap1 ∧ is_live heap1 192 = true ∧
    (mm_realloc heap1 192 1).map (fun r => (r.2, blocks r.1)) =
      some (192, [⟨192, 24, true⟩, ⟨216, 4072, false⟩]) ∧
    ¬ (2 * DSIZE ≤ 24) :=
  ⟨heap1_wf, by decide!, by decide!, by decide!⟩

/-- When no in-place case applies, `mm_realloc` is its last part. -/
theorem realloc_tail (h : Heap) (ptr size : Nat) (hf : takes_fallback h ptr size = true) :
    mm_realloc h ptr size = realloc_copy h ptr size := by
  unfold takes_fallback realloc_asize_int at hf
  simp only [decide_eq_true_eq] at hf
  obtain ⟨h0, hp, h1, h2, h3⟩ := hf
  unfold mm_realloc realloc_copy copy_len
  rw [if_neg h0, if_neg hp]
  simp only []
  generalize wrapInt ((if ofInt (toInt size) % WSIZE ≠ 0 then
    toInt (u64 ((ofInt (toInt size) / WSIZE + 1) * WSIZE)) else toInt size) + toInt DSIZE) = R
    at h1 h2 h3 ⊢
  rw [if_neg h1, if_neg h2]
  by_cases c1 : toInt (sub64 (GET_SIZE (h.mem (HDRP ptr))) (ofInt R)) < 0
  · rw [if_pos c1]
    by_cases c2 : ¬ (GET_ALLOC (h.mem (HDRP (NEXT_BLKP h.mem ptr))) ≠ 0)
    · rw [if_pos c2, if_neg (h3 c1 c2).1, if_neg (h3 c1 c2).2]
    · rw [if_neg c2]
  · rw [if_neg c1]

/-- When the fit search finds nothing and the backing store refuses the request
of `extend_heap`, `mm_malloc` returns `NULL` and leaves the state as it is. -/
theorem malloc_no_room (h : Heap) (size : Nat) (h0 : size ≠ 0)
    (hf : find_fit h (adjust_size size) = some NULL)
    (hs : mem_sbrk h (u64 (extend_size size (adjust_size size) / WSIZE * WSIZE)) = none) :
    mm_malloc h size = some (h, NULL) := by
  unfold mm_malloc
  rw [if_neg h0]
  simp only [hf, extend_heap, hs, NULL, ne_eq, not_true_eq_false, if_false, if_true]

/-- The last part of `mm_realloc` returns `NULL` and leaves the state as it is
when `mm_malloc` does. -/
theorem realloc_copy_null (h : Heap) (ptr size : Nat) (hm : mm_malloc h size = some (h, NULL)) :
    realloc_copy h ptr size = some (h, NULL) := by
  unfold realloc_copy
  rw [hm]
  simp only [if_true]

/-! ### The payload of a block resized in place -/

/-- The tail of the in-place paths of `mm_realloc` leaves the payload words of
the allocated part alone. -/
theorem resplit_payload (h : Heap) (A M B : List Block) (Ls : Nat → List Nat) (s e R r : Nat)
    (hl : Layout h (A ++ M ++ B)) (hL : Lists h (A ++ M ++ B) Ls)
    (hA : Tiling h.mem (h.seg_lst + 176) A s) (hB : Tiling h.mem e B h.brk)
    (hR : 16 ≤ R) (hR8 : R % 8 = 0) (hr : 32 ≤ r) (hr8 : r % 8 = 0) (hsum : s + R + r = e)
    (hnot : ∀ b ∈ M, ∀ i < 18, b.bp ∉ Ls i)
    (hnbr : ∀ c ∈ next_free B, c.bp ∈ Ls (class_of c.size)) (h5 h6 : Heap) (p : Nat)
    (i0 : insert_block { h with mem := set_tags (set_tags h.mem s R 1) (s + R) r 0 } (s + R)
        (r : Int) = some h5)
    (c0 : coalesce h5 (s + R) = some (h6, p)) :
    ∀ a, s ≤ a → a + 16 < s + R → h6.mem a = h.mem a := by
  have hs8 : 8 ≤ s := by
    have := tiling_le h.mem A _ s hA
    omega
  obtain ⟨t1, t2, t3, t4, t5⟩ := retile_set2 h A M B Ls s e R r 1 0 hl hL hA hB hR (by omega)
    hR8 hr8 hsum (by omega) (by omega) hnot _ rfl
  have d1 : decide ((1 : Nat) = 1) = true := rfl
  have d0 : decide ((0 : Nat) = 1) = false := rfl
  rw [d1, d0] at t2 t3
  obtain ⟨h5a, i1, i2, i3, i4, i5⟩ := relist_spec _ A [⟨s, R, true⟩, ⟨s + R, r, false⟩] B
    ⟨s + R, r, false⟩ Ls s e t2 t3 (by simp) rfl hr (by show s ≤ s + R; omega)
    (by show s + R < e; omega) t5
  have e5 : h5a = h5 := Option.some.inj (i1.symm.trans i0)
  subst e5
  have hlist : A ++ [(⟨s, R, true⟩ : Block), ⟨s + R, r, false⟩] ++ B =
      (A ++ [⟨s, R, true⟩]) ++ [⟨s + R, r, false⟩] ++ B := by simp
  have i5b := i5
  rw [hlist] at i3 i4
  obtain ⟨h6a, c1, c2, c3, c4, c5⟩ := coalesce_spec h5a (A ++ [⟨s, R, true⟩]) B
    ⟨s + R, r, false⟩ (ins Ls ⟨s + R, r, false⟩) i3 i4 (mem_ins_self Ls ⟨s + R, r, false⟩) (by
      intro c hc
      rw [prev_free_alloc A _ rfl, List.nil_append] at hc
      exact mem_ins_of_mem _ _ _ _ (hnbr c hc))
  have e6 : h6a = h6 := congrArg Prod.fst (Option.some.inj (c1.symm.trans c0))
  subst e6
  rw [before_alloc A _ rfl] at c5
  intro a ha1 ha2
  have g1 := c5 ⟨s, R, true⟩ (by simp) rfl a (by show s ≤ a + 8; omega)
    (by show a + 8 < s + R; omega)
  have g2 := i5b ⟨s, R, true⟩ (by simp) rfl a (by show s ≤ a + 8; omega)
    (by show a + 8 < s + R; omega)
  rw [g1, g2]
  show set_tags (set_tags h.mem s R 1) (s + R) r 0 a = h.mem a
  rw [set_tags_other _ _ _ _ _ (by omega) (by omega) (Or.inl (by omega)),
    set_tags_other _ _ _ _ _ hR hs8 (Or.inr (Or.inr ⟨ha1, ha2⟩))]

/-- Function `mm_realloc` growing a block into its free successor, a free
block being left: the payload words of the block are not written. -/
theorem realloc_grow_payload (h : Heap) (A B1 : List Block) (b nb : Block)
    (Ls : Nat → List Nat) (size : Nat) (hl : Layout h (A ++ [b] ++ nb :: B1))
    (hL : Lists h (A ++ [b] ++ nb :: B1) Ls)
    (ha : b.alloc = true) (h0 : size ≠ 0) (hs : size + 24 ≤ 2 ^ 31) (hb32 : 32 ≤ b.size)
    (hgrow : b.size < realloc_asize size)
    (hin : nb.bp ∈ Ls (class_of nb.size))
    (hbig : realloc_asize size - b.size + 32 ≤ nb.size)
    (hnbr : ∀ c ∈ next_free B1, c.bp ∈ Ls (class_of c.size)) (h9 : Heap) (p9 : Nat)
    (hr : mm_realloc h b.bp size = some (h9, p9)) :
    ∀ a, b.bp ≤ a → a + 16 < b.bp + b.size → h9.mem a = h.mem a := by
  obtain ⟨r1, r2, r3, r4, r5⟩ := realloc_asize_facts size (by omega)
  generalize hR : realloc_asize size = R at *
  have hbm : b ∈ A ++ [b] ++ nb :: B1 := by simp
  have hnm : nb ∈ A ++ [b] ++ nb :: B1 := by simp
  obtain ⟨k1, k2, k3, k4, k5, k6, k7, k8⟩ := layout_block h _ hl b hbm
  obtain ⟨m1, m2, m3, m4, m5, m6, m7, m8⟩ := layout_block h _ hl nb hnm
  have hcs := (layout_reads h _ hl b hbm).1
  obtain ⟨n1, n2, n3⟩ := next_reads h A B1 b nb hl
  clear k7 k8 m7 m8
  have hl2 := hl
  have hL2 := hL
  rw [mid2] at hl2 hL2
  obtain ⟨h1, d1, d2, d3, d4, d5, d6, d7, d8⟩ := unlist_spec h (A ++ [b]) B1 nb Ls hl2 hL2 hin
  rw [d7] at n3
  rw [← mid2, mid3] at d3 d4
  obtain ⟨s, e, hA, hM, hB, t1, t2, t3, t4, t5, t6⟩ := layout_split3 h1 A [b, nb] B1 d3
  have hs1 : b.bp = s := hM.1
  have he1 : s + b.size + nb.size = e := by
    have := hM.2.2.2.2.2
    have h3 : nb.bp = s + b.size := this.1
    have h4 : s + b.size + nb.size = e := this.2.2.2.2.2
    exact h4
  subst hs1
  have hne : nb.bp ≠ b.bp := by omega
  have hbin : b ∈ A ++ [b, nb] ++ B1 := by simp
  have hnot : ∀ c ∈ [b, nb], ∀ i < 18, c.bp ∉ del Ls nb i := by
    intro c hc i hi
    simp only [List.mem_cons, List.mem_singleton, List.not_mem_nil, or_false] at hc
    rcases hc with rfl | rfl
    · exact alloc_not_member h1 _ _ d3 d4 c hbin ha i hi
    · exact d6 i hi
  have hnb2 : ∀ c ∈ next_free B1, c.bp ∈ del Ls nb (class_of c.size) := by
    intro c hc
    refine mem_del_of_ne _ _ _ _ (hnbr c hc) ?_
    have hcB := next_free_sub B1 c hc
    have hnd := layout_nodup h _ hl2
    exact nodup_outside (A ++ [b]) [nb] B1 hnd c (List.mem_append_right _ hcB) nb (by simp)
  obtain ⟨h5, h6, p, i1, c1, c2, c3, c4, c5, c6⟩ := resplit_spec h1 A [b, nb] B1 (del Ls nb) b.bp
    e R (nb.size - (R - b.size)) d3 d4 hA hB (by omega) r1 (by omega) (by omega) (by omega)
    hnot hnb2
  have hp := realloc_grow_path h h1 h5 h6 b.bp size b.size R nb.size p h0 (by omega)
    (by omega) hs hcs k6 hb32 k4 hR hgrow n2 m6 m4 n3 hbig (n1 ▸ d1) i1 c1
  have e9 : h6 = h9 := congrArg Prod.fst (Option.some.inj (hp.symm.trans hr))
  subst e9
  have hpay := resplit_payload h1 A [b, nb] B1 (del Ls nb) b.bp e R (nb.size - (R - b.size))
    d3 d4 hA hB (by omega) r1 (by omega) (by omega) (by omega) hnot hnb2 h5 h6 p i1 c1
  intro a ha1 ha2
  rw [hpay a ha1 (by omega)]
  exact d5 b (by simp) ha a (by omega) (by omega)

/-- Function `mm_realloc` absorbing the free successor whole: the payload
words of the block are not written. -/
theorem realloc_absorb_payload (h : Heap) (A B1 : List Block) (b nb : Block)
    (Ls : Nat → List Nat) (size : Nat) (hl : Layout h (A ++ [b] ++ nb :: B1))
    (hL : Lists h (A ++ [b] ++ nb :: B1) Ls)
    (ha : b.alloc = true) (h0 : size ≠ 0) (hs : size + 24 ≤ 2 ^ 31) (hb32 : 32 ≤ b.size)
    (hgrow : b.size < realloc_asize size)
    (hin : nb.bp ∈ Ls (class_of nb.size))
    (hsmall : ¬ (realloc_asize size - b.size + 32 ≤ nb.size))
    (hfit : realloc_asize size - b.size ≤ nb.size) (h9 : Heap) (p9 : Nat)
    (hr : mm_realloc h b.bp size = some (h9, p9)) :
    ∀ a, b.bp ≤ a → a + 16 < b.bp + b.size → h9.mem a = h.mem a := by
  obtain ⟨r1, r2, r3, r4, r5⟩ := realloc_asize_facts size (by omega)
  generalize hR : realloc_asize size = R at *
  have hbm : b ∈ A ++ [b] ++ nb :: B1 := by simp
  have hnm : nb ∈ A ++ [b] ++ nb :: B1 := by simp
  obtain ⟨k1, k2, k3, k4, k5, k6, k7, k8⟩ := layout_block h _ hl b hbm
  obtain ⟨m1, m2, m3, m4, m5, m6, m7, m8⟩ := layout_block h _ hl nb hnm
  have hbrk := layout_brk h _ hl
  have hcs := (layout_reads h _ hl b hbm).1
  obtain ⟨n1, n2, n3⟩ := next_reads h A B1 b nb hl
  clear k7 k8 m7 m8
  have hl2 := hl
  have hL2 := hL
  rw [mid2] at hl2 hL2
  obtain ⟨h1, d1, d2, d3, d4, d5, d6, d7, d8⟩ := unlist_spec h (A ++ [b]) B1 nb Ls hl2 hL2 hin
  rw [d7] at n3
  have hp := realloc_absorb_path h h1 b.bp size b.size R nb.size h0 (by omega)
    (by omega) hs hcs k6 hb32 k4 hR hgrow n2 (by omega) m4 n3 hsmall hfit (n1 ▸ d1)
  have e9 : ({ h1 with mem := set_tags h1.mem b.bp (b.size + nb.size) 1 } : Heap) = h9 :=
    congrArg Prod.fst (Option.some.inj (hp.symm.trans hr))
  subst e9
  intro a ha1 ha2
  show set_tags h1.mem b.bp (b.size + nb.size) 1 a = h.mem a
  rw [set_tags_other _ _ _ _ _ (by omega) (by omega) (Or.inr (Or.inr ⟨ha1, by omega⟩))]
  exact d5 b (by simp) ha a (by omega) (by omega)

/-! ### More well-formed concrete heaps -/

theorem heap2_eq : mm_malloc heap1 40 = some (heap2, 248) := by rfl

theorem heap2_wf : WellFormed heap2 := by
  obtain ⟨bs, Ls, hl, hL, hF⟩ := heap1_wf
  obtain ⟨bs1, Ls1, g1, g2, g3, g4, g5⟩ :=
    malloc_step heap1 bs Ls 40 hl hL hF (by decide) heap2 248 heap2_eq
  exact ⟨bs1, Ls1, g2, g3, g4⟩

theorem heap_big_eq : mm_malloc heap0 4096 = some (heap_big, 192) := by rfl

theorem heap_big_wf : WellFormed heap_big := by
  obtain ⟨bs, Ls, hl, hL, hF⟩ := heap0_wf
  obtain ⟨bs1, Ls1, g1, g2, g3, g4, g5⟩ :=
    malloc_step heap0 bs Ls 4096 hl hL hF (by decide) heap_big 192 heap_big_eq
  exact ⟨bs1, Ls1, g2, g3, g4⟩

theorem store1_fresh : Fresh store1 := ⟨by decide, by decide, by decide⟩

theorem heap_full_eq : mm_malloc (mm_init store1).1 40 = some (heap_full, 192) := by rfl

theorem heap_full_wf : WellFormed heap_full := by
  obtain ⟨bs, Ls, hl, hL, hF⟩ := mm_init_wf store1 store1_fresh (by decide)
  obtain ⟨bs1, Ls1, g1, g2, g3, g4, g5⟩ :=
    malloc_step _ bs Ls 40 hl hL hF (by decide) heap_full 192 heap_full_eq
  exact ⟨bs1, Ls1, g2, g3, g4⟩

/-! ### Shapes of the block lists -/

/-- Coalescing behind an allocated block only looks at the next block. -/
theorem coalesce_blocks_alloc (A B : List Block) (x y : Block) (hx : x.alloc = true) :
    coalesce_blocks (A ++ [x]) y B =
      A ++ [x, ⟨y.bp, y.size + total_size (next_free B), false⟩] ++ after B := by
  unfold coalesce_blocks merged
  rw [before_alloc A x hx, prev_free_alloc A x hx]
  simp [total_size]

/-- The block behind a free block of a heap without adjacent free blocks is
not free. -/
theorem next_free_nil (A B1 : List Block) (nb : Block)
    (hc : (A ++ nb :: B1).Chain' (fun a b => a.alloc = true ∨ b.alloc = true))
    (hn : nb.alloc = false) : next_free B1 = [] := by
  have hc2 : (A ++ [nb] ++ B1).Chain' (fun a b => a.alloc = true ∨ b.alloc = true) := by
    simpa using hc
  obtain ⟨_, _, _, _, n5⟩ := (nf_sandwich A [nb] B1 (by simp)).1 hc2
  unfold next_free
  cases hB : B1.head? with
  | none => rfl
  | some y =>
    have := n5 nb (by simp) y (by rw [hB]; simp)
    rw [hn] at this
    simp only [Bool.false_eq_true, false_or] at this
    simp [this]

theorem after_none (B : List Block) (h : next_free B = []) : after B = B := by
  unfold after
  rw [if_pos h]

/-- C14: in every state, `mm_realloc(NULL, size)` with `size > 0` is
`mm_malloc(size)` (same pointer, same final state, same failed `assert`s), and
`mm_realloc(ptr, 0)` returns `NULL` and leaves the state that `mm_free(ptr)`
leaves. -/
theorem C14_realloc_degenerate (h : Heap) (ptr size : Nat) (h0 : 0 < size) :
    mm_realloc h NULL size = mm_malloc h size ∧
      mm_realloc h ptr 0 = (mm_free h ptr).map (fun h1 => (h1, NULL)) := by
  refine ⟨realloc_null h size (by omega), ?_⟩
  rw [realloc_zero]
  cases mm_free h ptr <;> rfl

theorem C14_realloc_degenerate_witness :
    0 < 40 ∧ (mm_realloc heap1 NULL 40 = mm_malloc heap1 40 ∧
      mm_realloc heap1 192 0 = (mm_free heap1 192).map (fun h1 => (h1, NULL))) :=
  ⟨by decide, C14_realloc_degenerate heap1 192 40 (by decide)⟩

/-- C15: on a well-formed heap, for the payload address `ptr` of an allocated
block and `size > 0` such that `size` rounded up to a multiple of `WSIZE` plus
`DSIZE` is the size in the header of `ptr`, `mm_realloc(ptr, size)` returns
`ptr` and the state (every heap word, every list head) is as before. -/
theorem C15_realloc_same_size (h : Heap) (ptr size : Nat) (hw : WellFormed h)
    (hv : is_live h ptr = true) (h0 : 0 < size)
    (he : realloc_asize size = GET_SIZE (h.mem (HDRP ptr))) :
    mm_realloc h ptr size = some (h, ptr) := by
  obtain ⟨bs, Ls, hl, hL, hF⟩ := hw
  obtain ⟨A, b, B, e1, e2, e3⟩ := live_block h bs hl ptr hv
  subst e1
  subst e2
  have hbm : b ∈ A ++ [b] ++ B := by simp
  obtain ⟨k1, k2, k3, k4, k5, k6, k7, k8⟩ := layout_block h _ hl b hbm
  have hcs := (layout_reads h _ hl b hbm).1
  obtain ⟨nbs, n1, n2⟩ := next_size_bound h A B b hl
  obtain ⟨r1, r2, r3, r4, r5⟩ := realloc_asize_facts size h0
  rw [hcs] at he
  exact realloc_same_path h b.bp size b.size (by omega) (by omega) (by omega) hcs k6 he

theorem C15_realloc_same_size_witness :
    WellFormed heap1 ∧ is_live heap1 192 = true ∧ 0 < 40 ∧
      realloc_asize 40 = GET_SIZE (heap1.mem (HDRP 192)) ∧
      mm_realloc heap1 192 40 = some (heap1, 192) :=
  ⟨heap1_wf, by decide, by decide, by decide,
    C15_realloc_same_size heap1 192 40 heap1_wf (by decide) (by decide) (by decide)⟩

/-- C16: on a well-formed heap whose walk is `A ++ [b] ++ B` with `b`
allocated, for `size > 0` whose adjusted size `r` (`size` rounded up to a
multiple of `WSIZE`, plus `DSIZE`) is below the size of `b`: if the difference
is at least `2 * DSIZE`, `mm_realloc` returns the address of `b`, the block
there is allocated with size `r`, and it is followed by one free block that
starts at `b.bp + r`, has the rest of `b` and, when the block behind `b` was
free, that block's bytes too, and is on the list of its class; if the
difference is smaller, `mm_realloc` returns the address of `b` and the state is
as before. -/
theorem C16_realloc_shrink (h : Heap) (A B : List Block) (b : Block) (size : Nat)
    (hw : WellFormed h) (hb : blocks h = A ++ [b] ++ B) (ha : b.alloc = true) (h0 : 0 < size)
    (hlt : realloc_asize size < b.size) :
    (2 * DSIZE ≤ b.size - realloc_asize size →
      ∃ h1, mm_realloc h b.bp size = some (h1, b.bp) ∧
        blocks h1 = A ++ [⟨b.bp, realloc_asize size, true⟩,
          ⟨b.bp + realloc_asize size,
            b.size - realloc_asize size + total_size (next_free B), false⟩] ++ after B ∧
        ∃ k, get_list_index
            ((b.size - realloc_asize size + total_size (next_free B) : Nat) : Int) = some k ∧
          b.bp + realloc_asize size ∈ free_list h1 k) ∧
    (b.size - realloc_asize size < 2 * DSIZE → mm_realloc h b.bp size = some (h, b.bp)) := by
  obtain ⟨bs, Ls, hl, hL, hF⟩ := hw
  rw [blocks_eq h bs hl] at hb
  subst hb
  have hbm : b ∈ A ++ [b] ++ B := by simp
  obtain ⟨k1, k2, k3, k4, k5, k6, k7, k8⟩ := layout_block h _ hl b hbm
  have hcs := (layout_reads h _ hl b hbm).1
  obtain ⟨nbs, n1, n2⟩ := next_size_bound h A B b hl
  obtain ⟨r1, r2, r3, r4, r5⟩ := realloc_asize_facts size h0
  have hD : 2 * DSIZE = 32 := rfl
  rw [hD]
  constructor
  · intro hcut
    have hnbr : ∀ c ∈ next_free B, c.bp ∈ Ls (class_of c.size) := fun c hc =>
      hF.complete c (List.mem_append_right _ (next_free_sub B c hc)) (next_free_free B c hc)
    obtain ⟨h1, f1, f2, f3, f4, f5⟩ := realloc_shrink_spec h A B b Ls size hl hL ha (by omega)
      (by omega) (by omega) hnbr
    obtain ⟨h2, p2, bs2, Ls2, g1, g2, g3, g4⟩ := mm_realloc_full h A B b Ls size hl hL hF ha
      (by omega) (by omega)
    have e1 : h2 = h1 := congrArg Prod.fst (Option.some.inj (g1.symm.trans f1))
    subst e1
    obtain ⟨s1, s2, s3, s4⟩ := g3
    have e2 : bs2 = coalesce_blocks (A ++ [⟨b.bp, realloc_asize size, true⟩])
        ⟨b.bp + realloc_asize size, b.size - realloc_asize size, false⟩ B := by
      rw [← blocks_eq h2 _ s1, ← blocks_eq h2 _ f3]
    rw [coalesce_blocks_alloc A B _ _ rfl] at e2
    refine ⟨h2, f1, by rw [blocks_eq h2 _ s1, e2], class_of _, get_list_index_nat _, ?_⟩
    rw [free_list_eq h2 _ _ s1 s2 _ (class_of_lt _)]
    exact s3 ⟨b.bp + realloc_asize size,
      b.size - realloc_asize size + total_size (next_free B), false⟩ (by rw [e2]; simp) rfl
  · intro hkeep
    exact realloc_keep_path h b.bp size b.size _ (by omega) (by omega) (by omega) hcs k6 rfl
      hlt (by omega)

theorem C16_realloc_shrink_witness :
    WellFormed heap_big ∧ blocks heap_big = [] ++ [⟨192, 4240, true⟩] ++ [] ∧ 0 < 64 ∧
    realloc_asize 64 < 4240 ∧
    ((2 * DSIZE ≤ 4240 - realloc_asize 64 →
      ∃ h1, mm_realloc heap_big 192 64 = some (h1, 192) ∧
        blocks h1 = [] ++ [⟨192, realloc_asize 64, true⟩,
          ⟨192 + realloc_asize 64,
            4240 - realloc_asize 64 + total_size (next_free []), false⟩] ++ after [] ∧
        ∃ k, get_list_index
            ((4240 - realloc_asize 64 + total_size (next_free []) : Nat) : Int) = some k ∧
          192 + realloc_asize 64 ∈ free_list h1 k) ∧
    (4240 - realloc_asize 64 < 2 * DSIZE → mm_realloc heap_big 192 64 = some (heap_big, 192))) :=
  ⟨heap_big_wf, by decide, by decide, by decide,
    C16_realloc_shrink heap_big [] [] ⟨192, 4240, true⟩ 64 heap_big_wf (by decide) rfl
      (by decide) (by decide)⟩

/-- C17: on a well-formed heap whose walk is `A ++ [b] ++ nb :: B1` with `b`
allocated and `nb` free, for a `size` whose adjusted size `r` (`size` rounded
up to a multiple of `WSIZE`, plus `DSIZE`) is above the size of `b` and at most
the size of `b` and `nb` together: `mm_realloc` returns the address of `b`, no
payload word of `b` is written, the address of `nb` is on no list afterwards,
and in place of `b` and `nb` the heap has an allocated block of `r` bytes
followed by a free block of the remaining bytes that is on the list of its
class, if at least `2 * DSIZE` bytes remain, and one allocated block of all
the bytes of `b` and `nb` otherwise. -/
theorem C17_realloc_grow (h : Heap) (A B1 : List Block) (b nb : Block) (size : Nat)
    (hw : WellFormed h) (hb : blocks h = A ++ [b] ++ nb :: B1) (ha : b.alloc = true)
    (hn : nb.alloc = false) (hgt : b.size < realloc_asize size)
    (hle : realloc_asize size ≤ b.size + nb.size) :
    ∃ h1, mm_realloc h b.bp size = some (h1, b.bp) ∧
      (∀ a, b.bp ≤ a → a + DSIZE < b.bp + b.size → h1.mem a = h.mem a) ∧
      (∀ i < 18, nb.bp ∉ free_list h1 i) ∧
      (2 * DSIZE ≤ b.size + nb.size - realloc_asize size →
        blocks h1 = A ++ [⟨b.bp, realloc_asize size, true⟩,
          ⟨b.bp + realloc_asize size, b.size + nb.size - realloc_asize size, false⟩] ++ B1 ∧
        ∃ k, get_list_index ((b.size + nb.size - realloc_asize size : Nat) : Int) = some k ∧
          b.bp + realloc_asize size ∈ free_list h1 k) ∧
      (b.size + nb.size - realloc_asize size < 2 * DSIZE →
        blocks h1 = A ++ [⟨b.bp, b.size + nb.size, true⟩] ++ B1) := by
  obtain ⟨bs, Ls, hl, hL, hF⟩ := hw
  rw [blocks_eq h bs hl] at hb
  subst hb
  have hbm : b ∈ A ++ [b] ++ nb :: B1 := by simp
  have hnm : nb ∈ A ++ [b] ++ nb :: B1 := by simp
  obtain ⟨k1, k2, k3, k4, k5, k6, k7, k8⟩ := layout_block h _ hl b hbm
  obtain ⟨n1, n2, n3⟩ := next_reads h A B1 b nb hl
  obtain ⟨nbs, n4, n5⟩ := next_size_bound h A (nb :: B1) b hl
  rw [n2] at n4
  subst n4
  have hb32 : 32 ≤ b.size := hF.minsize b hbm
  have h0 : size ≠ 0 := by
    intro e
    rw [e] at hgt
    have : realloc_asize 0 = 16 := rfl
    omega
  obtain ⟨r1, r2, r3, r4, r5⟩ := realloc_asize_facts size (by omega)
  have hin : nb.bp ∈ Ls (class_of nb.size) := hF.complete nb hnm hn
  have hnf : next_free B1 = [] := next_free_nil (A ++ [b]) B1 nb hF.nofree2 hn
  have hnd := layout_nodup h _ hl
  have hout : ∀ c ∈ A ++ B1, c.bp ≠ nb.bp := by
    intro c hc
    have hnd2 : (((A ++ [b]) ++ [nb] ++ B1).map Block.bp).Nodup := by simpa using hnd
    refine nodup_outside (A ++ [b]) [nb] B1 hnd2 c ?_ nb (by simp)
    simp only [List.mem_append, List.mem_singleton] at hc ⊢
    tauto
  have hD : 2 * DSIZE = 32 := rfl
  have hD1 : DSIZE = 16 := rfl
  rw [hD, hD1]
  by_cases hbig : realloc_asize size - b.size + 32 ≤ nb.size
  · have hnbr : ∀ c ∈ next_free B1, c.bp ∈ Ls (class_of c.size) := by
      intro c hc
      rw [hnf] at hc
      simp at hc
    obtain ⟨h1, f1, f2, f3, f4, f5⟩ := realloc_grow_spec h A B1 b nb Ls size hl hL ha h0
      (by omega) hb32 hgt hin hbig hnbr
    have hpay := realloc_grow_payload h A B1 b nb Ls size hl hL ha h0 (by omega) hb32 hgt hin
      hbig hnbr h1 b.bp f1
    have hmemL : b.bp + realloc_asize size ∈
        coalesce_lists (ins (del Ls nb)
            ⟨b.bp + realloc_asize size, nb.size - (realloc_asize size - b.size), false⟩)
          (A ++ [⟨b.bp, realloc_asize size, true⟩])
          ⟨b.bp + realloc_asize size, nb.size - (realloc_asize size - b.size), false⟩ B1
          (class_of (nb.size - (realloc_asize size - b.size))) := by
      unfold coalesce_lists
      rw [prev_free_alloc A _ rfl, hnf]
      simp only [and_self, if_true]
      exact mem_ins_self _
        ⟨b.bp + realloc_asize size, nb.size - (realloc_asize size - b.size), false⟩
    rw [coalesce_blocks_alloc A B1 _ _ rfl, hnf, after_none B1 hnf] at f3 f4
    have hsz : nb.size - (realloc_asize size - b.size) + total_size [] =
        b.size + nb.size - realloc_asize size := by
      simp only [total_size, List.map_nil, List.sum_nil]
      omega
    rw [hsz] at f3 f4
    refine ⟨h1, f1, hpay, ?_, ?_, ?_⟩
    · intro i hi hx
      rw [free_list_eq h1 _ _ f3 f4 i hi] at hx
      obtain ⟨c, hc, c1, c2, c3, c4⟩ := f4.members i hi _ hx
      simp only [List.mem_append, List.mem_cons, List.mem_singleton, List.not_mem_nil,
        or_false] at hc
      rcases hc with (hc | hc | hc) | hc
      · exact hout c (List.mem_append_left _ hc) c1
      · rw [hc] at c2
        simp at c2
      · rw [hc] at c1
        simp only at c1
        omega
      · exact hout c (List.mem_append_right _ hc) c1
    · intro _
      refine ⟨blocks_eq h1 _ f3, class_of _, get_list_index_nat _, ?_⟩
      rw [free_list_eq h1 _ _ f3 f4 _ (class_of_lt _),
        show b.size + nb.size - realloc_asize size = nb.size - (realloc_asize size - b.size)
          from by omega]
      exact hmemL
    · intro hlt
      omega
  · obtain ⟨h1, f1, f2, f3, f4, f5⟩ := realloc_absorb_spec h A B1 b nb Ls size hl hL ha h0
      (by omega) hb32 hgt hin hbig (by omega)
    have hpay := realloc_absorb_payload h A B1 b nb Ls size hl hL ha h0 (by omega) hb32 hgt hin
      hbig (by omega) h1 b.bp f1
    refine ⟨h1, f1, hpay, ?_, ?_, ?_⟩
    · intro i hi hx
      rw [free_list_eq h1 _ _ f3 f4 i hi] at hx
      obtain ⟨c, hc, c1, c2, c3, c4⟩ := f4.members i hi _ hx
      simp only [List.mem_append, List.mem_cons, List.mem_singleton, List.not_mem_nil,
        or_false] at hc
      rcases hc with (hc | hc) | hc
      · exact hout c (List.mem_append_left _ hc) c1
      · rw [hc] at c2
        simp at c2
      · exact hout c (List.mem_append_right _ hc) c1
    · intro hge
      omega
    · intro _
      exact blocks_eq h1 _ f3

theorem C17_realloc_grow_witness :
    WellFormed heap1 ∧ blocks heap1 = [] ++ [⟨192, 56, true⟩] ++ ⟨248, 4040, false⟩ :: [] ∧
    56 < realloc_asize 100 ∧ realloc_asize 100 ≤ 56 + 4040 ∧
    ∃ h1, mm_realloc heap1 192 100 = some (h1, 192) ∧
      (∀ a, 192 ≤ a → a + DSIZE < 192 + 56 → h1.mem a = heap1.mem a) ∧
      (∀ i < 18, 248 ∉ free_list h1 i) ∧
      (2 * DSIZE ≤ 56 + 4040 - realloc_asize 100 →
        blocks h1 = [] ++ [⟨192, realloc_asize 100, true⟩,
          ⟨192 + realloc_asize 100, 56 + 4040 - realloc_asize 100, false⟩] ++ [] ∧
        ∃ k, get_list_index ((56 + 4040 - realloc_asize 100 : Nat) : Int) = some k ∧
          192 + realloc_asize 100 ∈ free_list h1 k) ∧
      (56 + 4040 - realloc_asize 100 < 2 * DSIZE →
        blocks h1 = [] ++ [⟨192, 56 + 4040, true⟩] ++ []) :=
  ⟨heap1_wf, by decide, by decide, by decide,
    C17_realloc_grow heap1 [] [] ⟨192, 56, true⟩ ⟨248, 4040, false⟩ 100 heap1_wf (by decide)
      rfl rfl (by decide) (by decide)⟩

/-! ### Freeing two adjacent blocks -/

/-- A free block in front of a block ends where the block starts. -/
theorem prev_total_le (h : Heap) (A B : List Block) (b : Block)
    (hl : Layout h (A ++ [b] ++ B)) : total_size (prev_free A) ≤ b.bp := by
  rcases prev_read_spec h A B b hl with ⟨e1, _⟩ | ⟨A1, pb1, e1, e2, e3, _⟩
  · rw [e1]
    simp [total_size]
  · rw [e3]
    subst e1
    have hl2 : Layout h (A1 ++ [pb1, b] ++ B) := by
      have : A1 ++ [pb1, b] ++ B = A1 ++ [pb1] ++ [b] ++ B := by simp
      rw [this]; exact hl
    obtain ⟨p1, _⟩ := layout_prev_reads h A1 B pb1 b hl2
    simp only [total_size, List.map_cons, List.map_nil, List.sum_cons, List.sum_nil]
    omega

theorem total_size_single (m : Block) : total_size [m] = m.size := by
  simp [total_size]

theorem prev_free_last (A : List Block) (m : Block) (hm : m.alloc = false) :
    prev_free (A ++ [m]) = [m] := by
  unfold prev_free
  have : (A ++ [m]).getLast? = some m := by simp
  rw [this]
  simp [hm]

theorem before_last (A : List Block) (m : Block) (hm : m.alloc = false) :
    before (A ++ [m]) = A := by
  unfold before
  rw [prev_free_last A m hm]
  simp

theorem next_free_cons_alloc (B : List Block) (b : Block) (hb : b.alloc = true) :
    next_free (b :: B) = [] := by
  simp [next_free, hb]

theorem next_free_cons_free (B : List Block) (b : Block) (hb : b.alloc = false) :
    next_free (b :: B) = [b] := by
  simp [next_free, hb]

theorem after_cons_alloc (B : List Block) (b : Block) (hb : b.alloc = true) :
    after (b :: B) = b :: B := by
  unfold after
  rw [next_free_cons_alloc B b hb]
  simp

theorem after_cons_free (B : List Block) (b : Block) (hb : b.alloc = false) :
    after (b :: B) = B := by
  unfold after
  rw [next_free_cons_free B b hb]
  simp

/-- In a heap whose lists are consistent and complete, the members of list `i`
are the addresses of the free blocks of class `i`. -/
theorem mem_free_list_iff (h : Heap) (bs : List Block) (Ls : Nat → List Nat)
    (hl : Layout h bs) (hL : Lists h bs Ls) (hF : Full bs Ls) (i : Nat) (hi : i < 18)
    (x : Nat) :
    x ∈ free_list h i ↔ ∃ c ∈ bs, c.bp = x ∧ c.alloc = false ∧ class_of c.size = i := by
  rw [free_list_eq h bs Ls hl hL i hi]
  constructor
  · intro hx
    obtain ⟨c, hc, c1, c2, c3, c4⟩ := hL.members i hi x hx
    exact ⟨c, hc, c1, c2, c4⟩
  · rintro ⟨c, hc, c1, c2, c3⟩
    rw [← c1, ← c3]
    exact hF.complete c hc c2

/-- Function `mm_free` on two adjacent allocated blocks `a` and `b`, `a`
first: one free block is left in place of them and their free neighbours. -/
theorem free_pair_ab (h : Heap) (A B : List Block) (a b : Block) (Ls : Nat → List Nat)
    (hl : Layout h (A ++ [a, b] ++ B)) (hL : Lists h (A ++ [a, b] ++ B) Ls)
    (hF : Full (A ++ [a, b] ++ B) Ls) (ha : a.alloc = true) (hb : b.alloc = true) :
    ∃ h1 h2 Ls2, mm_free h a.bp = some h1 ∧ mm_free h1 b.bp = some h2 ∧
      Layout h2 (before A ++ [⟨a.bp - total_size (prev_free A),
        total_size (prev_free A) + a.size + b.size + total_size (next_free B), false⟩] ++
        after B) ∧
      Lists h2 (before A ++ [⟨a.bp - total_size (prev_free A),
        total_size (prev_free A) + a.size + b.size + total_size (next_free B), false⟩] ++
        after B) Ls2 ∧
      Full (before A ++ [⟨a.bp - total_size (prev_free A),
        total_size (prev_free A) + a.size + b.size + total_size (next_free B), false⟩] ++
        after B) Ls2 := by
  have e0 : A ++ [a, b] ++ B = A ++ [a] ++ b :: B := by simp
  rw [e0] at hl hL hF
  have hle := prev_total_le h A (b :: B) a hl
  obtain ⟨n1, _, _⟩ := next_reads h A B a b hl
  obtain ⟨h1, f1, f2, f3, f4, f5, f6⟩ := mm_free_full h A (b :: B) a Ls hl hL hF ha
  have e1 : coalesce_blocks A ⟨a.bp, a.size, false⟩ (b :: B) =
      (before A ++ [⟨a.bp - total_size (prev_free A), total_size (prev_free A) + a.size,
        false⟩]) ++ [b] ++ B := by
    unfold coalesce_blocks merged
    rw [after_cons_alloc B b hb, next_free_cons_alloc B b hb]
    simp [total_size]
  rw [e1] at f3 f4 f5
  obtain ⟨h2, g1, g2, g3, g4, g5, g6⟩ := mm_free_full h1 _ B b _ f3 f4 f5 hb
  have e2 : coalesce_blocks (before A ++ [⟨a.bp - total_size (prev_free A),
        total_size (prev_free A) + a.size, false⟩]) ⟨b.bp, b.size, false⟩ B =
      before A ++ [⟨a.bp - total_size (prev_free A),
        total_size (prev_free A) + a.size + b.size + total_size (next_free B), false⟩] ++
        after B := by
    unfold coalesce_blocks merged
    rw [before_last _ _ rfl, prev_free_last _ _ rfl, total_size_single]
    have e : b.bp - (total_size (prev_free A) + a.size) = a.bp - total_size (prev_free A) := by
      omega
    simp only [e]
  rw [e2] at g3 g4 g5
  exact ⟨h1, h2, _, f1, g1, g3, g4, g5⟩

/-- Function `mm_free` on two adjacent allocated blocks `a` and `b`, `b`
first: one free block is left in place of them and their free neighbours. -/
theorem free_pair_ba (h : Heap) (A B : List Block) (a b : Block) (Ls : Nat → List Nat)
    (hl : Layout h (A ++ [a, b] ++ B)) (hL : Lists h (A ++ [a, b] ++ B) Ls)
    (hF : Full (A ++ [a, b] ++ B) Ls) (ha : a.alloc = true) (hb : b.alloc = true) :
    ∃ h1 h2 Ls2, mm_free h b.bp = some h1 ∧ mm_free h1 a.bp = some h2 ∧
      Layout h2 (before A ++ [⟨a.bp - total_size (prev_free A),
        total_size (prev_free A) + a.size + b.size + total_size (next_free B), false⟩] ++
        after B) ∧
      Lists h2 (before A ++ [⟨a.bp - total_size (prev_free A),
        total_size (prev_free A) + a.size + b.size + total_size (next_free B), false⟩] ++
        after B) Ls2 ∧
      Full (before A ++ [⟨a.bp - total_size (prev_free A),
        total_size (prev_free A) + a.size + b.size + total_size (next_free B), false⟩] ++
        after B) Ls2 := by
  have e0 : A ++ [a, b] ++ B = (A ++ [a]) ++ [b] ++ B := by simp
  rw [e0] at hl hL hF
  obtain ⟨h1, f1, f2, f3, f4, f5, f6⟩ := mm_free_full h (A ++ [a]) B b Ls hl hL hF hb
  have e1 : coalesce_blocks (A ++ [a]) ⟨b.bp, b.size, false⟩ B =
      A ++ [a] ++ ⟨b.bp, b.size + total_size (next_free B), false⟩ :: after B := by
    rw [coalesce_blocks_alloc A B a _ ha]
    simp
  rw [e1] at f3 f4 f5
  obtain ⟨h2, g1, g2, g3, g4, g5, g6⟩ := mm_free_full h1 A _ a _ f3 f4 f5 ha
  have e2 : coalesce_blocks A ⟨a.bp, a.size, false⟩
        (⟨b.bp, b.size + total_size (next_free B), false⟩ :: after B) =
      before A ++ [⟨a.bp - total_size (prev_free A),
        total_size (prev_free A) + a.size + b.size + total_size (next_free B), false⟩] ++
        after B := by
    unfold coalesce_blocks merged
    rw [after_cons_free _ _ rfl, next_free_cons_free _ _ rfl, total_size_single]
    simp only [Nat.add_assoc]
  rw [e2] at g3 g4 g5
  exact ⟨h1, h2, _, f1, g1, g3, g4, g5⟩

/-- C11: on a well-formed heap whose walk is `A ++ [a, b] ++ B` with `a` and
`b` allocated (`b` is `NEXT_BLKP(a)`), both `mm_free(a); mm_free(b)` and
`mm_free(b); mm_free(a)` return, the walks of the two final heaps are the same
list of blocks, every free list has the same members in both, and the walk has
one free block `m` in place of `a`, `b` and their free neighbours: `m` starts at
or before `a`, ends at or behind the end of `b`, its size is the sum of the
sizes, and it is the only free block that covers `a` and `b`. -/
theorem C11_free_either_order (h : Heap) (A B : List Block) (a b : Block)
    (hw : WellFormed h) (hb : blocks h = A ++ [a, b] ++ B) (ha : a.alloc = true)
    (hb2 : b.alloc = true) :
    b.bp = NEXT_BLKP h.mem a.bp ∧
    ∃ h1 h2 k1 k2, mm_free h a.bp = some h1 ∧ mm_free h1 b.bp = some h2 ∧
      mm_free h b.bp = some k1 ∧ mm_free k1 a.bp = some k2 ∧
      blocks k2 = blocks h2 ∧
      (∀ i < 18, ∀ x, x ∈ free_list k2 i ↔ x ∈ free_list h2 i) ∧
      ∃ m, blocks h2 = before A ++ [m] ++ after B ∧ m.alloc = false ∧ m.bp ≤ a.bp ∧
        b.bp + b.size ≤ m.bp + m.size ∧
        m.size = total_size (prev_free A) + a.size + b.size + total_size (next_free B) ∧
        ∀ c ∈ blocks h2, c.alloc = false → c.bp ≤ a.bp → b.bp + b.size ≤ c.bp + c.size →
          c = m := by
  obtain ⟨bs, Ls, hl, hL, hF⟩ := hw
  rw [blocks_eq h bs hl] at hb
  subst hb
  have hl1 : Layout h (A ++ [a] ++ b :: B) := by
    have e0 : A ++ [a, b] ++ B = A ++ [a] ++ b :: B := by simp
    rw [← e0]
    exact hl
  have hle := prev_total_le h A (b :: B) a hl1
  obtain ⟨n1, _, _⟩ := next_reads h A B a b hl1
  have hnx := (layout_reads h _ hl a (by simp)).2.1
  obtain ⟨_, _, a3, _⟩ := layout_block h _ hl a (by simp)
  obtain ⟨_, _, b3, _⟩ := layout_block h _ hl b (by simp)
  obtain ⟨h1, h2, Ls2, f1, f2, f3, f4, f5⟩ := free_pair_ab h A B a b Ls hl hL hF ha hb2
  obtain ⟨k1, k2, Ls3, g1, g2, g3, g4, g5⟩ := free_pair_ba h A B a b Ls hl hL hF ha hb2
  refine ⟨by rw [hnx, n1], h1, h2, k1, k2, f1, f2, g1, g2, ?_, ?_, _, blocks_eq h2 _ f3, rfl,
    Nat.sub_le _ _, ?_, rfl, ?_⟩
  · rw [blocks_eq h2 _ f3, blocks_eq k2 _ g3]
  · intro i hi x
    rw [mem_free_list_iff k2 _ _ g3 g4 g5 i hi x, mem_free_list_iff h2 _ _ f3 f4 f5 i hi x]
  · show b.bp + b.size ≤ a.bp - total_size (prev_free A) +
      (total_size (prev_free A) + a.size + b.size + total_size (next_free B))
    omega
  · intro c hc hcf c1 c2
    rw [blocks_eq h2 _ f3] at hc
    rcases tiling_disjoint h2.mem _ _ _ f3.til c hc
      ⟨a.bp - total_size (prev_free A),
        total_size (prev_free A) + a.size + b.size + total_size (next_free B), false⟩
      (by simp) with e | e | e
    · exact e
    · exfalso
      simp only at e
      omega
    · exfalso
      simp only at e
      omega

theorem C11_free_either_order_witness :
    WellFormed heap2 ∧
    blocks heap2 = [] ++ [⟨192, 56, true⟩, ⟨248, 56, true⟩] ++ [⟨304, 3984, false⟩] ∧
    (248 = NEXT_BLKP heap2.mem 192 ∧
    ∃ h1 h2 k1 k2, mm_free heap2 192 = some h1 ∧ mm_free h1 248 = some h2 ∧
      mm_free heap2 248 = some k1 ∧ mm_free k1 192 = some k2 ∧
      blocks k2 = blocks h2 ∧
      (∀ i < 18, ∀ x, x ∈ free_list k2 i ↔ x ∈ free_list h2 i) ∧
      ∃ m, blocks h2 = before [] ++ [m] ++ after [⟨304, 3984, false⟩] ∧ m.alloc = false ∧
        m.bp ≤ 192 ∧ 248 + 56 ≤ m.bp + m.size ∧
        m.size = total_size (prev_free []) + 56 + 56 +
          total_size (next_free [⟨304, 3984, false⟩]) ∧
        ∀ c ∈ blocks h2, c.alloc = false → c.bp ≤ 192 → 248 + 56 ≤ c.bp + c.size →
          c = m) :=
  ⟨heap2_wf, by decide,
    C11_free_either_order heap2 [] [⟨304, 3984, false⟩] ⟨192, 56, true⟩ ⟨248, 56, true⟩
      heap2_wf (by decide) rfl rfl⟩

/-! ### Allocation failure -/

/-- C13: in every state (well-formed or not) and for every `size > 0`, when
`find_fit` finds no block for the adjusted size and `mem_sbrk` refuses the
request that `extend_heap` makes, `mm_malloc(size)` returns `NULL` and the
state after the call is the state before it: every heap word, every list head
and the size of the heap. -/
theorem C13_malloc_no_memory (h : Heap) (size : Nat) (h0 : 0 < size)
    (hf : find_fit h (adjust_size size) = some NULL)
    (hs : mem_sbrk h (u64 (extend_size size (adjust_size size) / WSIZE * WSIZE)) = none) :
    mm_malloc h size = some (h, NULL) :=
  malloc_no_room h size (by omega) hf hs

theorem C13_malloc_no_memory_witness :
    WellFormed heap_full ∧ 0 < 5000 ∧ find_fit heap_full (adjust_size 5000) = some NULL ∧
      mem_sbrk heap_full (u64 (extend_size 5000 (adjust_size 5000) / WSIZE * WSIZE)) = none ∧
      mm_malloc heap_full 5000 = some (heap_full, NULL) :=
  ⟨heap_full_wf, by decide, by decide!, by rfl,
    C13_malloc_no_memory heap_full 5000 (by decide) (by decide!) (by rfl)⟩

/-- C20: in every state, when `mm_realloc(ptr, size)` reaches its last part
(no in-place case applies; `size` and `ptr` are not zero) and the `mm_malloc`
there fails, `find_fit` finding no block and `mem_sbrk` refusing the request,
then `mm_realloc` returns `NULL` and the state after the call is the state
before it: the block at `ptr` keeps header, footer and payload and stays
allocated, and no other heap word and no list head changes. -/
theorem C20_realloc_no_memory (h : Heap) (ptr size : Nat)
    (hfb : takes_fallback h ptr size = true)
    (hf : find_fit h (adjust_size size) = some NULL)
    (hs : mem_sbrk h (u64 (extend_size size (adjust_size size) / WSIZE * WSIZE)) = none) :
    mm_malloc h size = some (h, NULL) ∧ mm_realloc h ptr size = some (h, NULL) := by
  have h0 : size ≠ 0 := by
    unfold takes_fallback at hfb
    simp only [decide_eq_true_eq] at hfb
    exact hfb.1
  have hm := malloc_no_room h size h0 hf hs
  exact ⟨hm, by rw [realloc_tail h ptr size hfb]; exact realloc_copy_null h ptr size hm⟩

theorem C20_realloc_no_memory_witness :
    WellFormed heap_full ∧ is_live heap_full 192 = true ∧
      takes_fallback heap_full 192 5000 = true ∧
      find_fit heap_full (adjust_size 5000) = some NULL ∧
      mem_sbrk heap_full (u64 (extend_size 5000 (adjust_size 5000) / WSIZE * WSIZE)) = none ∧
      (mm_malloc heap_full 5000 = some (heap_full, NULL) ∧
        mm_realloc heap_full 192 5000 = some (heap_full, NULL)) :=
  ⟨heap_full_wf, by decide!, by decide!, by decide!, by rfl,
    C20_realloc_no_memory heap_full 192 5000 (by decide!) (by decide!) (by rfl)⟩

/-! ### The copy of `mm_realloc` -/

/-- When `mm_realloc` reaches its last part for a request below `2^31 - 24`,
the block has to grow. -/
theorem fallback_grows (h : Heap) (ptr size old : Nat) (hs : size + 24 ≤ 2 ^ 31)
    (hold : GET_SIZE (h.mem (HDRP ptr)) = old) (ho : old < 2 ^ 31)
    (hf : takes_fallback h ptr size = true) : old < realloc_asize size := by
  unfold takes_fallback realloc_asize_int at hf
  simp only [decide_eq_true_eq, ra_eq size hs, hold, toInt_small old ho] at hf
  obtain ⟨h0, _, h1, h2, _⟩ := hf
  obtain ⟨r1, r2, r3, r4, r5⟩ := realloc_asize_facts size (by omega)
  rw [sd_eq old _ ho (by omega)] at h2
  omega

/-- C18, as stated, fails: on the well-formed heap `heap2` the block at 192 has
56 bytes, 40 of them payload, and `mm_realloc(192, 100)` cannot resize it in
place. The number of bytes passed to `memcpy` is 56, not `min(40, 100) = 40`:
the new block at 304 receives, behind the 40 payload bytes, the footer of the
old block and the header of the block behind it (both 57), in words that held 0
before the call. -/
theorem C18_counterexample :
    WellFormed heap2 ∧ is_live heap2 192 = true ∧ takes_fallback heap2 192 100 = true ∧
    GET_SIZE (heap2.mem (HDRP 192)) = 56 ∧ copy_len heap2 192 100 = 56 ∧
    min (56 - DSIZE) 100 = 40 ∧
    heap2.mem (FTRP heap2.mem 192) = 57 ∧ FTRP heap2.mem 192 = 192 + 40 ∧
    heap2.mem (HDRP (NEXT_BLKP heap2.mem 192)) = 57 ∧
    HDRP (NEXT_BLKP heap2.mem 192) = 192 + 48 ∧
    heap2.mem (304 + 40) = 0 ∧ heap2.mem (304 + 48) = 0 ∧
    (mm_realloc heap2 192 100).map (fun r => (r.2, r.1.mem (304 + 40), r.1.mem (304 + 48))) =
      some (304, 57, 57) :=
  ⟨heap2_wf, by decide!⟩

/-- C19: on the well-formed heap `heap1`, `mm_realloc(192, 2^32 + 8)` on the
allocated block of 56 bytes at 192 returns 192, not `NULL`, and the block there
is cut to 24 bytes, far less than `size + DSIZE`: the conversion
`(int)size` keeps the low 32 bits of the request only. -/
theorem C19_realloc_truncates :
    WellFormed heap1 ∧ is_live heap1 192 = true ∧ blocks heap1 = [⟨192, 56, true⟩, ⟨248, 4040, false⟩] ∧
    toInt (2 ^ 32 + 8) = 8 ∧
    (mm_realloc heap1 192 (2 ^ 32 + 8)).map (fun r => (r.2, blocks r.1)) =
      some (192, [⟨192, 24, true⟩, ⟨216, 4072, false⟩]) :=
  ⟨heap1_wf, by decide!⟩

/-- C12: on the well-formed heap `heap1`, which has a free block of 4040 bytes,
`mm_malloc(2^64 - 16)` does not return: the adjusted size `DSIZE + size` wraps
around to 0, no more than the size of the free block, and `assert(asize > 0)`
of `find_block_from_list` fails. -/
theorem C12_malloc_asserts :
    WellFormed heap1 ∧ blocks heap1 = [⟨192, 56, true⟩, ⟨248, 4040, false⟩] ∧ adjust_size (2 ^ 64 - 16) = 0 ∧
    (mm_malloc heap1 (2 ^ 64 - 16)).isNone = true ∧
    find_block_from_list heap1 (heap1.mem (seg_at heap1 0)) (toInt 0) = none :=
  ⟨heap1_wf, by decide!⟩

/-! ### Reuse of a free block -/

theorem get_list_index_loop_ge (fuel : Nat) :
    ∀ (count list : Nat), list ≤ 17 → list ≤ get_list_index_loop fuel count list := by
  induction fuel with
  | zero => intro count list h; simpa [get_list_index_loop, SEGLST_NUM] using h
  | succ n ih =>
    intro count list h
    unfold get_list_index_loop
    simp only [SEGLST_NUM, LOW_BOUND]
    split_ifs with c1 c2
    · exact Nat.le_refl _
    · have := ih (count >>> 1) (list + 1) (by omega)
      omega
    · omega

/-- The loop of `get_list_index` is monotonic in the size. -/
theorem get_list_index_loop_mono (fuel : Nat) :
    ∀ (c1 c2 list : Nat), c1 ≤ c2 →
      get_list_index_loop fuel c1 list ≤ get_list_index_loop fuel c2 list := by
  induction fuel with
  | zero => intro c1 c2 list h; simp [get_list_index_loop]
  | succ n ih =>
    intro c1 c2 list h
    unfold get_list_index_loop
    simp only [SEGLST_NUM, LOW_BOUND]
    by_cases hl : list < 18
    · rw [if_pos hl, if_pos hl]
      by_cases k1 : c1 ≤ 128 ∨ list = 18 - 1
      · rw [if_pos k1]
        by_cases k2 : c2 ≤ 128 ∨ list = 18 - 1
        · rw [if_pos k2]
        · rw [if_neg k2]
          have := get_list_index_loop_ge n (c2 >>> 1) (list + 1) (by omega)
          omega
      · rw [if_neg k1]
        have k2 : ¬ (c2 ≤ 128 ∨ list = 18 - 1) := by omega
        rw [if_neg k2]
        refine ih _ _ _ ?_
        simp only [Nat.shiftRight_eq_div_pow, pow_one]
        omega
    · rw [if_neg hl, if_neg hl]

/-- The size class is monotonic in the size. -/
theorem class_of_mono (a b : Nat) (h : a ≤ b) : class_of a ≤ class_of b :=
  get_list_index_loop_mono _ _ _ _ h

/-- A list that has a member of at least `asize` bytes yields a hit. -/
theorem hit_ne_zero (h : Heap) (bs : List Block) (Ls : Nat → List Nat) (hl : Layout h bs)
    (hL : Lists h bs Ls) (i : Nat) (hi : i < 18) (asize : Nat) (b : Block) (hb : b ∈ bs)
    (hin : b.bp ∈ Ls i) (hsz : asize ≤ b.size) : hit h.mem (asize : Int) (Ls i) ≠ 0 := by
  obtain ⟨k1, k2, k3, k4, k5, k6, k7, k8⟩ := layout_block h _ hl b hb
  have hcs := (layout_reads h _ hl b hb).1
  unfold hit
  cases hfind : (Ls i).find? (fun x => decide (toInt (GET_SIZE (h.mem (HDRP x))) ≥ asize)) with
  | none =>
    exfalso
    have := List.find?_eq_none.1 hfind b.bp hin
    rw [hcs, toInt_small b.size k6] at this
    simp only [ge_iff_le, Nat.cast_le, decide_eq_true_eq] at this
    exact this hsz
  | some x =>
    simp only [Option.getD_some]
    have hx : x ∈ Ls i := List.mem_of_find?_eq_some hfind
    obtain ⟨c, hc, c1, _⟩ := hL.members i hi x hx
    have := (layout_block h _ hl c hc).1
    omega

/-- The search of `find_fit` succeeds when a block of at least `asize` bytes
is on the list of its class and the search starts at or below that class. -/
theorem fit_from_complete (h : Heap) (bs : List Block) (Ls : Nat → List Nat)
    (hl : Layout h bs) (hL : Lists h bs Ls) (asize : Nat) (b : Block) (hb : b ∈ bs)
    (hin : b.bp ∈ Ls (class_of b.size)) (hsz : asize ≤ b.size) :
    ∀ (fuel i : Nat), i ≤ class_of b.size → class_of b.size < i + fuel →
      fit_from h.mem Ls (asize : Int) fuel i ≠ 0 := by
  intro fuel
  induction fuel with
  | zero => intro i h1 h2; omega
  | succ n ih =>
    intro i h1 h2
    have hc := class_of_lt b.size
    unfold fit_from
    rw [if_pos (by omega)]
    by_cases hh : hit h.mem (asize : Int) (Ls i) ≠ 0
    · rw [if_pos hh]
      exact hh
    · rw [if_neg hh]
      have hne : i ≠ class_of b.size := by
        intro e
        rw [e] at hh
        exact hh (hit_ne_zero h bs Ls hl hL _ hc asize b hb hin hsz)
      exact ih (i + 1) (by omega) (by omega)

/-- Function `mm_malloc` on a well-formed heap that has a free block of at
least the adjusted size, for a request below `2^31`: the call returns a
pointer into a block that was free, and the heap has the size it had. -/
theorem malloc_reuse (h : Heap) (size : Nat) (hw : WellFormed h) (h0 : 0 < size)
    (hs : size < 2 ^ 31)
    (hex : ∃ b ∈ blocks h, b.alloc = false ∧ adjust_size size ≤ b.size) :
    ∃ h1 p c, mm_malloc h size = some (h1, p) ∧ h1.brk = h.brk ∧ p ≠ NULL ∧ c ∈ blocks h ∧
      c.alloc = false ∧ adjust_size size ≤ c.size ∧ c.bp ≤ p ∧ p < c.bp + c.size := by
  obtain ⟨bs, Ls, hl, hL, hF⟩ := hw
  rw [blocks_eq h bs hl] at hex ⊢
  obtain ⟨b, hb, hbf, hbs⟩ := hex
  obtain ⟨k1, k2, k3, k4, k5, k6, k7, k8⟩ := layout_block h _ hl b hb
  obtain ⟨a1, a2, a3, a4⟩ := adjust_size_facts size hs h0
  have hfit := fit_from_complete h bs Ls hl hL (adjust_size size) b hb (hF.complete b hb hbf)
    hbs 18 (class_of (adjust_size size)) (class_of_mono _ _ hbs)
    (by have := class_of_lt b.size; omega)
  have hlast : ∀ c ∈ prev_free bs, c.bp ∈ Ls (class_of c.size) := fun c hc =>
    hF.complete c (prev_free_sub bs c hc) (prev_free_free bs c hc)
  rcases mm_malloc_spec h bs Ls size hl hL h0 hs (by omega) hlast with
    ⟨A, c, B, h1, e1, e2, e3, e4, e5, e6, e7, e8, e9⟩ |
    ⟨e1, _⟩ | ⟨e1, _⟩
  · subst e1
    have hcm : c ∈ A ++ [c] ++ B := by simp
    obtain ⟨cf, csz⟩ := member_free h _ Ls hl hL c hcm e2
    obtain ⟨c1, _⟩ := layout_block h _ hl c hcm
    refine ⟨h1, _, c, e5, e6.1, ?_, hcm, cf, e3, ?_, ?_⟩
    · unfold place_ptr NULL
      split_ifs <;> omega
    · unfold place_ptr
      split_ifs <;> omega
    · unfold place_ptr
      split_ifs <;> omega
  · exact absurd e1 hfit
  · exact absurd e1 hfit

/-- The scenario of the specification: after `mm_malloc` of 16, 32, 512 and
4096 bytes and `mm_free` of the first two blocks (32 and 48 bytes, coalesced to
a free block of 80 bytes at 192), `mm_malloc(64)`, whose adjusted size is 80,
returns 192 and the heap keeps its size. -/
theorem malloc_reuse_example :
    adjust_size 64 = 80 ∧
    (run_calls heap0 [Call.malloc 16, Call.malloc 32, Call.malloc 512, Call.malloc 4096,
      Call.free 192, Call.free 224]).map (fun r => (r.2, blocks r.1, r.1.brk)) =
      some ([192, 224, 272, 928, 0, 0], [⟨192, 80, false⟩, ⟨272, 656, true⟩,
        ⟨928, 4240, true⟩, ⟨5168, 3488, false⟩], 8656) ∧
    (run_calls heap0 [Call.malloc 16, Call.malloc 32, Call.malloc 512, Call.malloc 4096,
      Call.free 192, Call.free 224, Call.malloc 64]).map
        (fun r => (r.2, blocks r.1, r.1.brk)) =
      some ([192, 224, 272, 928, 0, 0, 192], [⟨192, 80, true⟩, ⟨272, 656, true⟩,
        ⟨928, 4240, true⟩, ⟨5168, 3488, false⟩], 8656) := by
  decide!

/-! ### What the copy of `mm_realloc` leaves in the new block -/

/-- Whole words copied by `memcpy`. -/
theorem memcpy_word (m : Nat → Nat) (dst src n k : Nat) (hk : k % 8 = 0) (hn : k + 8 ≤ n) :
    memcpy m dst src n (dst + k) = m (src + k) := by
  unfold memcpy
  have e : dst + k - dst = k := by omega
  simp only [e, WSIZE]
  rw [if_pos ⟨by omega, by omega, hk⟩, if_pos hn]

/-- The last part of `mm_realloc` on a well-formed heap, for a request below
`2^31 - 160`: when it returns a new block, every whole word among the bytes
passed to `memcpy` holds what the word at the same offset from the old block
held after `mm_malloc`, which for the words of the old block up to its footer
is what it held before the call. -/
theorem realloc_copy_content (h : Heap) (A B : List Block) (b : Block) (Ls : Nat → List Nat)
    (size : Nat) (hl : Layout h (A ++ [b] ++ B)) (hL : Lists h (A ++ [b] ++ B) Ls)
    (hF : Full (A ++ [b] ++ B) Ls) (ha : b.alloc = true) (h0 : size ≠ 0)
    (hs : size + 160 ≤ 2 ^ 31) (h3 : Heap) (q : Nat)
    (hr : realloc_copy h b.bp size = some (h3, q)) (hq : q ≠ 0) :
    ∃ h1, mm_malloc h size = some (h1, q) ∧
      ∀ k, k % 8 = 0 → k + 8 ≤ copy_len h b.bp size →
        h3.mem (q + k) = h1.mem (b.bp + k) ∧
        (k + 16 ≤ b.size → h1.mem (b.bp + k) = h.mem (b.bp + k)) := by
  have hbm : b ∈ A ++ [b] ++ B := by simp
  obtain ⟨k1, k2, k3, k4, k5, k6, k7, k8⟩ := layout_block h _ hl b hbm
  have hcs := (layout_reads h _ hl b hbm).1
  obtain ⟨a1, a2, a3, a4⟩ := adjust_size_facts size (by omega) (by omega)
  obtain ⟨h1, p, bs1, Ls1, e, s1, s2, s3, s4, l1, L1, F1, k, hper, hp0, hp1⟩ :=
    mm_malloc_full h _ Ls size hl hL hF (by omega) (by omega) (by omega)
  clear k7 k8
  unfold realloc_copy copy_len at hr
  unfold copy_len
  rw [e, hcs] at hr
  rw [hcs]
  simp only [NULL] at hr
  by_cases hp : p = 0
  · rw [if_pos hp] at hr
    simp only [Option.some.injEq, Prod.mk.injEq] at hr
    exact absurd hr.2.symm hq
  · rw [if_neg hp] at hr
    obtain ⟨c, hc, c1, c2, c3, c4⟩ := hp1 hp
    subst c1
    have hb1 := hper b hbm ha
    obtain ⟨A1, B1, hsplit⟩ := List.append_of_mem hb1
    have hsplit2 : bs1 = A1 ++ [b] ++ B1 := by rw [hsplit]; simp
    subst hsplit2
    have hnle : (if size < b.size then size else b.size) + 16 ≤ c.size := by
      split_ifs <;> omega
    obtain ⟨m1, m2⟩ := memcpy_spec h1 _ Ls1 c b.bp _ l1 L1 hc c2 hnle
    obtain ⟨h3a, f1, f2, f3, f4, f5, f6⟩ := mm_free_full _ A1 B1 b Ls1 m1 m2 F1 ha
    rw [f1] at hr
    simp only [Option.some.injEq, Prod.mk.injEq] at hr
    obtain ⟨hr1, hr2⟩ := hr
    subst hr1
    subst hr2
    have hcne : c ≠ b := fun hcb => c4 b hbm ha hcb.symm
    have hcin : c ∈ before A1 ++ after B1 := by
      simp only [List.mem_append, List.mem_singleton] at hc ⊢
      rcases hc with (g | g) | g
      · exact Or.inl (alloc_before A1 c g c2)
      · exact absurd g hcne
      · exact Or.inr (alloc_after B1 c g c2)
    refine ⟨h1, e, ?_⟩
    intro j hj1 hj2
    have hj2 : j + 8 ≤ (if size < b.size then size else b.size) := hj2
    constructor
    · rw [f6 c hcin c2 (c.bp + j) (by omega) (by omega)]
      exact memcpy_word h1.mem c.bp b.bp _ j hj1 hj2
    · intro hj3
      exact k b hbm ha (b.bp + j) (by omega) (by omega)

/-- C18, amended: on a well-formed heap, when `mm_realloc(ptr, size)` on an
allocated block cannot resize it in place, it is its last part (allocate,
copy, free), and the number of bytes it passes to `memcpy` is exactly
`min(size, old block size)`, the old block size being the size in the header of
`ptr`, header and footer included. This is more than the old payload size: the
copy reads up to `DSIZE` bytes behind the payload of the old block. For a
request below `2^31 - 160` that returns a new block `q`, every whole word among
these bytes of `q` holds afterwards what the word at the same offset from `ptr`
held after `mm_malloc`, which up to the footer of the old block is what it held
before the call. -/
theorem C18_copy_length (h : Heap) (ptr size : Nat) (hw : WellFormed h)
    (hv : is_live h ptr = true) (hf : takes_fallback h ptr size = true) :
    mm_realloc h ptr size = realloc_copy h ptr size ∧
      copy_len h ptr size = min size (GET_SIZE (h.mem (HDRP ptr))) ∧
      GET_SIZE (h.mem (HDRP ptr)) - DSIZE < copy_len h ptr size ∧
      (size + 160 ≤ 2 ^ 31 → ∀ h3 q, mm_realloc h ptr size = some (h3, q) → q ≠ NULL →
        ∃ h1, mm_malloc h size = some (h1, q) ∧
          ∀ k, k % WSIZE = 0 → k + WSIZE ≤ copy_len h ptr size →
            h3.mem (q + k) = h1.mem (ptr + k) ∧
            (k + DSIZE ≤ GET_SIZE (h.mem (HDRP ptr)) → h1.mem (ptr + k) = h.mem (ptr + k))) := by
  obtain ⟨bs, Ls, hl, hL, hF⟩ := hw
  obtain ⟨A, b, B, e1, e2, e3⟩ := live_block h bs hl ptr hv
  subst e1
  subst e2
  have hbm : b ∈ A ++ [b] ++ B := by simp
  obtain ⟨k1, k2, k3, k4, k5, k6, k7, k8⟩ := layout_block h _ hl b hbm
  have hcs := (layout_reads h _ hl b hbm).1
  obtain ⟨nbs, n1, n2⟩ := next_size_bound h A B b hl
  have hD : DSIZE = 16 := rfl
  have hW : WSIZE = 8 := rfl
  have h0 : size ≠ 0 := by
    unfold takes_fallback at hf
    simp only [decide_eq_true_eq] at hf
    exact hf.1
  have htail := realloc_tail h b.bp size hf
  have hsz : b.size < size + 16 := by
    by_cases hs : size + 24 ≤ 2 ^ 31
    · have hg := fallback_grows h b.bp size b.size hs hcs k6 hf
      obtain ⟨r1, r2, r3, r4, r5⟩ := realloc_asize_facts size (by omega)
      omega
    · omega
  have hlen : copy_len h b.bp size = if size < b.size then size else b.size := by
    unfold copy_len
    rw [hcs]
  refine ⟨htail, ?_, ?_, ?_⟩
  · rw [hlen, hcs, Nat.min_def]
    split_ifs <;> omega
  · rw [hlen, hcs, hD]
    split_ifs <;> omega
  · intro hs h3 q hr hq
    rw [htail] at hr
    rw [hcs, hD, hW]
    exact realloc_copy_content h A B b Ls size hl hL hF e3 h0 hs h3 q hr hq

theorem C18_copy_length_witness :
    WellFormed heap2 ∧ is_live heap2 192 = true ∧ takes_fallback heap2 192 100 = true ∧
    (mm_realloc heap2 192 100 = realloc_copy heap2 192 100 ∧
      copy_len heap2 192 100 = min 100 (GET_SIZE (heap2.mem (HDRP 192))) ∧
      GET_SIZE (heap2.mem (HDRP 192)) - DSIZE < copy_len heap2 192 100 ∧
      (100 + 160 ≤ 2 ^ 31 → ∀ h3 q, mm_realloc heap2 192 100 = some (h3, q) → q ≠ NULL →
        ∃ h1, mm_malloc heap2 100 = some (h1, q) ∧
          ∀ k, k % WSIZE = 0 → k + WSIZE ≤ copy_len heap2 192 100 →
            h3.mem (q + k) = h1.mem (192 + k) ∧
            (k + DSIZE ≤ GET_SIZE (heap2.mem (HDRP 192)) →
              h1.mem (192 + k) = heap2.mem (192 + k)))) :=
  ⟨heap2_wf, by decide!, by decide!,
    C18_copy_length heap2 192 100 heap2_wf (by decide!) (by decide!)⟩

/-! ### The adjusted size -/

/-- C23, as stated, fails: for a request of 256 bytes `mm_malloc` uses the
adjusted size 400, not 256 rounded up to a multiple of `WSIZE` plus `DSIZE`,
which is 272; for 4092 bytes it uses 4120, not 4112. -/
theorem C23_counterexample :
    adjust_size 256 = 400 ∧ adjust_size_spec 256 = 272 ∧
    adjust_size 4092 = 4120 ∧ adjust_size_spec 4092 = 4112 ∧
    (mm_malloc heap0 256).map (fun r => (r.2, blocks r.1)) =
      some (192, [⟨192, 400, true⟩, ⟨592, 3696, false⟩]) := by
  decide!

/-- C23, amended: for every request `size > 0` of type `size_t`, the adjusted
block size that `mm_malloc` uses for `find_fit` and `place` is, in `size_t`
arithmetic (modulo `2^64`): `DSIZE + 4104` for the request 4092,
`DSIZE + size + 128` for a multiple of 128 other than 128, and otherwise
`2 * DSIZE` when `size ≤ DSIZE` and else `size` rounded up to a multiple of
`WSIZE` plus `DSIZE`. The value `640 + 16` that replaces it for the request 512
before `place` on a new chunk is the same value. -/
theorem C23_adjusted_size (size : Nat) (h0 : 0 < size) (hs : size < 2 ^ 64) :
    adjust_size size =
      u64 (if size = 4092 then DSIZE + 4104
        else if size % 128 = 0 ∧ size ≠ 128 then DSIZE + size + 128
        else adjust_size_spec size) ∧
    (if size = 512 then 640 + 16 else adjust_size size) = adjust_size size := by
  constructor
  · unfold adjust_size adjust_size_spec u64 DSIZE WSIZE
    simp only []
    split_ifs <;> omega
  · unfold adjust_size u64 DSIZE WSIZE
    simp only []
    split_ifs <;> omega

theorem C23_adjusted_size_witness :
    0 < 100 ∧ 100 < 2 ^ 64 ∧
    (adjust_size 100 =
      u64 (if 100 = 4092 then DSIZE + 4104
        else if 100 % 128 = 0 ∧ 100 ≠ 128 then DSIZE + 100 + 128
        else adjust_size_spec 100) ∧
    (if 100 = 512 then 640 + 16 else adjust_size 100) = adjust_size 100) :=
  ⟨by decide, by decide, C23_adjusted_size 100 (by decide) (by decide)⟩

/-! ### The size class -/

/-- The loop of `get_list_index` returns the first class from `list` on at
which the halved count is at most `LOW_BOUND`, or the last class. -/
theorem get_list_index_loop_least (fuel : Nat) :
    ∀ (count list : Nat), list ≤ 17 → 17 - list < fuel →
      list ≤ get_list_index_loop fuel count list ∧
      get_list_index_loop fuel count list ≤ 17 ∧
      (count >>> (get_list_index_loop fuel count list - list) ≤ 128 ∨
        get_list_index_loop fuel count list = 17) ∧
      ∀ j, list ≤ j → j < get_list_index_loop fuel count list →
        ¬ (count >>> (j - list) ≤ 128) := by
  induction fuel with
  | zero => intro count list h1 h2; omega
  | succ n ih =>
    intro count list h1 h2
    unfold get_list_index_loop
    simp only [SEGLST_NUM, LOW_BOUND]
    rw [if_pos (by omega)]
    by_cases k1 : count ≤ 128 ∨ list = 18 - 1
    · rw [if_pos k1]
      refine ⟨Nat.le_refl _, h1, ?_, fun j a b => by omega⟩
      rcases k1 with k1 | k1
      · left
        simpa using k1
      · right
        omega
    · rw [if_neg k1]
      have hl : list < 17 := by omega
      obtain ⟨a1, a2, a3, a4⟩ := ih (count >>> 1) (list + 1) (by omega) (by omega)
      generalize get_list_index_loop n (count >>> 1) (list + 1) = r at a1 a2 a3 a4
      have hsh : ∀ d, count >>> 1 >>> d = count >>> (d + 1) := by
        intro d
        rw [Nat.add_comm, Nat.shiftRight_add]
      refine ⟨by omega, a2, ?_, ?_⟩
      · rcases a3 with a3 | a3
        · left
          rw [hsh] at a3
          have e : r - (list + 1) + 1 = r - list := by omega
          rw [e] at a3
          exact a3
        · right
          exact a3
      · intro j j1 j2
        by_cases hj : j = list
        · subst hj
          simp only [Nat.sub_self, Nat.shiftRight_zero]
          omega
        · have := a4 j (by omega) j2
          rw [hsh] at this
          have e : j - (list + 1) + 1 = j - list := by omega
          rw [e] at this
          exact this

/-- C24, as stated, fails: `get_list_index(128)` is 0, because the loop tests
`count <= LOW_BOUND`, while the least `i` with `(128 >> i) < 128` is 1. -/
theorem C24_counterexample :
    get_list_index 128 = some 0 ∧ list_index_spec 128 = 1 ∧
    get_list_index 256 = some 1 ∧ list_index_spec 256 = 2 := by
  decide

/-- C24, amended: for every `size ≥ 0`, `get_list_index(size)` returns the
least `i` in `0..17` such that `size >> i` is at most `LOW_BOUND = 128` or
`i = 17`: the count is halved until it is at most (not: below) the low bound or
the last class is reached. -/
theorem C24_list_index (size : Int) (h0 : 0 ≤ size) :
    ∃ i, get_list_index size = some i ∧ i ≤ SEGLST_NUM - 1 ∧
      (size.toNat >>> i ≤ LOW_BOUND ∨ i = SEGLST_NUM - 1) ∧
      ∀ j < i, ¬ (size.toNat >>> j ≤ LOW_BOUND) := by
  obtain ⟨a1, a2, a3, a4⟩ := get_list_index_loop_least SEGLST_NUM size.toNat 0 (by omega)
    (by unfold SEGLST_NUM; omega)
  refine ⟨get_list_index_loop SEGLST_NUM size.toNat 0, ?_, a2, ?_, ?_⟩
  · unfold get_list_index
    rw [if_neg (by omega)]
  · simpa [SEGLST_NUM, LOW_BOUND] using a3
  · intro j hj
    simpa [LOW_BOUND] using a4 j (Nat.zero_le _) hj

theorem C24_list_index_witness :
    (0 : Int) ≤ 128 ∧
    ∃ i, get_list_index 128 = some i ∧ i ≤ SEGLST_NUM - 1 ∧
      ((128 : Int).toNat >>> i ≤ LOW_BOUND ∨ i = SEGLST_NUM - 1) ∧
      ∀ j < i, ¬ ((128 : Int).toNat >>> j ≤ LOW_BOUND) :=
  ⟨by decide, C24_list_index 128 (by decide)⟩

/-- C25: the size class is monotonic: for all `int` sizes `a` and `b` with
`0 ≤ a ≤ b < 2^31`, `get_list_index` returns on both and
`get_list_index(a) ≤ get_list_index(b)`. -/
theorem C25_list_index_monotonic (a b : Int) (h0 : 0 ≤ a) (hab : a ≤ b) (hb : b < 2 ^ 31) :
    ∃ i j, get_list_index a = some i ∧ get_list_index b = some j ∧ i ≤ j := by
  refine ⟨_, _, ?_, ?_, get_list_index_loop_mono SEGLST_NUM a.toNat b.toNat 0 (by omega)⟩
  · unfold get_list_index
    rw [if_neg (by omega)]
  · unfold get_list_index
    rw [if_neg (by omega)]

theorem C25_list_index_monotonic_witness :
    (0 : Int) ≤ 128 ∧ (128 : Int) ≤ 129 ∧ (129 : Int) < 2 ^ 31 ∧
    ∃ i j, get_list_index 128 = some i ∧ get_list_index 129 = some j ∧ i ≤ j :=
  ⟨by decide, by decide, by decide,
    C25_list_index_monotonic 128 129 (by decide) (by decide) (by decide)⟩

/-! ### The fit search -/

/-- C30: on the well-formed heap `heap1`, whose only free block has 4040 bytes
and is the only member of list 5, `find_fit(2^32 + 32)` (the adjusted size of
a request of `2^32 + 16` bytes) returns that block, not `NULL`:
`get_list_index` and `find_block_from_list` take the size as an `int`, which
keeps the low 32 bits, 32. For the adjusted size `2^31` the `assert` of
`get_list_index` fails. -/
theorem C30_find_fit_truncates :
    WellFormed heap1 ∧ blocks heap1 = [⟨192, 56, true⟩, ⟨248, 4040, false⟩] ∧
    (List.range 18).map (free_list heap1) =
      [[], [], [], [], [], [248], [], [], [], [], [], [], [], [], [], [], [], []] ∧
    adjust_size (2 ^ 32 + 16) = 2 ^ 32 + 32 ∧ toInt (2 ^ 32 + 32) = 32 ∧
    find_fit heap1 (2 ^ 32 + 32) = some 248 ∧
    find_fit heap1 (2 ^ 31) = none :=
  ⟨heap1_wf, by decide!⟩

/-! ### Program `factors.c` -/

theorem two_pow_length_le_prod (l : List Nat) (h : ∀ p ∈ l, 2 ≤ p) : 2 ^ l.length ≤ l.prod := by
  induction l with
  | nil => simp
  | cons a l ih =>
    have h1 := ih (fun p hp => h p (List.mem_cons_of_mem _ hp))
    have h2 := h a (List.mem_cons_self _ _)
    simp only [List.length_cons, List.prod_cons, pow_succ]
    calc 2 ^ l.length * 2 ≤ l.prod * a := Nat.mul_le_mul h1 h2
      _ = a * l.prod := Nat.mul_comm _ _

/-- A number below `2^32` has fewer than 32 prime factors. -/
theorem factors_length_lt (n : Nat) (h1 : 1 ≤ n) (h2 : n < 2 ^ 32) :
    n.primeFactorsList.length < 32 := by
  have h := two_pow_length_le_prod n.primeFactorsList
    (fun p hp => (Nat.prime_of_mem_primeFactorsList hp).two_le)
  rw [Nat.prod_primeFactorsList (by omega)] at h
  by_contra hc
  have : 2 ^ 32 ≤ 2 ^ n.primeFactorsList.length := Nat.pow_le_pow_right (by omega) (by omega)
  omega

/-- A trial divisor that divides a number without smaller prime factors is
prime. -/
theorem trial_prime (n f : Nat) (hf : 2 ≤ f) (hmin : ∀ p, p.Prime → p ∣ n → f ≤ p)
    (hd : f ∣ n) : f.Prime := by
  obtain ⟨q, hq, hqf⟩ := Nat.exists_prime_and_dvd (show f ≠ 1 by omega)
  have h1 : f ≤ q := hmin q hq (Nat.dvd_trans hqf hd)
  have h2 : q ≤ f := Nat.le_of_dvd (by omega) hqf
  have : q = f := by omega
  rw [← this]
  exact hq

/-- Dividing by a prime factor removes one prime factor. -/
theorem factors_length_div (n f : Nat) (hn : 1 ≤ n) (hf : f.Prime) (hd : f ∣ n) :
    n.primeFactorsList.length = (n / f).primeFactorsList.length + 1 := by
  obtain ⟨c, hc⟩ := hd
  have hf0 : 0 < f := hf.pos
  have hc0 : c ≠ 0 := by
    intro e
    rw [e] at hc
    omega
  have hdiv : n / f = c := by
    rw [hc]
    exact Nat.mul_div_cancel_left c hf0
  rw [hdiv, hc, (Nat.perm_primeFactorsList_mul (by omega) hc0).length_eq, List.length_append,
    Nat.primeFactorsList_prime hf]
  simp
  omega

/-- A number other than 1 that the trial divisor does not divide is larger
than the trial divisor. -/
theorem trial_lt (n f : Nat) (hn : 1 ≤ n) (hn1 : n ≠ 1)
    (hmin : ∀ p, p.Prime → p ∣ n → f ≤ p) (hd : ¬ f ∣ n) : f < n := by
  obtain ⟨q, hq, hqn⟩ := Nat.exists_prime_and_dvd hn1
  have h1 := hmin q hq hqn
  have h2 : q ≤ n := Nat.le_of_dvd (by omega) hqn
  have h3 : q ≠ f := by
    intro e
    rw [e] at hqn
    exact hd hqn
  omega

/-- The loop of `count_factors` adds the number of prime factors of `n` to
`num`, within `2 * n - f + 1` iterations. -/
theorem count_factors_loop_spec :
    ∀ (fuel n f num : Nat), 2 ≤ f → 1 ≤ n → n < 2 ^ 32 →
      (∀ p, p.Prime → p ∣ n → f ≤ p) → 2 * n - f < fuel →
      num + n.primeFactorsList.length < 2 ^ 32 →
      count_factors_loop fuel n f num = some (num + n.primeFactorsList.length) := by
  intro fuel
  induction fuel with
  | zero => intro n f num _ _ _ _ h; omega
  | succ k ih =>
    intro n f num hf hn hn32 hmin hfuel hnum
    unfold count_factors_loop
    by_cases h1 : n = 1
    · subst h1
      simp
    · rw [if_pos h1, if_neg (by omega)]
      by_cases hd : n % f = 0
      · rw [if_pos hd]
        have hdvd : f ∣ n := Nat.dvd_of_mod_eq_zero hd
        have hp := trial_prime n f hf hmin hdvd
        have hlen := factors_length_div n f hn hp hdvd
        have hfn : f ≤ n := Nat.le_of_dvd (by omega) hdvd
        have hq1 : 1 ≤ n / f := Nat.div_pos hfn (by omega)
        have hq2 : n / f < n := Nat.div_lt_self (by omega) (by omega)
        have hu : u32 (num + 1) = num + 1 := Nat.mod_eq_of_lt (by omega)
        rw [hu, ih (n / f) f (num + 1) hf hq1 (by omega)
          (fun p pp pd => hmin p pp (Nat.dvd_trans pd (Nat.div_dvd_of_dvd hdvd)))
          (by omega) (by omega), hlen]
        congr 1
        omega
      · rw [if_neg hd]
        have hnd : ¬ f ∣ n := fun hh => hd (Nat.mod_eq_zero_of_dvd hh)
        have hlt := trial_lt n f hn h1 hmin hnd
        have hu : u32 (f + 1) = f + 1 := Nat.mod_eq_of_lt (by omega)
        rw [hu]
        refine ih n (f + 1) num (by omega) hn hn32 ?_ (by omega) hnum
        intro p pp pd
        have := hmin p pp pd
        have hne : p ≠ f := by
          intro e
          rw [e] at pd
          exact hnd pd
        omega

/-- Function `count_factors` returns the number of prime factors with
multiplicity, within `2 * n` iterations. -/
theorem count_factors_spec (n fuel : Nat) (h1 : 1 < n) (h2 : n < 2 ^ 32) (hf : 2 * n ≤ fuel) :
    count_factors fuel n = some n.primeFactorsList.length := by
  unfold count_factors
  rw [if_neg (by omega)]
  have := count_factors_loop_spec fuel n 2 0 (by omega) (by omega) h2
    (fun p pp _ => pp.two_le) (by omega)
    (by have := factors_length_lt n (by omega) h2; omega)
  simpa using this

/-- A number without prime factors below `k` that is below `k * k` and is not
1 is prime. -/
theorem prime_of_lt_sq (x k : Nat) (hx : 1 ≤ x) (hx1 : x ≠ 1)
    (hmin : ∀ p, p.Prime → p ∣ x → k ≤ p) (hsq : ¬ k * k ≤ x) : x.Prime := by
  by_contra hnp
  have h1 := Nat.minFac_sq_le_self (by omega) hnp
  have h2 := hmin _ (Nat.minFac_prime hx1) (Nat.minFac_dvd x)
  have h3 : k * k ≤ x.minFac * x.minFac := Nat.mul_le_mul h2 h2
  rw [pow_two] at h1
  omega

/-- Function `next_factor` returns the number of prime factors of `x` when no
prime below `k` divides `x`, within a recursion depth of `2 * x - k + 1`. -/
theorem next_factor_spec :
    ∀ (fuel x k : Nat), 2 ≤ k → 1 ≤ x → x < 2 ^ 32 →
      (∀ p, p.Prime → p ∣ x → k ≤ p) → 2 * x - k < fuel →
      next_factor fuel x k = some x.primeFactorsList.length := by
  intro fuel
  induction fuel with
  | zero => intro x k _ _ _ _ h; omega
  | succ n ih =>
    intro x k hk hx hx32 hmin hfuel
    unfold next_factor
    by_cases h1 : x = 1
    · subst h1
      simp
    · rw [if_neg h1, if_neg (by omega)]
      by_cases hd : x % k = 0
      · rw [if_pos hd]
        have hdvd : k ∣ x := Nat.dvd_of_mod_eq_zero hd
        have hp := trial_prime x k hk hmin hdvd
        have hlen := factors_length_div x k hx hp hdvd
        have hkx : k ≤ x := Nat.le_of_dvd (by omega) hdvd
        have hq1 : 1 ≤ x / k := Nat.div_pos hkx (by omega)
        have hq2 : x / k < x := Nat.div_lt_self (by omega) (by omega)
        rw [ih (x / k) k hk hq1 (by omega)
          (fun p pp pd => hmin p pp (Nat.dvd_trans pd (Nat.div_dvd_of_dvd hdvd))) (by omega)]
        have hb := factors_length_lt (x / k) hq1 (by omega)
        have hu : u32 ((x / k).primeFactorsList.length + 1) =
            (x / k).primeFactorsList.length + 1 := Nat.mod_eq_of_lt (by omega)
        simp only [Option.map_some', hu, hlen]
      · rw [if_neg hd]
        have hnd : ¬ k ∣ x := fun hh => hd (Nat.mod_eq_zero_of_dvd hh)
        by_cases hsq : k * k ≤ x
        · rw [if_pos hsq]
          have hlt := trial_lt x k hx h1 hmin hnd
          have hu : u32 (k + 1) = k + 1 := Nat.mod_eq_of_lt (by omega)
          rw [hu]
          refine ih x (k + 1) (by omega) hx hx32 ?_ (by omega)
          intro p pp pd
          have := hmin p pp pd
          have hne : p ≠ k := by
            intro e
            rw [e] at pd
            exact hnd pd
          omega
        · rw [if_neg hsq, Nat.primeFactorsList_prime (prime_of_lt_sq x k hx h1 hmin hsq)]
          rfl

/-- C28: for every `n` with `1 < n < 2^32`, the loop of `count_factors(n)` ends
within `2 * n` iterations and the function returns the number of prime
factors of `n` counted with multiplicity: the length of every list `ps` of
primes whose product is `n` (1 for a prime, `i` for `2^i`, `j` for a product of
`j` distinct primes). -/
theorem C28_count_factors (n fuel : Nat) (ps : List Nat) (h1 : 1 < n) (h2 : n < 2 ^ 32)
    (hf : 2 * n ≤ fuel) (hp : ∀ p ∈ ps, p.Prime) (hprod : ps.prod = n) :
    count_factors fuel n = some ps.length := by
  rw [count_factors_spec n fuel h1 h2 hf, (Nat.primeFactorsList_unique hprod hp).length_eq]

theorem C28_count_factors_witness :
    1 < 5465460 ∧ 5465460 < 2 ^ 32 ∧ 2 * 5465460 ≤ 10930920 ∧
    (∀ p ∈ [2, 2, 3, 5, 7, 7, 11, 13, 13], Nat.Prime p) ∧
    [2, 2, 3, 5, 7, 7, 11, 13, 13].prod = 5465460 ∧
    count_factors 10930920 5465460 = some [2, 2, 3, 5, 7, 7, 11, 13, 13].length :=
  ⟨by decide, by decide, by decide, by
      intro p hp
      simp only [List.mem_cons, List.mem_singleton, List.not_mem_nil, or_false] at hp
      rcases hp with rfl | rfl | rfl | rfl | rfl | rfl | rfl | rfl | rfl <;> norm_num,
    by decide,
    C28_count_factors 5465460 10930920 [2, 2, 3, 5, 7, 7, 11, 13, 13] (by decide) (by decide)
      (by decide) (by
        intro p hp
        simp only [List.mem_cons, List.mem_singleton, List.not_mem_nil, or_false] at hp
        rcases hp with rfl | rfl | rfl | rfl | rfl | rfl | rfl | rfl | rfl <;> norm_num)
      (by decide)⟩

/-- C29: for every `n` with `1 < n < 2^32`, `count_factors_recursive(n)` and
`count_factors(n)` both return (recursion depth and iterations at most
`2 * n`), with the same result (the test `k <= sqrt(x)` of `next_factor` read
as `k * k ≤ x`). -/
theorem C29_counters_agree (n fuel : Nat) (h1 : 1 < n) (h2 : n < 2 ^ 32) (hf : 2 * n ≤ fuel) :
    count_factors_recursive fuel n = count_factors fuel n ∧
      ∃ r, count_factors fuel n = some r := by
  have e : count_factors_recursive fuel n = some n.primeFactorsList.length := by
    unfold count_factors_recursive
    rw [if_neg (by omega)]
    exact next_factor_spec fuel n 2 (by omega) (by omega) h2 (fun p pp _ => pp.two_le)
      (by omega)
  rw [e, count_factors_spec n fuel h1 h2 hf]
  exact ⟨rfl, _, rfl⟩

theorem C29_counters_agree_witness :
    1 < 12 ∧ 12 < 2 ^ 32 ∧ 2 * 12 ≤ 24 ∧
    (count_factors_recursive 24 12 = count_factors 24 12 ∧
      ∃ r, count_factors 24 12 = some r) :=
  ⟨by decide, by decide, by decide, C29_counters_agree 12 24 (by decide) (by decide)
    (by decide)⟩

/-! ### The checker: `checkblock` -/

theorem toInt_alloc (w : Nat) : toInt (GET_ALLOC w) = (GET_ALLOC w : Int) :=
  toInt_small _ (by rw [GET_ALLOC_eq]; omega)

theorem alloc_ne_one (w : Nat) : toInt (GET_ALLOC w) ≠ 1 ↔ GET_ALLOC w ≠ 1 := by
  rw [toInt_alloc]
  omega

theorem alloc_eq_zero (w : Nat) : toInt (GET_ALLOC w) = 0 ↔ GET_ALLOC w = 0 := by
  rw [toInt_alloc]
  omega

theorem links_unique (m : Nat → Nat) :
    ∀ (L L1 : List Nat) (cur : Nat), Links m cur L → Links m cur L1 → L = L1 := by
  intro L
  induction L with
  | nil =>
    intro L1 cur h h1
    cases L1 with
    | nil => rfl
    | cons y ys =>
      have e1 : cur = NULL := h
      have e2 := h1.1
      have e3 := h1.2.1
      rw [← e2, e1] at e3
      exact absurd rfl e3
  | cons x xs ih =>
    intro L1 cur h h1
    cases L1 with
    | nil =>
      have e1 : cur = NULL := h1
      have e2 := h.1
      have e3 := h.2.1
      rw [← e2, e1] at e3
      exact absurd rfl e3
    | cons y ys =>
      have e : x = y := by rw [← h.1, ← h1.1]
      subst e
      rw [ih ys _ h.2.2 h1.2.2]

/-- The loop of `checkblock` on a `NULL`-terminated list ends and tells
whether `bp` is a member. -/
theorem checkblock_loop_links (m : Nat → Nat) (bp : Nat) :
    ∀ (L : List Nat) (n sl : Nat) (flag : Bool), Links m sl L → L.length < n →
      checkblock_loop m bp n sl flag = some (flag || decide (bp ∈ L)) := by
  intro L
  induction L with
  | nil =>
    intro n sl flag h hn
    have e : sl = NULL := h
    cases n with
    | zero => simp at hn
    | succ k =>
      unfold checkblock_loop
      rw [if_neg (by simp [e])]
      simp
  | cons x xs ih =>
    intro n sl flag h hn
    obtain ⟨e1, e2, e3⟩ := h
    subst e1
    cases n with
    | zero => simp at hn
    | succ k =>
      unfold checkblock_loop
      rw [if_pos e2, ih k _ _ e3 (by simpa using hn)]
      by_cases hb : sl = bp
      · simp [hb]
      · have hb2 : ¬ bp = sl := fun e => hb e.symm
        simp [hb, hb2]

/-- When the loop of `checkblock` ends, the list is `NULL`-terminated. -/
theorem checkblock_loop_some (m : Nat → Nat) (bp : Nat) :
    ∀ (n sl : Nat) (flag r : Bool), checkblock_loop m bp n sl flag = some r →
      ∃ L, Links m sl L ∧ L.length < n := by
  intro n
  induction n with
  | zero => intro sl flag r h; simp [checkblock_loop] at h
  | succ k ih =>
    intro sl flag r h
    unfold checkblock_loop at h
    by_cases hs : sl ≠ NULL
    · rw [if_pos hs] at h
      obtain ⟨L, l1, l2⟩ := ih _ _ _ h
      exact ⟨sl :: L, ⟨rfl, hs, l1⟩, by simpa using l2⟩
    · exact ⟨[], by simpa using hs, by simp⟩

/-- Function `checkblock` returns exactly on the blocks that pass its tests,
the list walked being `NULL`-terminated within the bound. -/
theorem checkblock_done (n : Nat) (h : Heap) (bp : Nat) :
    checkblock n h bp = some Status.done ↔
      bp % WSIZE = 0 ∧ h.mem (HDRP bp) = h.mem (FTRP h.mem bp) ∧
      (GET_ALLOC (h.mem (HDRP bp)) = 0 →
        GET_ALLOC (h.mem (HDRP (PREV_BLKP h.mem bp))) = 1 ∧
        GET_ALLOC (h.mem (HDRP (NEXT_BLKP h.mem bp))) = 1 ∧
        ∃ k L, get_list_index (toInt (GET_SIZE (h.mem (HDRP bp)))) = some k ∧
          Links h.mem (h.mem (seg_at h k)) L ∧ L.length < n ∧ bp ∈ L) := by
  unfold checkblock
  by_cases c1 : bp % WSIZE ≠ 0
  · rw [if_pos c1]
    constructor
    · intro hh; simp at hh
    · intro hh; exact absurd hh.1 c1
  rw [if_neg c1]
  by_cases c2 : h.mem (HDRP bp) ≠ h.mem (FTRP h.mem bp)
  · rw [if_pos c2]
    constructor
    · intro hh; simp at hh
    · intro hh; exact absurd hh.2.1 c2
  rw [if_neg c2]
  have c1b : bp % WSIZE = 0 := by simpa using c1
  have c2b : h.mem (HDRP bp) = h.mem (FTRP h.mem bp) := by simpa using c2
  by_cases c3 : toInt (GET_ALLOC (h.mem (HDRP bp))) = 0
  swap
  · rw [if_neg c3]
    rw [alloc_eq_zero] at c3
    exact ⟨fun _ => ⟨c1b, c2b, fun hz => absurd hz c3⟩, fun _ => rfl⟩
  rw [if_pos c3]
  rw [alloc_eq_zero] at c3
  by_cases c4 : toInt (GET_ALLOC (h.mem (HDRP (PREV_BLKP h.mem bp)))) ≠ 1 ∨
      toInt (GET_ALLOC (h.mem (HDRP (NEXT_BLKP h.mem bp)))) ≠ 1
  · rw [if_pos c4]
    constructor
    · intro hh; simp at hh
    · intro hh
      obtain ⟨q1, q2, _⟩ := hh.2.2 c3
      rw [alloc_ne_one, alloc_ne_one] at c4
      rcases c4 with c4 | c4
      · exact absurd q1 c4
      · exact absurd q2 c4
  rw [if_neg c4]
  have c4b : GET_ALLOC (h.mem (HDRP (PREV_BLKP h.mem bp))) = 1 ∧
      GET_ALLOC (h.mem (HDRP (NEXT_BLKP h.mem bp))) = 1 := by
    rw [alloc_ne_one, alloc_ne_one] at c4
    constructor
    · by_contra hc; exact c4 (Or.inl hc)
    · by_contra hc; exact c4 (Or.inr hc)
  cases hidx : get_list_index (toInt (GET_SIZE (h.mem (HDRP bp)))) with
  | none =>
    simp only []
    constructor
    · intro hh; simp at hh
    · intro hh
      obtain ⟨_, _, k, L, hk, _⟩ := hh.2.2 c3
      simp at hk
  | some k =>
    simp only []
    cases hloop : checkblock_loop h.mem bp n (h.mem (seg_at h k)) false with
    | none =>
      simp only []
      constructor
      · intro hh; simp at hh
      · intro hh
        obtain ⟨_, _, k1, L, hk, l1, l2, l3⟩ := hh.2.2 c3
        have ek : k1 = k := by simpa using hk.symm
        subst ek
        rw [checkblock_loop_links h.mem bp L n _ false l1 l2] at hloop
        simp at hloop
    | some flag =>
      simp only []
      obtain ⟨L, l1, l2⟩ := checkblock_loop_some h.mem bp n _ false flag hloop
      rw [checkblock_loop_links h.mem bp L n _ false l1 l2] at hloop
      have hflag : flag = decide (bp ∈ L) := by simpa using hloop.symm
      constructor
      · intro hh
        by_cases hf : flag = false
        · rw [if_pos hf] at hh
          simp at hh
        · refine ⟨c1b, c2b, fun _ => ⟨c4b.1, c4b.2, k, L, rfl, l1, l2, ?_⟩⟩
          rw [hflag] at hf
          simpa using hf
      · intro hh
        obtain ⟨_, _, k1, L1, hk, m1, m2, m3⟩ := hh.2.2 c3
        have ek : k1 = k := by simpa using hk.symm
        subst ek
        have eL := links_unique h.mem L1 L _ m1 l1
        subst eL
        have : flag = true := by rw [hflag]; simpa using m3
        rw [if_neg (by simp [this])]

/-- A block that passes the tests of `checkblock` makes it return for every
large enough bound. -/
theorem checkblock_of_ok (h : Heap) (bp : Nat) (hok : block_ok h bp) :
    ∃ N, ∀ n, N ≤ n → checkblock n h bp = some Status.done := by
  obtain ⟨a1, a2, a3⟩ := hok
  by_cases hz : GET_ALLOC (h.mem (HDRP bp)) = 0
  · obtain ⟨q1, q2, k, L, q3, q4, q5⟩ := a3 hz
    refine ⟨L.length + 1, fun n hn => ?_⟩
    rw [checkblock_done]
    exact ⟨a1, a2, fun _ => ⟨q1, q2, k, L, q3, q4, by omega, q5⟩⟩
  · refine ⟨0, fun n _ => ?_⟩
    rw [checkblock_done]
    exact ⟨a1, a2, fun hh => absurd hh hz⟩

theorem ok_of_checkblock (n : Nat) (h : Heap) (bp : Nat)
    (hc : checkblock n h bp = some Status.done) : block_ok h bp := by
  rw [checkblock_done] at hc
  obtain ⟨a1, a2, a3⟩ := hc
  refine ⟨a1, a2, fun hz => ?_⟩
  obtain ⟨q1, q2, k, L, q3, q4, q5, q6⟩ := a3 hz
  exact ⟨q1, q2, k, L, q3, q4, q6⟩

/-! ### The checker: `checkheap` -/

theorem walk_unique (m : Nat → Nat) :
    ∀ (bps bps1 : List Nat) (bp e e1 : Nat), Walk m bp bps e → Walk m bp bps1 e1 →
      bps = bps1 ∧ e = e1 := by
  intro bps
  induction bps with
  | nil =>
    intro bps1 bp e e1 h h1
    cases bps1 with
    | nil => exact ⟨rfl, by rw [← h.1, ← h1.1]⟩
    | cons y ys =>
      have a := h.2
      have b := h1.2.1
      omega
  | cons x xs ih =>
    intro bps1 bp e e1 h h1
    cases bps1 with
    | nil =>
      have a := h1.2
      have b := h.2.1
      omega
    | cons y ys =>
      obtain ⟨r1, r2⟩ := ih ys _ _ _ h.2.2 h1.2.2
      have e0 : x = y := by rw [h.1, h1.1]
      exact ⟨by rw [e0, r1], r2⟩

/-- The loop of `checkheap` over blocks that all pass `checkblock` ends at the
header of size zero. -/
theorem checkheap_loop_done (n : Nat) (h : Heap) :
    ∀ (bps : List Nat) (k bp e : Nat), Walk h.mem bp bps e →
      (∀ x ∈ bps, checkblock n h x = some Status.done) → bps.length < k →
      checkheap_loop n h k bp = some (Status.done, e) := by
  intro bps
  induction bps with
  | nil =>
    intro k bp e hw _ hk
    cases k with
    | zero => simp at hk
    | succ j =>
      unfold checkheap_loop
      rw [if_neg (by have := hw.2; omega), hw.1]
  | cons x xs ih =>
    intro k bp e hw hall hk
    obtain ⟨e1, e2, e3⟩ := hw
    subst e1
    cases k with
    | zero => simp at hk
    | succ j =>
      unfold checkheap_loop
      rw [if_pos e2, hall x (List.mem_cons_self _ _)]
      exact ih j _ e e3 (fun y hy => hall y (List.mem_cons_of_mem _ hy)) (by simpa using hk)

/-- When the loop of `checkheap` ends normally, every block walked passed
`checkblock`. -/
theorem checkheap_loop_inv (n : Nat) (h : Heap) :
    ∀ (bps : List Nat) (k bp e e1 : Nat), Walk h.mem bp bps e →
      checkheap_loop n h k bp = some (Status.done, e1) →
      e1 = e ∧ bps.length < k ∧ ∀ x ∈ bps, checkblock n h x = some Status.done := by
  intro bps
  induction bps with
  | nil =>
    intro k bp e e1 hw hc
    cases k with
    | zero => simp [checkheap_loop] at hc
    | succ j =>
      unfold checkheap_loop at hc
      rw [if_neg (by have := hw.2; omega)] at hc
      simp only [Option.some.injEq, Prod.mk.injEq, true_and] at hc
      exact ⟨by rw [← hc, hw.1], by simp, by simp⟩
  | cons x xs ih =>
    intro k bp e e1 hw hc
    obtain ⟨w1, w2, w3⟩ := hw
    subst w1
    cases k with
    | zero => simp [checkheap_loop] at hc
    | succ j =>
      unfold checkheap_loop at hc
      rw [if_pos w2] at hc
      cases hb : checkblock n h x with
      | none => rw [hb] at hc; simp at hc
      | some s =>
        rw [hb] at hc
        cases s with
        | done =>
          simp only [] at hc
          obtain ⟨r1, r2, r3⟩ := ih j _ e e1 w3 hc
          refine ⟨r1, by simpa using r2, ?_⟩
          intro y hy
          rcases List.mem_cons.1 hy with g | g
          · rw [g]; exact hb
          · exact r3 y g
        | exit1 => simp at hc
        | abort => simp at hc

/-- Function `checkheap` on a heap whose walk ends: it returns exactly when
the prologue and every block walked pass `checkblock` within the bound and the
last header has the allocated bit. -/
theorem checkheap_done (n : Nat) (h : Heap) (v : Bool) (bps : List Nat) (e : Nat)
    (hw : Walk h.mem h.heap_listp bps e) :
    checkheap n h v = some Status.done ↔
      checkblock n h h.heap_listp = some Status.done ∧ bps.length < n ∧
      (∀ x ∈ bps, checkblock n h x = some Status.done) ∧
      GET_ALLOC (h.mem (HDRP e)) ≠ 0 := by
  have hz : GET_SIZE (h.mem (HDRP e)) = 0 := by
    clear v
    revert hw
    generalize h.heap_listp = bp
    induction bps generalizing bp with
    | nil => intro hw; rw [← hw.1]; exact hw.2
    | cons x xs ih => intro hw; exact ih _ hw.2.2
  unfold checkheap
  constructor
  · intro hc
    cases hb : checkblock n h h.heap_listp with
    | none => rw [hb] at hc; simp at hc
    | some s =>
      rw [hb] at hc
      cases s with
      | exit1 => simp at hc
      | abort => simp at hc
      | done =>
        simp only [] at hc
        cases hl : checkheap_loop n h n h.heap_listp with
        | none => rw [hl] at hc; simp at hc
        | some r =>
          obtain ⟨s1, e1⟩ := r
          rw [hl] at hc
          cases s1 with
          | exit1 => simp at hc
          | abort => simp at hc
          | done =>
            simp only [] at hc
            obtain ⟨r1, r2, r3⟩ := checkheap_loop_inv n h bps n _ e e1 hw hl
            subst r1
            refine ⟨rfl, r2, r3, ?_⟩
            intro hg
            rw [if_pos (Or.inr (by simpa using hg))] at hc
            simp at hc
  · rintro ⟨c1, c2, c3, c4⟩
    rw [c1]
    simp only []
    rw [checkheap_loop_done n h bps n _ e hw c3 c2]
    simp only []
    rw [if_neg (by
      intro hh
      rcases hh with hh | hh
      · exact hh hz
      · exact hh c4)]

/-- A bound that suits every member of a finite list. -/
theorem uniform_bound {α : Type} (P : Nat → α → Prop) (l : List α)
    (hl : ∀ x ∈ l, ∃ N, ∀ n, N ≤ n → P n x) : ∃ N, ∀ n, N ≤ n → ∀ x ∈ l, P n x := by
  induction l with
  | nil => exact ⟨0, fun n _ x hx => by simp at hx⟩
  | cons a l ih =>
    obtain ⟨N1, h1⟩ := hl a (List.mem_cons_self _ _)
    obtain ⟨N2, h2⟩ := ih (fun x hx => hl x (List.mem_cons_of_mem _ hx))
    refine ⟨N1 + N2, fun n hn x hx => ?_⟩
    rcases List.mem_cons.1 hx with g | g
    · rw [g]; exact h1 n (by omega)
    · exact h2 n (by omega) x g

/-- Function `checkheap` on a heap whose walk ends and whose blocks all pass
the tests of `checkblock`: it returns for every large enough bound. -/
theorem checkheap_of_ok (h : Heap) (v : Bool) (bps : List Nat) (e : Nat)
    (hw : Walk h.mem h.heap_listp bps e) (h0 : block_ok h h.heap_listp)
    (hall : ∀ bp ∈ bps, block_ok h bp) (he : GET_ALLOC (h.mem (HDRP e)) ≠ 0) :
    ∃ N, ∀ n, N ≤ n → checkheap n h v = some Status.done := by
  obtain ⟨N0, g0⟩ := checkblock_of_ok h _ h0
  obtain ⟨N1, g1⟩ := uniform_bound (fun n x => checkblock n h x = some Status.done) bps
    (fun x hx => checkblock_of_ok h x (hall x hx))
  refine ⟨N0 + N1 + bps.length + 1, fun n hn => ?_⟩
  rw [checkheap_done n h v bps e hw]
  exact ⟨g0 n (by omega), by omega, g1 n (by omega), he⟩

/-! ### The checker on a well-formed heap -/

/-- A tiling is a walk. -/
theorem walk_of_tiling (m : Nat → Nat) :
    ∀ (bs : List Block) (s e : Nat), Tiling m s bs e → m (e - 8) = 1 → e < s + 2 ^ 64 →
      Walk m s (bs.map Block.bp) e := by
  intro bs
  induction bs with
  | nil =>
    intro s e ht hepi _
    have hse : s = e := ht
    subst hse
    refine ⟨rfl, ?_⟩
    unfold HDRP WSIZE
    rw [hepi, GET_SIZE_eq]
    norm_num
  | cons b bs ih =>
    intro s e ht hepi he
    obtain ⟨h1, h2, h3, h4, h5, h6⟩ := ht
    have hle := tiling_le m _ _ _ h6
    have hsz : GET_SIZE (m (HDRP s)) = b.size := by
      unfold HDRP WSIZE
      rw [h4]
      exact GET_SIZE_tag b h3 (by omega)
    refine ⟨h1, by rw [hsz]; omega, ?_⟩
    have hn : NEXT_BLKP m s = s + b.size := by
      unfold NEXT_BLKP
      unfold HDRP at hsz
      rw [hsz]
    rw [hn]
    exact ih _ _ h6 hepi (by omega)

theorem chain_links (m : Nat → Nat) :
    ∀ (L : List Nat) (p c : Nat), Chain m p c L → Links m c L := by
  intro L
  induction L with
  | nil => intro p c h; exact h
  | cons x xs ih => intro p c h; exact ⟨h.1, h.2.1, ih _ _ h.2.2.2⟩

theorem alloc_one_of_ne (w : Nat) (h : GET_ALLOC w ≠ 0) : GET_ALLOC w = 1 := by
  rw [GET_ALLOC_eq] at h ⊢
  omega

/-- The prologue of a heap with a layout passes the tests of `checkblock`, and
the walk of `checkheap` visits it and the blocks of the layout. -/
theorem layout_walk (h : Heap) (bs : List Block) (hl : Layout h bs) :
    Walk h.mem h.heap_listp (h.heap_listp :: bs.map Block.bp) h.brk ∧
      block_ok h h.heap_listp ∧ GET_ALLOC (h.mem (HDRP h.brk)) ≠ 0 := by
  have hb := layout_brk h bs hl
  have e1 : HDRP h.heap_listp = h.seg_lst + 152 := by
    rw [hl.hl]
    unfold HDRP WSIZE
    omega
  have hs : GET_SIZE (h.mem (HDRP h.heap_listp)) = 16 := by
    rw [e1, hl.pro_h, GET_SIZE_eq]
    norm_num
  have hn : NEXT_BLKP h.mem h.heap_listp = h.seg_lst + 176 := by
    unfold NEXT_BLKP
    unfold HDRP at hs
    rw [hs, hl.hl]
  refine ⟨⟨rfl, by rw [hs]; omega, ?_⟩, ⟨?_, ?_, ?_⟩, ?_⟩
  · rw [hn]
    exact walk_of_tiling h.mem bs _ _ hl.til hl.epi (by omega)
  · rw [hl.hl]
    have := hl.tbl_al
    unfold WSIZE
    omega
  · have e2 : FTRP h.mem h.heap_listp = h.seg_lst + 160 := by
      unfold FTRP
      rw [hs, hl.hl]
      unfold DSIZE WSIZE
      omega
    rw [e1, e2, hl.pro_h, hl.pro_f]
  · intro hz
    rw [e1, hl.pro_h, GET_ALLOC_eq] at hz
    omega
  · have : HDRP h.brk = h.brk - 8 := rfl
    rw [this, hl.epi, GET_ALLOC_eq]
    omega

/-- The header of the block before a free block of a well-formed heap has the
allocated bit. -/
theorem prev_header_alloc (h : Heap) (A B : List Block) (b : Block)
    (hl : Layout h (A ++ [b] ++ B)) (hp : prev_free A = []) :
    GET_ALLOC (h.mem (HDRP (PREV_BLKP h.mem b.bp))) = 1 := by
  rcases List.eq_nil_or_concat A with hnil | ⟨A1, pb, hcat⟩
  · subst hnil
    have hb := (layout_first_reads h B b hl).1
    have e1 : PREV_BLKP h.mem b.bp = h.seg_lst + 160 := by
      unfold PREV_BLKP DSIZE WSIZE
      rw [hb]
      have : h.seg_lst + 176 - 2 * 8 = h.seg_lst + 160 := by omega
      rw [this, hl.pro_f, GET_SIZE_eq]
      norm_num
      omega
    have e2 : HDRP (h.seg_lst + 160) = h.seg_lst + 152 := by
      unfold HDRP WSIZE
      omega
    rw [e1, e2, hl.pro_h, GET_ALLOC_eq]
  · rw [List.concat_eq_append] at hcat
    subst hcat
    have hl2 : Layout h (A1 ++ [pb, b] ++ B) := by
      have : A1 ++ [pb, b] ++ B = A1 ++ [pb] ++ [b] ++ B := by simp
      rw [this]; exact hl
    obtain ⟨p1, p2, p3, p4⟩ := layout_prev_reads h A1 B pb b hl2
    have hpa : pb.alloc = true := by
      by_contra hc
      have hf : pb.alloc = false := by simpa using hc
      rw [prev_free_last A1 pb hf] at hp
      simp at hp
    have := (layout_reads h _ hl pb (by simp)).2.2.2.2.1
    rw [p3, this, hpa]
    rfl

/-- Every block of a well-formed heap passes the tests of `checkblock`. -/
theorem wf_block_ok (h : Heap) (A B : List Block) (b : Block) (Ls : Nat → List Nat)
    (hl : Layout h (A ++ [b] ++ B)) (hL : Lists h (A ++ [b] ++ B) Ls)
    (hF : Full (A ++ [b] ++ B) Ls) : block_ok h b.bp := by
  have hbm : b ∈ A ++ [b] ++ B := by simp
  obtain ⟨k1, k2, k3, k4, k5, k6, k7, k8⟩ := layout_block h _ hl b hbm
  obtain ⟨t1, t2, t3, t4, t5⟩ := block_tags h _ hl b hbm
  refine ⟨k5, by rw [t1, t2], ?_⟩
  intro hz
  rw [t4] at hz
  have hbf : b.alloc = false := by
    by_contra hc
    have : b.alloc = true := by simpa using hc
    rw [this] at hz
    simp at hz
  obtain ⟨n1, n2, n3, n4, n5⟩ := (nf_sandwich A [b] B (by simp)).1 hF.nofree2
  have hpf : prev_free A = [] := by
    unfold prev_free
    cases hA : A.getLast? with
    | none => rfl
    | some pb =>
      have := n4 pb (by rw [hA]; simp) b (by simp)
      rw [hbf] at this
      simp only [Bool.false_eq_true, or_false] at this
      simp [this]
  have hnf : next_free B = [] := by
    unfold next_free
    cases hB : B.head? with
    | none => rfl
    | some nb =>
      have := n5 b (by simp) nb (by rw [hB]; simp)
      rw [hbf] at this
      simp only [Bool.false_eq_true, false_or] at this
      simp [this]
  refine ⟨prev_header_alloc h A B b hl hpf, ?_, class_of b.size, Ls (class_of b.size), ?_,
    ?_, hF.complete b hbm hbf⟩
  · rcases next_read_spec h A B b hl with ⟨_, e2⟩ | ⟨nb1, B1, _, _, e3, _⟩
    · exact alloc_one_of_ne _ e2
    · rw [hnf] at e3
      simp at e3
  · rw [t3, toInt_small b.size k6]
    exact get_list_index_nat b.size
  · have := hL.chains (class_of b.size) (class_of_lt _)
    exact chain_links h.mem _ _ _ this

/-- Function `checkheap` on a well-formed heap returns, for every large enough
bound of its loops. -/
theorem wf_checkheap (h : Heap) (hw : WellFormed h) (v : Bool) :
    ∃ N, ∀ n, N ≤ n → checkheap n h v = some Status.done := by
  obtain ⟨bs, Ls, hl, hL, hF⟩ := hw
  obtain ⟨w1, w2, w3⟩ := layout_walk h bs hl
  refine checkheap_of_ok h v _ _ w1 w2 ?_ w3
  intro bp hbp
  rcases List.mem_cons.1 hbp with g | g
  · rw [g]; exact w2
  · obtain ⟨b, hb, rfl⟩ := List.mem_map.1 g
    obtain ⟨A, B, hsplit⟩ := List.append_of_mem hb
    have hsplit2 : bs = A ++ [b] ++ B := by rw [hsplit]; simp
    subst hsplit2
    exact wf_block_ok h A B b Ls hl hL hF

/-! ### `checklist` on a well-formed heap -/

/-- A free block of a heap with a layout passes the tests that `checklist`
makes on a list member and on its neighbours in the list. -/
theorem free_block_checks (h : Heap) (bs : List Block) (hl : Layout h bs) (b : Block)
    (hb : b ∈ bs) (hbf : b.alloc = false) :
    toInt (GET_ALLOC (h.mem (HDRP b.bp))) = 0 ∧
      toInt (GET_ALLOC (h.mem (FTRP h.mem b.bp))) = 0 ∧
      checkfreeblock h b.bp = Status.done := by
  obtain ⟨k1, k2, k3, k4, k5, k6, k7, k8⟩ := layout_block h _ hl b hb
  obtain ⟨t1, t2, t3, t4, t5⟩ := block_tags h _ hl b hb
  rw [hbf] at t4 t5
  simp only [Bool.false_eq_true, if_false] at t4 t5
  have a1 : toInt (GET_ALLOC (h.mem (HDRP b.bp))) = 0 := by rw [alloc_eq_zero]; exact t4
  have a2 : toInt (GET_ALLOC (h.mem (FTRP h.mem b.bp))) = 0 := by rw [alloc_eq_zero]; exact t5
  refine ⟨a1, a2, ?_⟩
  unfold checkfreeblock
  rw [if_neg (by unfold WSIZE; omega), if_neg (by rw [t1, t2]; simp), if_neg (by simp [a1])]

/-- The walk of `checklist` along a consistent chain of free blocks returns. -/
theorem checklist_walk_chain (h : Heap) :
    ∀ (L : List Nat) (k prev cur : Nat), Chain h.mem prev cur L →
      (∀ x ∈ L, toInt (GET_ALLOC (h.mem (HDRP x))) = 0 ∧
        toInt (GET_ALLOC (h.mem (FTRP h.mem x))) = 0 ∧ checkfreeblock h x = Status.done) →
      (prev ≠ 0 → checkfreeblock h prev = Status.done) → L.length < k →
      checklist_walk h k cur = some Status.done := by
  intro L
  induction L with
  | nil =>
    intro k prev cur hc _ _ hk
    have e : cur = 0 := hc
    cases k with
    | zero => simp at hk
    | succ j =>
      unfold checklist_walk
      rw [if_neg (by simp [e, NULL])]
  | cons x xs ih =>
    intro k prev cur hc hall hprev hk
    obtain ⟨c1, c2, c3, c4⟩ := hc
    subst c1
    obtain ⟨g1, g2, g3⟩ := hall cur (List.mem_cons_self _ _)
    cases k with
    | zero => simp at hk
    | succ j =>
      unfold checklist_walk
      rw [if_pos (by simpa [NULL] using c2), if_neg (by simp [g1, g2])]
      simp only []
      have hnext : ¬ (next_of h.mem cur ≠ NULL ∧
          checkfreeblock h (next_of h.mem cur) ≠ Status.done) := by
        rintro ⟨n1, n2⟩
        cases xs with
        | nil =>
          have : h.mem cur = 0 := c4
          exact n1 this
        | cons y ys =>
          have e : h.mem cur = y := c4.1
          have := (hall y (by simp)).2.2
          unfold next_of at n2
          rw [e] at n2
          exact n2 this
      have hprev2 : ¬ (prev_of h.mem cur ≠ NULL ∧
          checkfreeblock h (prev_of h.mem cur) ≠ Status.done) := by
        rintro ⟨n1, n2⟩
        have e : prev_of h.mem cur = prev := c3
        rw [e] at n1 n2
        exact n2 (hprev n1)
      rw [if_neg hnext, if_neg hprev2]
      exact ih j cur _ c4 (fun y hy => hall y (List.mem_cons_of_mem _ hy)) (fun _ => g3)
        (by simpa using hk)

theorem checklist_loop_done (n : Nat) (h : Heap) :
    ∀ (k i : Nat),
      (∀ j, i ≤ j → j < 18 → checklist_walk h n (h.mem (seg_at h j)) = some Status.done) →
      checklist_loop n h k i = some Status.done := by
  intro k
  induction k with
  | zero => intro i _; rfl
  | succ k ih =>
    intro i hall
    unfold checklist_loop
    by_cases hi : i < SEGLST_NUM
    · rw [if_pos hi, hall i (Nat.le_refl _) hi]
      exact ih (i + 1) (fun j hj1 hj2 => hall j (by omega) hj2)
    · rw [if_neg hi]

/-- Function `checklist` on a well-formed heap returns, for every large enough
bound of its loops. -/
theorem wf_checklist (h : Heap) (hw : WellFormed h) :
    ∃ N, ∀ n, N ≤ n → checklist n h = some Status.done := by
  obtain ⟨bs, Ls, hl, hL, hF⟩ := hw
  obtain ⟨N, hN⟩ := uniform_bound
    (fun n i => i < 18 → checklist_walk h n (h.mem (seg_at h i)) = some Status.done)
    (List.range 18) (by
      intro i _
      refine ⟨(Ls i).length + 1, fun n hn hi => ?_⟩
      refine checklist_walk_chain h (Ls i) n 0 _ (hL.chains i hi) ?_ (fun hh => absurd rfl hh)
        (by omega)
      intro x hx
      obtain ⟨b, hb, b1, b2, _⟩ := hL.members i hi x hx
      rw [← b1]
      exact free_block_checks h bs hl b hb b2)
  refine ⟨N, fun n hn => ?_⟩
  unfold checklist
  exact checklist_loop_done n h _ 0 (fun j _ hj => hN n hn j (List.mem_range.2 hj) hj)

/-! ### `mm_init` and the checker -/

/-- C21: on a backing store as `mm_init` expects it, `mm_init` returns -1 when
`mem_sbrk` refuses the request of `(4 + SEGLST_NUM) * WSIZE` bytes and 0
otherwise. After a successful `mm_init` the 18 list heads are `NULL`, header
and footer of the prologue are `PACK(DSIZE, 1)`, the block behind the prologue
is the end of the heap and its header is `PACK(0, 1)`, the heap is well-formed
(invariants 1 to 4), and `checkheap` and `checklist` return, for every large
enough bound of their loops. -/
theorem C21_init (s : Heap) (hf : Fresh s) :
    ((mm_init s).2 = -1 ↔ mem_sbrk s ((4 + SEGLST_NUM) * WSIZE) = none) ∧
    ((mm_init s).2 ≠ -1 → (mm_init s).2 = 0) ∧
    ((mm_init s).2 = 0 →
      (∀ i < SEGLST_NUM, (mm_init s).1.mem (seg_at (mm_init s).1 i) = NULL) ∧
      (mm_init s).1.mem (HDRP (mm_init s).1.heap_listp) = PACK DSIZE 1 ∧
      (mm_init s).1.mem (FTRP (mm_init s).1.mem (mm_init s).1.heap_listp) = PACK DSIZE 1 ∧
      NEXT_BLKP (mm_init s).1.mem (mm_init s).1.heap_listp = (mm_init s).1.brk ∧
      (mm_init s).1.mem (HDRP (NEXT_BLKP (mm_init s).1.mem (mm_init s).1.heap_listp)) =
        PACK 0 1 ∧
      blocks (mm_init s).1 = [] ∧ WellFormed (mm_init s).1 ∧
      ∃ N, ∀ n, N ≤ n → checkheap n (mm_init s).1 false = some Status.done ∧
        checklist n (mm_init s).1 = some Status.done) := by
  have hreq : (4 + SEGLST_NUM) * WSIZE = 176 := rfl
  have hsb : mem_sbrk s 176 = none ↔ ¬ (s.brk + 176 ≤ s.max_addr) := by
    unfold mem_sbrk
    by_cases hh : s.brk + 176 ≤ s.max_addr
    · simp [hh]
    · simp [hh]
  rw [hreq, hsb]
  by_cases hfit : s.brk + 176 ≤ s.max_addr
  · obtain ⟨m1, m2, m3, m4, m5, m6, m7, m8, m9, m10⟩ := mm_init_mem s hfit
    obtain ⟨i1, i2, i3⟩ := mm_init_spec s hf hfit
    have hwf := mm_init_wf s hf hfit
    refine ⟨⟨fun hh => by rw [m1] at hh; simp at hh, fun hh => absurd hfit hh⟩,
      fun _ => m1, fun _ => ?_⟩
    have e1 : HDRP (mm_init s).1.heap_listp = s.brk + 152 := by
      rw [m4]
      unfold HDRP WSIZE
      omega
    have p17 : PACK DSIZE 1 = 17 := by decide
    have p1 : PACK 0 1 = 1 := by decide
    have hs : GET_SIZE ((mm_init s).1.mem (HDRP (mm_init s).1.heap_listp)) = 16 := by
      rw [e1, m7, GET_SIZE_eq]
      norm_num
    have hn : NEXT_BLKP (mm_init s).1.mem (mm_init s).1.heap_listp = s.brk + 176 := by
      unfold NEXT_BLKP
      unfold HDRP at hs
      rw [hs, m4]
    have e2 : FTRP (mm_init s).1.mem (mm_init s).1.heap_listp = s.brk + 160 := by
      unfold FTRP
      rw [hs, m4]
      unfold DSIZE WSIZE
      omega
    obtain ⟨N1, c1⟩ := wf_checkheap _ hwf false
    obtain ⟨N2, c2⟩ := wf_checklist _ hwf
    refine ⟨?_, by rw [e1, m7, p17], by rw [e2, m8, p17], by rw [hn, m2], ?_,
      blocks_eq _ _ i2, hwf, N1 + N2, fun n hn => ⟨c1 n (by omega), c2 n (by omega)⟩⟩
    · intro i hi
      unfold seg_at
      rw [m5]
      exact m6 i hi
    · rw [hn]
      have : HDRP (s.brk + 176) = s.brk + 168 := by
        unfold HDRP WSIZE
        omega
      rw [this, m9, p1]
  · have hm := mm_init_fail s hfit
    refine ⟨⟨fun _ => hfit, fun _ => hm⟩, fun hh => absurd hm hh, fun hh => ?_⟩
    rw [hm] at hh
    simp at hh

theorem C21_init_witness :
    Fresh store0 ∧
    (((mm_init store0).2 = -1 ↔ mem_sbrk store0 ((4 + SEGLST_NUM) * WSIZE) = none) ∧
    ((mm_init store0).2 ≠ -1 → (mm_init store0).2 = 0) ∧
    ((mm_init store0).2 = 0 →
      (∀ i < SEGLST_NUM, (mm_init store0).1.mem (seg_at (mm_init store0).1 i) = NULL) ∧
      (mm_init store0).1.mem (HDRP (mm_init store0).1.heap_listp) = PACK DSIZE 1 ∧
      (mm_init store0).1.mem (FTRP (mm_init store0).1.mem (mm_init store0).1.heap_listp) =
        PACK DSIZE 1 ∧
      NEXT_BLKP (mm_init store0).1.mem (mm_init store0).1.heap_listp =
        (mm_init store0).1.brk ∧
      (mm_init store0).1.mem
          (HDRP (NEXT_BLKP (mm_init store0).1.mem (mm_init store0).1.heap_listp)) =
        PACK 0 1 ∧
      blocks (mm_init store0).1 = [] ∧ WellFormed (mm_init store0).1 ∧
      ∃ N, ∀ n, N ≤ n → checkheap n (mm_init store0).1 false = some Status.done ∧
        checklist n (mm_init store0).1 = some Status.done)) :=
  ⟨store0_fresh, C21_init store0 store0_fresh⟩

/-! ### Allocate, free, check -/

/-- A request below `2^31` whose adjusted size does not fit an `int` asks the
backing store for at least `2^31` bytes. -/
theorem extend_size_big (size : Nat) (h0 : 0 < size) (hs : size < 2 ^ 31)
    (hbig : ¬ adjust_size size < 2 ^ 31) : 2 ^ 31 ≤ extend_size size (adjust_size size) := by
  obtain ⟨a1, a2, a3, a4⟩ := adjust_size_facts size hs h0
  have hc : (1 <<< 12 : Nat) = 4096 := by decide
  have e1 : size ≠ 4092 := by
    intro e
    rw [e] at hbig
    exact hbig (by decide)
  have e2 : size ≠ 16 := by
    intro e
    rw [e] at hbig
    exact hbig (by decide)
  unfold extend_size MAX CHUNKSIZE u64
  simp only [WSIZE, hc, if_neg e1, if_neg e2]
  split_ifs <;> omega

/-- From the state right after a successful `mm_init` (on a backing store as
`mm_init` expects it), for every `size` with `0 < size < 2^31` for which the
backing store has room for the bytes that `mm_malloc` asks of it:
`p = mm_malloc(size)` returns a block, `mm_free(p)` returns, and then
`checkheap` and `checklist` return without `exit`, for every large enough bound
of their loops. This holds for the tuned sizes 16, 112, the multiples of 128
and 4092 as for all others whose adjusted size is representable as an `int`. -/
theorem malloc_free_checks (s : Heap) (size : Nat) (hf : Fresh s)
    (hi : (mm_init s).2 = 0) (h0 : 0 < size) (hs : size < 2 ^ 31)
    (hroom : (mm_init s).1.brk + extend_size size (adjust_size size) ≤
      (mm_init s).1.max_addr) :
    ∃ h1 p h2, mm_malloc (mm_init s).1 size = some (h1, p) ∧ p ≠ NULL ∧
      mm_free h1 p = some h2 ∧
      ∃ N, ∀ n, N ≤ n → checkheap n h2 false = some Status.done ∧
        checklist n h2 = some Status.done := by
  have hfit := init_ok s hi
  obtain ⟨m1, m2, m3, m4, m5, _⟩ := mm_init_mem s hfit
  obtain ⟨i1, i2, i3⟩ := mm_init_spec s hf hfit
  generalize hh : (mm_init s).1 = h at *
  have hbig : adjust_size size < 2 ^ 31 := by
    by_contra hc
    have := extend_size_big size h0 hs hc
    have := hf.2.2
    omega
  obtain ⟨h1, p, bs1, Ls1, e, s1, s2, s3, s4, l1, L1, F1, k, hper, hp0, hp1⟩ :=
    mm_malloc_full h [] (fun _ => []) size i2 i3 full_nil h0 hs hbig
  have hp : p ≠ 0 := by
    intro hz
    have e1 := hp0 hz
    rw [e1, hz] at e
    rcases mm_malloc_spec h [] (fun _ => []) size i2 i3 h0 hs hbig
      (fun c hc => absurd hc (by simp [prev_free])) with
      ⟨A, b, B, h9, q1, _⟩ | ⟨_, _, h9, q1, q2, _⟩ | ⟨_, q1, _⟩
    · simp at q1
    · rw [e] at q1
      have hq : (0 : Nat) = place_ptr (merged [] ⟨h.brk, extend_size size (adjust_size size),
          false⟩ []) (adjust_size size) := by
        simpa using congrArg Prod.snd (Option.some.inj q1)
      unfold place_ptr merged at hq
      simp only [prev_free, next_free, total_size, List.getLast?_nil, List.head?_nil,
        List.map_nil, List.sum_nil, Nat.sub_zero] at hq
      have hb := (layout_brk h [] i2).1
      split_ifs at hq <;> omega
    · exact q1 hroom
  obtain ⟨c, hc, c1, c2, c3, c4⟩ := hp1 hp
  obtain ⟨A1, B1, hsplit⟩ := List.append_of_mem hc
  have hsplit2 : bs1 = A1 ++ [c] ++ B1 := by rw [hsplit]; simp
  subst hsplit2
  obtain ⟨h2, f1, f2, f3, f4, f5, f6⟩ := mm_free_full h1 A1 B1 c Ls1 l1 L1 F1 c2
  rw [c1] at f1
  have hwf : WellFormed h2 := ⟨_, _, f3, f4, f5⟩
  obtain ⟨N1, d1⟩ := wf_checkheap h2 hwf false
  obtain ⟨N2, d2⟩ := wf_checklist h2 hwf
  exact ⟨h1, p, h2, e, hp, f1, N1 + N2, fun n hn => ⟨d1 n (by omega), d2 n (by omega)⟩⟩

theorem malloc_free_checks_example :
    Fresh store0 ∧ (mm_init store0).2 = 0 ∧ 0 < 4092 ∧ 4092 < 2 ^ 31 ∧
    (mm_init store0).1.brk + extend_size 4092 (adjust_size 4092) ≤
      (mm_init store0).1.max_addr ∧
    ∃ h1 p h2, mm_malloc (mm_init store0).1 4092 = some (h1, p) ∧ p ≠ NULL ∧
      mm_free h1 p = some h2 ∧
      ∃ N, ∀ n, N ≤ n → checkheap n h2 false = some Status.done ∧
        checklist n h2 = some Status.done :=
  ⟨store0_fresh, by decide, by decide, by decide, by decide,
    malloc_free_checks store0 4092 store0_fresh (by decide) (by decide) (by decide)
      (by decide)⟩

/-- C22: the size `2^31 - 1` is in the range `0 < s < 2^31`; its adjusted size
is `2^31 + 16`, which `find_fit` passes to `get_list_index` as the `int`
`-2^31 + 16`, so that `assert(size >= 0)` fails: `mm_malloc(2^31 - 1)` aborts in
every state, whatever the backing store, before the store is asked, and so
right after a successful `mm_init`. Neither `mm_free` nor the checkers are
reached. -/
theorem C22_malloc_aborts :
    Fresh store0 ∧ (mm_init store0).2 = 0 ∧ 0 < 2147483647 ∧ 2147483647 < 2 ^ 31 ∧
    adjust_size 2147483647 = 2 ^ 31 + 16 ∧
    toInt (adjust_size 2147483647) = -2 ^ 31 + 16 ∧
    get_list_index (toInt (adjust_size 2147483647)) = none ∧
    ∀ h : Heap, mm_malloc h 2147483647 = none :=
  ⟨store0_fresh, by decide!, by decide, by decide, by decide!, by decide!, by decide!,
    fun h => mm_malloc_abort h 2147483647 (by decide) (by decide) (by decide!)⟩

/-! ### What `checkheap` accepts and rejects -/

/-- C26: on the heap `heap_bad_prologue`, whose prologue header is
`PACK(32, 1)` instead of `PACK(DSIZE, 1)`, the test of the prologue header is
true, and `checkheap` returns normally all the same: that test only prints
`Bad prologue header`. The test of the epilogue header right below it does call
`exit(1)`: on `heap0` with the epilogue header cleared `checkheap` exits. -/
theorem C26_bad_prologue_returns :
    bad_prologue_header heap_bad_prologue = true ∧
    heap_bad_prologue.mem (HDRP heap_bad_prologue.heap_listp) = PACK 32 1 ∧
    checkheap 2 heap_bad_prologue false = some Status.done ∧
    checkheap 2 heap_bad_prologue true = some Status.done ∧
    bad_prologue_header heap0 = false ∧
    checkheap 2 { heap0 with mem := PUT heap0.mem 184 (PACK 0 0) } false =
      some Status.exit1 := by
  decide!

/-- The loop of `checkblock` on the list of `heap_cyclic` does not end. -/
theorem cyclic_loop :
    ∀ (n : Nat) (flag : Bool), checkblock_loop heap_cyclic.mem 248 n 248 flag = none := by
  intro n
  induction n with
  | zero => intro flag; rfl
  | succ k ih =>
    intro flag
    unfold checkblock_loop
    have e : next_of heap_cyclic.mem 248 = 248 := by decide!
    rw [if_pos (by decide), e]
    exact ih _

theorem cyclic_block (n : Nat) : checkblock n heap_cyclic 248 = none := by
  unfold checkblock
  have e1 : get_list_index (toInt (GET_SIZE (heap_cyclic.mem (HDRP 248)))) = some 5 := by
    decide!
  have e2 : heap_cyclic.mem (seg_at heap_cyclic 5) = 248 := by decide!
  rw [if_neg (by decide!), if_neg (by decide!), if_pos (by decide!), if_neg (by decide!), e1]
  simp only []
  rw [e2, cyclic_loop]

theorem cyclic_alloc (n bp : Nat) (h1 : bp % WSIZE = 0)
    (h2 : heap_cyclic.mem (HDRP bp) = heap_cyclic.mem (FTRP heap_cyclic.mem bp))
    (h3 : GET_ALLOC (heap_cyclic.mem (HDRP bp)) = 1) :
    checkblock n heap_cyclic bp = some Status.done := by
  rw [checkblock_done]
  exact ⟨h1, h2, fun hz => by rw [h3] at hz; simp at hz⟩

/-- Function `checkheap` on `heap_cyclic` does not end, whatever the bound. -/
theorem cyclic_checkheap (n : Nat) : checkheap n heap_cyclic false = none := by
  have b0 : checkblock n heap_cyclic 176 = some Status.done :=
    cyclic_alloc n 176 (by decide) (by decide!) (by decide!)
  have b1 : checkblock n heap_cyclic 192 = some Status.done :=
    cyclic_alloc n 192 (by decide) (by decide!) (by decide!)
  have hl : heap_cyclic.heap_listp = 176 := by decide!
  have n0 : NEXT_BLKP heap_cyclic.mem 176 = 192 := by decide!
  have n1 : NEXT_BLKP heap_cyclic.mem 192 = 248 := by decide!
  have s0 : GET_SIZE (heap_cyclic.mem (HDRP 176)) > 0 := by decide!
  have s1 : GET_SIZE (heap_cyclic.mem (HDRP 192)) > 0 := by decide!
  have s2 : GET_SIZE (heap_cyclic.mem (HDRP 248)) > 0 := by decide!
  have hloop : checkheap_loop n heap_cyclic n 176 = none := by
    rcases n with _ | _ | _ | k
    · rfl
    · unfold checkheap_loop
      rw [if_pos s0, b0]
      rfl
    · unfold checkheap_loop
      rw [if_pos s0, b0]
      simp only []
      unfold checkheap_loop
      rw [n0, if_pos s1, b1]
      rfl
    · unfold checkheap_loop
      rw [if_pos s0, b0]
      simp only []
      unfold checkheap_loop
      rw [n0, if_pos s1, b1]
      simp only []
      unfold checkheap_loop
      rw [n1, if_pos s2, cyclic_block]
  unfold checkheap
  rw [hl, b0]
  simp only []
  rw [hloop]

/-- C27, as stated, fails: on the heap `heap_cyclic` the walk from the prologue
(176, then the blocks at 192 and 248) ends at a header of size 0 with the
allocated bit; every block walked is word aligned with equal header and footer;
the only free block, at 248, has allocated neighbours (192 and the epilogue)
and is reachable from the head of list 5, the list of its size: it is the head.
But its `next` link points to the block itself, so the loop of `checkblock`
over the list never ends and `checkheap` does not return, whatever the
bound. -/
theorem C27_counterexample :
    heap_cyclic.heap_listp = 176 ∧ NEXT_BLKP heap_cyclic.mem 176 = 192 ∧
    blocks heap_cyclic = [⟨192, 56, true⟩, ⟨248, 4040, false⟩] ∧
    NEXT_BLKP heap_cyclic.mem 248 = 4288 ∧
    GET_SIZE (heap_cyclic.mem (HDRP 4288)) = 0 ∧
    GET_ALLOC (heap_cyclic.mem (HDRP 4288)) = 1 ∧
    (∀ bp ∈ [176, 192, 248], bp % WSIZE = 0 ∧
      heap_cyclic.mem (HDRP bp) = heap_cyclic.mem (FTRP heap_cyclic.mem bp)) ∧
    GET_ALLOC (heap_cyclic.mem (HDRP 176)) = 1 ∧
    GET_ALLOC (heap_cyclic.mem (HDRP 192)) = 1 ∧
    GET_ALLOC (heap_cyclic.mem (HDRP 248)) = 0 ∧
    PREV_BLKP heap_cyclic.mem 248 = 192 ∧
    get_list_index (toInt (GET_SIZE (heap_cyclic.mem (HDRP 248)))) = some 5 ∧
    heap_cyclic.mem (seg_at heap_cyclic 5) = 248 ∧
    next_of heap_cyclic.mem 248 = 248 ∧
    ∀ n, checkheap n heap_cyclic false = none :=
  ⟨by decide!, by decide!, by decide!, by decide!, by decide!, by decide!, by decide!,
    by decide!, by decide!, by decide!, by decide!, by decide!, by decide!, by decide!,
    cyclic_checkheap⟩

/-- C27, amended: on a heap where stepping from the prologue by the sizes in
the headers visits the blocks `bps` and ends at a header of size zero,
`checkheap(false)` returns normally (for some bound of its loops, and then for
every large enough bound) if and only if that last header has the allocated
bit and the prologue and every block `bp` walked pass `block_ok`: `bp` is a
multiple of `WSIZE`, header and footer are the same word, and if `bp` is free
then the headers of `PREV_BLKP(bp)` and `NEXT_BLKP(bp)` have the allocated bit
and `bp` is a member of the list from `seg_lst[get_list_index(size of bp)]`,
whose chain of `next` links ends at `NULL`. -/
theorem C27_checkheap_iff (h : Heap) (bps : List Nat) (e : Nat)
    (hw : Walk h.mem h.heap_listp bps e) :
    ((∃ n, checkheap n h false = some Status.done) ↔
      (GET_SIZE (h.mem (HDRP e)) = 0 ∧ GET_ALLOC (h.mem (HDRP e)) = 1 ∧
        block_ok h h.heap_listp ∧ ∀ bp ∈ bps, block_ok h bp)) ∧
    ((∃ n, checkheap n h false = some Status.done) →
      ∃ N, ∀ n, N ≤ n → checkheap n h false = some Status.done) := by
  have hz : GET_SIZE (h.mem (HDRP e)) = 0 := by
    revert hw
    generalize h.heap_listp = bp
    induction bps generalizing bp with
    | nil => intro hw; rw [← hw.1]; exact hw.2
    | cons x xs ih => intro hw; exact ih _ hw.2.2
  have fwd : (∃ n, checkheap n h false = some Status.done) →
      (GET_SIZE (h.mem (HDRP e)) = 0 ∧ GET_ALLOC (h.mem (HDRP e)) = 1 ∧
        block_ok h h.heap_listp ∧ ∀ bp ∈ bps, block_ok h bp) := by
    rintro ⟨n, hn⟩
    rw [checkheap_done n h false bps e hw] at hn
    obtain ⟨c1, c2, c3, c4⟩ := hn
    exact ⟨hz, alloc_one_of_ne _ c4, ok_of_checkblock n h _ c1,
      fun bp hbp => ok_of_checkblock n h bp (c3 bp hbp)⟩
  have bwd : (GET_SIZE (h.mem (HDRP e)) = 0 ∧ GET_ALLOC (h.mem (HDRP e)) = 1 ∧
        block_ok h h.heap_listp ∧ ∀ bp ∈ bps, block_ok h bp) →
      ∃ N, ∀ n, N ≤ n → checkheap n h false = some Status.done := by
    rintro ⟨_, c2, c3, c4⟩
    exact checkheap_of_ok h false bps e hw c3 c4 (by rw [c2]; simp)
  refine ⟨⟨fwd, fun hc => ?_⟩, fun hc => bwd (fwd hc)⟩
  obtain ⟨N, hN⟩ := bwd hc
  exact ⟨N, hN N (Nat.le_refl _)⟩

theorem C27_checkheap_iff_witness :
    Walk heap1.mem heap1.heap_listp [176, 192, 248] 4288 ∧
    (((∃ n, checkheap n heap1 false = some Status.done) ↔
      (GET_SIZE (heap1.mem (HDRP 4288)) = 0 ∧ GET_ALLOC (heap1.mem (HDRP 4288)) = 1 ∧
        block_ok heap1 heap1.heap_listp ∧ ∀ bp ∈ [176, 192, 248], block_ok heap1 bp)) ∧
    ((∃ n, checkheap n heap1 false = some Status.done) →
      ∃ N, ∀ n, N ≤ n → checkheap n heap1 false = some Status.done)) :=
  ⟨⟨by decide!, by decide!, by decide!, by decide!, by decide!, by decide!, by decide!,
      by decide!⟩,
    C27_checkheap_iff heap1 [176, 192, 248] 4288
      ⟨by decide!, by decide!, by decide!, by decide!, by decide!, by decide!, by decide!,
        by decide!⟩⟩

/-! ### The boundary tags -/

/-- C37: for every size that is a multiple of `WSIZE` below `2^63` and every
allocated bit 0 or 1, `GET_SIZE` of the word `PACK(size, alloc)` is `size` and
`GET_ALLOC` of it is `alloc`; and two such tags are equal exactly when their
sizes and their allocated bits are equal. -/
theorem C37_tag_round_trip (size alloc : Nat) (h1 : size % WSIZE = 0) (h2 : size < 2 ^ 63)
    (h3 : alloc ≤ 1) :
    GET_SIZE (PACK size alloc) = size ∧ GET_ALLOC (PACK size alloc) = alloc ∧
    ∀ size1 alloc1, size1 % WSIZE = 0 → size1 < 2 ^ 63 → alloc1 ≤ 1 →
      (PACK size alloc = PACK size1 alloc1 ↔ size = size1 ∧ alloc = alloc1) := by
  have h1a : size % 8 = 0 := h1
  rw [PACK_eq size alloc h1a h3]
  refine ⟨?_, ?_, ?_⟩
  · rw [GET_SIZE_eq]; omega
  · rw [GET_ALLOC_eq]; omega
  · intro size1 alloc1 g1 g2 g3
    have g1a : size1 % 8 = 0 := g1
    rw [PACK_eq size1 alloc1 g1a g3]
    constructor
    · intro e; omega
    · rintro ⟨e1, e2⟩; rw [e1, e2]

theorem C37_tag_round_trip_witness :
    4040 % WSIZE = 0 ∧ 4040 < 2 ^ 63 ∧ 1 ≤ 1 ∧
    (GET_SIZE (PACK 4040 1) = 4040 ∧ GET_ALLOC (PACK 4040 1) = 1 ∧
    ∀ size1 alloc1, size1 % WSIZE = 0 → size1 < 2 ^ 63 → alloc1 ≤ 1 →
      (PACK 4040 1 = PACK size1 alloc1 ↔ 4040 = size1 ∧ 1 = alloc1)) :=
  ⟨by decide, by decide, by decide, C37_tag_round_trip 4040 1 (by decide) (by decide) (by decide)⟩

/-! ### The adjusted size passed on by `mm_malloc` -/

/-- On the growth path `mm_malloc` passes the adjusted size to `place`: the
assignment for the request of 512 bytes gives the value it already has. -/
theorem growth_asize_eq (size : Nat) :
    (if size = 512 then 640 + 16 else adjust_size size) = adjust_size size := by
  split
  · rename_i h5; rw [adjust_size_512 size h5]
  · rfl

/-- What `mm_malloc` does with the adjusted size: it is the argument of
`find_fit`, of `place` on a hit, and of `place` on the block that
`extend_heap` returns. -/
theorem mm_malloc_passes (h : Heap) (size : Nat) (h0 : size ≠ 0) :
    (find_fit h (adjust_size size) = none → mm_malloc h size = none) ∧
    (∀ bp, find_fit h (adjust_size size) = some bp → bp ≠ NULL →
      mm_malloc h size = place h bp (adjust_size size)) ∧
    (find_fit h (adjust_size size) = some NULL →
      (∀ h1 bp1, extend_heap h (extend_size size (adjust_size size) / WSIZE) = some (h1, bp1) →
        bp1 ≠ NULL → mm_malloc h size = place h1 bp1 (adjust_size size)) ∧
      (∀ h1, extend_heap h (extend_size size (adjust_size size) / WSIZE) = some (h1, NULL) →
        mm_malloc h size = some (h1, NULL))) := by
  refine ⟨?_, ?_, ?_⟩
  · intro hf
    unfold mm_malloc
    simp only [if_neg h0, hf]
  · intro bp hf hb
    unfold mm_malloc
    simp only [if_neg h0, hf, hb, ne_eq, not_false_eq_true, if_true]
  · intro hf
    constructor
    · intro h1 bp1 he hb
      unfold mm_malloc
      simp only [if_neg h0, hf, ne_eq, not_true_eq_false, if_false, he, hb, growth_asize_eq]
    · intro h1 he
      unfold mm_malloc
      simp only [if_neg h0, hf, ne_eq, not_true_eq_false, if_false, he, if_true]

/-- C40: for every request with `0 < size < 2^31` (the tuned sizes included)
the adjusted size that `mm_malloc` passes to `find_fit` and to `place`, on a
hit as well as on the growth path, is a multiple of `WSIZE`, at least
`2 * DSIZE` and at least `size + DSIZE`. -/
theorem C40_adjusted_size_bounds (h : Heap) (size : Nat) (h0 : 0 < size) (hs : size < 2 ^ 31) :
    adjust_size size % WSIZE = 0 ∧ 2 * DSIZE ≤ adjust_size size ∧
    size + DSIZE ≤ adjust_size size ∧
    (∀ bp, find_fit h (adjust_size size) = some bp → bp ≠ NULL →
      mm_malloc h size = place h bp (adjust_size size)) ∧
    (find_fit h (adjust_size size) = some NULL →
      ∀ h1 bp1, extend_heap h (extend_size size (adjust_size size) / WSIZE) = some (h1, bp1) →
        bp1 ≠ NULL → mm_malloc h size = place h1 bp1 (adjust_size size)) := by
  obtain ⟨a1, a2, a3, a4⟩ := adjust_size_facts size hs h0
  obtain ⟨p1, p2, p3⟩ := mm_malloc_passes h size (by omega)
  refine ⟨a1, ?_, ?_, p2, fun hf => (p3 hf).1⟩
  · unfold DSIZE WSIZE; omega
  · unfold DSIZE WSIZE; omega

theorem C40_adjusted_size_bounds_witness :
    0 < 4092 ∧ 4092 < 2 ^ 31 ∧
    (adjust_size 4092 % WSIZE = 0 ∧ 2 * DSIZE ≤ adjust_size 4092 ∧
    4092 + DSIZE ≤ adjust_size 4092 ∧
    (∀ bp, find_fit heap1 (adjust_size 4092) = some bp → bp ≠ NULL →
      mm_malloc heap1 4092 = place heap1 bp (adjust_size 4092)) ∧
    (find_fit heap1 (adjust_size 4092) = some NULL →
      ∀ h1 bp1, extend_heap heap1 (extend_size 4092 (adjust_size 4092) / WSIZE) =
          some (h1, bp1) →
        bp1 ≠ NULL → mm_malloc heap1 4092 = place h1 bp1 (adjust_size 4092))) :=
  ⟨by decide, by decide, C40_adjusted_size_bounds heap1 4092 (by decide) (by decide)⟩

/-! ### The request of the growth path -/

/-- The adjusted size of any request that a `size_t` holds is a multiple of
the word size that a `size_t` holds. -/
theorem adjust_size_any (size : Nat) :
    adjust_size size % 8 = 0 ∧ adjust_size size < 2 ^ 64 := by
  unfold adjust_size u64 DSIZE WSIZE
  simp only []
  split_ifs <;> omega

/-- The amount asked of `extend_heap`, for any request: a multiple of the word
size, at least 128 bytes, and not less than the adjusted size. -/
theorem extend_size_any (size : Nat) :
    extend_size size (adjust_size size) % 8 = 0 ∧ 128 ≤ extend_size size (adjust_size size) ∧
      adjust_size size ≤ extend_size size (adjust_size size) ∧
      extend_size size (adjust_size size) < 2 ^ 64 ∧
      extend_size size (adjust_size size) =
        (if size = 16 then 128 else if size = 4092 then 4280
          else MAX (adjust_size size) CHUNKSIZE) := by
  obtain ⟨a1, a2⟩ := adjust_size_any size
  have hc : (1 <<< 12 : Nat) = 4096 := by decide
  by_cases e1 : size = 16
  · subst e1
    decide
  · by_cases e2 : size = 4092
    · subst e2
      decide
    · generalize adjust_size size = asize at *
      unfold extend_size MAX CHUNKSIZE u64
      simp only [WSIZE, hc, if_neg e1, if_neg e2]
      split_ifs <;> omega

/-- The request that `extend_heap` passes to `mem_sbrk` on the growth path of
`mm_malloc` is the amount computed by `mm_malloc`. -/
theorem growth_request_eq (size : Nat) :
    u64 (extend_size size (adjust_size size) / WSIZE * WSIZE) =
      extend_size size (adjust_size size) := by
  obtain ⟨x1, x2, x3, x4, x5⟩ := extend_size_any size
  unfold u64 WSIZE
  omega

/-- The words of the specification for the request, on a multiple of the word
size. -/
theorem extend_size_spec_eq (asize : Nat) (h : asize % 8 = 0) :
    extend_size_spec asize = MAX asize CHUNKSIZE := by
  have hc : (1 <<< 12 : Nat) = 4096 := by decide
  unfold extend_size_spec MAX CHUNKSIZE WSIZE
  rw [hc]
  split_ifs <;> omega

/-- When `find_fit` returns a value, the adjusted size is representable as an
`int`. -/
theorem find_fit_some (h : Heap) (asize r : Nat) (ha : asize < 2 ^ 32)
    (hf : find_fit h asize = some r) : asize < 2 ^ 31 := by
  by_contra hc
  have hneg : toInt asize < 0 := by
    unfold toInt
    have : asize % 2 ^ 32 = asize := Nat.mod_eq_of_lt ha
    rw [this, if_neg (by omega)]
    omega
  unfold find_fit get_list_index at hf
  simp only [hneg, if_true] at hf
  exact absurd hf (by simp)

/-- On a well-formed heap, when `find_fit` finds no block and the backing store
grants the request, `mm_malloc` returns a block and the heap has grown by the
request. -/
theorem malloc_grows (h : Heap) (size : Nat) (hw : WellFormed h) (h0 : 0 < size)
    (hs : size < 2 ^ 31) (hf : find_fit h (adjust_size size) = some NULL)
    (hroom : h.brk + extend_size size (adjust_size size) ≤ h.max_addr) :
    ∃ h1 p, mm_malloc h size = some (h1, p) ∧ p ≠ NULL ∧
      h1.brk = h.brk + extend_size size (adjust_size size) ∧ h1.max_addr = h.max_addr := by
  obtain ⟨bs, Ls, hl, hL, hF⟩ := hw
  obtain ⟨a1, a2, a3, a4⟩ := adjust_size_facts size hs h0
  have hbig : adjust_size size < 2 ^ 31 := find_fit_some h _ _ (by omega) hf
  have hlast : ∀ c ∈ prev_free bs, c.bp ∈ Ls (class_of c.size) := fun c hc =>
    hF.complete c (prev_free_sub bs c hc) (prev_free_free bs c hc)
  have hfit := find_fit_spec h bs Ls hl hL (adjust_size size) (by omega) hbig
  rw [hf] at hfit
  have hz : fit_from h.mem Ls (adjust_size size : Int) 18 (class_of (adjust_size size)) = 0 := by
    simpa [NULL] using hfit.symm
  obtain ⟨x1, x2, x3, x4, x5⟩ := extend_size_any size
  rcases mm_malloc_spec h bs Ls size hl hL h0 hs hbig hlast with
    ⟨A, b, B, h1, e1, e2, e3, e4, e5, e6, e7, e8, e9⟩ |
    ⟨e1, e2, h1, e3, e4, e5, e6, e7, e8, e9, e10⟩ | ⟨e1, e2, e3⟩
  · subst e1
    have := layout_block h _ hl b (by simp)
    omega
  · refine ⟨h1, _, e3, ?_, e4, e5⟩
    obtain ⟨g1, q, bs1, Ls1, m1, m2, m3, m4, m5, m6, m7, m8, m9, m10, m11, m12⟩ :=
      mm_malloc_full h bs Ls size hl hL hF h0 hs hbig
    rw [e3] at m1
    simp only [Option.some.injEq, Prod.mk.injEq] at m1
    obtain ⟨m1a, m1b⟩ := m1
    intro hp
    have := m11 (by rw [← m1b]; exact hp)
    rw [← m1a] at this
    rw [this] at e4
    omega
  · exact absurd hroom e2

/-- C33, as stated, fails: on the heap right after `mm_init`, which has no
free block, `mm_malloc(16)` finds no fit and requests 128 bytes of the backing
store (the break moves from 192 to 320), whereas the larger of the adjusted
size 32 and `CHUNKSIZE`, rounded up to a multiple of `WSIZE`, is 4096. -/
theorem C33_counterexample :
    WellFormed heap0 ∧ find_fit heap0 (adjust_size 16) = some NULL ∧
    u64 (extend_size 16 (adjust_size 16) / WSIZE * WSIZE) = 128 ∧
    (mm_malloc heap0 16).map (fun r => (r.2, heap0.brk, r.1.brk)) = some (192, 192, 320) ∧
    extend_size_spec (adjust_size 16) = 4096 :=
  ⟨heap0_wf, by decide!, by decide!, by decide!, by decide!⟩

/-- C33, amended: on a well-formed heap, for `0 < size < 2^31`, when `find_fit`
finds no block, the number of bytes `mm_malloc` requests of the backing store
is 128 for a request of 16 bytes, 4280 for a request of 4092 bytes, and
otherwise the larger of the adjusted size and `CHUNKSIZE` rounded up to a
multiple of `WSIZE`; when the store refuses that request `mm_malloc` returns
`NULL` and changes nothing, and when it grants it `mm_malloc` returns a block
and the heap has grown by exactly that number of bytes. -/
theorem C33_growth_request (h : Heap) (size : Nat) (hw : WellFormed h) (h0 : 0 < size)
    (hs : size < 2 ^ 31) (hf : find_fit h (adjust_size size) = some NULL) :
    u64 (extend_size size (adjust_size size) / WSIZE * WSIZE) =
      (if size = 16 then 128 else if size = 4092 then 4280
        else extend_size_spec (adjust_size size)) ∧
    (mem_sbrk h (u64 (extend_size size (adjust_size size) / WSIZE * WSIZE)) = none →
      mm_malloc h size = some (h, NULL)) ∧
    (∀ r, mem_sbrk h (u64 (extend_size size (adjust_size size) / WSIZE * WSIZE)) = some r →
      ∃ h1 p, mm_malloc h size = some (h1, p) ∧ p ≠ NULL ∧
        h1.brk = h.brk + u64 (extend_size size (adjust_size size) / WSIZE * WSIZE)) := by
  obtain ⟨x1, x2, x3, x4, x5⟩ := extend_size_any size
  obtain ⟨a1, a2⟩ := adjust_size_any size
  refine ⟨?_, ?_, ?_⟩
  · rw [growth_request_eq, extend_size_spec_eq _ a1]
    exact x5
  · intro hn
    exact malloc_no_room h size (by omega) hf hn
  · intro r hr
    rw [growth_request_eq] at hr ⊢
    have hroom : h.brk + extend_size size (adjust_size size) ≤ h.max_addr := by
      by_contra hc
      unfold mem_sbrk at hr
      rw [if_neg hc] at hr
      exact absurd hr (by simp)
    obtain ⟨h1, p, g1, g2, g3, g4⟩ := malloc_grows h size hw h0 hs hf hroom
    exact ⟨h1, p, g1, g2, g3⟩

theorem C33_growth_request_witness :
    WellFormed heap0 ∧ 0 < 4092 ∧ 4092 < 2 ^ 31 ∧
    find_fit heap0 (adjust_size 4092) = some NULL ∧
    (u64 (extend_size 4092 (adjust_size 4092) / WSIZE * WSIZE) =
      (if 4092 = 16 then 128 else if 4092 = 4092 then 4280
        else extend_size_spec (adjust_size 4092)) ∧
    (mem_sbrk heap0 (u64 (extend_size 4092 (adjust_size 4092) / WSIZE * WSIZE)) = none →
      mm_malloc heap0 4092 = some (heap0, NULL)) ∧
    (∀ r, mem_sbrk heap0 (u64 (extend_size 4092 (adjust_size 4092) / WSIZE * WSIZE)) = some r →
      ∃ h1 p, mm_malloc heap0 4092 = some (h1, p) ∧ p ≠ NULL ∧
        h1.brk = heap0.brk + u64 (extend_size 4092 (adjust_size 4092) / WSIZE * WSIZE))) :=
  ⟨heap0_wf, by decide, by decide, by decide!,
    C33_growth_request heap0 4092 heap0_wf (by decide) (by decide) (by decide!)⟩

/-- The block that `extend_heap` returns when the backing store grants the
request: it is not `NULL`, the heap has grown by the request, and the size in
the header of the block is at least the request. -/
theorem extend_heap_block (h : Heap) (words : Nat) (hw : WellFormed h) (hsz : 32 ≤ words * 8)
    (hfit : h.brk + words * 8 ≤ h.max_addr) :
    ∃ h1 bp, extend_heap h words = some (h1, bp) ∧ bp ≠ NULL ∧ h1.brk = h.brk + words * 8 ∧
      words * 8 ≤ GET_SIZE (h1.mem (HDRP bp)) ∧ GET_SIZE (h1.mem (HDRP bp)) < 2 ^ 31 := by
  obtain ⟨bs, Ls, hl, hL, hF⟩ := hw
  have hlast : ∀ c ∈ prev_free bs, c.bp ∈ Ls (class_of c.size) := fun c hc =>
    hF.complete c (prev_free_sub bs c hc) (prev_free_free bs c hc)
  obtain ⟨h1, e1, e2, e3, e4, e5, e6, e7, e8⟩ := extend_heap_spec h bs Ls words hl hL hsz hfit hlast
  have hin : merged bs ⟨h.brk, words * 8, false⟩ [] ∈
      coalesce_blocks bs ⟨h.brk, words * 8, false⟩ [] := by
    unfold coalesce_blocks
    simp
  obtain ⟨k1, k2, k3, k4, k5, k6, k7, k8⟩ := layout_block h1 _ e6 _ hin
  have hsize := (layout_size h1 _ e6 _ hin).1
  have hm := merged_size bs ⟨h.brk, words * 8, false⟩ []
  refine ⟨h1, _, e1, ?_, e2, ?_, ?_⟩
  · unfold NULL; omega
  · rw [hsize]; exact hm
  · rw [hsize]; exact k6

/-- The request of `mm_init` is granted exactly when `mm_init` succeeds, and
then the break has moved by the request. -/
theorem mm_init_request (s : Heap) :
    (mem_sbrk s ((4 + SEGLST_NUM) * WSIZE) = none → (mm_init s).2 = -1) ∧
    ((mm_init s).2 = 0 → (mm_init s).1.brk = s.brk + (4 + SEGLST_NUM) * WSIZE) := by
  constructor
  · intro hn
    apply mm_init_fail
    intro hc
    unfold mem_sbrk at hn
    rw [if_pos (by simpa [SEGLST_NUM, WSIZE] using hc)] at hn
    exact absurd hn (by simp)
  · intro hi
    exact (mm_init_mem s (init_ok s hi)).2.1

/-- C34: for every `size > 0` that a `size_t` holds, the number of bytes that
`extend_heap` requests of the backing store on the growth path of `mm_malloc`
is strictly positive, a multiple of `WSIZE`, and at least the adjusted size
that `mm_malloc` passes to `place` there (the value reassigned for the request
of 512 bytes included); on a well-formed heap, when the store grants the
request, `extend_heap` returns a block that is not `NULL`, whose size `csize`
is at least that adjusted size, so that the subtraction `csize - asize` of
`place` does not wrap; when `find_fit` found no block, `mm_malloc` is `place`
on that block. The request of `mm_init` is strictly positive as well. -/
theorem C34_request_covers (h : Heap) (size : Nat) (hw : WellFormed h) (h0 : 0 < size)
    (hs : size < 2 ^ 64) :
    0 < u64 (extend_size size (adjust_size size) / WSIZE * WSIZE) ∧
    u64 (extend_size size (adjust_size size) / WSIZE * WSIZE) % WSIZE = 0 ∧
    (if size = 512 then 640 + 16 else adjust_size size) ≤
      u64 (extend_size size (adjust_size size) / WSIZE * WSIZE) ∧
    (mem_sbrk h (u64 (extend_size size (adjust_size size) / WSIZE * WSIZE)) = none →
      extend_heap h (extend_size size (adjust_size size) / WSIZE) = some (h, NULL)) ∧
    (∀ r, mem_sbrk h (u64 (extend_size size (adjust_size size) / WSIZE * WSIZE)) = some r →
      ∃ h1 bp, extend_heap h (extend_size size (adjust_size size) / WSIZE) = some (h1, bp) ∧
        bp ≠ NULL ∧
        h1.brk = h.brk + u64 (extend_size size (adjust_size size) / WSIZE * WSIZE) ∧
        (if size = 512 then 640 + 16 else adjust_size size) ≤ GET_SIZE (h1.mem (HDRP bp)) ∧
        sub64 (GET_SIZE (h1.mem (HDRP bp))) (if size = 512 then 640 + 16 else adjust_size size) =
          GET_SIZE (h1.mem (HDRP bp)) - (if size = 512 then 640 + 16 else adjust_size size) ∧
        (find_fit h (adjust_size size) = some NULL → mm_malloc h size =
          place h1 bp (if size = 512 then 640 + 16 else adjust_size size))) ∧
    0 < (4 + SEGLST_NUM) * WSIZE ∧
    ∀ s, (mem_sbrk s ((4 + SEGLST_NUM) * WSIZE) = none → (mm_init s).2 = -1) ∧
      ((mm_init s).2 = 0 → (mm_init s).1.brk = s.brk + (4 + SEGLST_NUM) * WSIZE) := by
  obtain ⟨x1, x2, x3, x4, x5⟩ := extend_size_any size
  obtain ⟨a1, a2⟩ := adjust_size_any size
  rw [growth_request_eq, growth_asize_eq]
  have hwords : extend_size size (adjust_size size) / WSIZE * 8 =
      extend_size size (adjust_size size) := by
    unfold WSIZE; omega
  refine ⟨by omega, by unfold WSIZE; omega, x3, ?_, ?_, by decide, mm_init_request⟩
  · intro hn
    unfold extend_heap
    rw [growth_request_eq]
    simp only [hn]
  · intro r hr
    have hroom : h.brk + extend_size size (adjust_size size) ≤ h.max_addr := by
      by_contra hc
      unfold mem_sbrk at hr
      rw [if_neg hc] at hr
      exact absurd hr (by simp)
    obtain ⟨h1, bp, g1, g2, g3, g4, g5⟩ := extend_heap_block h
      (extend_size size (adjust_size size) / WSIZE) hw (by omega) (by omega)
    rw [hwords] at g3 g4
    refine ⟨h1, bp, g1, g2, g3, by omega, sub64_small _ _ (by omega) (by omega), ?_⟩
    intro hf
    have hp := ((mm_malloc_passes h size (by omega)).2.2 hf).1 h1 bp g1 g2
    exact hp

theorem C34_request_covers_witness :
    WellFormed heap0 ∧ 0 < 512 ∧ 512 < 2 ^ 64 ∧
    (0 < u64 (extend_size 512 (adjust_size 512) / WSIZE * WSIZE) ∧
    u64 (extend_size 512 (adjust_size 512) / WSIZE * WSIZE) % WSIZE = 0 ∧
    (if 512 = 512 then 640 + 16 else adjust_size 512) ≤
      u64 (extend_size 512 (adjust_size 512) / WSIZE * WSIZE) ∧
    (mem_sbrk heap0 (u64 (extend_size 512 (adjust_size 512) / WSIZE * WSIZE)) = none →
      extend_heap heap0 (extend_size 512 (adjust_size 512) / WSIZE) = some (heap0, NULL)) ∧
    (∀ r, mem_sbrk heap0 (u64 (extend_size 512 (adjust_size 512) / WSIZE * WSIZE)) = some r →
      ∃ h1 bp, extend_heap heap0 (extend_size 512 (adjust_size 512) / WSIZE) = some (h1, bp) ∧
        bp ≠ NULL ∧
        h1.brk = heap0.brk + u64 (extend_size 512 (adjust_size 512) / WSIZE * WSIZE) ∧
        (if 512 = 512 then 640 + 16 else adjust_size 512) ≤ GET_SIZE (h1.mem (HDRP bp)) ∧
        sub64 (GET_SIZE (h1.mem (HDRP bp))) (if 512 = 512 then 640 + 16 else adjust_size 512) =
          GET_SIZE (h1.mem (HDRP bp)) - (if 512 = 512 then 640 + 16 else adjust_size 512) ∧
        (find_fit heap0 (adjust_size 512) = some NULL → mm_malloc heap0 512 =
          place h1 bp (if 512 = 512 then 640 + 16 else adjust_size 512))) ∧
    0 < (4 + SEGLST_NUM) * WSIZE ∧
    ∀ s, (mem_sbrk s ((4 + SEGLST_NUM) * WSIZE) = none → (mm_init s).2 = -1) ∧
      ((mm_init s).2 = 0 → (mm_init s).1.brk = s.brk + (4 + SEGLST_NUM) * WSIZE)) :=
  ⟨heap0_wf, by decide, by decide, C34_request_covers heap0 512 heap0_wf (by decide) (by decide)⟩

/-! ### The effect of `place` on the lists and the tags -/

/-- The list `i` after a block was put in front of the list of its class. -/
theorem ins_apply (Ls : Nat → List Nat) (r : Block) (i : Nat) :
    ins Ls r i = if i = class_of r.size then r.bp :: Ls i else Ls i := by
  unfold ins
  by_cases hi : i = class_of r.size
  · subst hi
    rw [Function.update_same, if_pos rfl]
  · rw [Function.update_noteq hi, if_neg hi]

/-- Removing a member from the list of its class erases it from every list:
it is in no other list. -/
theorem del_eq_erase (h : Heap) (bs : List Block) (Ls : Nat → List Nat) (hl : Layout h bs)
    (hL : Lists h bs Ls) (b : Block) (hin : b.bp ∈ Ls (class_of b.size)) :
    ∀ i < 18, del Ls b i = (Ls i).erase b.bp := by
  intro i hi
  unfold del
  by_cases hic : i = class_of b.size
  · subst hic
    rw [Function.update_same]
  · rw [Function.update_noteq hic]
    have hn : b.bp ∉ Ls i := fun hx =>
      hic (members_class h bs Ls hl hL i _ hi (class_of_lt _) b.bp hx hin)
    exact (List.erase_of_not_mem hn).symm

/-- The tags of a block of the layout, in terms of `PACK`. -/
theorem block_packs (h : Heap) (bs : List Block) (hl : Layout h bs) (b : Block) (hb : b ∈ bs) :
    h.mem (HDRP b.bp) = PACK b.size (if b.alloc then 1 else 0) ∧
      h.mem (FTRP h.mem b.bp) = PACK b.size (if b.alloc then 1 else 0) := by
  obtain ⟨t1, t2, t3, t4, t5⟩ := block_tags h bs hl b hb
  obtain ⟨k1, k2, k3, k4, k5, k6, k7, k8⟩ := layout_block h bs hl b hb
  have hp : PACK b.size (if b.alloc then 1 else 0) = b.tag := by
    rw [PACK_eq _ _ k4 (by split <;> omega)]
    rfl
  rw [hp]
  exact ⟨t1, t2⟩

/-- Blocks that two layouts share have the same header and footer in both. -/
theorem shared_tags (h h1 : Heap) (bs bs1 : List Block) (hl : Layout h bs) (hl1 : Layout h1 bs1)
    (c : Block) (hc : c ∈ bs) (hc1 : c ∈ bs1) :
    h1.mem (HDRP c.bp) = h.mem (HDRP c.bp) ∧ h1.mem (FTRP h1.mem c.bp) = h.mem (FTRP h.mem c.bp) := by
  obtain ⟨t1, t2⟩ := block_packs h bs hl c hc
  obtain ⟨u1, u2⟩ := block_packs h1 bs1 hl1 c hc1
  rw [t1, t2, u1, u2]
  exact ⟨rfl, rfl⟩

/-- C32: on a well-formed heap, for a free block `b` (the blocks before it are
`A`, those behind it `B`) and a size `asize` with
`asize <= csize < asize + 2 * DSIZE`, where `csize` is the size of `b`:
`place(bp, asize)` returns `bp`; the block is a member of the list of its class
before and of no list after, and every list is what it was without `bp` (no
block is inserted); header and footer of the block are `PACK(csize, 1)`; the
walk of the heap finds the same blocks with `b` allocated at its full size; and
header and footer of every other block are unchanged. -/
theorem C32_place_whole (h : Heap) (A B : List Block) (b : Block) (asize : Nat)
    (hw : WellFormed h) (hb : blocks h = A ++ [b] ++ B) (hfree : b.alloc = false)
    (ha : asize ≤ b.size) (hns : b.size < asize + 2 * DSIZE) :
    ∃ h1, place h b.bp asize = some (h1, b.bp) ∧
      b.bp ∈ free_list h (class_of b.size) ∧
      (∀ i < 18, b.bp ∉ free_list h1 i) ∧
      (∀ i < 18, free_list h1 i = (free_list h i).erase b.bp) ∧
      h1.mem (HDRP b.bp) = PACK b.size 1 ∧ h1.mem (FTRP h1.mem b.bp) = PACK b.size 1 ∧
      blocks h1 = A ++ [⟨b.bp, b.size, true⟩] ++ B ∧
      ∀ c ∈ A ++ B, h1.mem (HDRP c.bp) = h.mem (HDRP c.bp) ∧
        h1.mem (FTRP h1.mem c.bp) = h.mem (FTRP h.mem c.bp) := by
  obtain ⟨bs, Ls, hl, hL, hF⟩ := hw
  rw [blocks_eq h bs hl] at hb
  subst hb
  have hin : b.bp ∈ Ls (class_of b.size) := hF.complete b (by simp) hfree
  have hnsplit : ¬ (asize + 32 ≤ b.size) := by
    unfold DSIZE WSIZE at hns; omega
  obtain ⟨h1, p1, p2, p3, p4, p5⟩ := place_whole h A B b Ls asize hl hL hin ha hnsplit
  have hdn := del_not_mem h _ Ls hl hL b (by simp)
  have hde := del_eq_erase h _ Ls hl hL b hin
  have hpk := block_packs h1 _ p3 ⟨b.bp, b.size, true⟩ (by simp)
  simp only [if_true] at hpk
  refine ⟨h1, p1, ?_, ?_, ?_, hpk.1, hpk.2, blocks_eq h1 _ p3, ?_⟩
  · rw [free_list_eq h _ Ls hl hL _ (class_of_lt _)]
    exact hin
  · intro i hi
    rw [free_list_eq h1 _ _ p3 p4 i hi]
    exact hdn i hi
  · intro i hi
    rw [free_list_eq h1 _ _ p3 p4 i hi, free_list_eq h _ Ls hl hL i hi]
    exact hde i hi
  · intro c hc
    exact shared_tags h h1 _ _ hl p3 c (mem_mid A B b c hc) (mem_mid A B _ c hc)

theorem C32_place_whole_witness :
    WellFormed heap1 ∧ blocks heap1 = [⟨192, 56, true⟩] ++ [⟨248, 4040, false⟩] ++ [] ∧
    (⟨248, 4040, false⟩ : Block).alloc = false ∧
    4016 ≤ (⟨248, 4040, false⟩ : Block).size ∧
    (⟨248, 4040, false⟩ : Block).size < 4016 + 2 * DSIZE ∧
    ∃ h1, place heap1 (⟨248, 4040, false⟩ : Block).bp 4016 =
        some (h1, (⟨248, 4040, false⟩ : Block).bp) ∧
      (⟨248, 4040, false⟩ : Block).bp ∈
        free_list heap1 (class_of (⟨248, 4040, false⟩ : Block).size) ∧
      (∀ i < 18, (⟨248, 4040, false⟩ : Block).bp ∉ free_list h1 i) ∧
      (∀ i < 18, free_list h1 i = (free_list heap1 i).erase (⟨248, 4040, false⟩ : Block).bp) ∧
      h1.mem (HDRP (⟨248, 4040, false⟩ : Block).bp) =
        PACK (⟨248, 4040, false⟩ : Block).size 1 ∧
      h1.mem (FTRP h1.mem (⟨248, 4040, false⟩ : Block).bp) =
        PACK (⟨248, 4040, false⟩ : Block).size 1 ∧
      blocks h1 = [⟨192, 56, true⟩] ++
        [⟨(⟨248, 4040, false⟩ : Block).bp, (⟨248, 4040, false⟩ : Block).size, true⟩] ++ [] ∧
      ∀ c ∈ [⟨192, 56, true⟩] ++ ([] : List Block), h1.mem (HDRP c.bp) = heap1.mem (HDRP c.bp) ∧
        h1.mem (FTRP h1.mem c.bp) = heap1.mem (FTRP heap1.mem c.bp) :=
  ⟨heap1_wf, by decide!, rfl, by decide, by decide,
    C32_place_whole heap1 [⟨192, 56, true⟩] [] ⟨248, 4040, false⟩ 4016 heap1_wf (by decide!) rfl
      (by decide) (by decide)⟩

/-- C31, as stated, fails: on the well-formed heap `heap1`, whose only free
block has 4040 bytes at 248, `place(248, 128)` splits the block
(`4040 - 128 >= 2 * DSIZE`) but returns 4160, not 248: the allocated block of
128 bytes is the back portion, and the free remainder of 3912 bytes stays at
248. -/
theorem C31_counterexample :
    WellFormed heap1 ∧ blocks heap1 = [⟨192, 56, true⟩, ⟨248, 4040, false⟩] ∧
    4040 - 128 ≥ 2 * DSIZE ∧
    (place heap1 248 128).map (fun r => (r.2, blocks r.1, r.1.mem (HDRP 248),
        (List.range 18).map (free_list r.1))) =
      some (4160, [⟨192, 56, true⟩, ⟨248, 3912, false⟩, ⟨4160, 128, true⟩], PACK 3912 0,
        [[], [], [], [], [], [248], [], [], [], [], [], [], [], [], [], [], [], []]) :=
  ⟨heap1_wf, by decide!, by decide, by decide!⟩

/-- The split of `place` for an adjusted size other than 128: the front
portion is allocated. -/
theorem place_front (h : Heap) (A B : List Block) (b : Block) (asize : Nat)
    (hw : WellFormed h) (hb : blocks h = A ++ [b] ++ B) (hfree : b.alloc = false)
    (ha1 : asize % 8 = 0) (ha2 : 16 ≤ asize) (hsplit : asize + 32 ≤ b.size)
    (h128 : asize ≠ 128) :
    ∃ h1, place h b.bp asize = some (h1, b.bp) ∧
      b.bp ∈ free_list h (class_of b.size) ∧
      (∀ i < 18, b.bp ∉ free_list h1 i) ∧
      h1.mem (HDRP b.bp) = PACK asize 1 ∧ h1.mem (FTRP h1.mem b.bp) = PACK asize 1 ∧
      h1.mem (HDRP (b.bp + asize)) = PACK (b.size - asize) 0 ∧
      h1.mem (FTRP h1.mem (b.bp + asize)) = PACK (b.size - asize) 0 ∧
      get_list_index ((b.size - asize : Nat) : Int) = some (class_of (b.size - asize)) ∧
      (∀ i < 18, free_list h1 i =
        if i = class_of (b.size - asize) then (b.bp + asize) :: (free_list h i).erase b.bp
        else (free_list h i).erase b.bp) ∧
      blocks h1 = A ++ [⟨b.bp, asize, true⟩, ⟨b.bp + asize, b.size - asize, false⟩] ++ B := by
  obtain ⟨bs, Ls, hl, hL, hF⟩ := hw
  rw [blocks_eq h bs hl] at hb
  subst hb
  have hin : b.bp ∈ Ls (class_of b.size) := hF.complete b (by simp) hfree
  obtain ⟨h1, p1, p2, p3, p4, p5⟩ := place_split h A B b Ls asize hl hL hin ha2 ha1 hsplit h128
  have hde := del_eq_erase h _ Ls hl hL b hin
  have hpa := block_packs h1 _ p3 ⟨b.bp, asize, true⟩ (by simp)
  have hpr := block_packs h1 _ p3 ⟨b.bp + asize, b.size - asize, false⟩ (by simp)
  simp only [if_true, Bool.false_eq_true, if_false] at hpa hpr
  have hlist : ∀ i < 18, free_list h1 i =
      if i = class_of (b.size - asize) then (b.bp + asize) :: (free_list h i).erase b.bp
      else (free_list h i).erase b.bp := by
    intro i hi
    rw [free_list_eq h1 _ _ p3 p4 i hi, free_list_eq h _ Ls hl hL i hi, ins_apply, hde i hi]
  refine ⟨h1, p1, ?_, ?_, hpa.1, hpa.2, hpr.1, hpr.2, get_list_index_nat _, hlist,
    blocks_eq h1 _ p3⟩
  · rw [free_list_eq h _ Ls hl hL _ (class_of_lt _)]
    exact hin
  · intro i hi hx
    rw [hlist i hi] at hx
    have hne : b.bp ∉ (free_list h i).erase b.bp := by
      rw [free_list_eq h _ Ls hl hL i hi]
      exact List.Nodup.not_mem_erase (hL.nodup i hi)
    split at hx
    · rcases List.mem_cons.1 hx with g | g
      · omega
      · exact hne g
    · exact hne hx

/-- The split of `place` for the adjusted size 128: the back portion is
allocated. -/
theorem place_back (h : Heap) (A B : List Block) (b : Block) (rest : Nat)
    (hw : WellFormed h) (hb : blocks h = A ++ [b] ++ B) (hfree : b.alloc = false)
    (hrest : rest + 128 = b.size) (hsplit : 32 ≤ rest) :
    ∃ h1, place h b.bp 128 = some (h1, b.bp + rest) ∧
      b.bp ∈ free_list h (class_of b.size) ∧
      (∀ i < 18, b.bp + rest ∉ free_list h1 i) ∧
      h1.mem (HDRP (b.bp + rest)) = PACK 128 1 ∧
      h1.mem (FTRP h1.mem (b.bp + rest)) = PACK 128 1 ∧
      h1.mem (HDRP b.bp) = PACK rest 0 ∧ h1.mem (FTRP h1.mem b.bp) = PACK rest 0 ∧
      get_list_index (rest : Int) = some (class_of rest) ∧
      (∀ i < 18, free_list h1 i =
        if i = class_of rest then b.bp :: (free_list h i).erase b.bp
        else (free_list h i).erase b.bp) ∧
      blocks h1 = A ++ [⟨b.bp, rest, false⟩, ⟨b.bp + rest, 128, true⟩] ++ B := by
  obtain ⟨bs, Ls, hl, hL, hF⟩ := hw
  rw [blocks_eq h bs hl] at hb
  subst hb
  have hin : b.bp ∈ Ls (class_of b.size) := hF.complete b (by simp) hfree
  obtain ⟨h1, p1, p2, p3, p4, p5⟩ := place_tuned h A B b Ls hl hL hin (by omega)
  have hr : b.size - 128 = rest := by omega
  rw [hr] at p1 p3 p4
  have hde := del_eq_erase h _ Ls hl hL b hin
  have hpa := block_packs h1 _ p3 ⟨b.bp + rest, 128, true⟩ (by simp)
  have hpr := block_packs h1 _ p3 ⟨b.bp, rest, false⟩ (by simp)
  simp only [if_true, Bool.false_eq_true, if_false] at hpa hpr
  have hlist : ∀ i < 18, free_list h1 i =
      if i = class_of rest then b.bp :: (free_list h i).erase b.bp
      else (free_list h i).erase b.bp := by
    intro i hi
    rw [free_list_eq h1 _ _ p3 p4 i hi, free_list_eq h _ Ls hl hL i hi, ins_apply, hde i hi]
  refine ⟨h1, p1, ?_, ?_, hpa.1, hpa.2, hpr.1, hpr.2, get_list_index_nat _, hlist,
    blocks_eq h1 _ p3⟩
  · rw [free_list_eq h _ Ls hl hL _ (class_of_lt _)]
    exact hin
  · intro i hi hx
    rw [free_list_eq h1 _ _ p3 p4 i hi] at hx
    exact absurd (alloc_not_member h1 _ _ p3 p4 ⟨b.bp + rest, 128, true⟩ (by simp) rfl i hi)
      (by simpa using hx)

/-- C31, amended: on a well-formed heap, for a free block `b` of size `csize`
(the blocks before it are `A`, those behind it `B`) and an adjusted size
`asize`, a multiple of `WSIZE` of at least `DSIZE`, with
`csize - asize >= 2 * DSIZE`, `place(bp, asize)` removes `bp` from the list of
its class and splits the block. When `asize` is not 128, the front portion at
`bp` gets header and footer `PACK(asize, 1)`, the remainder at `bp + asize`
gets header and footer `PACK(csize - asize, 0)` and becomes the first member of
`seg_lst[get_list_index(csize - asize)]`, and `bp` is returned. When `asize`
is 128, the back portion at `bp + (csize - asize)` gets header and footer
`PACK(asize, 1)` and is returned, and the remainder at `bp` gets header and
footer `PACK(csize - asize, 0)` and becomes the first member of
`seg_lst[get_list_index(csize - asize)]`. In both cases every list is
otherwise what it was without `bp`. -/
theorem C31_place_split (h : Heap) (A B : List Block) (b : Block) (asize : Nat)
    (hw : WellFormed h) (hb : blocks h = A ++ [b] ++ B) (hfree : b.alloc = false)
    (ha1 : asize % WSIZE = 0) (ha2 : DSIZE ≤ asize) (hsplit : asize + 2 * DSIZE ≤ b.size) :
    (asize ≠ 128 →
      ∃ h1, place h b.bp asize = some (h1, b.bp) ∧
        b.bp ∈ free_list h (class_of b.size) ∧
        (∀ i < 18, b.bp ∉ free_list h1 i) ∧
        h1.mem (HDRP b.bp) = PACK asize 1 ∧ h1.mem (FTRP h1.mem b.bp) = PACK asize 1 ∧
        h1.mem (HDRP (b.bp + asize)) = PACK (b.size - asize) 0 ∧
        h1.mem (FTRP h1.mem (b.bp + asize)) = PACK (b.size - asize) 0 ∧
        get_list_index ((b.size - asize : Nat) : Int) = some (class_of (b.size - asize)) ∧
        (∀ i < 18, free_list h1 i =
          if i = class_of (b.size - asize) then (b.bp + asize) :: (free_list h i).erase b.bp
          else (free_list h i).erase b.bp) ∧
        blocks h1 = A ++ [⟨b.bp, asize, true⟩, ⟨b.bp + asize, b.size - asize, false⟩] ++ B) ∧
    (asize = 128 →
      ∃ h1, place h b.bp asize = some (h1, b.bp + (b.size - asize)) ∧
        b.bp ∈ free_list h (class_of b.size) ∧
        (∀ i < 18, b.bp + (b.size - asize) ∉ free_list h1 i) ∧
        h1.mem (HDRP (b.bp + (b.size - asize))) = PACK asize 1 ∧
        h1.mem (FTRP h1.mem (b.bp + (b.size - asize))) = PACK asize 1 ∧
        h1.mem (HDRP b.bp) = PACK (b.size - asize) 0 ∧
        h1.mem (FTRP h1.mem b.bp) = PACK (b.size - asize) 0 ∧
        get_list_index ((b.size - asize : Nat) : Int) = some (class_of (b.size - asize)) ∧
        (∀ i < 18, free_list h1 i =
          if i = class_of (b.size - asize) then b.bp :: (free_list h i).erase b.bp
          else (free_list h i).erase b.bp) ∧
        blocks h1 = A ++ [⟨b.bp, b.size - asize, false⟩,
          ⟨b.bp + (b.size - asize), asize, true⟩] ++ B) := by
  have g1 : asize % 8 = 0 := ha1
  have g2 : 16 ≤ asize := ha2
  have g3 : asize + 32 ≤ b.size := hsplit
  constructor
  · intro h128
    exact place_front h A B b asize hw hb hfree g1 g2 g3 h128
  · intro h128
    have hp := place_back h A B b (b.size - asize) hw hb hfree (by omega) (by omega)
    rw [← h128] at hp
    exact hp

theorem C31_place_split_witness :
    WellFormed heap1 ∧ blocks heap1 = [⟨192, 56, true⟩] ++ [⟨248, 4040, false⟩] ++ [] ∧
    (⟨248, 4040, false⟩ : Block).alloc = false ∧ 56 % WSIZE = 0 ∧ DSIZE ≤ 56 ∧
    56 + 2 * DSIZE ≤ (⟨248, 4040, false⟩ : Block).size ∧ 56 ≠ 128 ∧
    ∃ h1, place heap1 (⟨248, 4040, false⟩ : Block).bp 56 =
        some (h1, (⟨248, 4040, false⟩ : Block).bp) ∧
      (⟨248, 4040, false⟩ : Block).bp ∈
        free_list heap1 (class_of (⟨248, 4040, false⟩ : Block).size) ∧
      (∀ i < 18, (⟨248, 4040, false⟩ : Block).bp ∉ free_list h1 i) ∧
      h1.mem (HDRP (⟨248, 4040, false⟩ : Block).bp) = PACK 56 1 ∧
      h1.mem (FTRP h1.mem (⟨248, 4040, false⟩ : Block).bp) = PACK 56 1 ∧
      h1.mem (HDRP ((⟨248, 4040, false⟩ : Block).bp + 56)) =
        PACK ((⟨248, 4040, false⟩ : Block).size - 56) 0 ∧
      h1.mem (FTRP h1.mem ((⟨248, 4040, false⟩ : Block).bp + 56)) =
        PACK ((⟨248, 4040, false⟩ : Block).size - 56) 0 ∧
      get_list_index (((⟨248, 4040, false⟩ : Block).size - 56 : Nat) : Int) =
        some (class_of ((⟨248, 4040, false⟩ : Block).size - 56)) ∧
      (∀ i < 18, free_list h1 i =
        if i = class_of ((⟨248, 4040, false⟩ : Block).size - 56)
        then ((⟨248, 4040, false⟩ : Block).bp + 56) ::
          (free_list heap1 i).erase (⟨248, 4040, false⟩ : Block).bp
        else (free_list heap1 i).erase (⟨248, 4040, false⟩ : Block).bp) ∧
      blocks h1 = [⟨192, 56, true⟩] ++ [⟨(⟨248, 4040, false⟩ : Block).bp, 56, true⟩,
        ⟨(⟨248, 4040, false⟩ : Block).bp + 56, (⟨248, 4040, false⟩ : Block).size - 56,
          false⟩] ++ [] :=
  ⟨heap1_wf, by decide!, rfl, by decide, by decide, by decide, by decide,
    (C31_place_split heap1 [⟨192, 56, true⟩] [] ⟨248, 4040, false⟩ 56 heap1_wf (by decide!) rfl
      (by decide) (by decide) (by decide)).1 (by decide)⟩

/-! ### `insert_block` on a block below the minimum size -/

/-- The heap `heap_small` is tiled by a free block of 24 bytes at 192 and a
free block of 4072 bytes at 216. -/
theorem heap_small_layout : Layout heap_small [⟨192, 24, false⟩, ⟨216, 4072, false⟩] := by
  constructor
  · decide!
  · decide!
  · decide!
  · decide!
  · decide!
  · simp only [Tiling]
    decide!
  · decide!
  · decide!
  · decide!

/-- The free lists of `heap_small` are consistent: list 5 has the one member
216, the other lists are empty. -/
theorem heap_small_lists :
    Lists heap_small [⟨192, 24, false⟩, ⟨216, 4072, false⟩] (fun i => if i = 5 then [216] else []) := by
  constructor
  · intro i hi
    interval_cases i <;> simp only [Chain] <;> decide!
  · intro i hi x hx
    by_cases h5 : i = 5
    · subst h5
      simp only [if_true, List.mem_singleton] at hx
      subst hx
      exact ⟨⟨216, 4072, false⟩, by simp, rfl, rfl, by decide, by decide!⟩
    · simp only [if_neg h5, List.not_mem_nil] at hx
  · intro i hi
    by_cases h5 : i = 5
    · simp [h5]
    · simp [h5]

/-- The state `heap_small` is the one in which `mm_free(192)`, called after
`mm_init`, `mm_malloc(40)` and `mm_realloc(192, 1)`, calls `insert_block`. -/
theorem heap_small_reached :
    (mm_realloc heap1 192 1).bind (fun r => mm_free r.1 192) =
      (insert_block heap_small 192 24).bind (fun h3 => (coalesce h3 192).map Prod.fst) := by
  rfl

/-- C35: in the state `heap_small`, reached inside `mm_free(192)` after
`mm_init`, `mm_malloc(40)` and `mm_realloc(192, 1)`, the free lists are
consistent and the free block at 192, of header size 24, is in no list; yet
`insert_block(192, 24)`, which makes it the head of list 0, changes its
footer: the word at 200 was `PACK(24, 0)` and is then the `prev` link `NULL`,
while its header still is `PACK(24, 0)`. -/
theorem C35_insert_overwrites_footer :
    is_live heap1 192 = true ∧
    Layout heap_small [⟨192, 24, false⟩, ⟨216, 4072, false⟩] ∧
    Lists heap_small [⟨192, 24, false⟩, ⟨216, 4072, false⟩]
      (fun i => if i = 5 then [216] else []) ∧
    blocks heap_small = [⟨192, 24, false⟩, ⟨216, 4072, false⟩] ∧
    (List.range 18).map (free_list heap_small) =
      [[], [], [], [], [], [216], [], [], [], [], [], [], [], [], [], [], [], []] ∧
    GET_SIZE (heap_small.mem (HDRP 192)) = 24 ∧
    FTRP heap_small.mem 192 = 200 ∧ heap_small.mem 200 = PACK 24 0 ∧
    (insert_block heap_small 192 24).map
        (fun h1 => ((List.range 18).map (free_list h1), h1.mem (HDRP 192), FTRP h1.mem 192,
          h1.mem 200)) =
      some ([[192], [], [], [], [], [216], [], [], [], [], [], [], [], [], [], [], [], []],
        PACK 24 0, 200, NULL) ∧
    (mm_realloc heap1 192 1).bind (fun r => mm_free r.1 192) =
      (insert_block heap_small 192 24).bind (fun h3 => (coalesce h3 192).map Prod.fst) :=
  ⟨by decide!, heap_small_layout, heap_small_lists, by decide!, by decide!, by decide!,
    by decide!, by decide!, by decide!, heap_small_reached⟩

/-! ### `delete_block` right after `insert_block` -/

/-- Function `delete_block` on a block without a `prev` link: the head of the
list becomes its `next` link, whose `prev` link is cleared. -/
theorem delete_block_first (g : Heap) (bp i : Nat) (h0 : bp ≠ 0)
    (hi : get_list_index (toInt (GET_SIZE (g.mem (HDRP bp)))) = some i)
    (hp : g.mem (bp + 8) = 0) :
    delete_block g bp = some { g with mem :=
      (if g.mem bp = 0 then PUT g.mem (g.seg_lst + i * 8) 0
      else PUT (PUT g.mem (g.mem bp + 8) 0) (g.seg_lst + i * 8) (g.mem bp)) } := by
  unfold delete_block
  simp only [NULL, if_neg h0, hi, prev_of, next_of, WSIZE, hp, if_true, seg_at, Heap.put]
  split <;> rfl

/-- The memory after `insert_block` put the block at `bp` in front of a list
with head `c0`, and `delete_block` removed it again, differs from the memory
before in the two link words of the block at most. -/
theorem link_unlink_mem (m : Nat → Nat) (bp seg c0 : Nat) (hseg : m seg = c0)
    (hprev : c0 ≠ 0 → m (c0 + 8) = 0) (h1 : seg + 32 ≤ bp)
    (h2 : c0 ≠ 0 → seg + 32 ≤ c0 ∧ (c0 + 32 ≤ bp ∨ bp + 16 ≤ c0)) :
    PUT (link_head m bp c0) seg bp (bp - 8) = m (bp - 8) ∧
    PUT (link_head m bp c0) seg bp (bp + 8) = 0 ∧
    PUT (link_head m bp c0) seg bp bp = c0 ∧
    ∀ a, a ≠ bp → a ≠ bp + 8 →
      (if c0 = 0 then PUT (PUT (link_head m bp c0) seg bp) seg 0
        else PUT (PUT (PUT (link_head m bp c0) seg bp) (c0 + 8) 0) seg c0) a = m a := by
  by_cases hz : c0 = 0
  · subst hz
    unfold link_head
    simp only [if_true]
    refine ⟨?_, ?_, ?_, ?_⟩
    · rw [PUT_other _ _ _ _ (by omega), PUT_other _ _ _ _ (by omega),
        PUT_other _ _ _ _ (by omega)]
    · rw [PUT_other _ _ _ _ (by omega), PUT_other _ _ _ _ (by omega), PUT_same]
    · rw [PUT_other _ _ _ _ (by omega), PUT_same]
    · intro a ha1 ha2
      by_cases has : a = seg
      · subst has
        rw [PUT_same, hseg]
      · rw [PUT_other _ _ _ _ has, PUT_other _ _ _ _ has, PUT_other _ _ _ _ ha1,
          PUT_other _ _ _ _ ha2]
  · obtain ⟨g1, g2⟩ := h2 hz
    have hp := hprev hz
    unfold link_head
    simp only [if_neg hz]
    refine ⟨?_, ?_, ?_, ?_⟩
    · rw [PUT_other _ _ _ _ (by omega), PUT_other _ _ _ _ (by omega),
        PUT_other _ _ _ _ (by omega), PUT_other _ _ _ _ (by omega)]
    · rw [PUT_other _ _ _ _ (by omega), PUT_other _ _ _ _ (by omega),
        PUT_other _ _ _ _ (by omega), PUT_same]
    · rw [PUT_other _ _ _ _ (by omega), PUT_other _ _ _ _ (by omega), PUT_same]
    · intro a ha1 ha2
      by_cases has : a = seg
      · subst has
        rw [PUT_same, hseg]
      · rw [PUT_other _ _ _ _ has]
        by_cases hac : a = c0 + 8
        · subst hac
          rw [PUT_same, hp]
        · rw [PUT_other _ _ _ _ hac, PUT_other _ _ _ _ has, PUT_other _ _ _ _ hac,
            PUT_other _ _ _ _ ha1, PUT_other _ _ _ _ ha2]

/-- Function `delete_block` right after `insert_block` on a block of the heap
that is in no list: both succeed, and afterwards every list has the members it
had before the insertion; the memory differs in the two link words of the
block at most. -/
theorem insert_delete (h : Heap) (bs : List Block) (Ls : Nat → List Nat)
    (hl : Layout h bs) (hL : Lists h bs Ls) (b : Block) (hb : b ∈ bs)
    (hn : ∀ j < 18, b.bp ∉ Ls j) :
    ∃ h1 h2, insert_block h b.bp (b.size : Int) = some h1 ∧ delete_block h1 b.bp = some h2 ∧
      Same h h2 ∧ (∀ a, a ≠ b.bp → a ≠ b.bp + 8 → h2.mem a = h.mem a) ∧
      ∀ j < 18, free_list h2 j = free_list h j := by
  have hi := class_of_lt b.size
  obtain ⟨k1, k2, k3, k4, k5, k6, k7, k8⟩ := layout_block h bs hl b hb
  have hsize := (layout_size h bs hl b hb).1
  have hx0 : b.bp ≠ 0 := by omega
  have hapart : ∀ j < 18, ∀ y ∈ Ls j, h.seg_lst + 176 ≤ y ∧ y < h.brk ∧
      (y + 32 ≤ b.bp ∨ b.bp + 16 ≤ y) := by
    intro j hj y hy
    obtain ⟨c, hc, f1, f2, f3, f4, f5, f6, f7⟩ := members_block h bs Ls hl hL j hj y hy
    refine ⟨f5, by omega, ?_⟩
    rcases tiling_disjoint h.mem bs _ _ hl.til b hb c hc with g | g | g
    · exfalso; apply hn j hj; rw [g, f1]; exact hy
    · right; omega
    · left; omega
  generalize hc0 : h.mem (h.seg_lst + class_of b.size * 8) = c0
  have hch := hL.chains _ hi
  rw [hc0] at hch
  have hhead := chain_head h.mem _ _ _ hch
  have hc0mem : c0 ≠ 0 → c0 ∈ Ls (class_of b.size) := by
    intro hz
    rw [hhead] at hz ⊢
    exact headD_mem _ hz
  have hprev : c0 ≠ 0 → h.mem (c0 + 8) = 0 := by
    intro hz
    have hm := hc0mem hz
    cases hLs : Ls (class_of b.size) with
    | nil => rw [hLs] at hm; simp at hm
    | cons x xs =>
      rw [hLs] at hch
      obtain ⟨c1, c2, c3, c4⟩ := hch
      rw [c1]
      exact c3
  have hfar : c0 ≠ 0 → h.seg_lst + class_of b.size * 8 + 32 ≤ c0 ∧
      (c0 + 32 ≤ b.bp ∨ b.bp + 16 ≤ c0) := by
    intro hz
    obtain ⟨q1, q2, q3⟩ := hapart _ hi c0 (hc0mem hz)
    exact ⟨by omega, q3⟩
  obtain ⟨u1, u2, u3, u4⟩ := link_unlink_mem h.mem b.bp (h.seg_lst + class_of b.size * 8) c0
    hc0 hprev (by omega) hfar
  have hins := insert_block_raw h b.bp b.size hx0 k6 hsize
  rw [hc0] at hins
  have hidx : get_list_index (toInt (GET_SIZE ((PUT (link_head h.mem b.bp c0)
      (h.seg_lst + class_of b.size * 8) b.bp) (HDRP b.bp)))) = some (class_of b.size) := by
    have e : HDRP b.bp = b.bp - 8 := rfl
    rw [e, u1, ← e, hsize, toInt_small _ k6]
    exact get_list_index_nat _
  have hdel := delete_block_first { h with mem := (PUT (link_head h.mem b.bp c0)
    (h.seg_lst + class_of b.size * 8) b.bp) } b.bp (class_of b.size) hx0 hidx u2
  simp only [u3] at hdel
  refine ⟨_, _, hins, hdel, ⟨rfl, rfl, rfl, rfl⟩, u4, ?_⟩
  intro j hj
  rw [free_list_eq h bs Ls hl hL j hj]
  unfold free_list seg_at WSIZE
  have hseg : ∀ a, a < h.seg_lst + 144 → a ≠ b.bp ∧ a ≠ b.bp + 8 := by
    intro a ha; omega
  refine list_walk_chain _ (Ls j) h.brk 0 _ ?_ ?_
  · show Chain _ 0 ((if c0 = 0 then _ else _ : Nat → Nat) (h.seg_lst + j * 8)) (Ls j)
    rw [u4 _ (hseg _ (by omega)).1 (hseg _ (by omega)).2]
    apply chain_frame _ _ _ _ _ (hL.chains j hj)
    intro y hy
    obtain ⟨q1, q2, q3⟩ := hapart j hj y hy
    have hyb : y ≠ b.bp := fun e => hn j hj (e ▸ hy)
    exact ⟨u4 y hyb (by omega), u4 (y + 8) (by omega) (by omega)⟩
  · refine list_length_le (Ls j) h.brk (hL.nodup j hj) ?_
    intro y hy
    exact (hapart j hj y hy).2.1

/-- C36: in a state whose heap is tiled by the blocks `bs` and whose free
lists are consistent chains with members `Ls`: for every member `x` of a list
`i`, which is the list `get_list_index` gives for the size in the header of
`x`, `delete_block(x)` succeeds, list `i` is afterwards the list before without
`x`, the other members in their order, its head being the first of them (or
`NULL`), every other list is unchanged, and `x` is in no list, whichever of its
`prev` and `next` links are `NULL`; and for every block of the heap that is in
no list, `delete_block` right after `insert_block` gives back every list as it
was before the insertion. -/
theorem C36_delete_block (h : Heap) (bs : List Block) (Ls : Nat → List Nat)
    (hl : Layout h bs) (hL : Lists h bs Ls) :
    (∀ i < 18, ∀ x ∈ free_list h i,
      get_list_index (toInt (GET_SIZE (h.mem (HDRP x)))) = some i ∧
      ∃ h1, delete_block h x = some h1 ∧
        free_list h1 i = (free_list h i).erase x ∧
        h1.mem (seg_at h1 i) = ((free_list h i).erase x).headD NULL ∧
        (∀ j < 18, j ≠ i → free_list h1 j = free_list h j) ∧
        (∀ j < 18, x ∉ free_list h1 j)) ∧
    (∀ b ∈ blocks h, (∀ j < 18, b.bp ∉ free_list h j) →
      ∃ h1 h2, insert_block h b.bp (b.size : Int) = some h1 ∧
        delete_block h1 b.bp = some h2 ∧ ∀ j < 18, free_list h2 j = free_list h j) := by
  constructor
  · intro i hi x hx
    rw [free_list_eq h bs Ls hl hL i hi] at hx ⊢
    obtain ⟨c, hc, f1, f2, f3, f4, f5, f6, f7⟩ := members_block h bs Ls hl hL i hi x hx
    obtain ⟨k1, k2, k3, k4, k5, k6, k7, k8⟩ := layout_block h bs hl c hc
    have hsize := (layout_size h bs hl c hc).1
    rw [f1] at hsize
    obtain ⟨h1, d1, d2, d3, d4, d5⟩ := delete_block_spec h bs Ls hl hL i hi x hx
    have hfl : ∀ j < 18, free_list h1 j = Function.update Ls i ((Ls i).erase x) j :=
      fun j hj => free_list_eq h1 bs _ d3 d4 j hj
    refine ⟨?_, h1, d1, ?_, ?_, ?_, ?_⟩
    · rw [hsize, toInt_small _ k6, get_list_index_nat, f4]
    · rw [hfl i hi, Function.update_same]
    · have hch := d4.chains i hi
      rw [Function.update_same] at hch
      have := chain_head _ _ _ _ hch
      unfold seg_at WSIZE NULL
      exact this
    · intro j hj hji
      rw [hfl j hj, Function.update_noteq hji, free_list_eq h bs Ls hl hL j hj]
    · intro j hj hxj
      rw [hfl j hj] at hxj
      by_cases hji : j = i
      · subst hji
        rw [Function.update_same] at hxj
        exact (List.Nodup.not_mem_erase (hL.nodup _ hj)) hxj
      · rw [Function.update_noteq hji] at hxj
        exact hji (members_class h bs Ls hl hL j i hj hi x hxj hx)
  · intro b hb hn
    rw [blocks_eq h bs hl] at hb
    have hn2 : ∀ j < 18, b.bp ∉ Ls j := by
      intro j hj
      rw [← free_list_eq h bs Ls hl hL j hj]
      exact hn j hj
    obtain ⟨h1, h2, e1, e2, e3, e4, e5⟩ := insert_delete h bs Ls hl hL b hb hn2
    exact ⟨h1, h2, e1, e2, e5⟩

theorem C36_delete_block_witness :
    Layout heap_small [⟨192, 24, false⟩, ⟨216, 4072, false⟩] ∧
    Lists heap_small [⟨192, 24, false⟩, ⟨216, 4072, false⟩]
      (fun i => if i = 5 then [216] else []) ∧
    ((∀ i < 18, ∀ x ∈ free_list heap_small i,
      get_list_index (toInt (GET_SIZE (heap_small.mem (HDRP x)))) = some i ∧
      ∃ h1, delete_block heap_small x = some h1 ∧
        free_list h1 i = (free_list heap_small i).erase x ∧
        h1.mem (seg_at h1 i) = ((free_list heap_small i).erase x).headD NULL ∧
        (∀ j < 18, j ≠ i → free_list h1 j = free_list heap_small j) ∧
        (∀ j < 18, x ∉ free_list h1 j)) ∧
    (∀ b ∈ blocks heap_small, (∀ j < 18, b.bp ∉ free_list heap_small j) →
      ∃ h1 h2, insert_block heap_small b.bp (b.size : Int) = some h1 ∧
        delete_block h1 b.bp = some h2 ∧ ∀ j < 18, free_list h2 j = free_list heap_small j)) :=
  ⟨heap_small_layout, heap_small_lists,
    C36_delete_block heap_small [⟨192, 24, false⟩, ⟨216, 4072, false⟩]
      (fun i => if i = 5 then [216] else []) heap_small_layout heap_small_lists⟩

/-! ### The tiling of the heap along call sequences -/

/-- The sizes of the blocks of a tiling add up to the span tiled. -/
theorem tiling_total (m : Nat → Nat) :
    ∀ (bs : List Block) (s e : Nat), Tiling m s bs e → s + total_size bs = e := by
  intro bs
  induction bs with
  | nil => intro s e h; simpa [total_size] using h
  | cons b bs ih =>
    intro s e h
    obtain ⟨h1, h2, h3, h4, h5, h6⟩ := h
    have := ih _ _ h6
    unfold total_size at this ⊢
    simp only [List.map_cons, List.sum_cons]
    omega

/-- On a well-formed heap the walk from the prologue by header sizes visits
the blocks of the heap, each of a strictly positive size, and ends at the
break, the last word before it being the epilogue header `PACK(0, 1)`; and the
sizes of the blocks add up to the bytes between the prologue and the break. -/
theorem wf_tiling (h : Heap) (hw : WellFormed h) :
    Walk h.mem h.heap_listp (h.heap_listp :: (blocks h).map Block.bp) h.brk ∧
      (∀ b ∈ blocks h, 0 < b.size) ∧ h.mem (h.brk - WSIZE) = PACK 0 1 ∧
      h.heap_listp + DSIZE + total_size (blocks h) = h.brk := by
  obtain ⟨bs, Ls, hl, hL, hF⟩ := hw
  rw [blocks_eq h bs hl]
  refine ⟨(layout_walk h bs hl).1, ?_, ?_, ?_⟩
  · intro b hb
    have := layout_block h bs hl b hb
    omega
  · exact hl.epi
  · have := tiling_total h.mem bs _ _ hl.til
    rw [hl.hl]
    unfold DSIZE WSIZE
    omega

/-- After a successful `mm_init` and a sequence of calls with valid arguments
in which no `mm_realloc` resizes a block to a size from 1 to `WSIZE`, the
blocks tile the heap from the prologue to the epilogue header. -/
theorem tame_tiling (s : Heap) (cs : List Call) (hf : Fresh s) (hi : (mm_init s).2 = 0)
    (hv : valid_calls (mm_init s).1 cs = true) (ht : ∀ c ∈ cs, tame c = true) :
    ∀ h1 ps, run_calls (mm_init s).1 cs = some (h1, ps) →
      Walk h1.mem h1.heap_listp (h1.heap_listp :: (blocks h1).map Block.bp) h1.brk ∧
        (∀ b ∈ blocks h1, 0 < b.size) ∧ h1.mem (h1.brk - WSIZE) = PACK 0 1 ∧
        h1.heap_listp + DSIZE + total_size (blocks h1) = h1.brk := by
  intro h1 ps e
  exact wf_tiling h1 (run_wf cs _ (init_wf s hf hi) hv ht h1 ps e).1

/-- C38: after `mm_init` and the calls `mm_malloc(40)`, `mm_realloc(192, 1)`,
`mm_malloc(200)`, `mm_malloc(192)`, `mm_free(192)`, all with valid arguments,
the heap holds the blocks of 24, 216, 208 and 3648 bytes, 4096 bytes in all, up
to the break 4288; the word at 200, the footer of the block of 24 bytes that
`mm_realloc` left at 192, holds the `prev` link `NULL` that `insert_block` wrote
there, so that `PREV_BLKP(216)` is 216. The call `mm_free(216)`, valid as well,
requests nothing of the backing store (the break stays 4288), but afterwards
the walk from the prologue finds a block of 24 bytes at 192 and a block of 432
bytes at 216, 456 bytes in all, and ends at 648, inside the heap: the header
word read there, at 640, is the `next` link `NULL` of the free block at 640,
not `PACK(0, 1)`, while the epilogue header is in the last word 4280 of the
heap. The block at 432 is still marked allocated and lies inside the free
block at 216. -/
theorem C38_walk_stops_short :
    WellFormed heap0 ∧
    valid_calls heap0 [Call.malloc 40, Call.realloc 192 1, Call.malloc 200, Call.malloc 192,
      Call.free 192, Call.free 216] = true ∧
    (run_calls heap0 [Call.malloc 40, Call.realloc 192 1, Call.malloc 200, Call.malloc 192,
      Call.free 192]).map
        (fun r => (r.2, blocks r.1, total_size (blocks r.1), r.1.brk)) =
      some ([192, 192, 216, 432, 0],
        [⟨192, 24, false⟩, ⟨216, 216, true⟩, ⟨432, 208, true⟩, ⟨640, 3648, false⟩],
        4096, 4288) ∧
    (run_calls heap0 [Call.malloc 40, Call.realloc 192 1, Call.malloc 200, Call.malloc 192,
      Call.free 192]).map
        (fun r => (r.1.mem 200, PREV_BLKP r.1.mem 216, (List.range 18).map (free_list r.1))) =
      some (NULL, 216,
        [[192], [], [], [], [], [640], [], [], [], [], [], [], [], [], [], [], [], []]) ∧
    (run_calls heap0 [Call.malloc 40, Call.realloc 192 1, Call.malloc 200, Call.malloc 192,
      Call.free 192, Call.free 216]).map
        (fun r => (r.2, blocks r.1, total_size (blocks r.1), r.1.brk)) =
      some ([192, 192, 216, 432, 0, 0],
        [⟨192, 24, false⟩, ⟨216, 432, false⟩], 456, 4288) ∧
    (run_calls heap0 [Call.malloc 40, Call.realloc 192 1, Call.malloc 200, Call.malloc 192,
      Call.free 192, Call.free 216]).map
        (fun r => (NEXT_BLKP r.1.mem 216, r.1.mem (HDRP 648), r.1.mem (r.1.brk - WSIZE),
          r.1.mem (HDRP 432))) =
      some (648, NULL, PACK 0 1, PACK 208 1) :=
  ⟨heap0_wf, by decide!, by decide!, by decide!, by decide!, by decide!⟩

/-! ### The links of the free lists along call sequences -/

/-- In a chain the first member has the given `prev` link, and the `prev` link
of the successor of a member points back to the member. -/
theorem chain_back (m : Nat → Nat) :
    ∀ (L : List Nat) (p c : Nat), Chain m p c L →
      (∀ x, L.head? = some x → m (x + 8) = p) ∧
      ∀ x ∈ L, m x ≠ 0 → m (m x + 8) = x ∧ m x ∈ L := by
  intro L
  induction L with
  | nil =>
    intro p c _
    exact ⟨fun x hx => by simp at hx, fun x hx => by simp at hx⟩
  | cons y ys ih =>
    intro p c h
    obtain ⟨h1, h2, h3, h4⟩ := h
    obtain ⟨i1, i2⟩ := ih y (m y) h4
    constructor
    · intro x hx
      simp only [List.head?_cons, Option.some.injEq] at hx
      rw [← hx]
      exact h3
    · intro x hx hnx
      rcases List.mem_cons.1 hx with e | hx
      · subst e
        cases ys with
        | nil => exact absurd h4 hnx
        | cons z zs =>
          have hz : m x = z := h4.1
          refine ⟨?_, ?_⟩
          · exact i1 (m x) (by rw [hz]; rfl)
          · rw [hz]; simp
      · obtain ⟨j1, j2⟩ := i2 x hx hnx
        exact ⟨j1, List.mem_cons_of_mem _ j2⟩

/-- The free lists of a well-formed heap are consistent chains. -/
theorem wf_links (h : Heap) (hw : WellFormed h) :
    ∀ i < 18,
      Links h.mem (h.mem (seg_at h i)) (free_list h i) ∧ (free_list h i).Nodup ∧
      (∀ x, (free_list h i).head? = some x → prev_of h.mem x = NULL) ∧
      ∀ x ∈ free_list h i, next_of h.mem x ≠ NULL →
        prev_of h.mem (next_of h.mem x) = x ∧ next_of h.mem x ∈ free_list h i := by
  obtain ⟨bs, Ls, hl, hL, hF⟩ := hw
  intro i hi
  rw [free_list_eq h bs Ls hl hL i hi]
  have hch := hL.chains i hi
  obtain ⟨b1, b2⟩ := chain_back h.mem _ _ _ hch
  refine ⟨chain_links h.mem _ _ _ hch, hL.nodup i hi, b1, b2⟩

/-- C39: after a successful `mm_init` on a fresh store and any sequence of
`mm_malloc` and `mm_free` calls (and tame `mm_realloc` calls) with valid
arguments, each of the 18 lists is a chain of `next` links from its head that
ends at `NULL` and repeats no member, the `prev` link of its head is `NULL`,
and for every member with a `next` link other than `NULL`, the `prev` link of
its successor, a member as well, points back to it. The sequence runs to the
end if the adjusted sizes of every call are representable as an `int`. -/
theorem C39_links_consistent (s : Heap) (cs : List Call) (hf : Fresh s)
    (hi : (mm_init s).2 = 0) (hv : valid_calls (mm_init s).1 cs = true)
    (ht : ∀ c ∈ cs, tame c = true) :
    ((∀ c ∈ cs, small c = true) → ∃ r, run_calls (mm_init s).1 cs = some r) ∧
    ∀ h1 ps, run_calls (mm_init s).1 cs = some (h1, ps) →
      ∀ i < 18,
        Links h1.mem (h1.mem (seg_at h1 i)) (free_list h1 i) ∧ (free_list h1 i).Nodup ∧
        (∀ x, (free_list h1 i).head? = some x → prev_of h1.mem x = NULL) ∧
        ∀ x ∈ free_list h1 i, next_of h1.mem x ≠ NULL →
          prev_of h1.mem (next_of h1.mem x) = x ∧ next_of h1.mem x ∈ free_list h1 i := by
  have hw := init_wf s hf hi
  refine ⟨run_total cs _ hw hv ht, ?_⟩
  intro h1 ps e
  exact wf_links h1 (run_wf cs _ hw hv ht h1 ps e).1

theorem C39_links_consistent_witness :
    Fresh store0 ∧ (mm_init store0).2 = 0 ∧
    valid_calls (mm_init store0).1
      [Call.malloc 24, Call.malloc 24, Call.malloc 24, Call.malloc 24, Call.free 192,
        Call.free 272] = true ∧
    (∀ c ∈ [Call.malloc 24, Call.malloc 24, Call.malloc 24, Call.malloc 24, Call.free 192,
        Call.free 272], tame c = true) ∧
    (((∀ c ∈ [Call.malloc 24, Call.malloc 24, Call.malloc 24, Call.malloc 24, Call.free 192,
        Call.free 272], small c = true) →
      ∃ r, run_calls (mm_init store0).1
        [Call.malloc 24, Call.malloc 24, Call.malloc 24, Call.malloc 24, Call.free 192,
          Call.free 272] = some r) ∧
    ∀ h1 ps, run_calls (mm_init store0).1
        [Call.malloc 24, Call.malloc 24, Call.malloc 24, Call.malloc 24, Call.free 192,
          Call.free 272] = some (h1, ps) →
      ∀ i < 18,
        Links h1.mem (h1.mem (seg_at h1 i)) (free_list h1 i) ∧ (free_list h1 i).Nodup ∧
        (∀ x, (free_list h1 i).head? = some x → prev_of h1.mem x = NULL) ∧
        ∀ x ∈ free_list h1 i, next_of h1.mem x ≠ NULL →
          prev_of h1.mem (next_of h1.mem x) = x ∧ next_of h1.mem x ∈ free_list h1 i) :=
  ⟨store0_fresh, by decide!, by decide!, by decide!,
    C39_links_consistent store0
      [Call.malloc 24, Call.malloc 24, Call.malloc 24, Call.malloc 24, Call.free 192,
        Call.free 272] store0_fresh (by decide!) (by decide!) (by decide!)⟩

end Mm
